import Mathlib

/-!
# mystl: vector and list

A shallow embedding of `src/vector.h` and `src/list.h`, and of the byte count
of `src/allocator.h`, together with the properties that are proved about it.

Conventions of the embedding.

* The storage block of a vector is a list of slots, `none` for raw
  (uninitialised) memory and `some x` for a live object of value `x`.  The
  three cursors `begin_`, `end_`, `cap_` are addresses counted in elements;
  the slot addressed by a pointer `p` is slot `p - begin_` of the block.
* `Alloc::allocate` is a template parameter of the vector.  Its outcome is
  an input of every operation that allocates: `alloc n = none` when the
  request for `n` elements throws, `alloc n = some b` when it returns the
  address `b` of a fresh block of `n` raw slots.
* Sizes and capacities are natural numbers.  A block of `n` slots is real
  storage, so `n` stays far below `2^63` and no `size_t` computation of the
  vector wraps.  The product `n * sizeof(T)` in `allocator::allocate` is the
  one computation taken modulo `2 ^ bits` (`allocator.allocate_bytes`), for
  any count `n` that a caller may pass.
* The element type is generic.  What the container code relies on is gathered
  in `Elem`: the default value and the state in which a move leaves its
  source.  Copies are copies of values.
* A loop whose exit test is a pointer inequality (`it != p`) runs on fuel, and
  yields `none` when the fuel is used up with the test still true.  The fuel
  is the size of the memory at hand, which no run that ends can exceed.
* An operation that may throw returns the exception, if any, together with
  the state it leaves behind.
* What is said of two vectors at once (a copy and its source) is proved on a
  second embedding of `vector.h`, in `shared`: a vector is its three cursors,
  and all elements lie in one memory addressed by slot, which every operation
  reads and writes through the cursors it is given.
-/

set_option autoImplicit false

namespace mystl

/-! ## Definitions -/

/-- The two exceptions that leave the library. -/
inductive Exn where
  | out_of_range
  | bad_alloc
deriving DecidableEq, Repr

/-- Behaviour of the element type `T` that the containers rely on:
`dflt` is `value_type()`, `moved x` is the value left in an object of value
`x` after it was moved from, `self_moved x` is the value of an object of value
`x` after the self move assignment `o = move(o)`. -/
structure Elem (T : Type) where
  dflt : T
  moved : T → T
  self_moved : T → T

/-- An element type whose moves are copies, such as `int`. -/
def Elem.trivial {T : Type} (d : T) : Elem T := ⟨d, id, id⟩

/-- A storage block: one entry per slot, `none` for raw memory. -/
abbrev Block (T : Type) := List (Option T)

variable {T : Type}

/-- Reads slot `i`: `*(begin_ + i)`; `none` when the slot is outside the block
or holds no live object. -/
def load (m : Block T) (i : Nat) : Option T := (m[i]?).join

/-- Effect of `mystl::construct(begin_ + i, x)` on the block. -/
def construct (m : Block T) (i : Nat) (x : T) : Block T := m.set i (some x)

/-- Effect of `mystl::destroy(begin_ + i)` on the block. -/
def destroy (m : Block T) (i : Nat) : Block T := m.set i none

/-- Effect of `mystl::construct(begin_ + dst, mystl::move(*(begin_ + src)))`. -/
def construct_move (E : Elem T) (m : Block T) (dst src : Nat) : Block T :=
  (m.set dst (load m src)).set src ((load m src).map E.moved)

/-- Effect of `*(begin_ + dst) = mystl::move(*(begin_ + src))`. -/
def assign_move (E : Elem T) (m : Block T) (dst src : Nat) : Block T :=
  if dst = src then m.set dst ((load m src).map E.self_moved)
  else (m.set dst (load m src)).set src ((load m src).map E.moved)

/-- Element-wise path of `mystl::destroy(first, last)`:
`for (; first != last; ++first) destroy(&*first);`.  For a trivially
destructible `T` the source skips the loop; the lifetime of the objects ends
all the same, which is what a slot set to `none` records. -/
def destroy_range : Nat → Nat → Nat → Block T → Option (Block T)
  | 0, first, last, m => if first != last then none else some m
  | fuel + 1, first, last, m =>
    if first != last then destroy_range fuel (first + 1) last (destroy m first) else some m

/-- The class `mystl::vector<T>`: three cursors and the block they point into. -/
structure vector (T : Type) where
  begin_ : Nat
  end_ : Nat
  cap_ : Nat
  mem : Block T
deriving DecidableEq, Repr

namespace vector

/-- Models `vector()`: all three cursors are `nullptr`. -/
def init : vector T := ⟨0, 0, 0, []⟩

/-- Models `size()`. -/
def size (v : vector T) : Nat := v.end_ - v.begin_

/-- Models `capacity()`. -/
def capacity (v : vector T) : Nat := v.cap_ - v.begin_

/-- Models `empty()`. -/
def empty (v : vector T) : Bool := v.begin_ == v.end_

/-- Dereference of a pointer into the block: `*p`. -/
def deref (v : vector T) (p : Nat) : Option T := load v.mem (p - v.begin_)

/-- Models `operator[](n)`: `*(begin_ + n)`. -/
def index (v : vector T) (n : Nat) : Option T := v.deref (v.begin_ + n)

/-- Models `at(n)`. -/
def at_ (v : vector T) (n : Nat) : Except Exn (Option T) :=
  if n ≥ v.size then .error .out_of_range else .ok (v.deref (v.begin_ + n))

/-- Models `front()`. -/
def front (v : vector T) : Option T := v.deref v.begin_

/-- Models `back()`. -/
def back (v : vector T) : Option T := v.deref (v.end_ - 1)

/-- Models `grow_size()`. -/
def grow_size (v : vector T) : Nat := if v.capacity = 0 then 16 else v.capacity * 2

/-- The loop of `reallocate`:
`for (i = 0; i < old_size; ++i) construct(new_begin + i, move(*(begin_ + i)));`
on the pair (old block, new block). -/
def realloc_loop (E : Elem T) : Nat → Nat → Nat → Block T → Block T → Block T × Block T
  | 0, _, _, old, new => (old, new)
  | fuel + 1, i, old_size, old, new =>
    if i < old_size then
      realloc_loop E fuel (i + 1) old_size (old.set i ((load old i).map E.moved))
        (new.set i (load old i))
    else (old, new)

/-- Models `reallocate(new_cap)`.  The old block is destroyed and deallocated, only
the new one is kept. -/
def reallocate (E : Elem T) (alloc : Nat → Option Nat) (new_cap : Nat) (v : vector T) :
    Except Exn Unit × vector T :=
  let old_size := v.size
  match alloc new_cap with
  | none => (.error .bad_alloc, v)
  | some new_begin =>
    let r := realloc_loop E old_size 0 old_size v.mem (List.replicate new_cap none)
    (.ok (), ⟨new_begin, new_begin + old_size, new_begin + new_cap, r.2⟩)

/-- Models `reserve(n)`. -/
def reserve (E : Elem T) (alloc : Nat → Option Nat) (n : Nat) (v : vector T) :
    Except Exn Unit × vector T :=
  if n ≤ v.capacity then (.ok (), v) else v.reallocate E alloc n

/-- Models `shrink_to_fit()`. -/
def shrink_to_fit (E : Elem T) (alloc : Nat → Option Nat) (v : vector T) :
    Except Exn Unit × vector T :=
  if v.end_ ≠ v.cap_ then v.reallocate E alloc v.size else (.ok (), v)

/-- Models `push_back(value)`, both overloads: they differ in how the new element is
built from the argument, not in what happens to the vector. -/
def push_back (E : Elem T) (alloc : Nat → Option Nat) (value : T) (v : vector T) :
    Except Exn Unit × vector T :=
  match (if v.end_ = v.cap_ then v.reallocate E alloc v.grow_size else (.ok (), v)) with
  | (.error e, v1) => (.error e, v1)
  | (.ok (), v1) =>
    (.ok (), { v1 with mem := construct v1.mem (v1.end_ - v1.begin_) value, end_ := v1.end_ + 1 })

/-- Models `emplace_back(args...)`, where `value` is the object `T(args...)`. -/
def emplace_back (E : Elem T) (alloc : Nat → Option Nat) (value : T) (v : vector T) :
    Except Exn Unit × vector T :=
  match (if v.end_ = v.cap_ then v.reallocate E alloc v.grow_size else (.ok (), v)) with
  | (.error e, v1) => (.error e, v1)
  | (.ok (), v1) =>
    (.ok (), { v1 with mem := construct v1.mem (v1.end_ - v1.begin_) value, end_ := v1.end_ + 1 })

/-- Models `pop_back()`. -/
def pop_back (v : vector T) : vector T :=
  { v with end_ := v.end_ - 1, mem := destroy v.mem (v.end_ - 1 - v.begin_) }

/-- The shifting loop of `insert` and `emplace`, on slot numbers:
`for (it = end_ - 1; it != p; --it) *it = move(*(it - 1));`. -/
def shift_right (E : Elem T) : Nat → Nat → Nat → Block T → Option (Block T)
  | 0, it, p, m => if it != p then none else some m
  | fuel + 1, it, p, m =>
    if it != p then shift_right E fuel (it - 1) p (assign_move E m it (it - 1)) else some m

/-- Models `insert(pos, value)`.  The result is `none` when the shifting loop leaves
the block, otherwise the returned iterator (or the exception) and the vector. -/
def insert (E : Elem T) (alloc : Nat → Option Nat) (pos : Nat) (value : T) (v : vector T) :
    Option (Except Exn Nat × vector T) :=
  let offset := pos - v.begin_
  match (if v.end_ = v.cap_ then v.reallocate E alloc v.grow_size else (.ok (), v)) with
  | (.error e, v1) => some (.error e, v1)
  | (.ok (), v1) =>
    let p := v1.begin_ + offset
    if p != v1.end_ then
      let m1 := construct_move E v1.mem (v1.end_ - v1.begin_) (v1.end_ - 1 - v1.begin_)
      match shift_right E (v1.capacity + 1) (v1.end_ - 1 - v1.begin_) (p - v1.begin_) m1 with
      | none => none
      | some m2 => some (.ok p, { v1 with mem := m2.set (p - v1.begin_) (some value), end_ := v1.end_ + 1 })
    else
      some (.ok p, { v1 with mem := construct v1.mem (v1.end_ - v1.begin_) value, end_ := v1.end_ + 1 })

/-- Models `emplace(pos, args...)`, where `value` is the object `T(args...)`. -/
def emplace (E : Elem T) (alloc : Nat → Option Nat) (pos : Nat) (value : T) (v : vector T) :
    Option (Except Exn Nat × vector T) :=
  let offset := pos - v.begin_
  match (if v.end_ = v.cap_ then v.reallocate E alloc v.grow_size else (.ok (), v)) with
  | (.error e, v1) => some (.error e, v1)
  | (.ok (), v1) =>
    let p := v1.begin_ + offset
    if p != v1.end_ then
      let m1 := construct_move E v1.mem (v1.end_ - v1.begin_) (v1.end_ - 1 - v1.begin_)
      match shift_right E (v1.capacity + 1) (v1.end_ - 1 - v1.begin_) (p - v1.begin_) m1 with
      | none => none
      | some m2 =>
        some (.ok p, { v1 with mem := construct (destroy m2 (p - v1.begin_)) (p - v1.begin_) value,
                               end_ := v1.end_ + 1 })
    else
      some (.ok p, { v1 with mem := construct v1.mem (v1.end_ - v1.begin_) value, end_ := v1.end_ + 1 })

/-- The loop of `erase(pos)`, on slot numbers:
`for (it = p; it + 1 != end_; ++it) *it = move(*(it + 1));`. -/
def erase_shift (E : Elem T) : Nat → Nat → Nat → Block T → Option (Block T)
  | 0, it, e, m => if it + 1 != e then none else some m
  | fuel + 1, it, e, m =>
    if it + 1 != e then erase_shift E fuel (it + 1) e (assign_move E m it (it + 1)) else some m

/-- Models `erase(pos)`: the returned iterator and the vector, `none` when the loop
leaves the block. -/
def erase (E : Elem T) (pos : Nat) (v : vector T) : Option (Nat × vector T) :=
  let p := v.begin_ + (pos - v.begin_)
  match erase_shift E (v.capacity + 1) (p - v.begin_) (v.end_ - v.begin_) v.mem with
  | none => none
  | some m => some (p, { v with end_ := v.end_ - 1, mem := destroy m (v.end_ - 1 - v.begin_) })

/-- The loop of `erase(first, last)`, on slot numbers:
`for (it = l; it != end_; ++it, ++new_end) *new_end = move(*it);`
It yields the final `new_end` and the block. -/
def erase_move (E : Elem T) : Nat → Nat → Nat → Nat → Block T → Option (Nat × Block T)
  | 0, it, new_end, e, m => if it != e then none else some (new_end, m)
  | fuel + 1, it, new_end, e, m =>
    if it != e then erase_move E fuel (it + 1) (new_end + 1) e (assign_move E m new_end it)
    else some (new_end, m)

/-- Models `erase(first, last)`. -/
def erase_range (E : Elem T) (first last : Nat) (v : vector T) : Option (Nat × vector T) :=
  let f := v.begin_ + (first - v.begin_)
  let l := v.begin_ + (last - v.begin_)
  match erase_move E (v.capacity + 1) (l - v.begin_) (f - v.begin_) (v.end_ - v.begin_) v.mem with
  | none => none
  | some (new_end, m1) =>
    match destroy_range (v.capacity + 1) new_end (v.end_ - v.begin_) m1 with
    | none => none
    | some m2 => some (f, { v with end_ := v.begin_ + new_end, mem := m2 })

/-- Models `clear()`. -/
def clear (v : vector T) : Option (vector T) :=
  match destroy_range (v.capacity + 1) 0 (v.end_ - v.begin_) v.mem with
  | none => none
  | some m => some { v with end_ := v.begin_, mem := m }

/-- The growing loop of `resize`:
`while (size() < n) { construct(end_, value); ++end_; }`. -/
def resize_fill : Nat → Nat → T → vector T → vector T
  | 0, _, _, v => v
  | fuel + 1, n, value, v =>
    if v.size < n then
      resize_fill fuel n value
        { v with mem := construct v.mem (v.end_ - v.begin_) value, end_ := v.end_ + 1 }
    else v

/-- Models `resize(n, value)`. -/
def resize (E : Elem T) (alloc : Nat → Option Nat) (n : Nat) (value : T) (v : vector T) :
    Option (Except Exn Unit × vector T) :=
  if n < v.size then
    match v.erase_range E (v.begin_ + n) v.end_ with
    | none => none
    | some (_, v1) => some (.ok (), v1)
  else if n > v.size then
    match v.reserve E alloc n with
    | (.error e, v1) => some (.error e, v1)
    | (.ok (), v1) => some (.ok (), resize_fill n n value v1)
  else some (.ok (), v)

/-- Models `resize(n)`: `resize(n, value_type())`. -/
def resize_default (E : Elem T) (alloc : Nat → Option Nat) (n : Nat) (v : vector T) :
    Option (Except Exn Unit × vector T) :=
  v.resize E alloc n E.dflt

/-- Models `swap(other)`: the pair (this, other) after the call. -/
def swap (v other : vector T) : vector T × vector T :=
  (⟨other.begin_, other.end_, other.cap_, other.mem⟩, ⟨v.begin_, v.end_, v.cap_, v.mem⟩)

/-- Models `fill_init(n, value)` on cursors that are all `nullptr`. -/
def fill_loop : Nat → Nat → Nat → T → vector T → vector T
  | 0, _, _, _, v => v
  | fuel + 1, i, n, value, v =>
    if i < n then
      fill_loop fuel (i + 1) n value
        { v with mem := construct v.mem (v.end_ - v.begin_) value, end_ := v.end_ + 1 }
    else v

/-- Models `vector(n, value)`: the constructor runs `fill_init(n, value)`. -/
def fill_init (alloc : Nat → Option Nat) (n : Nat) (value : T) : Except Exn (vector T) :=
  match alloc n with
  | none => .error .bad_alloc
  | some b => .ok (fill_loop n 0 n value ⟨b, b, b + n, List.replicate n none⟩)

/-- Models `vector(n)`: `fill_init(n, value_type())`. -/
def fill_default (E : Elem T) (alloc : Nat → Option Nat) (n : Nat) : Except Exn (vector T) :=
  fill_init alloc n E.dflt

/-- The loop of `range_init(first, last)`, reading from the block `src` of the
other vector, `first` and `last` being slot numbers of `src`:
`for (; first != last; ++first) { construct(end_, *first); ++end_; }`. -/
def range_loop : Nat → Nat → Nat → Block T → vector T → Option (vector T)
  | 0, first, last, _, v => if first != last then none else some v
  | fuel + 1, first, last, src, v =>
    if first != last then
      range_loop fuel (first + 1) last src
        { v with mem := (v.mem.set (v.end_ - v.begin_) (load src first)), end_ := v.end_ + 1 }
    else some v

/-- Models `vector(const vector& other)`: `range_init(other.begin_, other.end_)`. -/
def copy_ctor (alloc : Nat → Option Nat) (other : vector T) : Option (Except Exn (vector T)) :=
  let n := other.end_ - other.begin_
  match alloc n with
  | none => some (.error .bad_alloc)
  | some b =>
    match range_loop (other.capacity + 1) 0 (other.end_ - other.begin_) other.mem
        ⟨b, b, b + n, List.replicate n none⟩ with
    | none => none
    | some v => some (.ok v)

/-- Models `vector(vector&& other)`: the pair (new vector, other) after the call. -/
def move_ctor (other : vector T) : vector T × vector T :=
  (⟨other.begin_, other.end_, other.cap_, other.mem⟩, ⟨0, 0, 0, []⟩)

/-- Models `operator=(const vector& other)` for `this != &other`: builds `tmp(other)`,
swaps with it, and `tmp` (holding the old contents) is destroyed.  The
result is the exception if any and `*this` after the call. -/
def copy_assign (alloc : Nat → Option Nat) (v other : vector T) :
    Option (Except Exn Unit × vector T) :=
  match copy_ctor alloc other with
  | none => none
  | some (.error e) => some (.error e, v)
  | some (.ok tmp) => some (.ok (), (v.swap tmp).1)

/-- Models `operator=(vector&& other)` for `this != &other`: the pair (this, other)
after the call.  The old storage of `*this` is destroyed and released. -/
def move_assign (_v other : vector T) : vector T × vector T :=
  (⟨other.begin_, other.end_, other.cap_, other.mem⟩, ⟨0, 0, 0, []⟩)

/-- Either assignment operator when `this == &other`: the guard fails and
nothing is executed. -/
def assign_self (v : vector T) : vector T := v

/-- The loop `for (x : xs) v.push_back(x);`, which ends at the first
exception. -/
def push_all (E : Elem T) (alloc : Nat → Option Nat) : List T → vector T →
    Except Exn Unit × vector T
  | [], v => (.ok (), v)
  | x :: xs, v =>
    match v.push_back E alloc x with
    | (.error e, v1) => (.error e, v1)
    | (.ok (), v1) => push_all E alloc xs v1

/-- The observable contents: `[v[0], ..., v[size() - 1]]`. -/
def to_list (v : vector T) : List (Option T) := (List.range v.size).map v.index

/-- Representation invariant of the vector: the cursors are ordered, the block
has `capacity()` slots, and slot `i` holds a live object exactly when
`i < size()`. -/
def Inv (v : vector T) : Prop :=
  v.begin_ ≤ v.end_ ∧ v.end_ ≤ v.cap_ ∧ v.mem.length = v.capacity ∧
  ∀ i, i < v.capacity → ((v.index i).isSome ↔ i < v.size)

/-- The predicate `v.Holds xs`: `v` satisfies the representation invariant and its live
elements have the values `xs`, in index order. -/
def Holds (v : vector T) (xs : List T) : Prop :=
  v.begin_ ≤ v.end_ ∧ v.end_ ≤ v.cap_ ∧ v.size = xs.length ∧
  v.mem = xs.map some ++ List.replicate (v.capacity - xs.length) none

/-- The vectors that can be reached from a constructor by the public
operations, each used within its precondition: `pop_back` on a non-empty
vector, `insert` and `emplace` at a position of `[begin(), end()]`, `erase` at
a position of `[begin(), end())`, `erase(first, last)` on a range with
`begin() ≤ first ≤ last ≤ end()`.  The allocator may fail at any request, and
the vector an operation leaves behind when it throws is reachable too. -/
inductive Reach (E : Elem T) : vector T → Prop
  | init : Reach E init
  | fill_init (alloc : Nat → Option Nat) (n : Nat) (value : T) (v : vector T) :
      fill_init alloc n value = .ok v → Reach E v
  | fill_default (alloc : Nat → Option Nat) (n : Nat) (v : vector T) :
      fill_default E alloc n = .ok v → Reach E v
  | copy_ctor (alloc : Nat → Option Nat) (other v : vector T) :
      Reach E other → copy_ctor alloc other = some (.ok v) → Reach E v
  | move_ctor_target (other : vector T) : Reach E other → Reach E (move_ctor other).1
  | move_ctor_source (other : vector T) : Reach E other → Reach E (move_ctor other).2
  | copy_assign (alloc : Nat → Option Nat) (v other : vector T)
      (r : Except Exn Unit × vector T) :
      Reach E v → Reach E other → copy_assign alloc v other = some r → Reach E r.2
  | move_assign_target (v other : vector T) :
      Reach E v → Reach E other → Reach E (move_assign v other).1
  | move_assign_source (v other : vector T) :
      Reach E v → Reach E other → Reach E (move_assign v other).2
  | assign_self (v : vector T) : Reach E v → Reach E (assign_self v)
  | reserve (alloc : Nat → Option Nat) (n : Nat) (v : vector T) :
      Reach E v → Reach E (v.reserve E alloc n).2
  | resize (alloc : Nat → Option Nat) (n : Nat) (value : T) (v : vector T)
      (r : Except Exn Unit × vector T) :
      Reach E v → v.resize E alloc n value = some r → Reach E r.2
  | shrink_to_fit (alloc : Nat → Option Nat) (v : vector T) :
      Reach E v → Reach E (v.shrink_to_fit E alloc).2
  | push_back (alloc : Nat → Option Nat) (value : T) (v : vector T) :
      Reach E v → Reach E (v.push_back E alloc value).2
  | emplace_back (alloc : Nat → Option Nat) (value : T) (v : vector T) :
      Reach E v → Reach E (v.emplace_back E alloc value).2
  | pop_back (v : vector T) : Reach E v → v.empty = false → Reach E v.pop_back
  | insert (alloc : Nat → Option Nat) (pos : Nat) (value : T) (v : vector T)
      (r : Except Exn Nat × vector T) :
      Reach E v → v.begin_ ≤ pos → pos ≤ v.end_ → v.insert E alloc pos value = some r →
      Reach E r.2
  | emplace (alloc : Nat → Option Nat) (pos : Nat) (value : T) (v : vector T)
      (r : Except Exn Nat × vector T) :
      Reach E v → v.begin_ ≤ pos → pos ≤ v.end_ → v.emplace E alloc pos value = some r →
      Reach E r.2
  | erase (pos : Nat) (v : vector T) (r : Nat × vector T) :
      Reach E v → v.begin_ ≤ pos → pos < v.end_ → v.erase E pos = some r → Reach E r.2
  | erase_range (first last : Nat) (v : vector T) (r : Nat × vector T) :
      Reach E v → v.begin_ ≤ first → first ≤ last → last ≤ v.end_ →
      v.erase_range E first last = some r → Reach E r.2
  | clear (v v1 : vector T) : Reach E v → v.clear = some v1 → Reach E v1
  | swap_this (v other : vector T) : Reach E v → Reach E other → Reach E (v.swap other).1
  | swap_other (v other : vector T) : Reach E v → Reach E other → Reach E (v.swap other).2

end vector

/-! ### The list

The lists live in a memory of cells.  A cell is either a heap node
`list_node<T>` or a `list` object, whose fields are those of its embedded
`sentinel_` and `size_`; the address of a list object is the address of its
sentinel.  Address `0` is `nullptr`.  `::operator new` is a bump allocator:
it hands out the address `brk`, which was never used before, and does not
fail.  A link field read through a pointer to no cell yields `nullptr`, a
write through such a pointer is lost. -/

/-- A memory cell: `node` is a `list_node<T>`, `obj` is a `list` object
(`sentinel_.prev`, `sentinel_.next`, `size_`). -/
inductive Cell (T : Type) where
  | node (prev next : Nat) (data : T)
  | obj (prev next : Nat) (size_ : Nat)
deriving DecidableEq, Repr

namespace Cell

/-- The field `prev` of `list_node_base`. -/
def prev : Cell T → Nat
  | node p _ _ => p
  | obj p _ _ => p

/-- The field `next` of `list_node_base`. -/
def next : Cell T → Nat
  | node _ n _ => n
  | obj _ n _ => n

/-- Assignment to the field `prev`. -/
def set_prev (q : Nat) : Cell T → Cell T
  | node _ n d => node q n d
  | obj _ n s => obj q n s

/-- Assignment to the field `next`. -/
def set_next (q : Nat) : Cell T → Cell T
  | node p _ d => node p q d
  | obj p _ s => obj p q s

/-- Assignment to the field `size_` of a list object. -/
def set_size (k : Nat) : Cell T → Cell T
  | node p n d => node p n d
  | obj p n _ => obj p n k

end Cell

/-- The memory: the live cells and the next address of the allocator. -/
structure Heap (T : Type) where
  cell : Nat → Option (Cell T)
  brk : Nat

namespace Heap

/-- The memory before anything is allocated. -/
def empty : Heap T := ⟨fun _ => none, 1⟩

/-- Reads `p->prev`. -/
def prev (h : Heap T) (p : Nat) : Nat :=
  match h.cell p with
  | some c => c.prev
  | none => 0

/-- Reads `p->next`. -/
def next (h : Heap T) (p : Nat) : Nat :=
  match h.cell p with
  | some c => c.next
  | none => 0

/-- Reads the `data` of the node at `p`, `none` when `p` is not a node. -/
def data (h : Heap T) (p : Nat) : Option T :=
  match h.cell p with
  | some (.node _ _ d) => some d
  | _ => none

/-- Reads the `size_` of the list object at `p`. -/
def size_ (h : Heap T) (p : Nat) : Nat :=
  match h.cell p with
  | some (.obj _ _ s) => s
  | _ => 0

/-- Whether `p` is the address of a live node. -/
def is_node (h : Heap T) (p : Nat) : Bool :=
  match h.cell p with
  | some (.node _ _ _) => true
  | _ => false

/-- Whether `p` is the address of a live list object. -/
def is_obj (h : Heap T) (p : Nat) : Bool :=
  match h.cell p with
  | some (.obj _ _ _) => true
  | _ => false

/-- Replaces the content of the cell at `p`. -/
def write (h : Heap T) (p : Nat) (c : Option (Cell T)) : Heap T :=
  { h with cell := fun a => if a = p then c else h.cell a }

/-- Models `p->prev = q`. -/
def set_prev (h : Heap T) (p q : Nat) : Heap T := h.write p ((h.cell p).map (Cell.set_prev q))

/-- Models `p->next = q`. -/
def set_next (h : Heap T) (p q : Nat) : Heap T := h.write p ((h.cell p).map (Cell.set_next q))

/-- Models `size_ = k` in the list object at `p`. -/
def set_size (h : Heap T) (p k : Nat) : Heap T := h.write p ((h.cell p).map (Cell.set_size k))

/-- Allocation of a new cell with content `c`: the memory and the address. -/
def alloc (h : Heap T) (c : Cell T) : Heap T × Nat :=
  (⟨fun a => if a = h.brk then some c else h.cell a, h.brk + 1⟩, h.brk)

/-- Release of the cell at `p`. -/
def free (h : Heap T) (p : Nat) : Heap T := h.write p none

end Heap

namespace list

/-- Models `list()`: a new list object whose sentinel points to itself, `size_ = 0`.
The result is the memory and the address of the object. -/
def ctor (h : Heap T) : Heap T × Nat := h.alloc (.obj h.brk h.brk 0)

/-- Models `size()`. -/
def size (h : Heap T) (this : Nat) : Nat := h.size_ this

/-- Models `empty()`. -/
def empty (h : Heap T) (this : Nat) : Bool := h.size_ this == 0

/-- Models `begin()`: the iterator `sentinel_.next`. -/
def begin_ (h : Heap T) (this : Nat) : Nat := h.next this

/-- Models `end()`: the iterator `&sentinel_`. -/
def end_ (this : Nat) : Nat := this

/-- Models `front()`: `*begin()`. -/
def front (h : Heap T) (this : Nat) : Option T := h.data (begin_ h this)

/-- Models `back()`: `*(--end())`. -/
def back (h : Heap T) (this : Nat) : Option T := h.data (h.prev (end_ this))

/-- Models `create_node(args...)`, where `value` is the object `T(args...)`; the link
fields of the new node are not initialised. -/
def create_node (h : Heap T) (value : T) : Heap T × Nat := h.alloc (.node 0 0 value)

/-- Models `destroy_node(node)`. -/
def destroy_node (h : Heap T) (node : Nat) : Heap T := h.free node

/-- Models `link_before(pos, new_node)`. -/
def link_before (h : Heap T) (pos new_node : Nat) : Heap T :=
  let h1 := h.set_next new_node pos
  let h2 := h1.set_prev new_node (h1.prev pos)
  let h3 := h2.set_next (h2.prev pos) new_node
  h3.set_prev pos new_node

/-- Models `insert(pos, value)`, both overloads: the memory and the returned
iterator. -/
def insert (h : Heap T) (this pos : Nat) (value : T) : Heap T × Nat :=
  let r := create_node h value
  let h2 := link_before r.1 pos r.2
  (h2.set_size this (h2.size_ this + 1), r.2)

/-- Models `emplace(pos, args...)`, where `value` is the object `T(args...)`. -/
def emplace (h : Heap T) (this pos : Nat) (value : T) : Heap T × Nat :=
  let r := create_node h value
  let h2 := link_before r.1 pos r.2
  (h2.set_size this (h2.size_ this + 1), r.2)

/-- Models `push_back(value)`: `insert(end(), value)`. -/
def push_back (h : Heap T) (this : Nat) (value : T) : Heap T :=
  (insert h this (end_ this) value).1

/-- Models `push_front(value)`: `insert(begin(), value)`. -/
def push_front (h : Heap T) (this : Nat) (value : T) : Heap T :=
  (insert h this (begin_ h this) value).1

/-- Models `emplace_back(args...)`: `emplace(end(), args...)`. -/
def emplace_back (h : Heap T) (this : Nat) (value : T) : Heap T :=
  (emplace h this (end_ this) value).1

/-- Models `emplace_front(args...)`: `emplace(begin(), args...)`. -/
def emplace_front (h : Heap T) (this : Nat) (value : T) : Heap T :=
  (emplace h this (begin_ h this) value).1

/-- Models `erase(pos)`: the memory and the returned iterator. -/
def erase (h : Heap T) (this pos : Nat) : Heap T × Nat :=
  let next_node := h.next pos
  let h1 := h.set_next (h.prev pos) (h.next pos)
  let h2 := h1.set_prev (h1.next pos) (h1.prev pos)
  let h3 := destroy_node h2 pos
  (h3.set_size this (h3.size_ this - 1), next_node)

/-- Models `pop_back()`: `erase(--end())`. -/
def pop_back (h : Heap T) (this : Nat) : Heap T := (erase h this (h.prev (end_ this))).1

/-- Models `pop_front()`: `erase(begin())`. -/
def pop_front (h : Heap T) (this : Nat) : Heap T := (erase h this (begin_ h this)).1

/-- The loop of `erase(first, last)`: `while (first != last) first = erase(first);`. -/
def erase_loop : Nat → Heap T → Nat → Nat → Nat → Option (Heap T)
  | 0, h, _, first, last => if first != last then none else some h
  | fuel + 1, h, this, first, last =>
    if first != last then
      erase_loop fuel (erase h this first).1 this (erase h this first).2 last
    else some h

/-- Models `erase(first, last)`: the memory and the returned iterator, `none` when
the loop does not end. -/
def erase_range (h : Heap T) (this first last : Nat) : Option (Heap T × Nat) :=
  match erase_loop (h.brk + 1) h this first last with
  | none => none
  | some h1 => some (h1, last)

/-- The loop of `clear()`:
`while (cur != &sentinel_) { next = cur->next; destroy_node(cur); cur = next; }`. -/
def clear_loop : Nat → Heap T → Nat → Nat → Option (Heap T)
  | 0, h, this, cur => if cur != this then none else some h
  | fuel + 1, h, this, cur =>
    if cur != this then clear_loop fuel (destroy_node h cur) this (h.next cur) else some h

/-- Models `clear()`, `none` when the loop does not end. -/
def clear (h : Heap T) (this : Nat) : Option (Heap T) :=
  match clear_loop (h.brk + 1) h this (h.next this) with
  | none => none
  | some h1 => some (((h1.set_next this this).set_prev this this).set_size this 0)

/-- Models `swap(other)`. -/
def swap (h : Heap T) (this other : Nat) : Heap T :=
  if empty h this && empty h other then h
  else
    let h6 :=
      if empty h this then
        let h1 := h.set_next this (h.next other)
        let h2 := h1.set_prev this (h1.prev other)
        let h3 := h2.set_prev (h2.next this) this
        let h4 := h3.set_next (h3.prev this) this
        let h5 := h4.set_next other other
        h5.set_prev other other
      else if empty h other then
        let h1 := h.set_next other (h.next this)
        let h2 := h1.set_prev other (h1.prev this)
        let h3 := h2.set_prev (h2.next other) other
        let h4 := h3.set_next (h3.prev other) other
        let h5 := h4.set_next this this
        h5.set_prev this this
      else
        let h1 := (h.set_next this (h.next other)).set_next other (h.next this)
        let h2 := (h1.set_prev this (h1.prev other)).set_prev other (h1.prev this)
        let h3 := h2.set_prev (h2.next this) this
        let h4 := h3.set_next (h3.prev this) this
        let h5 := h4.set_prev (h4.next other) other
        h5.set_next (h5.prev other) other
    (h6.set_size this (h6.size_ other)).set_size other (h6.size_ this)

/-- The block that `list(list&&)` and `operator=(list&&)` share:
`if (!other.empty()) { ... }`. -/
def take_nodes (h : Heap T) (this other : Nat) : Heap T :=
  if !empty h other then
    let h1 := h.set_next this (h.next other)
    let h2 := h1.set_prev this (h1.prev other)
    let h3 := h2.set_prev (h2.next this) this
    let h4 := h3.set_next (h3.prev this) this
    let h5 := h4.set_size this (h4.size_ other)
    let h6 := h5.set_next other other
    let h7 := h6.set_prev other other
    h7.set_size other 0
  else h

/-- Models `list(list&& other)`: the memory and the address of the new object. -/
def move_ctor (h : Heap T) (other : Nat) : Heap T × Nat :=
  ((take_nodes (ctor h).1 (ctor h).2 other), (ctor h).2)

/-- Models `operator=(list&& other)`, `none` when `clear()` does not end. -/
def move_assign (h : Heap T) (this other : Nat) : Option (Heap T) :=
  if this != other then
    match clear h this with
    | none => none
    | some h1 => some (take_nodes h1 this other)
  else some h

/-- The loops of `list(n, value)` and `list(n)`:
`for (i = 0; i < n; ++i) push_back(value);`. -/
def fill_loop : Nat → Heap T → Nat → T → Heap T
  | 0, h, _, _ => h
  | n + 1, h, this, value => fill_loop n (push_back h this value) this value

/-- Models `list(n, value)`: the memory and the address of the new object. -/
def ctor_fill (h : Heap T) (n : Nat) (value : T) : Heap T × Nat :=
  (fill_loop n (ctor h).1 (ctor h).2 value, (ctor h).2)

/-- Models `list(n)`: as `list(n, value)` with `emplace_back()`, which builds
`value_type()`. -/
def ctor_default (E : Elem T) (h : Heap T) (n : Nat) : Heap T × Nat :=
  (fill_loop n (ctor h).1 (ctor h).2 E.dflt, (ctor h).2)

/-- The loop of the copy constructor:
`for (it = other.begin(); it != other.end(); ++it) push_back(*it);`,
`none` when the loop does not end or `it` is dereferenced off a node. -/
def copy_loop : Nat → Heap T → Nat → Nat → Nat → Option (Heap T)
  | 0, h, _, it, e => if it != e then none else some h
  | fuel + 1, h, this, it, e =>
    if it != e then
      match h.data it with
      | none => none
      | some x => copy_loop fuel (push_back h this x) this ((push_back h this x).next it) e
    else some h

/-- Models `list(const list& other)`: the memory and the address of the new object. -/
def copy_ctor (h : Heap T) (other : Nat) : Option (Heap T × Nat) :=
  match copy_loop (h.brk + 1) (ctor h).1 (ctor h).2 (begin_ (ctor h).1 other) (end_ other) with
  | none => none
  | some h1 => some (h1, (ctor h).2)

/-- Models `~list()`: `clear()`, after which the object is gone. -/
def dtor (h : Heap T) (this : Nat) : Option (Heap T) :=
  match clear h this with
  | none => none
  | some h1 => some (h1.free this)

/-- Models `operator=(const list& other)`: `tmp(other)`, `swap(tmp)`, and `tmp` is
destroyed. -/
def copy_assign (h : Heap T) (this other : Nat) : Option (Heap T) :=
  if this != other then
    match copy_ctor h other with
    | none => none
    | some r => dtor (swap r.1 this r.2) r.2
  else some h

/-- Forward walk `it = begin(); it != end(); ++it`: the nodes visited, in
order; `fuel` bounds the number of steps. -/
def walk (h : Heap T) (this : Nat) : Nat → Nat → List Nat
  | 0, _ => []
  | fuel + 1, it => if it != this then it :: walk h this fuel (h.next it) else []

/-- The nodes of the list at `this`, found by walking from `begin()`. -/
def nodes (h : Heap T) (this : Nat) : List Nat := walk h this h.brk (begin_ h this)

/-- The element sequence of the list at `this`. -/
def to_list (h : Heap T) (this : Nat) : List (Option T) := (nodes h this).map h.data

end list

/-- The predicate `links h l`: along `l`, the `next` of every element is the element after
it, and the `prev` of every element is the element before it. -/
def links (h : Heap T) : List Nat → Prop
  | a :: b :: l => h.next a = b ∧ h.prev b = a ∧ links h (b :: l)
  | _ => True

namespace list

/-- The predicate `Chain h this c`: `this` is a list object whose nodes are, in order, the
pairwise distinct nodes `c`, and the cycle `this, c, this` is doubly linked. -/
def Chain (h : Heap T) (this : Nat) (c : List Nat) : Prop :=
  h.is_obj this = true ∧ (∀ a ∈ c, h.is_node a = true) ∧ c.Nodup ∧
    links h (this :: c ++ [this])

/-- Representation invariant of the list object at `this`: it has a chain of
nodes, and `size_` is the number of these nodes. -/
def WF (h : Heap T) (this : Nat) : Prop :=
  ∃ c, Chain h this c ∧ size h this = c.length

/-- Invariant of the memory: no cell lies at or beyond `brk`, and every list
object is well formed. -/
def Inv (h : Heap T) : Prop :=
  (∀ a, h.brk ≤ a → h.cell a = none) ∧ ∀ s, h.is_obj s = true → WF h s

/-- Models `pos` is an iterator into the list at `this`: `end()` or one of its
nodes. -/
def is_iter (h : Heap T) (this pos : Nat) : Prop := pos = this ∨ pos ∈ nodes h this

/-- The six link assignments that `swap` runs when exactly one side is empty,
`t` being the empty side and `o` the other one (proof device: `swap` itself
spells them out). -/
def relink (h : Heap T) (t o : Nat) : Heap T :=
  let h1 := h.set_next t (h.next o)
  let h2 := h1.set_prev t (h1.prev o)
  let h3 := h2.set_prev (h2.next t) t
  let h4 := h3.set_next (h3.prev t) t
  let h5 := h4.set_next o o
  h5.set_prev o o

/-- The six assignments that `swap` runs when both sides are non-empty (proof
device: `swap` itself spells them out). -/
def cross (h : Heap T) (this other : Nat) : Heap T :=
  let h1 := (h.set_next this (h.next other)).set_next other (h.next this)
  let h2 := (h1.set_prev this (h1.prev other)).set_prev other (h1.prev this)
  let h3 := h2.set_prev (h2.next this) this
  let h4 := h3.set_next (h3.prev this) this
  let h5 := h4.set_prev (h4.next other) other
  h5.set_next (h5.prev other) other

/-- The pair `[first, last)` is a range of iterators of the list at `this`: the nodes
of the list are `pre ++ mid ++ post`, `first` is at the head of `mid ++ post`
and `last` at the head of `post`, where the head of nothing is `end()`. -/
def is_range (h : Heap T) (this first last : Nat) : Prop :=
  ∃ pre mid post, nodes h this = pre ++ mid ++ post ∧
    (mid ++ post ++ [this]).head? = some first ∧ (post ++ [this]).head? = some last

end list

namespace list

/-- The memories that can be reached from the empty memory by constructing
lists and applying the public operations to live list objects, each within
its precondition: `pop_back` and `pop_front` on a non-empty list, `insert`
and `emplace` at an iterator of the list, `erase` at a node of the list,
`erase(first, last)` on a range of the list. -/
inductive Reach (E : Elem T) : Heap T → Prop
  | empty : Reach E Heap.empty
  | ctor (h : Heap T) : Reach E h → Reach E (ctor h).1
  | ctor_fill (h : Heap T) (n : Nat) (value : T) : Reach E h → Reach E (ctor_fill h n value).1
  | ctor_default (h : Heap T) (n : Nat) : Reach E h → Reach E (ctor_default E h n).1
  | copy_ctor (h : Heap T) (other : Nat) (r : Heap T × Nat) :
      Reach E h → h.is_obj other = true → copy_ctor h other = some r → Reach E r.1
  | move_ctor (h : Heap T) (other : Nat) :
      Reach E h → h.is_obj other = true → Reach E (move_ctor h other).1
  | dtor (h : Heap T) (this : Nat) (h1 : Heap T) :
      Reach E h → h.is_obj this = true → dtor h this = some h1 → Reach E h1
  | copy_assign (h : Heap T) (this other : Nat) (h1 : Heap T) :
      Reach E h → h.is_obj this = true → h.is_obj other = true →
      copy_assign h this other = some h1 → Reach E h1
  | move_assign (h : Heap T) (this other : Nat) (h1 : Heap T) :
      Reach E h → h.is_obj this = true → h.is_obj other = true →
      move_assign h this other = some h1 → Reach E h1
  | push_back (h : Heap T) (this : Nat) (value : T) :
      Reach E h → h.is_obj this = true → Reach E (push_back h this value)
  | push_front (h : Heap T) (this : Nat) (value : T) :
      Reach E h → h.is_obj this = true → Reach E (push_front h this value)
  | emplace_back (h : Heap T) (this : Nat) (value : T) :
      Reach E h → h.is_obj this = true → Reach E (emplace_back h this value)
  | emplace_front (h : Heap T) (this : Nat) (value : T) :
      Reach E h → h.is_obj this = true → Reach E (emplace_front h this value)
  | pop_back (h : Heap T) (this : Nat) :
      Reach E h → h.is_obj this = true → empty h this = false → Reach E (pop_back h this)
  | pop_front (h : Heap T) (this : Nat) :
      Reach E h → h.is_obj this = true → empty h this = false → Reach E (pop_front h this)
  | insert (h : Heap T) (this pos : Nat) (value : T) :
      Reach E h → h.is_obj this = true → is_iter h this pos →
      Reach E (insert h this pos value).1
  | emplace (h : Heap T) (this pos : Nat) (value : T) :
      Reach E h → h.is_obj this = true → is_iter h this pos →
      Reach E (emplace h this pos value).1
  | erase (h : Heap T) (this pos : Nat) :
      Reach E h → h.is_obj this = true → pos ∈ nodes h this → Reach E (erase h this pos).1
  | erase_range (h : Heap T) (this first last : Nat) (r : Heap T × Nat) :
      Reach E h → h.is_obj this = true → is_range h this first last →
      erase_range h this first last = some r → Reach E r.1
  | clear (h : Heap T) (this : Nat) (h1 : Heap T) :
      Reach E h → h.is_obj this = true → clear h this = some h1 → Reach E h1
  | swap (h : Heap T) (this other : Nat) :
      Reach E h → h.is_obj this = true → h.is_obj other = true →
      Reach E (swap h this other)

end list

/-! ### Further definitions: element behaviour, guards, allocator, list iteration -/

/-- An element type whose move assignment leaves the source empty, also when the
source is the target itself: `x = move(x)` empties `x`.  The string classes
of the common standard libraries behave so. -/
def Elem.clearing : Elem String := ⟨"", fun _ => "", fun _ => ""⟩

namespace vector

/-- Models `operator=(vector&& other)` with its guard `this != &other`, the two
objects being given with their addresses `pa` and `pb`: the pair (this, other)
after the call. -/
def move_assign_at (pa pb : Nat) (v other : vector T) : vector T × vector T :=
  if pa != pb then move_assign v other else (assign_self v, assign_self other)

/-- Models the assignment `v[n] = x` through the reference that `operator[]`
returns, `none` when slot `n` holds no object. -/
def set_index (v : vector T) (n : Nat) (x : T) : Option (vector T) :=
  if (v.index n).isSome then some { v with mem := v.mem.set n (some x) } else none

end vector

namespace allocator

/-- Models the argument of `::operator new` in `allocate(n)`: the product
`n * sizeof(T)` of two `size_t`, which is computed modulo `2 ^ bits`, `bits`
being the width of `size_t`. -/
def allocate_bytes (bits sizeof_T n : Nat) : Nat := (n * sizeof_T) % 2 ^ bits

end allocator

namespace list

/-- The loop `for (x : xs) l.push_back(x);`. -/
def push_all (h : Heap T) (this : Nat) : List T → Heap T
  | [] => h
  | x :: xs => push_all (push_back h this x) this xs

/-- Backward iteration: `k` times `--it; visit(*it);`, where `--it` is
`node = node->prev`.  The result is the nodes visited, in the order of the
visits, and the iterator at the end. -/
def walk_back (h : Heap T) : Nat → Nat → List Nat × Nat
  | 0, it => ([], it)
  | k + 1, it => ((h.prev it) :: (walk_back h k (h.prev it)).1, (walk_back h k (h.prev it)).2)

end list

namespace vector

/-- The number of calls of `reallocate` that the loop `for (x : xs) v.push_back(x);`
makes: `push_back` calls it when it finds `end_ == cap_`. -/
def push_all_reallocs (E : Elem T) (alloc : Nat → Option Nat) : List T → vector T → Nat
  | [], _ => 0
  | x :: xs, v =>
    (if v.end_ = v.cap_ then 1 else 0) +
      (match v.push_back E alloc x with
       | (.error _, _) => 0
       | (.ok (), v1) => push_all_reallocs E alloc xs v1)

end vector

namespace list

/-- The nodes that the loop of `clear()` passes to `destroy_node`, in the order
of the calls. -/
def clear_trace : Nat → Heap T → Nat → Nat → List Nat
  | 0, _, _, _ => []
  | fuel + 1, h, this, cur =>
    if cur != this then cur :: clear_trace fuel (destroy_node h cur) this (h.next cur) else []

end list

/-! ### The vectors side by side in one memory

A second embedding of `vector.h`, for what is said of two vectors at once.
Here a vector object is its three cursors and nothing else, and the elements
of all vectors lie in one memory that is addressed by slot, so that two
vectors can point into the same storage. -/

/-- The memory that the vectors share, by slot address: `none` where no storage
is allocated, `some none` for a raw slot of an allocated block,
`some (some x)` for a live object of value `x`. -/
abbrev Memory (T : Type) := Nat → Option (Option T)

namespace Memory

/-- Reads `*p`: the object at slot `p`, if there is one. -/
def load (m : Memory T) (p : Nat) : Option T := (m p).join

/-- Replaces the content of slot `p`. -/
def store (m : Memory T) (p : Nat) (s : Option (Option T)) : Memory T :=
  fun q => if q = p then s else m q

/-- Models `construct(p, x)`. -/
def construct (m : Memory T) (p : Nat) (x : T) : Memory T := store m p (some (some x))

/-- Models `destroy(p)`: the slot is raw storage again. -/
def destroy (m : Memory T) (p : Nat) : Memory T := store m p (some none)

/-- The storage effect of `Alloc::allocate(n)` when it returns the address `b`: the
slots `b .. b + n - 1` are raw storage. -/
def allocate (m : Memory T) (b n : Nat) : Memory T :=
  fun q => if b ≤ q ∧ q < b + n then some none else m q

/-- Models `Alloc::deallocate(b, n)` for the block of `n` slots allocated at `b`. -/
def deallocate (m : Memory T) (b n : Nat) : Memory T :=
  fun q => if b ≤ q ∧ q < b + n then none else m q

/-- Models `construct(dst, move(*src))`. -/
def construct_move (E : Elem T) (m : Memory T) (dst src : Nat) : Memory T :=
  store (store m dst (some (load m src))) src (some ((load m src).map E.moved))

/-- Models `*dst = move(*src)`. -/
def assign_move (E : Elem T) (m : Memory T) (dst src : Nat) : Memory T :=
  if dst = src then store m dst (some ((load m src).map E.self_moved))
  else store (store m dst (some (load m src))) src (some ((load m src).map E.moved))

/-- Models `destroy(first, last)`:
`for (; first != last; ++first) destroy(&*first);`. -/
def destroy_range : Nat → Nat → Nat → Memory T → Option (Memory T)
  | 0, first, last, m => if first != last then none else some m
  | fuel + 1, first, last, m =>
    if first != last then destroy_range fuel (first + 1) last (destroy m first) else some m

end Memory

namespace shared

/-- The class `mystl::vector<T>` as an object beside the shared memory: its three
cursors, which are slot addresses; `nullptr` is the address 0. -/
structure vector where
  begin_ : Nat
  end_ : Nat
  cap_ : Nat
deriving DecidableEq, Repr

namespace vector

/-- Models `size()`. -/
def size (v : vector) : Nat := v.end_ - v.begin_

/-- Models `capacity()`. -/
def capacity (v : vector) : Nat := v.cap_ - v.begin_

/-- Models reading `v[n]`: `*(begin_ + n)`. -/
def index (m : Memory T) (v : vector) (n : Nat) : Option T := Memory.load m (v.begin_ + n)

/-- The observable contents: `[v[0], ..., v[size() - 1]]`. -/
def to_list (m : Memory T) (v : vector) : List (Option T) :=
  (List.range v.size).map (index m v)

/-- Models `grow_size()`. -/
def grow_size (v : vector) : Nat := if v.capacity = 0 then 16 else v.capacity * 2

/-- Models the assignment `v[n] = x`: `*(begin_ + n) = x`. -/
def set_index (m : Memory T) (v : vector) (n : Nat) (x : T) : Memory T :=
  Memory.store m (v.begin_ + n) (some (some x))

/-- The loop of `range_init(first, last)`, `first` and `last` being slot addresses:
`for (; first != last; ++first) { construct(end_, *first); ++end_; }`. -/
def range_loop : Nat → Nat → Nat → Memory T → vector → Option (Memory T × vector)
  | 0, first, last, m, v => if first != last then none else some (m, v)
  | fuel + 1, first, last, m, v =>
    if first != last then
      range_loop fuel (first + 1) last (Memory.store m v.end_ (some (Memory.load m first)))
        { v with end_ := v.end_ + 1 }
    else some (m, v)

/-- Models `vector(const vector& other)`: `range_init(other.begin_, other.end_)`, which
allocates `n = last - first` slots and sets `begin_`, `cap_ = begin_ + n`,
`end_ = begin_` before its loop. -/
def copy_ctor (alloc : Nat → Option Nat) (m : Memory T) (other : vector) :
    Option (Except Exn (Memory T × vector)) :=
  match alloc (other.end_ - other.begin_) with
  | none => some (.error .bad_alloc)
  | some b =>
    match range_loop (other.end_ - other.begin_ + 1) other.begin_ other.end_
        (Memory.allocate m b (other.end_ - other.begin_))
        ⟨b, b, b + (other.end_ - other.begin_)⟩ with
    | none => none
    | some r => some (.ok r)

/-- Models `destroy_and_deallocate()`. -/
def destroy_and_deallocate (m : Memory T) (v : vector) : Option (Memory T) :=
  if v.begin_ != 0 then
    match Memory.destroy_range (v.capacity + 1) v.begin_ v.end_ m with
    | none => none
    | some m1 => some (Memory.deallocate m1 v.begin_ v.capacity)
  else some m

/-- Models `operator=(const vector& other)` for `this != &other`: `tmp(other)`, then
`swap(tmp)`, after which `*this` has the cursors of the copy and `tmp` those
that `*this` had, then `tmp` is destroyed. -/
def copy_assign (alloc : Nat → Option Nat) (m : Memory T) (v other : vector) :
    Option (Except Exn Unit × Memory T × vector) :=
  match copy_ctor alloc m other with
  | none => none
  | some (.error e) => some (.error e, m, v)
  | some (.ok (m1, tmp)) =>
    match destroy_and_deallocate m1 v with
    | none => none
    | some m2 => some (.ok (), m2, tmp)

/-- The loop of `reallocate`:
`for (i = 0; i < old_size; ++i) construct(new_begin + i, move(*(begin_ + i)));`. -/
def realloc_loop (E : Elem T) : Nat → Nat → Nat → Nat → Nat → Memory T → Memory T
  | 0, _, _, _, _, m => m
  | fuel + 1, i, old_size, old_begin, new_begin, m =>
    if i < old_size then
      realloc_loop E fuel (i + 1) old_size old_begin new_begin
        (Memory.construct_move E m (new_begin + i) (old_begin + i))
    else m

/-- Models `reallocate(new_cap)`. -/
def reallocate (E : Elem T) (alloc : Nat → Option Nat) (new_cap : Nat) (m : Memory T)
    (v : vector) : Option (Except Exn Unit × Memory T × vector) :=
  match alloc new_cap with
  | none => some (.error .bad_alloc, m, v)
  | some new_begin =>
    match destroy_and_deallocate
        (realloc_loop E v.size 0 v.size v.begin_ new_begin (Memory.allocate m new_begin new_cap))
        v with
    | none => none
    | some m2 => some (.ok (), m2, ⟨new_begin, new_begin + v.size, new_begin + new_cap⟩)

/-- Models `reserve(n)`. -/
def reserve (E : Elem T) (alloc : Nat → Option Nat) (n : Nat) (m : Memory T) (v : vector) :
    Option (Except Exn Unit × Memory T × vector) :=
  if n ≤ v.capacity then some (.ok (), m, v) else reallocate E alloc n m v

/-- Models `shrink_to_fit()`. -/
def shrink_to_fit (E : Elem T) (alloc : Nat → Option Nat) (m : Memory T) (v : vector) :
    Option (Except Exn Unit × Memory T × vector) :=
  if v.end_ ≠ v.cap_ then reallocate E alloc v.size m v else some (.ok (), m, v)

/-- Models `push_back(value)`, both overloads, and `emplace_back(args...)` with
`value` the object `T(args...)`. -/
def push_back (E : Elem T) (alloc : Nat → Option Nat) (value : T) (m : Memory T)
    (v : vector) : Option (Except Exn Unit × Memory T × vector) :=
  match (if v.end_ = v.cap_ then reallocate E alloc v.grow_size m v else some (.ok (), m, v)) with
  | none => none
  | some (.error e, m1, v1) => some (.error e, m1, v1)
  | some (.ok (), m1, v1) =>
    some (.ok (), Memory.construct m1 v1.end_ value, { v1 with end_ := v1.end_ + 1 })

/-- Models `pop_back()`. -/
def pop_back (m : Memory T) (v : vector) : Memory T × vector :=
  (Memory.destroy m (v.end_ - 1), { v with end_ := v.end_ - 1 })

/-- The loop of `erase(pos)`, on slot addresses:
`for (it = p; it + 1 != end_; ++it) *it = move(*(it + 1));`. -/
def erase_shift (E : Elem T) : Nat → Nat → Nat → Memory T → Option (Memory T)
  | 0, it, e, m => if it + 1 != e then none else some m
  | fuel + 1, it, e, m =>
    if it + 1 != e then erase_shift E fuel (it + 1) e (Memory.assign_move E m it (it + 1))
    else some m

/-- Models `erase(pos)`: the returned iterator, the memory and the vector. -/
def erase (E : Elem T) (pos : Nat) (m : Memory T) (v : vector) :
    Option (Nat × Memory T × vector) :=
  match erase_shift E (v.capacity + 1) (v.begin_ + (pos - v.begin_)) v.end_ m with
  | none => none
  | some m1 =>
    some (v.begin_ + (pos - v.begin_), Memory.destroy m1 (v.end_ - 1),
      { v with end_ := v.end_ - 1 })

/-- The loop of `erase(first, last)`, on slot addresses:
`for (it = l; it != end_; ++it, ++new_end) *new_end = move(*it);`. -/
def erase_move (E : Elem T) : Nat → Nat → Nat → Nat → Memory T → Option (Nat × Memory T)
  | 0, it, new_end, e, m => if it != e then none else some (new_end, m)
  | fuel + 1, it, new_end, e, m =>
    if it != e then
      erase_move E fuel (it + 1) (new_end + 1) e (Memory.assign_move E m new_end it)
    else some (new_end, m)

/-- Models `erase(first, last)`. -/
def erase_range (E : Elem T) (first last : Nat) (m : Memory T) (v : vector) :
    Option (Nat × Memory T × vector) :=
  match erase_move E (v.capacity + 1) (v.begin_ + (last - v.begin_))
      (v.begin_ + (first - v.begin_)) v.end_ m with
  | none => none
  | some (new_end, m1) =>
    match Memory.destroy_range (v.capacity + 1) new_end v.end_ m1 with
    | none => none
    | some m2 => some (v.begin_ + (first - v.begin_), m2, { v with end_ := new_end })

/-- Models `clear()`. -/
def clear (m : Memory T) (v : vector) : Option (Memory T × vector) :=
  match Memory.destroy_range (v.capacity + 1) v.begin_ v.end_ m with
  | none => none
  | some m1 => some (m1, { v with end_ := v.begin_ })

/-- The shifting loop of `insert` and `emplace`, on slot addresses:
`for (it = end_ - 1; it != p; --it) *it = move(*(it - 1));`. -/
def shift_right (E : Elem T) : Nat → Nat → Nat → Memory T → Option (Memory T)
  | 0, it, p, m => if it != p then none else some m
  | fuel + 1, it, p, m =>
    if it != p then shift_right E fuel (it - 1) p (Memory.assign_move E m it (it - 1))
    else some m

/-- Models `insert(pos, value)`: the exception or the returned iterator, the memory
and the vector. -/
def insert (E : Elem T) (alloc : Nat → Option Nat) (pos : Nat) (value : T) (m : Memory T)
    (v : vector) : Option (Except Exn Nat × Memory T × vector) :=
  match (if v.end_ = v.cap_ then reallocate E alloc v.grow_size m v else some (.ok (), m, v)) with
  | none => none
  | some (.error e, m1, v1) => some (.error e, m1, v1)
  | some (.ok (), m1, v1) =>
    if v1.begin_ + (pos - v.begin_) != v1.end_ then
      match shift_right E (v1.capacity + 1) (v1.end_ - 1) (v1.begin_ + (pos - v.begin_))
          (Memory.construct_move E m1 v1.end_ (v1.end_ - 1)) with
      | none => none
      | some m3 =>
        some (.ok (v1.begin_ + (pos - v.begin_)),
          Memory.store m3 (v1.begin_ + (pos - v.begin_)) (some (some value)),
          { v1 with end_ := v1.end_ + 1 })
    else
      some (.ok (v1.begin_ + (pos - v.begin_)), Memory.construct m1 v1.end_ value,
        { v1 with end_ := v1.end_ + 1 })

/-- Models `emplace(pos, args...)`, where `value` is the object `T(args...)`. -/
def emplace (E : Elem T) (alloc : Nat → Option Nat) (pos : Nat) (value : T) (m : Memory T)
    (v : vector) : Option (Except Exn Nat × Memory T × vector) :=
  match (if v.end_ = v.cap_ then reallocate E alloc v.grow_size m v else some (.ok (), m, v)) with
  | none => none
  | some (.error e, m1, v1) => some (.error e, m1, v1)
  | some (.ok (), m1, v1) =>
    if v1.begin_ + (pos - v.begin_) != v1.end_ then
      match shift_right E (v1.capacity + 1) (v1.end_ - 1) (v1.begin_ + (pos - v.begin_))
          (Memory.construct_move E m1 v1.end_ (v1.end_ - 1)) with
      | none => none
      | some m3 =>
        some (.ok (v1.begin_ + (pos - v.begin_)),
          Memory.construct (Memory.destroy m3 (v1.begin_ + (pos - v.begin_)))
            (v1.begin_ + (pos - v.begin_)) value,
          { v1 with end_ := v1.end_ + 1 })
    else
      some (.ok (v1.begin_ + (pos - v.begin_)), Memory.construct m1 v1.end_ value,
        { v1 with end_ := v1.end_ + 1 })

/-- The growing loop of `resize`:
`while (size() < n) { construct(end_, value); ++end_; }`. -/
def resize_fill : Nat → Nat → T → Memory T → vector → Memory T × vector
  | 0, _, _, m, v => (m, v)
  | fuel + 1, n, value, m, v =>
    if v.size < n then
      resize_fill fuel n value (Memory.construct m v.end_ value) { v with end_ := v.end_ + 1 }
    else (m, v)

/-- Models `resize(n, value)`. -/
def resize (E : Elem T) (alloc : Nat → Option Nat) (n : Nat) (value : T) (m : Memory T)
    (v : vector) : Option (Except Exn Unit × Memory T × vector) :=
  if n < v.size then
    match erase_range E (v.begin_ + n) v.end_ m v with
    | none => none
    | some (_, m1, v1) => some (.ok (), m1, v1)
  else if n > v.size then
    match reserve E alloc n m v with
    | none => none
    | some (.error e, m1, v1) => some (.error e, m1, v1)
    | some (.ok (), m1, v1) =>
      some (.ok (), (resize_fill n n value m1 v1).1, (resize_fill n n value m1 v1).2)
  else some (.ok (), m, v)

/-- The vector `v` owns its block in the memory `m`: the cursors are ordered and every
slot from `begin_` up to `cap_` is allocated storage. -/
def Owns (m : Memory T) (v : vector) : Prop :=
  v.begin_ ≤ v.end_ ∧ v.end_ ≤ v.cap_ ∧ ∀ q, v.begin_ ≤ q → q < v.cap_ → (m q).isSome = true

/-- The `n` slots from `b` on are not in use: the allocator may hand them out. -/
def Free (m : Memory T) (b n : Nat) : Prop := ∀ q, b ≤ q → q < b + n → m q = none

/-- The blocks of `a` and `b` have no slot in common. -/
def Apart (a b : vector) : Prop :=
  ∀ q, a.begin_ ≤ q → q < a.cap_ → ¬ (b.begin_ ≤ q ∧ q < b.cap_)

/-- A step from the memory `m` to the memory `m1`, after which the other vector has
the cursors `b1`, leaves `a` undisturbed: no slot of the block of `a` has
changed, and the other vector owns a block apart from it. -/
def Undisturbed (a : vector) (m m1 : Memory T) (b1 : vector) : Prop :=
  (∀ q, a.begin_ ≤ q → q < a.cap_ → m1 q = m q) ∧ Owns m1 b1 ∧ Apart a b1

end vector

/-- The states (memory, cursors of `b`) that the vector `b` can reach from a given
one by its own mutating operations, each used within its precondition: an
index below `size()` for `b[n] = x`, a non-empty vector for `pop_back`, a
position in the vector for `insert`, `emplace` and `erase`, a range of the
vector for `erase(first, last)`.  An allocator hands out storage that is not
in use. -/
inductive Later (E : Elem T) : Memory T × vector → Memory T × vector → Prop
  | refl (s : Memory T × vector) : Later E s s
  | set_index (s s1 : Memory T × vector) (n : Nat) (x : T) :
      Later E s s1 → n < s1.2.size → Later E s (s1.2.set_index s1.1 n x, s1.2)
  | push_back (s s1 : Memory T × vector) (alloc : Nat → Option Nat) (x : T)
      (r : Except Exn Unit × Memory T × vector) :
      Later E s s1 → (∀ n b, alloc n = some b → vector.Free s1.1 b n) →
      s1.2.push_back E alloc x s1.1 = some r → Later E s r.2
  | pop_back (s s1 : Memory T × vector) :
      Later E s s1 → s1.2.begin_ < s1.2.end_ → Later E s (s1.2.pop_back s1.1)
  | insert (s s1 : Memory T × vector) (alloc : Nat → Option Nat) (pos : Nat) (x : T)
      (r : Except Exn Nat × Memory T × vector) :
      Later E s s1 → (∀ n b, alloc n = some b → vector.Free s1.1 b n) →
      s1.2.begin_ ≤ pos → pos ≤ s1.2.end_ →
      s1.2.insert E alloc pos x s1.1 = some r → Later E s r.2
  | emplace (s s1 : Memory T × vector) (alloc : Nat → Option Nat) (pos : Nat) (x : T)
      (r : Except Exn Nat × Memory T × vector) :
      Later E s s1 → (∀ n b, alloc n = some b → vector.Free s1.1 b n) →
      s1.2.begin_ ≤ pos → pos ≤ s1.2.end_ →
      s1.2.emplace E alloc pos x s1.1 = some r → Later E s r.2
  | erase (s s1 : Memory T × vector) (pos : Nat) (r : Nat × Memory T × vector) :
      Later E s s1 → s1.2.begin_ ≤ pos → pos < s1.2.end_ →
      s1.2.erase E pos s1.1 = some r → Later E s r.2
  | erase_range (s s1 : Memory T × vector) (first last : Nat)
      (r : Nat × Memory T × vector) :
      Later E s s1 → s1.2.begin_ ≤ first → first ≤ last → last ≤ s1.2.end_ →
      s1.2.erase_range E first last s1.1 = some r → Later E s r.2
  | clear (s s1 r : Memory T × vector) :
      Later E s s1 → s1.2.clear s1.1 = some r → Later E s r
  | reserve (s s1 : Memory T × vector) (alloc : Nat → Option Nat) (n : Nat)
      (r : Except Exn Unit × Memory T × vector) :
      Later E s s1 → (∀ n b, alloc n = some b → vector.Free s1.1 b n) →
      s1.2.reserve E alloc n s1.1 = some r → Later E s r.2
  | shrink_to_fit (s s1 : Memory T × vector) (alloc : Nat → Option Nat)
      (r : Except Exn Unit × Memory T × vector) :
      Later E s s1 → (∀ n b, alloc n = some b → vector.Free s1.1 b n) →
      s1.2.shrink_to_fit E alloc s1.1 = some r → Later E s r.2
  | resize (s s1 : Memory T × vector) (alloc : Nat → Option Nat) (n : Nat) (x : T)
      (r : Except Exn Unit × Memory T × vector) :
      Later E s s1 → (∀ n b, alloc n = some b → vector.Free s1.1 b n) →
      s1.2.resize E alloc n x s1.1 = some r → Later E s r.2

/-- The memory of the test `CopyConstruct` before `vector<int> b(a)`: the block of
`a(3, 7)` is in the slots 100, 101 and 102, and no other slot is in use. -/
def copy_construct_memory : Memory Nat :=
  fun q => if 100 ≤ q ∧ q < 103 then some (some 7) else none

end shared

/-! ## Theorems about the vector -/

theorem load_set (m : Block T) (i j : Nat) (a : Option T) :
    load (m.set i a) j = if i = j then (if i < m.length then a else none) else load m j := by
  unfold load
  rw [List.getElem?_set]
  split_ifs <;> simp

theorem load_eq_none_of_le (m : Block T) (j : Nat) (h : m.length ≤ j) : load m j = none := by
  unfold load
  rw [List.getElem?_eq_none h]; rfl

theorem getElem?_eq_some_load (m : Block T) (j : Nat) (h : j < m.length) :
    m[j]? = some (load m j) := by
  unfold load
  rw [List.getElem?_eq_getElem h]; rfl

namespace vector

theorem Holds.mem_length {v : vector T} {xs : List T} (h : v.Holds xs) :
    v.mem.length = v.capacity := by
  obtain ⟨h1, h2, h3, h4⟩ := h
  rw [h4]
  simp only [size, capacity] at *
  simp
  omega

theorem Holds.load {v : vector T} {xs : List T} (h : v.Holds xs) (j : Nat) :
    load v.mem j = xs[j]? := by
  obtain ⟨h1, h2, h3, h4⟩ := h
  unfold mystl.load
  rw [h4, List.getElem?_append, List.getElem?_map, List.getElem?_replicate]
  simp only [List.length_map]
  by_cases hj : j < xs.length
  · simp [hj, List.getElem?_eq_getElem hj]
  · have : xs[j]? = none := List.getElem?_eq_none (by omega)
    simp only [hj, if_false, this]
    split_ifs <;> rfl

theorem Holds.index {v : vector T} {xs : List T} (h : v.Holds xs) (j : Nat) :
    v.index j = xs[j]? := by
  unfold vector.index deref
  rw [Nat.add_sub_cancel_left]
  exact h.load j

theorem Holds.to_list {v : vector T} {xs : List T} (h : v.Holds xs) :
    v.to_list = xs.map some := by
  unfold vector.to_list
  apply List.ext_getElem?
  intro n
  rw [List.getElem?_map, List.getElem?_map, h.2.2.1]
  by_cases hn : n < xs.length
  · rw [List.getElem?_range hn, List.getElem?_eq_getElem hn]
    simp [h.index, List.getElem?_eq_getElem hn]
  · rw [List.getElem?_eq_none (by simpa using hn), List.getElem?_eq_none (by simpa using hn)]
    rfl

theorem Holds.inv {v : vector T} {xs : List T} (h : v.Holds xs) : v.Inv := by
  refine ⟨h.1, h.2.1, h.mem_length, ?_⟩
  intro i _
  rw [h.index, h.2.2.1]
  by_cases hi : i < xs.length
  · simp [hi, List.getElem?_eq_getElem hi]
  · simp [hi, List.getElem?_eq_none (Nat.le_of_not_lt hi)]

theorem map_some_filterMap (l : Block T) (h : ∀ o ∈ l, o.isSome = true) :
    (l.filterMap id).map some = l ∧ (l.filterMap id).length = l.length := by
  induction l with
  | nil => simp
  | cons a l ih =>
    have ha := h a (by simp)
    obtain ⟨x, rfl⟩ := Option.isSome_iff_exists.mp ha
    have := ih (fun o ho => h o (by simp [ho]))
    simp [this.1, this.2]

theorem Inv.holds {v : vector T} (h : v.Inv) : ∃ xs, v.Holds xs := by
  obtain ⟨h1, h2, h3, h4⟩ := h
  have hsz : v.size ≤ v.mem.length := by simp only [size, capacity] at *; omega
  have hlive : ∀ o ∈ v.mem.take v.size, o.isSome = true := by
    intro o ho
    obtain ⟨i, hi, rfl⟩ := List.getElem_of_mem ho
    have hi2 : i < v.size := by simpa [hsz] using hi
    have := (h4 i (by omega)).mpr hi2
    unfold vector.index deref load at this
    rw [Nat.add_sub_cancel_left] at this
    rw [List.getElem_take]
    rw [List.getElem?_eq_getElem (by omega)] at this
    simpa using this
  obtain ⟨e1, e2⟩ := map_some_filterMap _ hlive
  refine ⟨(v.mem.take v.size).filterMap id, h1, h2, ?_, ?_⟩
  · rw [e2]; simp [hsz]
  · rw [e1, e2]
    have hdrop : v.mem.drop v.size = List.replicate (v.capacity - v.size) none := by
      rw [List.eq_replicate_iff]
      refine ⟨by simp [h3], ?_⟩
      intro o ho
      obtain ⟨i, hi, rfl⟩ := List.getElem_of_mem ho
      have hi2 : v.size + i < v.capacity := by
        have : i < v.mem.length - v.size := by simpa using hi
        omega
      have := (h4 (v.size + i) hi2)
      unfold vector.index deref load at this
      rw [Nat.add_sub_cancel_left, List.getElem?_eq_getElem (by omega)] at this
      rw [List.getElem_drop]
      cases hx : v.mem[v.size + i] with
      | none => rfl
      | some x =>
        rw [hx] at this
        simp at this
    have hlen : (List.take v.size v.mem).length = v.size := by simp [hsz]
    rw [hlen, ← hdrop, List.take_append_drop]

theorem realloc_loop_snd (E : Elem T) : ∀ (fuel i n : Nat) (old new : Block T) (j : Nat),
    n - i ≤ fuel →
    (realloc_loop E fuel i n old new).2[j]? =
      if i ≤ j ∧ j < n ∧ j < new.length then some (load old j) else new[j]? := by
  intro fuel
  induction fuel with
  | zero =>
    intro i n old new j hf
    have : ¬ (i ≤ j ∧ j < n ∧ j < new.length) := by omega
    simp [realloc_loop, this]
  | succ fuel ih =>
    intro i n old new j hf
    unfold realloc_loop
    by_cases hi : i < n
    · rw [if_pos hi, ih _ _ _ _ _ (by omega), load_set, List.length_set, List.getElem?_set]
      by_cases hij : i = j
      · subst hij
        by_cases hl : i < new.length
        · simp [hi, hl]
        · simp [hl]
          omega
      · by_cases hc : i + 1 ≤ j ∧ j < n ∧ j < new.length
        · have hc2 : i ≤ j ∧ j < n ∧ j < new.length := by omega
          simp [hc, hc2, hij]
        · have hc2 : ¬ (i ≤ j ∧ j < n ∧ j < new.length) := by omega
          simp [hc, hc2, hij]
    · have : ¬ (i ≤ j ∧ j < n ∧ j < new.length) := by omega
      simp [hi, this]

theorem reallocate_error (E : Elem T) (alloc : Nat → Option Nat) (c : Nat) (v : vector T)
    (ha : alloc c = none) : v.reallocate E alloc c = (.error .bad_alloc, v) := by
  simp [reallocate, ha]

theorem reallocate_holds (E : Elem T) (alloc : Nat → Option Nat) {v : vector T} {xs : List T}
    (h : v.Holds xs) {c b : Nat} (ha : alloc c = some b) (hc : xs.length ≤ c) :
    ∃ v1, v.reallocate E alloc c = (.ok (), v1) ∧ v1.Holds xs ∧ v1.capacity = c ∧
      v1.begin_ = b := by
  have e : v.reallocate E alloc c = (.ok (), ⟨b, b + v.size, b + c,
      (realloc_loop E v.size 0 v.size v.mem (List.replicate c none)).2⟩) := by
    simp only [reallocate, ha]
  refine ⟨_, e, ?_, by simp [capacity], rfl⟩
  have hs := h.2.2.1
  refine ⟨by simp, by simp [hs, hc], by show b + v.size - b = xs.length; omega, ?_⟩
  apply List.ext_getElem?
  intro j
  simp only [capacity, Nat.add_sub_cancel_left]
  rw [realloc_loop_snd E _ _ _ _ _ _ (by omega), h.load, h.2.2.1, List.getElem?_append,
    List.getElem?_map, List.getElem?_replicate, List.getElem?_replicate]
  simp only [List.length_map, List.length_replicate]
  by_cases hj : j < xs.length
  · have : 0 ≤ j ∧ j < xs.length ∧ j < c := by omega
    simp [hj, this, List.getElem?_eq_getElem hj]
  · have : ¬ (0 ≤ j ∧ j < xs.length ∧ j < c) := by omega
    simp only [this, hj, if_false]
    by_cases hjc : j < c
    · have : j - xs.length < c - xs.length := by omega
      simp [hjc, this]
    · have : ¬ (j - xs.length < c - xs.length) := by omega
      simp [hjc, this]

theorem holds_append {v : vector T} {xs : List T} (h : v.Holds xs) (hc : v.size < v.capacity)
    (x : T) :
    ({ v with mem := construct v.mem (v.end_ - v.begin_) x, end_ := v.end_ + 1 } :
      vector T).Holds (xs ++ [x]) := by
  obtain ⟨h1, h2, h3, h4⟩ := h
  simp only [size, capacity] at h3 hc
  refine ⟨by simp; omega, by simp; omega, by simp [size]; omega, ?_⟩
  simp only [capacity, construct, h3]
  rw [h4]
  apply List.ext_getElem?
  intro j
  simp only [List.getElem?_set, List.getElem?_append, List.getElem?_replicate, List.getElem?_map,
    List.length_map, List.length_append, List.length_replicate, List.length_singleton, capacity]
  by_cases hj : j < xs.length
  · have : ¬ xs.length = j := by omega
    have hj2 : j < xs.length + 1 := by omega
    simp [hj, this, hj2]
  · by_cases hj2 : j = xs.length
    · subst hj2
      have : xs.length < xs.length + (v.cap_ - v.begin_ - xs.length) := by omega
      simp [this]
    · have h5 : ¬ xs.length = j := by omega
      have h6 : ¬ j < xs.length + 1 := by omega
      have h7 : xs[j]? = none := List.getElem?_eq_none (by omega)
      have h8 : [x][j - xs.length]? = none := List.getElem?_eq_none (by simp; omega)
      simp only [hj, h5, h6, if_false, h7, h8]
      by_cases h9 : j - xs.length < v.cap_ - v.begin_ - xs.length
      · have : j - (xs.length + 1) < v.cap_ - v.begin_ - (xs.length + 1) := by omega
        simp [h9, this]
      · have : ¬ j - (xs.length + 1) < v.cap_ - v.begin_ - (xs.length + 1) := by omega
        simp [h9, this]

theorem holds_of_load {v : vector T} {xs : List T} (h1 : v.begin_ ≤ v.end_)
    (h2 : v.end_ ≤ v.cap_) (h3 : v.size = xs.length) (h4 : v.mem.length = v.capacity)
    (h5 : ∀ j, j < v.capacity → load v.mem j = xs[j]?) : v.Holds xs := by
  refine ⟨h1, h2, h3, ?_⟩
  have hle : xs.length ≤ v.capacity := by simp only [size, capacity] at *; omega
  apply List.ext_getElem?
  intro j
  rw [List.getElem?_append, List.getElem?_map, List.getElem?_replicate]
  simp only [List.length_map]
  by_cases hj : j < v.capacity
  · rw [getElem?_eq_some_load _ _ (by omega), h5 j hj]
    by_cases hj2 : j < xs.length
    · simp [hj2, List.getElem?_eq_getElem hj2]
    · have : j - xs.length < v.capacity - xs.length := by omega
      simp [hj2, this, List.getElem?_eq_none (Nat.le_of_not_lt hj2)]
  · rw [List.getElem?_eq_none (by omega)]
    have h6 : ¬ j < xs.length := by omega
    have h7 : ¬ j - xs.length < v.capacity - xs.length := by omega
    simp [h6, h7]

theorem Holds.end_eq_cap_iff {v : vector T} {xs : List T} (h : v.Holds xs) :
    v.end_ = v.cap_ ↔ v.size = v.capacity := by
  obtain ⟨h1, h2, _, _⟩ := h
  simp only [size, capacity]
  omega

theorem Holds.size_le {v : vector T} {xs : List T} (h : v.Holds xs) : v.size ≤ v.capacity := by
  obtain ⟨h1, h2, _, _⟩ := h
  simp only [size, capacity]
  omega

theorem grow_holds (E : Elem T) (alloc : Nat → Option Nat) {v : vector T} {xs : List T}
    (h : v.Holds xs) (hal : v.end_ = v.cap_ → alloc v.grow_size ≠ none) :
    ∃ v1, (if v.end_ = v.cap_ then v.reallocate E alloc v.grow_size else (Except.ok (), v))
        = (.ok (), v1) ∧ v1.Holds xs ∧ v1.size < v1.capacity ∧
      v1.capacity = (if v.size = v.capacity then v.grow_size else v.capacity) := by
  by_cases hfull : v.end_ = v.cap_
  · have hsc := h.end_eq_cap_iff.mp hfull
    obtain ⟨b, hb⟩ := Option.ne_none_iff_exists'.mp (hal hfull)
    have hg : xs.length < v.grow_size := by
      rw [← h.2.2.1, hsc]
      unfold grow_size
      split_ifs <;> omega
    obtain ⟨v1, e, hv1, hcap, _⟩ := reallocate_holds E alloc h hb (Nat.le_of_lt hg)
    refine ⟨v1, by rw [if_pos hfull, e], hv1, ?_, by rw [if_pos hsc, hcap]⟩
    rw [hv1.2.2.1, hcap]
    exact hg
  · have hsc : ¬ v.size = v.capacity := fun e => hfull (h.end_eq_cap_iff.mpr e)
    refine ⟨v, by rw [if_neg hfull], h, ?_, by rw [if_neg hsc]⟩
    have := h.size_le
    omega

theorem push_back_holds (E : Elem T) (alloc : Nat → Option Nat) {v : vector T} {xs : List T}
    (h : v.Holds xs) (hal : v.end_ = v.cap_ → alloc v.grow_size ≠ none) (x : T) :
    (v.push_back E alloc x).1 = .ok () ∧ (v.push_back E alloc x).2.Holds (xs ++ [x]) ∧
      (v.push_back E alloc x).2.capacity =
        (if v.size = v.capacity then v.grow_size else v.capacity) := by
  obtain ⟨v1, e, hv1, hlt, hcap⟩ := grow_holds E alloc h hal
  unfold push_back
  rw [e]
  exact ⟨rfl, holds_append hv1 hlt x, hcap⟩

theorem emplace_back_eq (E : Elem T) (alloc : Nat → Option Nat) (x : T) (v : vector T) :
    v.emplace_back E alloc x = v.push_back E alloc x := rfl

theorem reserve_holds (E : Elem T) (alloc : Nat → Option Nat) {v : vector T} {xs : List T}
    (h : v.Holds xs) (n : Nat) (hal : v.capacity < n → alloc n ≠ none) :
    (v.reserve E alloc n).1 = .ok () ∧ (v.reserve E alloc n).2.Holds xs ∧
      (v.reserve E alloc n).2.capacity = (if n ≤ v.capacity then v.capacity else n) := by
  unfold reserve
  by_cases hn : n ≤ v.capacity
  · rw [if_pos hn, if_pos hn]
    exact ⟨rfl, h, rfl⟩
  · rw [if_neg hn, if_neg hn]
    obtain ⟨b, hb⟩ := Option.ne_none_iff_exists'.mp (hal (by omega))
    have hle : xs.length ≤ n := by
      have := h.size_le
      have := h.2.2.1
      omega
    obtain ⟨v1, e, hv1, hcap, _⟩ := reallocate_holds E alloc h hb hle
    rw [e]
    exact ⟨rfl, hv1, hcap⟩

theorem shrink_to_fit_holds (E : Elem T) (alloc : Nat → Option Nat) {v : vector T}
    {xs : List T} (h : v.Holds xs) (hal : v.end_ ≠ v.cap_ → alloc v.size ≠ none) :
    (v.shrink_to_fit E alloc).1 = .ok () ∧ (v.shrink_to_fit E alloc).2.Holds xs ∧
      (v.shrink_to_fit E alloc).2.capacity = v.size := by
  unfold shrink_to_fit
  by_cases hn : v.end_ = v.cap_
  · rw [if_neg (not_not.mpr hn)]
    refine ⟨rfl, h, ?_⟩
    rw [h.end_eq_cap_iff.mp hn]
  · rw [if_pos hn]
    obtain ⟨b, hb⟩ := Option.ne_none_iff_exists'.mp (hal hn)
    obtain ⟨v1, e, hv1, hcap, _⟩ := reallocate_holds E alloc h hb (Nat.le_of_eq h.2.2.1.symm)
    rw [e]
    exact ⟨rfl, hv1, hcap⟩

theorem destroy_range_spec : ∀ (fuel first last : Nat) (m : Block T),
    first ≤ last → last - first ≤ fuel →
    ∃ m1, destroy_range fuel first last m = some m1 ∧ m1.length = m.length ∧
      ∀ j, load m1 j = if first ≤ j ∧ j < last then none else load m j := by
  intro fuel
  induction fuel with
  | zero =>
    intro first last m h1 h2
    have : first = last := by omega
    subst this
    refine ⟨m, by simp [destroy_range], rfl, ?_⟩
    intro j
    have : ¬ (first ≤ j ∧ j < first) := by omega
    simp [this]
  | succ fuel ih =>
    intro first last m h1 h2
    unfold destroy_range
    by_cases hfl : first = last
    · subst hfl
      refine ⟨m, by simp, rfl, ?_⟩
      intro j
      have : ¬ (first ≤ j ∧ j < first) := by omega
      simp [this]
    · obtain ⟨m1, e, hl, hp⟩ := ih (first + 1) last (destroy m first) (by omega) (by omega)
      refine ⟨m1, by simp [hfl, e], by rw [hl]; simp [destroy], ?_⟩
      intro j
      rw [hp j]
      unfold destroy
      rw [load_set]
      by_cases hj : first = j
      · subst hj
        have : first ≤ first ∧ first < last := by omega
        simp only [this, and_self, if_true]
        split_ifs <;> rfl
      · by_cases hc : first + 1 ≤ j ∧ j < last
        · have : first ≤ j ∧ j < last := by omega
          simp [hc, this]
        · have : ¬ (first ≤ j ∧ j < last) := by omega
          simp [hc, this, hj]

theorem pop_back_holds {v : vector T} {xs : List T} (h : v.Holds xs) (hne : xs ≠ []) :
    v.pop_back.Holds xs.dropLast ∧ v.pop_back.capacity = v.capacity := by
  obtain ⟨h1, h2, h3, h4⟩ := id h
  have hlen : 0 < xs.length := List.length_pos.mpr hne
  have hml := h.mem_length
  simp only [size, capacity] at h3 hml
  refine ⟨?_, rfl⟩
  apply holds_of_load
  · simp [pop_back]; omega
  · simp [pop_back]; omega
  · simp [pop_back, size]; omega
  · simp [pop_back, destroy, capacity, hml]
  · intro j hj
    simp only [pop_back, destroy, capacity] at hj ⊢
    rw [load_set, h.load]
    have e1 : v.end_ - 1 - v.begin_ = xs.length - 1 := by omega
    rw [e1, List.getElem?_dropLast]
    by_cases hj2 : xs.length - 1 = j
    · subst hj2
      simp
    · simp only [hj2, if_false]
      by_cases hj3 : j < xs.length - 1
      · simp [hj3]
      · simp [hj3, List.getElem?_eq_none (show xs.length ≤ j by omega)]

theorem clear_holds {v : vector T} {xs : List T} (h : v.Holds xs) :
    ∃ v1, v.clear = some v1 ∧ v1.Holds [] ∧ v1.capacity = v.capacity := by
  obtain ⟨h1, h2, h3, h4⟩ := id h
  have hml := h.mem_length
  obtain ⟨m1, e, hl, hp⟩ := destroy_range_spec (v.capacity + 1) 0 (v.end_ - v.begin_) v.mem
    (Nat.zero_le _) (by simp only [capacity]; omega)
  refine ⟨{ v with end_ := v.begin_, mem := m1 }, by simp [clear, e], ?_, rfl⟩
  apply holds_of_load
  · simp
  · simp; omega
  · simp [size]
  · simp [capacity, hl, hml]
  · intro j hj
    simp only [List.getElem?_nil]
    rw [hp j, h.load]
    split_ifs with hc
    · rfl
    · exact List.getElem?_eq_none (by simp only [size] at h3; omega)

theorem length_assign_move (E : Elem T) (m : Block T) (dst src : Nat) :
    (assign_move E m dst src).length = m.length := by
  unfold assign_move
  split_ifs <;> simp

theorem load_assign_move (E : Elem T) (m : Block T) (dst src j : Nat) (hne : dst ≠ src)
    (hd : dst < m.length) (hs : src < m.length) :
    load (assign_move E m dst src) j =
      if j = src then (load m src).map E.moved else if j = dst then load m src else load m j := by
  unfold assign_move
  rw [if_neg hne, load_set, load_set, List.length_set]
  by_cases h1 : src = j
  · subst h1
    simp [hs]
  · by_cases h2 : dst = j
    · subst h2
      simp [h1, hd, hne]
    · have h3 : ¬ j = src := fun e => h1 e.symm
      have h4 : ¬ j = dst := fun e => h2 e.symm
      simp [h1, h2, h3, h4]

theorem shift_right_spec (E : Elem T) : ∀ (fuel it p : Nat) (m : Block T),
    p ≤ it → it - p ≤ fuel → it < m.length →
    ∃ m1, shift_right E fuel it p m = some m1 ∧ m1.length = m.length ∧
      ∀ j, load m1 j =
        if p < j ∧ j ≤ it then load m (j - 1)
        else if j = p ∧ p < it then (load m p).map E.moved else load m j := by
  intro fuel
  induction fuel with
  | zero =>
    intro it p m h1 h2 h3
    have : it = p := by omega
    subst this
    refine ⟨m, by simp [shift_right], rfl, ?_⟩
    intro j
    have h4 : ¬ (it < j ∧ j ≤ it) := by omega
    have h5 : ¬ (j = it ∧ it < it) := by omega
    simp [h4, h5]
  | succ fuel ih =>
    intro it p m h1 h2 h3
    unfold shift_right
    by_cases hip : it = p
    · subst hip
      refine ⟨m, by simp, rfl, ?_⟩
      intro j
      have h4 : ¬ (it < j ∧ j ≤ it) := by omega
      have h5 : ¬ (j = it ∧ it < it) := by omega
      simp [h4, h5]
    · have hlen := length_assign_move E m it (it - 1)
      obtain ⟨m1, e, hl, hp⟩ := ih (it - 1) p (assign_move E m it (it - 1)) (by omega)
        (by omega) (by omega)
      refine ⟨m1, by simp [hip, e], by rw [hl, hlen], ?_⟩
      intro j
      rw [hp j]
      have hld := fun k => load_assign_move E m it (it - 1) k (by omega) h3 (by omega)
      by_cases c1 : p < j ∧ j ≤ it - 1
      · have c2 : p < j ∧ j ≤ it := by omega
        rw [if_pos c1, if_pos c2, hld (j - 1), if_neg (by omega), if_neg (by omega)]
      · rw [if_neg c1]
        by_cases c3 : j = p ∧ p < it - 1
        · have c4 : ¬ (p < j ∧ j ≤ it) := by omega
          have c5 : j = p ∧ p < it := by omega
          rw [if_pos c3, if_neg c4, if_pos c5, hld p, if_neg (by omega), if_neg (by omega)]
        · rw [if_neg c3, hld j]
          by_cases c6 : j = it
          · subst c6
            have c7 : p < j ∧ j ≤ j := by omega
            rw [if_neg (by omega), if_pos rfl, if_pos c7]
          · by_cases c8 : j = it - 1
            · have c9 : ¬ (p < j ∧ j ≤ it) := by omega
              have c10 : j = p ∧ p < it := by omega
              have c11 : it - 1 = p := by omega
              rw [if_pos c8, if_neg c9, if_pos c10, c11]
            · have c9 : ¬ (p < j ∧ j ≤ it) := by omega
              have c10 : ¬ (j = p ∧ p < it) := by omega
              rw [if_neg c8, if_neg c6, if_neg c9, if_neg c10]

theorem getElem?_insert_at (xs : List T) (p : Nat) (hp : p ≤ xs.length) (x : T) (j : Nat) :
    (xs.take p ++ x :: xs.drop p)[j]? =
      if j < p then xs[j]? else if j = p then some x else xs[j - 1]? := by
  have hl : (xs.take p).length = p := by simp [hp]
  rw [List.getElem?_append, hl]
  by_cases h1 : j < p
  · simp [h1, List.getElem?_take]
  · rw [if_neg h1, if_neg h1, List.getElem?_cons]
    by_cases h2 : j = p
    · simp [h2]
    · have h3 : ¬ j - p = 0 := by omega
      rw [if_neg h3, if_neg h2, List.getElem?_drop]
      congr 1
      omega

theorem load_construct_move (E : Elem T) (m : Block T) (dst src j : Nat) (hne : dst ≠ src)
    (hd : dst < m.length) (hs : src < m.length) :
    load (construct_move E m dst src) j =
      if j = src then (load m src).map E.moved else if j = dst then load m src else load m j := by
  have := load_assign_move E m dst src j hne hd hs
  unfold assign_move at this
  rw [if_neg hne] at this
  exact this

theorem insert_holds (E : Elem T) (alloc : Nat → Option Nat) {v : vector T} {xs : List T}
    (h : v.Holds xs) (hal : v.end_ = v.cap_ → alloc v.grow_size ≠ none) (p : Nat) (hp : p ≤ xs.length) (x : T) :
    ∃ v1, v.insert E alloc (v.begin_ + p) x = some (.ok (v1.begin_ + p), v1) ∧
      v1.Holds (xs.take p ++ x :: xs.drop p) ∧
      v1.capacity = (if v.size = v.capacity then v.grow_size else v.capacity) := by
  obtain ⟨v1, e, hv1, hlt, hcap⟩ := grow_holds E alloc h hal
  unfold insert
  simp only [Nat.add_sub_cancel_left]
  rw [e]
  simp only []
  obtain ⟨g1, g2, g3, g4⟩ := id hv1
  have hml := hv1.mem_length
  simp only [size, capacity] at g3 hlt hml
  by_cases hpe : p = xs.length
  · have hpe2 : v1.begin_ + p = v1.end_ := by omega
    have hget : xs.take p ++ x :: xs.drop p = xs ++ [x] := by
      rw [hpe]; simp
    refine ⟨{ v1 with mem := construct v1.mem (v1.end_ - v1.begin_) x, end_ := v1.end_ + 1 },
      by simp only [hpe2, bne_self_eq_false, Bool.false_eq_true, if_false], ?_, hcap⟩
    rw [hget]
    exact holds_append hv1 (by simp only [size, capacity]; omega) x
  · have hpe2 : v1.begin_ + p ≠ v1.end_ := by omega
    have hn1 : v1.end_ - 1 - v1.begin_ = xs.length - 1 := by omega
    have hn0 : v1.end_ - v1.begin_ = xs.length := by omega
    have hm1len : (construct_move E v1.mem xs.length (xs.length - 1)).length = v1.mem.length := by
      simp [construct_move]
    obtain ⟨m2, e2, hl2, hp2⟩ := shift_right_spec E (v1.capacity + 1) (xs.length - 1) p
      (construct_move E v1.mem xs.length (xs.length - 1)) (by omega)
      (by simp only [capacity]; omega) (by rw [hm1len, hml]; omega)
    refine ⟨{ v1 with mem := m2.set p (some x), end_ := v1.end_ + 1 }, ?_, ?_, hcap⟩
    · simp only [hpe2, bne_iff_ne, ne_eq, not_false_eq_true, if_true, hn1, hn0,
        Nat.add_sub_cancel_left, e2]
    · apply holds_of_load
      · show v1.begin_ ≤ v1.end_ + 1
        omega
      · show v1.end_ + 1 ≤ v1.cap_
        omega
      · show v1.end_ + 1 - v1.begin_ = _
        simp [hp]
        omega
      · show (m2.set p (some x)).length = v1.cap_ - v1.begin_
        rw [List.length_set, hl2, hm1len, hml]
      · intro j hj
        change j < v1.cap_ - v1.begin_ at hj
        show load (m2.set p (some x)) j = _
        have hcm := fun k => load_construct_move E v1.mem xs.length (xs.length - 1) k
          (by omega) (by omega) (by omega)
        rw [load_set, hl2, hm1len, getElem?_insert_at xs p hp x j]
        by_cases c1 : p = j
        · subst c1
          simp [show p < v1.mem.length by omega]
        · rw [if_neg c1, hp2 j]
          have hjp : ¬ j = p := fun e => c1 e.symm
          by_cases c2 : j < p
          · rw [if_pos c2, if_neg (show ¬ (p < j ∧ j ≤ xs.length - 1) by omega),
              if_neg (show ¬ (j = p ∧ p < xs.length - 1) by omega), hcm j,
              if_neg (show ¬ j = xs.length - 1 by omega),
              if_neg (show ¬ j = xs.length by omega), hv1.load]
          · rw [if_neg c2, if_neg hjp, if_neg (show ¬ (j = p ∧ p < xs.length - 1) by omega)]
            by_cases c3 : j ≤ xs.length - 1
            · rw [if_pos (show p < j ∧ j ≤ xs.length - 1 by omega), hcm (j - 1),
                if_neg (show ¬ j - 1 = xs.length - 1 by omega),
                if_neg (show ¬ j - 1 = xs.length by omega), hv1.load]
            · rw [if_neg (show ¬ (p < j ∧ j ≤ xs.length - 1) by omega), hcm j,
                if_neg (show ¬ j = xs.length - 1 by omega)]
              by_cases c4 : j = xs.length
              · rw [if_pos c4, hv1.load, c4]
              · rw [if_neg c4, hv1.load, List.getElem?_eq_none (show xs.length ≤ j by omega),
                  List.getElem?_eq_none (show xs.length ≤ j - 1 by omega)]

theorem emplace_eq_insert (E : Elem T) (alloc : Nat → Option Nat) (pos : Nat) (x : T)
    (v : vector T) : v.emplace E alloc pos x = v.insert E alloc pos x := by
  unfold emplace insert
  simp only [construct, destroy, List.set_set]

theorem index_eq_load (v : vector T) (i : Nat) : v.index i = load v.mem i := by
  unfold index deref
  rw [Nat.add_sub_cancel_left]

theorem lt_length_of_load_isSome (m : Block T) (j : Nat) (h : (load m j).isSome = true) :
    j < m.length := by
  by_contra hc
  rw [load_eq_none_of_le m j (by omega)] at h
  simp at h

theorem isSome_load_assign_move (E : Elem T) (m : Block T) (dst src : Nat)
    (hd : (load m dst).isSome = true) (hs : (load m src).isSome = true) (j : Nat) :
    (load (assign_move E m dst src) j).isSome = (load m j).isSome := by
  have hdl := lt_length_of_load_isSome m dst hd
  have hsl := lt_length_of_load_isSome m src hs
  by_cases hne : dst = src
  · subst hne
    unfold assign_move
    rw [if_pos rfl, load_set]
    by_cases hj : dst = j
    · subst hj
      simp [hdl]
    · simp [hj]
  · rw [load_assign_move E m dst src j hne hdl hsl]
    by_cases h1 : j = src
    · subst h1
      simp
    · by_cases h2 : j = dst
      · subst h2
        simp [h1, hs, hd]
      · simp [h1, h2]

theorem erase_move_live (E : Elem T) : ∀ (fuel it ne e : Nat) (m : Block T),
    ne ≤ it → it ≤ e → e - it ≤ fuel → (∀ j, j < e → (load m j).isSome = true) →
    ∃ m1, erase_move E fuel it ne e m = some (ne + (e - it), m1) ∧ m1.length = m.length ∧
      ∀ j, (load m1 j).isSome = (load m j).isSome := by
  intro fuel
  induction fuel with
  | zero =>
    intro it ne e m h1 h2 h3 _
    have : it = e := by omega
    subst this
    exact ⟨m, by simp [erase_move], rfl, fun _ => rfl⟩
  | succ fuel ih =>
    intro it ne e m h1 h2 h3 h4
    unfold erase_move
    by_cases hie : it = e
    · subst hie
      exact ⟨m, by simp, rfl, fun _ => rfl⟩
    · have hlive := isSome_load_assign_move E m ne it (h4 ne (by omega)) (h4 it (by omega))
      obtain ⟨m1, e1, hl, hp⟩ := ih (it + 1) (ne + 1) e (assign_move E m ne it) (by omega)
        (by omega) (by omega) (fun j hj => by rw [hlive]; exact h4 j hj)
      refine ⟨m1, ?_, by rw [hl, length_assign_move], fun j => by rw [hp, hlive]⟩
      have : bne it e = true := by simpa using hie
      rw [if_pos this, e1]
      congr 2
      omega

theorem erase_shift_live (E : Elem T) : ∀ (fuel it e : Nat) (m : Block T),
    it < e → e - 1 - it ≤ fuel → (∀ j, j < e → (load m j).isSome = true) →
    ∃ m1, erase_shift E fuel it e m = some m1 ∧ m1.length = m.length ∧
      ∀ j, (load m1 j).isSome = (load m j).isSome := by
  intro fuel
  induction fuel with
  | zero =>
    intro it e m h1 h2 _
    have : it + 1 = e := by omega
    subst this
    exact ⟨m, by simp [erase_shift], rfl, fun _ => rfl⟩
  | succ fuel ih =>
    intro it e m h1 h2 h4
    unfold erase_shift
    by_cases hie : it + 1 = e
    · subst hie
      exact ⟨m, by simp, rfl, fun _ => rfl⟩
    · have hlive := isSome_load_assign_move E m it (it + 1) (h4 it (by omega))
        (h4 (it + 1) (by omega))
      obtain ⟨m1, e1, hl, hp⟩ := ih (it + 1) e (assign_move E m it (it + 1)) (by omega)
        (by omega) (fun j hj => by rw [hlive]; exact h4 j hj)
      refine ⟨m1, ?_, by rw [hl, length_assign_move], fun j => by rw [hp, hlive]⟩
      have : bne (it + 1) e = true := by simpa using hie
      rw [if_pos this, e1]

theorem Inv.live {v : vector T} (h : v.Inv) (j : Nat) (hj : j < v.size) :
    (load v.mem j).isSome = true := by
  obtain ⟨h1, h2, h3, h4⟩ := h
  rw [← index_eq_load]
  exact (h4 j (by simp only [size, capacity] at *; omega)).mpr hj

theorem Inv.raw {v : vector T} (h : v.Inv) (j : Nat) (hj : v.size ≤ j) :
    (load v.mem j).isSome = false := by
  obtain ⟨h1, h2, h3, h4⟩ := h
  by_cases hc : j < v.capacity
  · have := (h4 j hc)
    rw [index_eq_load] at this
    cases hx : (load v.mem j).isSome with
    | false => rfl
    | true => exact absurd (this.mp hx) (by omega)
  · rw [load_eq_none_of_le _ _ (by omega)]
    rfl

theorem erase_range_inv (E : Elem T) {v : vector T} (h : v.Inv) (first last : Nat)
    (h1 : v.begin_ ≤ first) (h2 : first ≤ last) (h3 : last ≤ v.end_) :
    ∃ v1, v.erase_range E first last = some (first, v1) ∧ v1.Inv ∧
      v1.capacity = v.capacity ∧ v1.size = v.size - (last - first) ∧ v1.begin_ = v.begin_ := by
  obtain ⟨g1, g2, g3, g4⟩ := id h
  simp only [capacity] at g3
  obtain ⟨m1, e1, hl1, hp1⟩ := erase_move_live E (v.capacity + 1) (last - v.begin_)
    (first - v.begin_) (v.end_ - v.begin_) v.mem (by omega) (by omega)
    (by simp only [capacity]; omega) (fun j hj => h.live j hj)
  obtain ⟨m2, e2, hl2, hp2⟩ := destroy_range_spec (v.capacity + 1)
    (first - v.begin_ + (v.end_ - v.begin_ - (last - v.begin_))) (v.end_ - v.begin_) m1
    (by omega) (by simp only [capacity]; omega)
  refine ⟨{ v with end_ := v.begin_ + (first - v.begin_ + (v.end_ - v.begin_ -
    (last - v.begin_))), mem := m2 }, ?_, ?_, rfl, ?_, rfl⟩
  · unfold erase_range
    simp only [Nat.add_sub_cancel_left, e1, e2]
    congr 2
    omega
  · refine ⟨by simp, by simp; omega, by simp [capacity, hl2, hl1, g3], ?_⟩
    intro i hi
    simp only [capacity] at hi
    rw [index_eq_load]
    simp only [size, Nat.add_sub_cancel_left]
    rw [hp2 i]
    by_cases c1 : i < first - v.begin_ + (v.end_ - v.begin_ - (last - v.begin_))
    · rw [if_neg (by omega), hp1 i, h.live i (by simp only [size]; omega)]
      simp [c1]
    · by_cases c2 : i < v.end_ - v.begin_
      · rw [if_pos (by omega)]
        simp [c1]
      · rw [if_neg (by omega), hp1 i, h.raw i (by simp only [size]; omega)]
        simp [c1]
  · simp only [size, Nat.add_sub_cancel_left]
    omega

theorem erase_inv (E : Elem T) {v : vector T} (h : v.Inv) (pos : Nat)
    (h1 : v.begin_ ≤ pos) (h2 : pos < v.end_) :
    ∃ v1, v.erase E pos = some (pos, v1) ∧ v1.Inv ∧
      v1.capacity = v.capacity ∧ v1.size = v.size - 1 ∧ v1.begin_ = v.begin_ := by
  obtain ⟨g1, g2, g3, g4⟩ := id h
  simp only [capacity] at g3
  obtain ⟨m1, e1, hl1, hp1⟩ := erase_shift_live E (v.capacity + 1) (pos - v.begin_)
    (v.end_ - v.begin_) v.mem (by omega) (by simp only [capacity]; omega)
    (fun j hj => h.live j hj)
  refine ⟨{ v with end_ := v.end_ - 1, mem := destroy m1 (v.end_ - 1 - v.begin_) }, ?_, ?_,
    rfl, ?_, rfl⟩
  · unfold erase
    simp only [Nat.add_sub_cancel_left, e1]
    congr 2
    omega
  · refine ⟨by simp; omega, by simp; omega, by simp [capacity, destroy, hl1, g3], ?_⟩
    intro i hi
    simp only [capacity] at hi
    rw [index_eq_load]
    simp only [size, destroy]
    rw [load_set]
    by_cases c1 : v.end_ - 1 - v.begin_ = i
    · rw [if_pos c1]
      have : ¬ i < v.end_ - 1 - v.begin_ := by omega
      split_ifs <;> simp [this]
    · rw [if_neg c1, hp1 i]
      by_cases c2 : i < v.end_ - 1 - v.begin_
      · rw [h.live i (by simp only [size]; omega)]
        simp [c2]
      · rw [h.raw i (by simp only [size]; omega)]
        simp [c2]
  · simp only [size]
    omega

theorem resize_fill_holds : ∀ (fuel n : Nat) (value : T) (v : vector T) (xs : List T),
    v.Holds xs → n ≤ v.capacity → n - v.size ≤ fuel →
    (resize_fill fuel n value v).Holds (xs ++ List.replicate (n - xs.length) value) ∧
      (resize_fill fuel n value v).capacity = v.capacity := by
  intro fuel
  induction fuel with
  | zero =>
    intro n value v xs h h1 h2
    have : n - xs.length = 0 := by rw [← h.2.2.1]; omega
    simp [resize_fill, this, h]
  | succ fuel ih =>
    intro n value v xs h h1 h2
    unfold resize_fill
    by_cases hlt : v.size < n
    · rw [if_pos hlt]
      have hs := h.2.2.1
      have hstep := holds_append h (by omega) value
      have hsz := hstep.2.2.1
      rw [List.length_append, List.length_singleton, ← hs] at hsz
      obtain ⟨r1, r2⟩ := ih n value _ _ hstep (by simpa [capacity] using h1) (by rw [hsz]; omega)
      refine ⟨?_, by rw [r2]; rfl⟩
      have e : n - xs.length = (n - (xs ++ [value]).length) + 1 := by simp; omega
      rw [e, List.replicate_succ]
      simpa using r1
    · rw [if_neg hlt]
      have : n - xs.length = 0 := by rw [← h.2.2.1]; omega
      simp [this, h]

theorem erase_tail_holds (E : Elem T) {v : vector T} {xs : List T} (h : v.Holds xs) (n : Nat)
    (hn : n ≤ xs.length) :
    ∃ v1, v.erase_range E (v.begin_ + n) v.end_ = some (v.begin_ + n, v1) ∧
      v1.Holds (xs.take n) ∧ v1.capacity = v.capacity := by
  obtain ⟨g1, g2, g3, g4⟩ := id h
  have hml := h.mem_length
  simp only [size, capacity] at g3 hml
  obtain ⟨m2, e2, hl2, hp2⟩ := destroy_range_spec (v.capacity + 1) n (v.end_ - v.begin_) v.mem
    (by omega) (by simp only [capacity]; omega)
  refine ⟨{ v with end_ := v.begin_ + n, mem := m2 }, ?_, ?_, rfl⟩
  · unfold erase_range
    simp only [Nat.add_sub_cancel_left]
    unfold erase_move
    simp [e2]
  · apply holds_of_load
    · simp
    · show v.begin_ + n ≤ v.cap_
      omega
    · simp [size, hn]
    · simp [capacity, hl2, hml]
    · intro j _
      show load m2 j = _
      rw [hp2 j, h.load, List.getElem?_take]
      by_cases c1 : j < n
      · rw [if_neg (by omega), if_pos c1]
      · rw [if_neg c1]
        by_cases c2 : j < v.end_ - v.begin_
        · rw [if_pos (by omega)]
        · rw [if_neg (by omega)]
          exact List.getElem?_eq_none (by omega)

theorem resize_holds (E : Elem T) (alloc : Nat → Option Nat) {v : vector T} {xs : List T}
    (h : v.Holds xs) (n : Nat) (hal : v.capacity < n → alloc n ≠ none) (value : T) :
    ∃ v1, v.resize E alloc n value = some (.ok (), v1) ∧
      v1.Holds (xs.take n ++ List.replicate (n - xs.length) value) ∧
      v1.capacity = (if n ≤ v.capacity then v.capacity else n) ∧
      (n = v.size → v1 = v) := by
  have hs := h.2.2.1
  have hsc := h.size_le
  unfold resize
  by_cases c1 : n < v.size
  · rw [if_pos c1]
    obtain ⟨v1, e, hv1, hcap⟩ := erase_tail_holds E h n (by omega)
    refine ⟨v1, by rw [e], ?_, by rw [hcap, if_pos (by omega)], fun e => absurd e (by omega)⟩
    have : n - xs.length = 0 := by omega
    simpa [this] using hv1
  · rw [if_neg c1]
    by_cases c2 : n > v.size
    · rw [if_pos c2]
      obtain ⟨r1, r2, r3⟩ := reserve_holds E alloc h n hal
      have hle : n ≤ (v.reserve E alloc n).2.capacity := by
        rw [r3]; split_ifs <;> omega
      obtain ⟨f1, f2⟩ := resize_fill_holds n n value _ xs r2 hle (by omega)
      refine ⟨resize_fill n n value (v.reserve E alloc n).2, ?_, ?_, by rw [f2, r3],
        fun e => absurd e (by omega)⟩
      · cases hr : v.reserve E alloc n with
        | mk a b =>
          rw [hr] at r1
          simp only at r1
          subst r1
          rfl
      · rw [List.take_of_length_le (by omega)]
        exact f1
    · rw [if_neg c2]
      have : n = xs.length := by omega
      refine ⟨v, rfl, ?_, by rw [if_pos (by omega)], fun _ => rfl⟩
      subst this
      simpa using h

theorem fill_loop_holds : ∀ (fuel i n : Nat) (value : T) (v : vector T) (xs : List T),
    v.Holds xs → v.size + (n - i) ≤ v.capacity → n - i ≤ fuel →
    (fill_loop fuel i n value v).Holds (xs ++ List.replicate (n - i) value) ∧
      (fill_loop fuel i n value v).capacity = v.capacity := by
  intro fuel
  induction fuel with
  | zero =>
    intro i n value v xs h h1 h2
    have : n - i = 0 := by omega
    simp [fill_loop, this, h]
  | succ fuel ih =>
    intro i n value v xs h h1 h2
    unfold fill_loop
    by_cases hlt : i < n
    · rw [if_pos hlt]
      have hs := h.2.2.1
      have hstep := holds_append h (by omega) value
      have hsz := hstep.2.2.1
      rw [List.length_append, List.length_singleton, ← hs] at hsz
      obtain ⟨r1, r2⟩ := ih (i + 1) n value _ _ hstep
        (by rw [hsz]; simp only [capacity] at h1 ⊢; omega) (by omega)
      refine ⟨?_, by rw [r2]; rfl⟩
      have e : n - i = (n - (i + 1)) + 1 := by omega
      rw [e, List.replicate_succ]
      simpa using r1
    · rw [if_neg hlt]
      have : n - i = 0 := by omega
      simp [this, h]

theorem holds_fresh (b n : Nat) : (⟨b, b, b + n, List.replicate n none⟩ : vector T).Holds [] := by
  refine ⟨Nat.le_refl _, by simp, by simp [size], ?_⟩
  simp [capacity]

theorem fill_init_holds (alloc : Nat → Option Nat) (n : Nat) (value : T)
    (hal : alloc n ≠ none) :
    ∃ v, fill_init alloc n value = .ok v ∧ v.Holds (List.replicate n value) ∧
      v.capacity = n := by
  obtain ⟨b, hb⟩ := Option.ne_none_iff_exists'.mp hal
  obtain ⟨r1, r2⟩ := fill_loop_holds n 0 n value ⟨b, b, b + n, List.replicate n none⟩ []
    (holds_fresh b n) (by simp [size, capacity]) (by omega)
  refine ⟨fill_loop n 0 n value ⟨b, b, b + n, List.replicate n none⟩,
    by simp only [fill_init, hb], by simpa using r1, by rw [r2]; simp [capacity]⟩

theorem range_loop_holds : ∀ (fuel first last : Nat) (src : Block T) (v : vector T)
    (xs ys : List T), v.Holds xs → (∀ j, load src j = ys[j]?) → last = ys.length →
    first ≤ last → v.size + (last - first) ≤ v.capacity → last - first ≤ fuel →
    ∃ v1, range_loop fuel first last src v = some v1 ∧ v1.Holds (xs ++ ys.drop first) ∧
      v1.capacity = v.capacity := by
  intro fuel
  induction fuel with
  | zero =>
    intro first last src v xs ys h hsrc hl h1 h2 h3
    have : first = last := by omega
    subst this
    refine ⟨v, by simp [range_loop], ?_, rfl⟩
    rw [hl, List.drop_length]
    simpa using h
  | succ fuel ih =>
    intro first last src v xs ys h hsrc hl h1 h2 h3
    unfold range_loop
    by_cases hfl : first = last
    · subst hfl
      refine ⟨v, by simp, ?_, rfl⟩
      rw [hl, List.drop_length]
      simpa using h
    · have hlt : first < ys.length := by omega
      have hs := h.2.2.1
      have hld : load src first = some ys[first] := by
        rw [hsrc, List.getElem?_eq_getElem hlt]
      have hstep := holds_append h (by omega) ys[first]
      have hsz := hstep.2.2.1
      rw [List.length_append, List.length_singleton, ← hs] at hsz
      obtain ⟨v1, e1, r1, r2⟩ := ih (first + 1) last src _ _ ys hstep hsrc hl (by omega)
        (by rw [hsz]; simp only [capacity] at h2 ⊢; omega) (by omega)
      refine ⟨v1, ?_, ?_, by rw [r2]; rfl⟩
      · have : bne first last = true := by simpa using hfl
        rw [if_pos this, hld]
        exact e1
      · rw [List.drop_eq_getElem_cons hlt]
        simpa using r1

theorem copy_ctor_holds (alloc : Nat → Option Nat) {other : vector T} {ys : List T}
    (h : other.Holds ys) (hal : alloc other.size ≠ none) :
    ∃ v, copy_ctor alloc other = some (.ok v) ∧ v.Holds ys ∧ v.capacity = ys.length := by
  obtain ⟨b, hb⟩ := Option.ne_none_iff_exists'.mp hal
  have hs := h.2.2.1
  have hsc := h.size_le
  simp only [size] at hb hs
  obtain ⟨v1, e1, r1, r2⟩ := range_loop_holds (other.capacity + 1) 0
    (other.end_ - other.begin_) other.mem
    ⟨b, b, b + (other.end_ - other.begin_), List.replicate (other.end_ - other.begin_) none⟩
    [] ys (holds_fresh b _) h.load hs (Nat.zero_le _) (by simp [size, capacity])
    (by simp only [size] at hsc; omega)
  refine ⟨v1, by simp only [copy_ctor, hb, e1], by simpa using r1, ?_⟩
  rw [r2, ← hs]
  simp [capacity]

theorem grow_cases (E : Elem T) (alloc : Nat → Option Nat) {v : vector T} {xs : List T}
    (h : v.Holds xs) :
    (∃ v1, (if v.end_ = v.cap_ then v.reallocate E alloc v.grow_size else (Except.ok (), v))
        = (.ok (), v1) ∧ v1.Holds xs ∧ v1.size < v1.capacity ∧
      v1.capacity = (if v.size = v.capacity then v.grow_size else v.capacity)) ∨
    ((v.end_ = v.cap_ ∧ alloc v.grow_size = none) ∧
      (if v.end_ = v.cap_ then v.reallocate E alloc v.grow_size else (Except.ok (), v))
        = (.error .bad_alloc, v)) := by
  by_cases hf : v.end_ = v.cap_ ∧ alloc v.grow_size = none
  · right
    refine ⟨hf, ?_⟩
    rw [if_pos hf.1, reallocate_error E alloc _ _ hf.2]
  · left
    exact grow_holds E alloc h (fun e1 e2 => hf ⟨e1, e2⟩)

theorem push_back_error (E : Elem T) (alloc : Nat → Option Nat) (x : T) (v : vector T)
    (hfull : v.end_ = v.cap_) (hal : alloc v.grow_size = none) :
    v.push_back E alloc x = (.error .bad_alloc, v) := by
  unfold push_back
  rw [if_pos hfull, reallocate_error E alloc _ _ hal]

theorem insert_error (E : Elem T) (alloc : Nat → Option Nat) (pos : Nat) (x : T) (v : vector T)
    (hfull : v.end_ = v.cap_) (hal : alloc v.grow_size = none) :
    v.insert E alloc pos x = some (.error .bad_alloc, v) := by
  unfold insert
  simp only []
  rw [if_pos hfull, reallocate_error E alloc _ _ hal]

theorem push_back_inv (E : Elem T) (alloc : Nat → Option Nat) (x : T) {v : vector T}
    (h : v.Inv) : (v.push_back E alloc x).2.Inv := by
  obtain ⟨xs, hx⟩ := h.holds
  by_cases hf : v.end_ = v.cap_ ∧ alloc v.grow_size = none
  · rw [push_back_error E alloc x v hf.1 hf.2]
    exact h
  · exact (push_back_holds E alloc hx (fun e1 e2 => hf ⟨e1, e2⟩) x).2.1.inv

theorem insert_inv (E : Elem T) (alloc : Nat → Option Nat) (pos : Nat) (x : T) {v : vector T}
    (h : v.Inv) (h1 : v.begin_ ≤ pos) (h2 : pos ≤ v.end_) :
    ∃ r, v.insert E alloc pos x = some r ∧ r.2.Inv := by
  obtain ⟨xs, hx⟩ := h.holds
  by_cases hf : v.end_ = v.cap_ ∧ alloc v.grow_size = none
  · exact ⟨_, insert_error E alloc pos x v hf.1 hf.2, h⟩
  · have hs := hx.2.2.1
    simp only [size] at hs
    obtain ⟨v1, e, hv1, _⟩ := insert_holds E alloc hx (fun e1 e2 => hf ⟨e1, e2⟩)
      (pos - v.begin_) (by omega) x
    rw [show v.begin_ + (pos - v.begin_) = pos by omega] at e
    exact ⟨_, e, hv1.inv⟩

theorem reserve_inv (E : Elem T) (alloc : Nat → Option Nat) (n : Nat) {v : vector T}
    (h : v.Inv) : (v.reserve E alloc n).2.Inv := by
  obtain ⟨xs, hx⟩ := h.holds
  by_cases hf : v.capacity < n ∧ alloc n = none
  · unfold reserve
    rw [if_neg (by omega), reallocate_error E alloc _ _ hf.2]
    exact h
  · exact (reserve_holds E alloc hx n (fun e1 e2 => hf ⟨e1, e2⟩)).2.1.inv

theorem shrink_to_fit_inv (E : Elem T) (alloc : Nat → Option Nat) {v : vector T}
    (h : v.Inv) : (v.shrink_to_fit E alloc).2.Inv := by
  obtain ⟨xs, hx⟩ := h.holds
  by_cases hf : v.end_ ≠ v.cap_ ∧ alloc v.size = none
  · unfold shrink_to_fit
    rw [if_pos hf.1, reallocate_error E alloc _ _ hf.2]
    exact h
  · exact (shrink_to_fit_holds E alloc hx (fun e1 e2 => hf ⟨e1, e2⟩)).2.1.inv

theorem resize_error (E : Elem T) (alloc : Nat → Option Nat) (n : Nat) (value : T)
    (v : vector T) (hle : v.size ≤ v.capacity) (hn : v.capacity < n) (hal : alloc n = none) :
    v.resize E alloc n value = some (.error .bad_alloc, v) := by
  unfold resize reserve
  rw [if_neg (by omega), if_pos (by omega), if_neg (by omega), reallocate_error E alloc _ _ hal]

theorem resize_inv (E : Elem T) (alloc : Nat → Option Nat) (n : Nat) (value : T)
    {v : vector T} (h : v.Inv) : ∃ r, v.resize E alloc n value = some r ∧ r.2.Inv := by
  obtain ⟨xs, hx⟩ := h.holds
  by_cases hf : v.capacity < n ∧ alloc n = none
  · exact ⟨_, resize_error E alloc n value v hx.size_le hf.1 hf.2, h⟩
  · obtain ⟨v1, e, hv1, _⟩ := resize_holds E alloc hx n (fun e1 e2 => hf ⟨e1, e2⟩) value
    exact ⟨_, e, hv1.inv⟩

theorem copy_ctor_error (alloc : Nat → Option Nat) (other : vector T)
    (hal : alloc other.size = none) : copy_ctor alloc other = some (.error .bad_alloc) := by
  simp only [size] at hal
  simp only [copy_ctor, hal]

theorem copy_assign_inv (alloc : Nat → Option Nat) {v other : vector T} (h : v.Inv)
    (ho : other.Inv) : ∃ r, copy_assign alloc v other = some r ∧ r.2.Inv := by
  obtain ⟨ys, hy⟩ := ho.holds
  by_cases hf : alloc other.size = none
  · refine ⟨(.error .bad_alloc, v), ?_, h⟩
    simp only [copy_assign, copy_ctor_error alloc other hf]
  · obtain ⟨v1, e, hv1, _⟩ := copy_ctor_holds alloc hy hf
    refine ⟨(.ok (), (v.swap v1).1), by simp only [copy_assign, e], ?_⟩
    exact hv1.inv

theorem init_holds : (init : vector T).Holds [] := by
  refine ⟨Nat.le_refl _, Nat.le_refl _, rfl, ?_⟩
  simp [init, capacity]

theorem reach_inv (E : Elem T) (v : vector T) (h : Reach E v) : v.Inv := by
    induction h with
    | init => exact init_holds.inv
    | fill_init alloc n value v e =>
      by_cases hal : alloc n = none
      · simp [vector.fill_init, hal] at e
      · obtain ⟨v1, e1, hv1, _⟩ := fill_init_holds alloc n value hal
        rw [e1] at e
        cases e
        exact hv1.inv
    | fill_default alloc n v e =>
      by_cases hal : alloc n = none
      · simp [vector.fill_default, vector.fill_init, hal] at e
      · obtain ⟨v1, e1, hv1, _⟩ := fill_init_holds alloc n E.dflt hal
        unfold vector.fill_default at e
        rw [e1] at e
        cases e
        exact hv1.inv
    | copy_ctor alloc other v _ e ih =>
      obtain ⟨ys, hy⟩ := ih.holds
      by_cases hal : alloc other.size = none
      · rw [copy_ctor_error alloc other hal] at e
        cases e
      · obtain ⟨v1, e1, hv1, _⟩ := copy_ctor_holds alloc hy hal
        rw [e1] at e
        cases e
        exact hv1.inv
    | move_ctor_target other _ ih => exact ih
    | move_ctor_source other _ _ => exact init_holds.inv
    | copy_assign alloc v other r _ _ e ih1 ih2 =>
      obtain ⟨r1, e1, hr1⟩ := copy_assign_inv alloc ih1 ih2
      rw [e1] at e
      cases e
      exact hr1
    | move_assign_target v other _ _ _ ih2 => exact ih2
    | move_assign_source v other _ _ _ _ => exact init_holds.inv
    | assign_self v _ ih => exact ih
    | reserve alloc n v _ ih => exact reserve_inv E alloc n ih
    | resize alloc n value v r _ e ih =>
      obtain ⟨r1, e1, hr1⟩ := resize_inv E alloc n value ih
      rw [e1] at e
      cases e
      exact hr1
    | shrink_to_fit alloc v _ ih => exact shrink_to_fit_inv E alloc ih
    | push_back alloc value v _ ih => exact push_back_inv E alloc value ih
    | emplace_back alloc value v _ ih => exact push_back_inv E alloc value ih
    | pop_back v _ hne ih =>
      obtain ⟨xs, hx⟩ := ih.holds
      have hs := hx.2.2.1
      have : xs ≠ [] := by
        intro e
        subst e
        have h1 := hx.1
        simp only [size, List.length_nil] at hs
        have : v.begin_ = v.end_ := by omega
        simp [vector.empty, this] at hne
      exact (pop_back_holds hx this).1.inv
    | insert alloc pos value v r _ h1 h2 e ih =>
      obtain ⟨r1, e1, hr1⟩ := insert_inv E alloc pos value ih h1 h2
      rw [e1] at e
      cases e
      exact hr1
    | emplace alloc pos value v r _ h1 h2 e ih =>
      obtain ⟨r1, e1, hr1⟩ := insert_inv E alloc pos value ih h1 h2
      rw [emplace_eq_insert, e1] at e
      cases e
      exact hr1
    | erase pos v r _ h1 h2 e ih =>
      obtain ⟨v1, e1, hv1, _⟩ := erase_inv E ih pos h1 h2
      rw [e1] at e
      cases e
      exact hv1
    | erase_range first last v r _ h1 h2 h3 e ih =>
      obtain ⟨v1, e1, hv1, _⟩ := erase_range_inv E ih first last h1 h2 h3
      rw [e1] at e
      cases e
      exact hv1
    | clear v v1 _ e ih =>
      obtain ⟨xs, hx⟩ := ih.holds
      obtain ⟨v2, e2, hv2, _⟩ := clear_holds hx
      rw [e2] at e
      cases e
      exact hv2.inv
    | swap_this v other _ _ _ ih2 => exact ih2
    | swap_other v other _ _ ih1 _ => exact ih1

theorem push_all_holds (E : Elem T) (alloc : Nat → Option Nat) (hal : ∀ n, alloc n ≠ none) :
    ∀ (xs : List T) (v : vector T) (ys : List T), v.Holds ys →
      (push_all E alloc xs v).1 = .ok () ∧ (push_all E alloc xs v).2.Holds (ys ++ xs) := by
  intro xs
  induction xs with
  | nil =>
    intro v ys h
    simpa [push_all] using h
  | cons x xs ih =>
    intro v ys h
    obtain ⟨r1, r2, _⟩ := push_back_holds E alloc h (fun _ => hal _) x
    unfold push_all
    cases hr : v.push_back E alloc x with
    | mk a b =>
      rw [hr] at r1 r2
      simp only at r1 r2
      subst r1
      simpa using ih b (ys ++ [x]) r2

/-! ### Value-level specification of the two erase loops -/

theorem erase_move_spec (E : Elem T) (d : Nat) (hd : 0 < d) :
    ∀ (fuel it ne e : Nat) (m : Block T),
    it = ne + d → it ≤ e → e ≤ m.length → e - it ≤ fuel →
    ∃ m1, erase_move E fuel it ne e m = some (ne + (e - it), m1) ∧ m1.length = m.length ∧
      ∀ j, load m1 j =
        if ne ≤ j ∧ j < ne + (e - it) then load m (j + d)
        else if it ≤ j ∧ j < e then (load m j).map E.moved else load m j := by
  intro fuel
  induction fuel with
  | zero =>
    intro it ne e m h1 h2 h3 h4
    have hie : it = e := by omega
    refine ⟨m, ?_, rfl, ?_⟩
    · subst hie
      simp [erase_move]
    · intro j
      rw [if_neg (show ¬ (ne ≤ j ∧ j < ne + (e - it)) by omega),
        if_neg (show ¬ (it ≤ j ∧ j < e) by omega)]
  | succ fuel ih =>
    intro it ne e m h1 h2 h3 h4
    unfold erase_move
    by_cases hie : it = e
    · refine ⟨m, ?_, rfl, ?_⟩
      · subst hie
        simp
      · intro j
        rw [if_neg (show ¬ (ne ≤ j ∧ j < ne + (e - it)) by omega),
          if_neg (show ¬ (it ≤ j ∧ j < e) by omega)]
    · obtain ⟨m1, e1, hl, hp⟩ := ih (it + 1) (ne + 1) e (assign_move E m ne it) (by omega)
        (by omega) (by rw [length_assign_move]; exact h3) (by omega)
      refine ⟨m1, ?_, by rw [hl, length_assign_move], ?_⟩
      · have hb : bne it e = true := by simpa using hie
        rw [if_pos hb, e1]
        congr 2
        omega
      · intro j
        rw [hp j]
        have hla := fun k => load_assign_move E m ne it k (show ne ≠ it by omega)
          (show ne < m.length by omega) (show it < m.length by omega)
        by_cases c1 : ne + 1 ≤ j ∧ j < ne + 1 + (e - (it + 1))
        · rw [if_pos c1, if_pos (show ne ≤ j ∧ j < ne + (e - it) by omega), hla,
            if_neg (show ¬ j + d = it by omega), if_neg (show ¬ j + d = ne by omega)]
        · rw [if_neg c1]
          by_cases c2 : j = ne
          · subst c2
            rw [if_neg (show ¬ (it + 1 ≤ j ∧ j < e) by omega),
              if_pos (show j ≤ j ∧ j < j + (e - it) by omega), hla,
              if_neg (show ¬ j = it by omega), if_pos rfl, h1]
          · rw [if_neg (show ¬ (ne ≤ j ∧ j < ne + (e - it)) by omega)]
            by_cases c3 : it + 1 ≤ j ∧ j < e
            · rw [if_pos c3, if_pos (show it ≤ j ∧ j < e by omega), hla,
                if_neg (show ¬ j = it by omega), if_neg c2]
            · rw [if_neg c3, hla]
              by_cases c4 : j = it
              · rw [if_pos c4, if_pos (show it ≤ j ∧ j < e by omega), c4]
              · rw [if_neg c4, if_neg c2, if_neg (show ¬ (it ≤ j ∧ j < e) by omega)]

theorem load_assign_move_self (E : Elem T) (m : Block T) (i j : Nat) (hi : i < m.length) :
    load (assign_move E m i i) j = if j = i then (load m i).map E.self_moved else load m j := by
  unfold assign_move
  rw [if_pos rfl, load_set]
  by_cases c : i = j
  · subst c
    simp [hi]
  · rw [if_neg c, if_neg (show ¬ j = i from fun e => c e.symm)]

theorem erase_move_self (E : Elem T) :
    ∀ (fuel it e : Nat) (m : Block T), it ≤ e → e ≤ m.length → e - it ≤ fuel →
    ∃ m1, erase_move E fuel it it e m = some (e, m1) ∧ m1.length = m.length ∧
      ∀ j, load m1 j = if it ≤ j ∧ j < e then (load m j).map E.self_moved else load m j := by
  intro fuel
  induction fuel with
  | zero =>
    intro it e m h2 h3 h4
    have hie : it = e := by omega
    subst hie
    refine ⟨m, by simp [erase_move], rfl, ?_⟩
    intro j
    rw [if_neg (show ¬ (it ≤ j ∧ j < it) by omega)]
  | succ fuel ih =>
    intro it e m h2 h3 h4
    unfold erase_move
    by_cases hie : it = e
    · subst hie
      refine ⟨m, by simp, rfl, ?_⟩
      intro j
      rw [if_neg (show ¬ (it ≤ j ∧ j < it) by omega)]
    · obtain ⟨m1, e1, hl, hp⟩ := ih (it + 1) e (assign_move E m it it) (by omega)
        (by rw [length_assign_move]; exact h3) (by omega)
      refine ⟨m1, ?_, by rw [hl, length_assign_move], ?_⟩
      · have hb : bne it e = true := by simpa using hie
        rw [if_pos hb, e1]
      · intro j
        rw [hp j, load_assign_move_self E m it j (by omega)]
        by_cases c1 : it + 1 ≤ j ∧ j < e
        · rw [if_pos c1, if_pos (show it ≤ j ∧ j < e by omega),
            if_neg (show ¬ j = it by omega)]
        · rw [if_neg c1]
          by_cases c2 : j = it
          · rw [if_pos c2, if_pos (show it ≤ j ∧ j < e by omega), c2]
          · rw [if_neg c2, if_neg (show ¬ (it ≤ j ∧ j < e) by omega)]

theorem erase_shift_eq (E : Elem T) : ∀ (fuel it e : Nat) (m : Block T),
    erase_shift E fuel it e m = (erase_move E fuel (it + 1) it e m).map Prod.snd := by
  intro fuel
  induction fuel with
  | zero =>
    intro it e m
    unfold erase_shift erase_move
    split_ifs <;> rfl
  | succ fuel ih =>
    intro it e m
    unfold erase_shift erase_move
    split_ifs
    · exact ih (it + 1) e _
    · rfl

theorem erase_range_holds (E : Elem T) {v : vector T} {xs : List T} (h : v.Holds xs)
    (f l : Nat) (hfl : f < l) (hl : l ≤ xs.length) :
    ∃ v1, v.erase_range E (v.begin_ + f) (v.begin_ + l) = some (v.begin_ + f, v1) ∧
      v1.Holds (xs.take f ++ xs.drop l) ∧ v1.capacity = v.capacity ∧
      v1.begin_ = v.begin_ := by
  obtain ⟨g1, g2, g3, g4⟩ := id h
  have hml := h.mem_length
  simp only [size, capacity] at g3 hml
  obtain ⟨m1, e1, hl1, hp1⟩ := erase_move_spec E (l - f) (by omega) (v.capacity + 1) l f
    (v.end_ - v.begin_) v.mem (by omega) (by omega) (by omega) (by simp only [capacity]; omega)
  obtain ⟨m2, e2, hl2, hp2⟩ := destroy_range_spec (v.capacity + 1)
    (f + (v.end_ - v.begin_ - l)) (v.end_ - v.begin_) m1 (by omega)
    (by simp only [capacity]; omega)
  have hlen : (xs.take f ++ xs.drop l).length = f + (xs.length - l) := by
    simp only [List.length_append, List.length_take, List.length_drop]
    omega
  refine ⟨{ v with end_ := v.begin_ + (f + (v.end_ - v.begin_ - l)), mem := m2 }, ?_, ?_, rfl,
    rfl⟩
  · unfold erase_range
    simp only [Nat.add_sub_cancel_left, e1, e2]
  · apply holds_of_load
    · simp
    · show v.begin_ + (f + (v.end_ - v.begin_ - l)) ≤ v.cap_
      omega
    · simp only [size, Nat.add_sub_cancel_left, hlen]
      omega
    · simp [capacity, hl2, hl1, hml]
    · intro j _
      show load m2 j = _
      rw [hp2 j, hp1 j, h.load, h.load]
      by_cases c1 : j < f
      · rw [if_neg (show ¬ (f + (v.end_ - v.begin_ - l) ≤ j ∧ j < v.end_ - v.begin_) by omega),
          if_neg (show ¬ (f ≤ j ∧ j < f + (v.end_ - v.begin_ - l)) by omega),
          if_neg (show ¬ (l ≤ j ∧ j < v.end_ - v.begin_) by omega),
          List.getElem?_append_left (by simp only [List.length_take]; omega),
          List.getElem?_take, if_pos c1]
      · by_cases c2 : j < f + (v.end_ - v.begin_ - l)
        · rw [if_neg (show ¬ (f + (v.end_ - v.begin_ - l) ≤ j ∧ j < v.end_ - v.begin_) by omega),
            if_pos (show f ≤ j ∧ j < f + (v.end_ - v.begin_ - l) by omega),
            List.getElem?_append_right (by simp only [List.length_take]; omega),
            List.getElem?_drop]
          congr 1
          simp only [List.length_take]
          omega
        · have hnone : (xs.take f ++ xs.drop l)[j]? = none :=
            List.getElem?_eq_none (by omega)
          rw [hnone]
          by_cases c3 : j < v.end_ - v.begin_
          · rw [if_pos (show f + (v.end_ - v.begin_ - l) ≤ j ∧ j < v.end_ - v.begin_ by omega)]
          · rw [if_neg (show ¬ (f + (v.end_ - v.begin_ - l) ≤ j ∧ j < v.end_ - v.begin_) by omega),
              if_neg (show ¬ (f ≤ j ∧ j < f + (v.end_ - v.begin_ - l)) by omega),
              if_neg (show ¬ (l ≤ j ∧ j < v.end_ - v.begin_) by omega)]
            exact List.getElem?_eq_none (by omega)

theorem erase_range_empty_holds (E : Elem T) {v : vector T} {xs : List T} (h : v.Holds xs)
    (f : Nat) (hf : f ≤ xs.length) :
    ∃ v1, v.erase_range E (v.begin_ + f) (v.begin_ + f) = some (v.begin_ + f, v1) ∧
      v1.Holds (xs.take f ++ (xs.drop f).map E.self_moved) ∧ v1.capacity = v.capacity := by
  obtain ⟨g1, g2, g3, g4⟩ := id h
  have hml := h.mem_length
  simp only [size, capacity] at g3 hml
  obtain ⟨m1, e1, hl1, hp1⟩ := erase_move_self E (v.capacity + 1) f (v.end_ - v.begin_) v.mem
    (by omega) (by omega) (by simp only [capacity]; omega)
  obtain ⟨m2, e2, hl2, hp2⟩ := destroy_range_spec (v.capacity + 1)
    (v.end_ - v.begin_) (v.end_ - v.begin_) m1 (by omega) (by omega)
  have hlen : (xs.take f ++ (xs.drop f).map E.self_moved).length = xs.length := by
    simp only [List.length_append, List.length_take, List.length_map, List.length_drop]
    omega
  refine ⟨{ v with end_ := v.begin_ + (v.end_ - v.begin_), mem := m2 }, ?_, ?_, rfl⟩
  · unfold erase_range
    simp only [Nat.add_sub_cancel_left, e1, e2]
  · apply holds_of_load
    · simp
    · show v.begin_ + (v.end_ - v.begin_) ≤ v.cap_
      omega
    · simp only [size, Nat.add_sub_cancel_left, hlen]
      omega
    · simp [capacity, hl2, hl1, hml]
    · intro j _
      show load m2 j = _
      rw [hp2 j, if_neg (show ¬ (v.end_ - v.begin_ ≤ j ∧ j < v.end_ - v.begin_) by omega),
        hp1 j, h.load]
      by_cases c1 : j < f
      · rw [if_neg (show ¬ (f ≤ j ∧ j < v.end_ - v.begin_) by omega),
          List.getElem?_append_left (by simp only [List.length_take]; omega),
          List.getElem?_take, if_pos c1]
      · rw [List.getElem?_append_right (by simp only [List.length_take]; omega),
          List.getElem?_map, List.getElem?_drop]
        have hidx : f + (j - (xs.take f).length) = j := by
          simp only [List.length_take]
          omega
        rw [hidx]
        by_cases c3 : j < v.end_ - v.begin_
        · rw [if_pos (show f ≤ j ∧ j < v.end_ - v.begin_ by omega)]
        · rw [if_neg (show ¬ (f ≤ j ∧ j < v.end_ - v.begin_) by omega),
            List.getElem?_eq_none (show xs.length ≤ j by omega)]
          rfl

theorem Holds.ext {v w : vector T} {xs : List T} (hv : v.Holds xs) (hw : w.Holds xs)
    (hb : v.begin_ = w.begin_) (hc : v.cap_ = w.cap_) : v = w := by
  obtain ⟨_, _, a3, a4⟩ := hv
  obtain ⟨_, _, b3, b4⟩ := hw
  cases v with
  | mk vb ve vc vm =>
    cases w with
    | mk wb we wc wm =>
      simp only [size, capacity] at *
      subst hb hc
      have he : ve = we := by omega
      subst he
      rw [a4, b4]

theorem destroy_range_one (fuel k l : Nat) (m : Block T) (h : l = k + 1) :
    destroy_range (fuel + 1) k l m = some (destroy m k) := by
  subst h
  unfold destroy_range
  rw [if_pos (by simp)]
  cases fuel <;> simp [destroy_range]

theorem erase_eq_erase_range (E : Elem T) {v : vector T} {xs : List T} (h : v.Holds xs)
    (p : Nat) (hp : p < xs.length) :
    v.erase E (v.begin_ + p) = v.erase_range E (v.begin_ + p) (v.begin_ + (p + 1)) := by
  obtain ⟨g1, g2, g3, g4⟩ := id h
  have hml := h.mem_length
  simp only [size, capacity] at g3 hml
  obtain ⟨m1, e1, hl1, _⟩ := erase_move_spec E 1 (by omega) (v.capacity + 1) (p + 1) p
    (v.end_ - v.begin_) v.mem rfl (by omega) (by omega) (by simp only [capacity]; omega)
  have a1 : p + (v.end_ - v.begin_ - (p + 1)) = v.end_ - 1 - v.begin_ := by omega
  have a2 : v.begin_ + (v.end_ - 1 - v.begin_) = v.end_ - 1 := by omega
  unfold erase erase_range
  simp only [Nat.add_sub_cancel_left, erase_shift_eq, e1, Option.map_some', a1, a2]
  rw [destroy_range_one _ _ _ _ (by omega)]

theorem erase_holds (E : Elem T) {v : vector T} {xs : List T} (h : v.Holds xs)
    (p : Nat) (hp : p < xs.length) :
    ∃ v1, v.erase E (v.begin_ + p) = some (v.begin_ + p, v1) ∧
      v1.Holds (xs.take p ++ xs.drop (p + 1)) ∧ v1.capacity = v.capacity ∧
      v1.begin_ = v.begin_ := by
  rw [erase_eq_erase_range E h p hp]
  exact erase_range_holds E h p (p + 1) (by omega) (by omega)

theorem Holds.back_getLast {v : vector T} {xs : List T} (h : v.Holds xs) : v.back = xs.getLast? := by
  obtain ⟨h1, h2, h3, _⟩ := id h
  simp only [size] at h3
  unfold vector.back deref
  rw [h.load, List.getLast?_eq_getElem?]
  congr 1
  omega

theorem getElem?_erase_at (xs : List T) (p : Nat) (hp : p < xs.length) (j : Nat) :
    (xs.take p ++ xs.drop (p + 1))[j]? = if j < p then xs[j]? else xs[j + 1]? := by
  by_cases c : j < p
  · rw [if_pos c, List.getElem?_append_left (by simp only [List.length_take]; omega),
      List.getElem?_take, if_pos c]
  · rw [if_neg c, List.getElem?_append_right (by simp only [List.length_take]; omega),
      List.getElem?_drop]
    congr 1
    simp only [List.length_take]
    omega

theorem clear_cursors {v v1 : vector T} (h : v.clear = some v1) :
    v1.begin_ = v.begin_ ∧ v1.end_ = v.begin_ ∧ v1.cap_ = v.cap_ := by
  unfold clear at h
  cases hd : destroy_range (v.capacity + 1) 0 (v.end_ - v.begin_) v.mem with
  | none => rw [hd] at h; cases h
  | some m =>
    rw [hd] at h
    cases h
    exact ⟨rfl, rfl, rfl⟩

theorem range_loop_begin : ∀ (fuel first last : Nat) (src : Block T) (v v1 : vector T),
    range_loop fuel first last src v = some v1 → v1.begin_ = v.begin_ := by
  intro fuel
  induction fuel with
  | zero =>
    intro first last src v v1 h
    unfold range_loop at h
    split_ifs at h
    cases h
    rfl
  | succ fuel ih =>
    intro first last src v v1 h
    unfold range_loop at h
    split_ifs at h
    · have k := ih _ _ _ _ _ h
      exact k
    · cases h
      rfl

theorem copy_ctor_begin (alloc : Nat → Option Nat) (other v : vector T)
    (h : copy_ctor alloc other = some (.ok v)) : alloc other.size = some v.begin_ := by
  unfold copy_ctor at h
  dsimp only at h
  simp only [size]
  cases ha : alloc (other.end_ - other.begin_) with
  | none =>
    rw [ha] at h
    cases h
  | some b =>
    rw [ha] at h
    simp only at h
    cases hr : range_loop (other.capacity + 1) 0 (other.end_ - other.begin_) other.mem
        ⟨b, b, b + (other.end_ - other.begin_), List.replicate (other.end_ - other.begin_) none⟩ with
    | none =>
      rw [hr] at h
      cases h
    | some w =>
      rw [hr] at h
      cases h
      rw [range_loop_begin _ _ _ _ _ _ hr]

theorem move_ctor_fst (a : vector T) : (move_ctor a).1 = a := by
  cases a
  rfl

theorem move_assign_fst (b a : vector T) : (move_assign b a).1 = a := by
  cases a
  rfl

theorem reallocate_throws (E : Elem T) (alloc : Nat → Option Nat) (c : Nat) (v : vector T)
    (e : Exn) (v1 : vector T) (h : v.reallocate E alloc c = (.error e, v1)) :
    e = .bad_alloc ∧ v1 = v ∧ alloc c = none := by
  unfold reallocate at h
  cases ha : alloc c with
  | none =>
    rw [ha] at h
    cases h
    exact ⟨rfl, rfl, rfl⟩
  | some b =>
    rw [ha] at h
    cases h

theorem reserve_throws (E : Elem T) (alloc : Nat → Option Nat) (n : Nat) (v : vector T)
    (e : Exn) (v1 : vector T) (h : v.reserve E alloc n = (.error e, v1)) :
    e = .bad_alloc ∧ v1 = v := by
  unfold reserve at h
  split_ifs at h
  · cases h
  · exact ⟨(reallocate_throws E alloc _ v e v1 h).1, (reallocate_throws E alloc _ v e v1 h).2.1⟩

theorem shrink_to_fit_throws (E : Elem T) (alloc : Nat → Option Nat) (v : vector T)
    (e : Exn) (v1 : vector T) (h : v.shrink_to_fit E alloc = (.error e, v1)) :
    e = .bad_alloc ∧ v1 = v := by
  unfold shrink_to_fit at h
  split_ifs at h
  · exact ⟨(reallocate_throws E alloc _ v e v1 h).1, (reallocate_throws E alloc _ v e v1 h).2.1⟩
  · cases h

theorem grow_throws (E : Elem T) (alloc : Nat → Option Nat) (v : vector T)
    (e : Exn) (v1 : vector T)
    (h : (if v.end_ = v.cap_ then v.reallocate E alloc v.grow_size else (.ok (), v)) =
      (.error e, v1)) : e = .bad_alloc ∧ v1 = v := by
  split_ifs at h
  · exact ⟨(reallocate_throws E alloc _ v e v1 h).1, (reallocate_throws E alloc _ v e v1 h).2.1⟩
  · cases h

theorem push_back_throws (E : Elem T) (alloc : Nat → Option Nat) (x : T) (v : vector T)
    (e : Exn) (v1 : vector T) (h : v.push_back E alloc x = (.error e, v1)) :
    e = .bad_alloc ∧ v1 = v := by
  unfold push_back at h
  cases hg : (if v.end_ = v.cap_ then v.reallocate E alloc v.grow_size else (.ok (), v)) with
  | mk r w =>
    rw [hg] at h
    cases r with
    | error e2 =>
      cases h
      exact grow_throws E alloc v e v1 hg
    | ok u => cases h

theorem insert_throws (E : Elem T) (alloc : Nat → Option Nat) (pos : Nat) (x : T)
    (v : vector T) (e : Exn) (v1 : vector T)
    (h : v.insert E alloc pos x = some (.error e, v1)) : e = .bad_alloc ∧ v1 = v := by
  unfold insert at h
  dsimp only at h
  cases hg : (if v.end_ = v.cap_ then v.reallocate E alloc v.grow_size else (.ok (), v)) with
  | mk r w =>
    rw [hg] at h
    cases r with
    | error e2 =>
      cases h
      exact grow_throws E alloc v e v1 hg
    | ok u =>
      exfalso
      dsimp only at h
      split_ifs at h
      · split at h
        · cases h
        · cases h
      · cases h

theorem resize_throws (E : Elem T) (alloc : Nat → Option Nat) (n : Nat) (x : T)
    (v : vector T) (e : Exn) (v1 : vector T)
    (h : v.resize E alloc n x = some (.error e, v1)) : e = .bad_alloc ∧ v1 = v := by
  unfold resize at h
  split_ifs at h
  · split at h
    · cases h
    · cases h
  · cases hr : v.reserve E alloc n with
    | mk r w =>
      rw [hr] at h
      cases r with
      | error e2 =>
        cases h
        exact reserve_throws E alloc n v e v1 hr
      | ok u => cases h
  · cases h

/-! ### Capacity after a run of `push_back` -/

theorem push_all_growth (E : Elem T) (alloc : Nat → Option Nat) (hal : ∀ n, alloc n ≠ none) :
    ∀ (xs : List T) (v : vector T) (ys : List T) (j : Nat),
      v.Holds ys → v.capacity = 16 * 2 ^ j → (j = 0 ∨ 16 * 2 ^ (j - 1) < ys.length) →
      ∃ j1, (push_all E alloc xs v).2.capacity = 16 * 2 ^ j1 ∧
        (j1 = 0 ∨ 16 * 2 ^ (j1 - 1) < ys.length + xs.length) ∧
        push_all_reallocs E alloc xs v + j = j1 ∧
        (push_all E alloc xs v).2.Holds (ys ++ xs) := by
  intro xs
  induction xs with
  | nil =>
    intro v ys j hv hcap hj
    refine ⟨j, hcap, by simpa using hj, by simp [push_all_reallocs], by simpa [push_all] using hv⟩
  | cons x xs ih =>
    intro v ys j hv hcap hj
    obtain ⟨r1, r2, r3⟩ := push_back_holds E alloc hv (fun _ => hal _) x
    have hsz := hv.2.2.1
    have hle := hv.size_le
    have hpos : 0 < 16 * 2 ^ j := Nat.mul_pos (by decide) (Nat.pow_pos (by decide))
    cases hr : v.push_back E alloc x with
    | mk a b =>
      rw [hr] at r1 r2 r3
      simp only at r1 r2 r3
      subst r1
      have hlen : (ys ++ [x]).length = ys.length + 1 := by simp
      by_cases hfull : v.size = v.capacity
      · have hend : v.end_ = v.cap_ := hv.end_eq_cap_iff.mpr hfull
        have hcb : b.capacity = 16 * 2 ^ (j + 1) := by
          rw [r3, if_pos hfull]
          unfold grow_size
          rw [if_neg (by omega), hcap, Nat.pow_succ]
          omega
        obtain ⟨j1, k1, k2, k3, k4⟩ := ih b (ys ++ [x]) (j + 1) r2 hcb (by
          right
          rw [Nat.add_sub_cancel, hlen, ← hcap, ← hfull, hsz]
          omega)
        refine ⟨j1, ?_, ?_, ?_, ?_⟩
        · simpa [push_all, hr] using k1
        · rw [hlen] at k2
          simp only [List.length_cons]
          rcases k2 with k | k
          · exact Or.inl k
          · right
            omega
        · unfold push_all_reallocs
          rw [if_pos hend, hr]
          simp only
          omega
        · simpa [push_all, hr] using k4
      · have hend : ¬ v.end_ = v.cap_ := fun e => hfull (hv.end_eq_cap_iff.mp e)
        have hcb : b.capacity = 16 * 2 ^ j := by
          rw [r3, if_neg hfull, hcap]
        obtain ⟨j1, k1, k2, k3, k4⟩ := ih b (ys ++ [x]) j r2 hcb (by
          rw [hlen]
          rcases hj with k | k
          · exact Or.inl k
          · right
            omega)
        refine ⟨j1, ?_, ?_, ?_, ?_⟩
        · simpa [push_all, hr] using k1
        · rw [hlen] at k2
          simp only [List.length_cons]
          rcases k2 with k | k
          · exact Or.inl k
          · right
            omega
        · unfold push_all_reallocs
          rw [if_neg hend, hr]
          simp only
          omega
        · simpa [push_all, hr] using k4

/-! ### Capacity under each operation, whatever the allocator does -/

theorem reallocate_capacity_ge (E : Elem T) (alloc : Nat → Option Nat) (c : Nat) (v : vector T)
    (hc : v.capacity ≤ c) : v.capacity ≤ (v.reallocate E alloc c).2.capacity := by
  unfold reallocate
  cases alloc c with
  | none => exact Nat.le_refl _
  | some nb =>
    simp only [capacity, Nat.add_sub_cancel_left]
    simpa [capacity] using hc

theorem capacity_le_grow_size (v : vector T) : v.capacity ≤ v.grow_size := by
  unfold grow_size
  split_ifs <;> omega

theorem grow_capacity_ge (E : Elem T) (alloc : Nat → Option Nat) (v : vector T) :
    v.capacity ≤
      (if v.end_ = v.cap_ then v.reallocate E alloc v.grow_size else (Except.ok (), v)).2.capacity := by
  split_ifs
  · exact reallocate_capacity_ge E alloc _ v (capacity_le_grow_size v)
  · exact Nat.le_refl _

theorem insert_capacity_ge (E : Elem T) (alloc : Nat → Option Nat) (pos : Nat) (x : T)
    (v : vector T) (r : Except Exn Nat × vector T) (h : v.insert E alloc pos x = some r) :
    v.capacity ≤ r.2.capacity := by
  have hg := grow_capacity_ge E alloc v
  unfold insert at h
  dsimp only at h
  cases hr : (if v.end_ = v.cap_ then v.reallocate E alloc v.grow_size else (Except.ok (), v)) with
  | mk a w =>
    rw [hr] at h hg
    cases a with
    | error e =>
      cases h
      exact hg
    | ok u =>
      dsimp only at h
      split_ifs at h
      · split at h
        · cases h
        · cases h
          exact hg
      · cases h
        exact hg

theorem erase_capacity (E : Elem T) (pos : Nat) (v : vector T) (r : Nat × vector T)
    (h : v.erase E pos = some r) : r.2.capacity = v.capacity := by
  unfold erase at h
  dsimp only at h
  split at h
  · cases h
  · cases h
    rfl

/-- C3. `v.at(n)` throws `out_of_range` if and only if `n ≥ v.size()`, and for
`n < v.size()` it returns the element `v[n]`.  The call does not write to the
vector: `at_` has no vector among its results. -/
theorem at_spec (v : vector T) (n : Nat) :
    (v.at_ n = .error .out_of_range ↔ n ≥ v.size) ∧
      (n < v.size → v.at_ n = .ok (v.index n)) := by
  unfold at_
  by_cases h : n ≥ v.size
  · rw [if_pos h]
    exact ⟨⟨fun _ => h, fun _ => rfl⟩, fun hlt => absurd h (by omega)⟩
  · rw [if_neg h]
    exact ⟨⟨fun e => (by cases e), fun e => absurd e h⟩, fun _ => rfl⟩

/-- C4. Pushing the elements of `xs` in order with `push_back` onto a
default-constructed vector, the allocator never failing, ends without an
exception and yields `size() = |xs|` and `v[i] = xs[i]` for every `i < |xs|`.
Every reallocation of a well-formed vector to a capacity that holds its
elements keeps `size()` and every `v[i]`. -/
theorem push_back_sequence (E : Elem T) (alloc : Nat → Option Nat)
    (hal : ∀ n, alloc n ≠ none) (xs : List T) :
    (push_all E alloc xs init).1 = .ok () ∧
    (push_all E alloc xs init).2.size = xs.length ∧
    (∀ i (hi : i < xs.length), (push_all E alloc xs init).2.index i = some xs[i]) ∧
    (∀ (v : vector T) (c : Nat), v.Inv → v.size ≤ c →
      (v.reallocate E alloc c).1 = .ok () ∧ (v.reallocate E alloc c).2.size = v.size ∧
      ∀ i, (v.reallocate E alloc c).2.index i = v.index i) := by
  obtain ⟨r1, r2⟩ := push_all_holds E alloc hal xs init [] init_holds
  rw [List.nil_append] at r2
  refine ⟨r1, r2.2.2.1, ?_, ?_⟩
  · intro i hi
    rw [r2.index, List.getElem?_eq_getElem hi]
  · intro v c hv hc
    obtain ⟨ys, hy⟩ := hv.holds
    obtain ⟨b, hb⟩ := Option.ne_none_iff_exists'.mp (hal c)
    obtain ⟨v1, e, hv1, _⟩ := reallocate_holds E alloc hy hb (by rw [← hy.2.2.1]; exact hc)
    rw [e]
    refine ⟨rfl, by rw [hv1.2.2.1, hy.2.2.1], fun i => by rw [hv1.index, hy.index]⟩

theorem push_back_sequence_witness :
    (∀ n, (fun n => some (n + 1) : Nat → Option Nat) n ≠ none) ∧
    (push_all (Elem.trivial 0) (fun n => some (n + 1)) [1, 2, 3] init).2.size = 3 :=
  ⟨fun n => by simp,
   (push_back_sequence (Elem.trivial 0) (fun n => some (n + 1)) (fun n => by simp)
      [1, 2, 3]).2.1⟩

/-- C5. Growth rule.  On a well-formed vector, with an allocator that does not
fail, `push_back`, `emplace_back`, `insert` and `emplace` (at any position
`p ≤ size()`) return normally and leave `capacity()` equal to twice the old
capacity, or 16 when the old capacity was 0, if `size() = capacity()` held
before the call, and unchanged if `size() < capacity()` held. -/
theorem growth_rule (E : Elem T) (alloc : Nat → Option Nat) (v : vector T) (x : T) (p : Nat)
    (h : v.Inv) (hal : ∀ n, alloc n ≠ none) (hp : p ≤ v.size) :
    ((v.push_back E alloc x).1 = .ok () ∧
      (v.push_back E alloc x).2.capacity =
        (if v.size = v.capacity then (if v.capacity = 0 then 16 else 2 * v.capacity)
         else v.capacity)) ∧
    ((v.emplace_back E alloc x).1 = .ok () ∧
      (v.emplace_back E alloc x).2.capacity =
        (if v.size = v.capacity then (if v.capacity = 0 then 16 else 2 * v.capacity)
         else v.capacity)) ∧
    (∃ it v1, v.insert E alloc (v.begin_ + p) x = some (.ok it, v1) ∧
      v1.capacity =
        (if v.size = v.capacity then (if v.capacity = 0 then 16 else 2 * v.capacity)
         else v.capacity)) ∧
    (∃ it v1, v.emplace E alloc (v.begin_ + p) x = some (.ok it, v1) ∧
      v1.capacity =
        (if v.size = v.capacity then (if v.capacity = 0 then 16 else 2 * v.capacity)
         else v.capacity)) := by
  obtain ⟨xs, hx⟩ := h.holds
  have hg : v.grow_size = (if v.capacity = 0 then 16 else 2 * v.capacity) := by
    unfold grow_size
    split_ifs
    · rfl
    · omega
  obtain ⟨r1, _, r3⟩ := push_back_holds E alloc hx (fun _ => hal _) x
  obtain ⟨v1, e, _, hcap⟩ := insert_holds E alloc hx (fun _ => hal _) p
    (by rw [← hx.2.2.1]; exact hp) x
  rw [hg] at r3 hcap
  exact ⟨⟨r1, r3⟩, ⟨r1, r3⟩, ⟨_, v1, e, hcap⟩, ⟨_, v1, by rw [emplace_eq_insert, e], hcap⟩⟩

theorem growth_rule_witness :
    (⟨5, 7, 7, [some 1, some 2]⟩ : vector Nat).Inv ∧
    ((⟨5, 7, 7, [some 1, some 2]⟩ : vector Nat).push_back (Elem.trivial 0)
      (fun n => some (n + 1)) 3).2.capacity = 4 :=
  ⟨(@Holds.inv Nat _ [1, 2] ⟨by decide, by decide, rfl, rfl⟩),
   (growth_rule (Elem.trivial 0) (fun n => some (n + 1)) ⟨5, 7, 7, [some 1, some 2]⟩ 3 0
      (@Holds.inv Nat _ [1, 2] ⟨by decide, by decide, rfl, rfl⟩) (fun n => by simp)
      (Nat.zero_le _)).1.2⟩

/-- C7. On a well-formed vector, with an allocator that does not fail,
`shrink_to_fit()` returns normally with `capacity() = size()`, and `size()`
and every `v[i]` are unchanged (whatever the size and the capacity were). -/
theorem shrink_to_fit_spec (E : Elem T) (alloc : Nat → Option Nat) (v : vector T)
    (h : v.Inv) (hal : ∀ n, alloc n ≠ none) :
    (v.shrink_to_fit E alloc).1 = .ok () ∧
    (v.shrink_to_fit E alloc).2.capacity = (v.shrink_to_fit E alloc).2.size ∧
    (v.shrink_to_fit E alloc).2.size = v.size ∧
    (∀ i, (v.shrink_to_fit E alloc).2.index i = v.index i) := by
  obtain ⟨xs, hx⟩ := h.holds
  obtain ⟨r1, r2, r3⟩ := shrink_to_fit_holds E alloc hx (fun _ => hal _)
  exact ⟨r1, by rw [r3, r2.2.2.1, hx.2.2.1], by rw [r2.2.2.1, hx.2.2.1],
    fun i => by rw [r2.index, hx.index]⟩

theorem shrink_to_fit_spec_witness :
    ((((init : vector Nat).reserve (Elem.trivial 0) (fun n => some (n + 1)) 100).2.push_back
        (Elem.trivial 0) (fun n => some (n + 1)) 1).2.push_back
        (Elem.trivial 0) (fun n => some (n + 1)) 2).2.Inv ∧
    (((((init : vector Nat).reserve (Elem.trivial 0) (fun n => some (n + 1)) 100).2.push_back
        (Elem.trivial 0) (fun n => some (n + 1)) 1).2.push_back
        (Elem.trivial 0) (fun n => some (n + 1)) 2).2.shrink_to_fit
        (Elem.trivial 0) (fun n => some (n + 1))).2.capacity = 2 := by
  have hI := reach_inv (Elem.trivial 0) _
    (Reach.push_back (fun n => some (n + 1)) 2 _
      (Reach.push_back (fun n => some (n + 1)) 1 _
        (Reach.reserve (fun n => some (n + 1)) 100 _ (Reach.init (E := Elem.trivial 0)))))
  have t := shrink_to_fit_spec (Elem.trivial 0) (fun n => some (n + 1)) _ hI (fun n => by simp)
  exact ⟨hI, t.2.1.trans (t.2.2.1.trans (by decide))⟩

/-- C9. On a well-formed vector, `resize(n, x)` with `n < size()`, of which
`resize(n)` is the case `x = value_type()`, returns normally with
`size() = n`, the first `n` elements unchanged and `capacity()` unchanged;
with `n = size()` it leaves the vector unchanged altogether.  No allocation
takes place, so the allocator is arbitrary. -/
theorem resize_shrink_spec (E : Elem T) (alloc : Nat → Option Nat) (v : vector T) (n : Nat)
    (x : T) (h : v.Inv) :
    (n < v.size → ∃ v1, v.resize E alloc n x = some (.ok (), v1) ∧
      v.resize_default E alloc n = some (.ok (), v1) ∧ v1.size = n ∧
      (∀ i, i < n → v1.index i = v.index i) ∧ v1.capacity = v.capacity) ∧
    (n = v.size → v.resize E alloc n x = some (.ok (), v) ∧
      v.resize_default E alloc n = some (.ok (), v)) := by
  obtain ⟨xs, hx⟩ := h.holds
  have hs := hx.2.2.1
  have hsc := hx.size_le
  constructor
  · intro hn
    obtain ⟨v1, e, hv1, hcap⟩ := erase_tail_holds E hx n (by omega)
    have e1 : ∀ y, v.resize E alloc n y = some (.ok (), v1) := by
      intro y
      unfold resize
      rw [if_pos hn, e]
    refine ⟨v1, e1 x, e1 E.dflt, ?_, ?_, hcap⟩
    · rw [hv1.2.2.1]
      simp
      omega
    · intro i hi
      rw [hv1.index, hx.index, List.getElem?_take, if_pos hi]
  · intro hn
    have e1 : ∀ y, v.resize E alloc n y = some (.ok (), v) := by
      intro y
      unfold resize
      rw [if_neg (by omega), if_neg (by omega)]
    exact ⟨e1 x, e1 E.dflt⟩

theorem resize_shrink_spec_witness :
    (⟨5, 7, 8, [some 1, some 2, none]⟩ : vector Nat).Inv ∧
    (∃ v1, (⟨5, 7, 8, [some 1, some 2, none]⟩ : vector Nat).resize (Elem.trivial 0)
      (fun _ => none) 1 0 = some (.ok (), v1) ∧ v1.size = 1 ∧ v1.capacity = 3) := by
  have hI : (⟨5, 7, 8, [some 1, some 2, none]⟩ : vector Nat).Inv :=
    @Holds.inv Nat _ [1, 2] ⟨by decide, by decide, rfl, rfl⟩
  obtain ⟨v1, e, _, hs, _, hc⟩ :=
    (resize_shrink_spec (Elem.trivial 0) (fun _ => none) _ 1 0 hI).1 (by decide)
  exact ⟨hI, v1, e, hs, hc⟩

/-- C10. On a well-formed vector holding `e_0 .. e_{s-1}`, with an allocator
that does not fail, `insert(begin() + p, x)` for `p ≤ s` returns normally and
leaves the vector holding `e_0 .. e_{p-1}, x, e_p .. e_{s-1}` (size `s + 1`);
the returned iterator is at offset `p` of the buffer after the call and
refers to the inserted element. -/
theorem insert_spec (E : Elem T) (alloc : Nat → Option Nat) (v : vector T) (p : Nat) (x : T)
    (h : v.Inv) (hal : ∀ n, alloc n ≠ none) (hp : p ≤ v.size) :
    ∃ v1, v.insert E alloc (v.begin_ + p) x = some (.ok (v1.begin_ + p), v1) ∧
      v1.size = v.size + 1 ∧
      v1.to_list = v.to_list.take p ++ some x :: v.to_list.drop p ∧
      (∀ i, i < p → v1.index i = v.index i) ∧
      v1.index p = some x ∧
      (∀ i, p ≤ i → i < v.size → v1.index (i + 1) = v.index i) ∧
      v1.deref (v1.begin_ + p) = some x := by
  obtain ⟨xs, hx⟩ := h.holds
  have hs := hx.2.2.1
  obtain ⟨v1, e, hv1, _⟩ := insert_holds E alloc hx (fun _ => hal _) p (by omega) x
  have hidx : ∀ j, v1.index j = if j < p then xs[j]? else if j = p then some x
      else xs[j - 1]? := by
    intro j
    rw [hv1.index, getElem?_insert_at xs p (by omega) x j]
  refine ⟨v1, e, ?_, ?_, ?_, ?_, ?_, ?_⟩
  · rw [hv1.2.2.1, hs]
    simp
    omega
  · rw [hv1.to_list, hx.to_list]
    simp [List.map_take, List.map_drop]
  · intro i hi
    rw [hidx, if_pos hi, hx.index]
  · rw [hidx, if_neg (by omega), if_pos rfl]
  · intro i h1 _
    rw [hidx, if_neg (by omega), if_neg (by omega), hx.index, Nat.add_sub_cancel]
  · have := hidx p
    rw [if_neg (by omega), if_pos rfl] at this
    exact this

theorem insert_spec_witness :
    (⟨5, 7, 7, [some 1, some 3]⟩ : vector Nat).Inv ∧
    (∃ v1, (⟨5, 7, 7, [some 1, some 3]⟩ : vector Nat).insert (Elem.trivial 0)
      (fun n => some (n + 1)) (5 + 1) 2 = some (.ok (v1.begin_ + 1), v1) ∧
      v1.to_list = [some 1, some 2, some 3]) := by
  have hI : (⟨5, 7, 7, [some 1, some 3]⟩ : vector Nat).Inv :=
    @Holds.inv Nat _ [1, 3] ⟨by decide, by decide, rfl, rfl⟩
  obtain ⟨v1, e, _, hl, _⟩ :=
    insert_spec (Elem.trivial 0) (fun n => some (n + 1)) _ 1 2 hI (fun n => by simp)
      (by decide)
  exact ⟨hI, v1, e, hl⟩

/-- C11, evaluated on an empty range.  For `first == last` the loop of
`erase(first, last)` runs `*new_end = move(*it)` with `new_end == it` on every
element from `first` to the end, a self move assignment.  With an element type
that such an assignment empties, `erase(begin(), begin())` on the vector of
"a" and "b", built by two `push_back`, returns `begin()` and leaves two empty
strings, where the claim has the vector unchanged.  (For `first < last` the
vector holds `e_0 .. e_{f-1}, e_l .. e_{s-1}`: `erase_range_holds`.) -/
theorem erase_range_empty_range_self_move :
    (push_all Elem.clearing (fun _ => some 0) ["a", "b"] init).2.to_list = [some "a", some "b"] ∧
    ((push_all Elem.clearing (fun _ => some 0) ["a", "b"] init).2.erase_range Elem.clearing
        0 0).map (fun r => (r.1, r.2.to_list)) = some (0, [some "", some ""]) := by
  constructor <;> rfl

/-- C12. On a well-formed vector holding `e_0 .. e_{s-1}`, `erase(begin() + p)`
for `p < s` ends and returns the iterator at offset `p`; the vector then holds
`e_0 .. e_{p-1}, e_{p+1} .. e_{s-1}` (size `s - 1`) with the same buffer and
capacity; the returned iterator refers to the old `e_{p+1}`, and equals `end()`
when `p = s - 1`; and the call gives the same result as
`erase(begin() + p, begin() + p + 1)`. -/
theorem erase_spec (E : Elem T) (v : vector T) (p : Nat) (h : v.Inv) (hp : p < v.size) :
    ∃ v1, v.erase E (v.begin_ + p) = some (v.begin_ + p, v1) ∧
      v1.size = v.size - 1 ∧ v1.capacity = v.capacity ∧ v1.begin_ = v.begin_ ∧
      v1.to_list = v.to_list.take p ++ v.to_list.drop (p + 1) ∧
      (∀ i, i < p → v1.index i = v.index i) ∧
      (∀ i, p ≤ i → v1.index i = v.index (i + 1)) ∧
      (p + 1 < v.size → v1.deref (v.begin_ + p) = v.index (p + 1)) ∧
      (p + 1 = v.size → v.begin_ + p = v1.end_) ∧
      v.erase E (v.begin_ + p) = v.erase_range E (v.begin_ + p) (v.begin_ + p + 1) := by
  obtain ⟨xs, hx⟩ := h.holds
  have hs := hx.2.2.1
  obtain ⟨v1, e, hv1, hcap, hb⟩ := erase_holds E hx p (by omega)
  have hidx : ∀ j, v1.index j = if j < p then xs[j]? else xs[j + 1]? := by
    intro j
    rw [hv1.index, getElem?_erase_at xs p (by omega) j]
  have hs1 : v1.size = v.size - 1 := by
    rw [hv1.2.2.1, hs]
    simp only [List.length_append, List.length_take, List.length_drop]
    omega
  refine ⟨v1, e, hs1, hcap, hb, ?_, ?_, ?_, ?_, ?_, ?_⟩
  · rw [hv1.to_list, hx.to_list]
    simp [List.map_take, List.map_drop]
  · intro i hi
    rw [hidx, if_pos hi, hx.index]
  · intro i hi
    rw [hidx, if_neg (by omega), hx.index]
  · intro _
    have h2 := hidx p
    rw [if_neg (by omega), ← hx.index] at h2
    rw [← hb]
    exact h2
  · intro hlast
    have g1 := hv1.1
    have g2 := hx.1
    simp only [size] at hs1 hlast hp
    omega
  · rw [Nat.add_assoc]
    exact erase_eq_erase_range E hx p (by omega)

theorem erase_spec_witness :
    (⟨5, 8, 9, [some 1, some 2, some 3, none]⟩ : vector Nat).Inv ∧
    (∃ v1, (⟨5, 8, 9, [some 1, some 2, some 3, none]⟩ : vector Nat).erase (Elem.trivial 0)
      (5 + 1) = some (5 + 1, v1) ∧ v1.size = 2 ∧ v1.capacity = 4 ∧
      v1.to_list = [some 1, some 3]) := by
  have hI : (⟨5, 8, 9, [some 1, some 2, some 3, none]⟩ : vector Nat).Inv :=
    @Holds.inv Nat _ [1, 2, 3] ⟨by decide, by decide, rfl, rfl⟩
  obtain ⟨v1, e, hs, hc, _, hl, _⟩ := erase_spec (Elem.trivial 0) _ 1 hI (by decide)
  exact ⟨hI, v1, e, hs, hc, hl⟩

/-- C13. On a well-formed vector, if the allocation that `push_back(x)` may
request does not fail, then `push_back(x)` returns normally with `size()` one
larger and `back() == x`, and a following `pop_back()` restores `size()` and
every element `v[i]`, and, when the vector had at least one element, the last
element `back()`. -/
theorem push_back_pop_back (E : Elem T) (alloc : Nat → Option Nat) (v : vector T) (x : T)
    (h : v.Inv) (hal : v.end_ = v.cap_ → alloc v.grow_size ≠ none) :
    (v.push_back E alloc x).1 = .ok () ∧
    (v.push_back E alloc x).2.size = v.size + 1 ∧
    (v.push_back E alloc x).2.back = some x ∧
    (v.push_back E alloc x).2.pop_back.size = v.size ∧
    (0 < v.size → (v.push_back E alloc x).2.pop_back.back = v.back) ∧
    (∀ i, (v.push_back E alloc x).2.pop_back.index i = v.index i) ∧
    (v.push_back E alloc x).2.pop_back.to_list = v.to_list := by
  obtain ⟨xs, hx⟩ := h.holds
  have hs := hx.2.2.1
  obtain ⟨r1, r2, _⟩ := push_back_holds E alloc hx hal x
  obtain ⟨q1, _⟩ := pop_back_holds r2 (by simp)
  rw [List.dropLast_concat] at q1
  refine ⟨r1, ?_, ?_, ?_, ?_, ?_, ?_⟩
  · rw [r2.2.2.1, hs]
    simp
  · rw [r2.back_getLast]
    simp
  · rw [q1.2.2.1, hs]
  · intro _
    rw [q1.back_getLast, hx.back_getLast]
  · intro i
    rw [q1.index, hx.index]
  · rw [q1.to_list, hx.to_list]

theorem push_back_pop_back_witness :
    (⟨5, 7, 7, [some 1, some 3]⟩ : vector Nat).Inv ∧
    (((⟨5, 7, 7, [some 1, some 3]⟩ : vector Nat).push_back (Elem.trivial 0)
        (fun n => some (n + 1)) 9).2.back = some 9 ∧
     ((⟨5, 7, 7, [some 1, some 3]⟩ : vector Nat).push_back (Elem.trivial 0)
        (fun n => some (n + 1)) 9).2.pop_back.back =
      (⟨5, 7, 7, [some 1, some 3]⟩ : vector Nat).back ∧
     ((⟨5, 7, 7, [some 1, some 3]⟩ : vector Nat).push_back (Elem.trivial 0)
        (fun n => some (n + 1)) 9).2.pop_back.to_list =
      (⟨5, 7, 7, [some 1, some 3]⟩ : vector Nat).to_list) := by
  have hI : (⟨5, 7, 7, [some 1, some 3]⟩ : vector Nat).Inv :=
    @Holds.inv Nat _ [1, 3] ⟨by decide, by decide, rfl, rfl⟩
  obtain ⟨_, _, hb, _, hk, _, hl⟩ :=
    push_back_pop_back (Elem.trivial 0) (fun n => some (n + 1)) _ 9 hI (fun _ => by simp)
  exact ⟨hI, hb, hk (by decide), hl⟩

/-- C14. On a well-formed vector `clear()` ends and leaves `size() == 0`,
`empty()` true and `capacity()` as before the call; a second `clear()` ends
too and leaves exactly the state that the first one left. -/
theorem clear_spec (v : vector T) (h : v.Inv) :
    ∃ v1, v.clear = some v1 ∧ v1.size = 0 ∧ v1.empty = true ∧
      v1.capacity = v.capacity ∧ v1.clear = some v1 := by
  obtain ⟨xs, hx⟩ := h.holds
  obtain ⟨v1, e, hv1, hcap⟩ := clear_holds hx
  obtain ⟨v2, e2, hv2, _⟩ := clear_holds hv1
  obtain ⟨c1, c2, c3⟩ := clear_cursors e2
  have e21 : v2 = v1 := Holds.ext hv2 hv1 c1 c3
  obtain ⟨d1, d2, _⟩ := clear_cursors e
  refine ⟨v1, e, ?_, ?_, hcap, by rw [e2, e21]⟩
  · rw [hv1.2.2.1]
    rfl
  · unfold empty
    rw [d1, d2]
    simp

theorem clear_spec_witness :
    (⟨5, 7, 8, [some 1, some 2, none]⟩ : vector Nat).Inv ∧
    (∃ v1, (⟨5, 7, 8, [some 1, some 2, none]⟩ : vector Nat).clear = some v1 ∧ v1.size = 0 ∧
      v1.capacity = 3 ∧ v1.clear = some v1) := by
  have hI : (⟨5, 7, 8, [some 1, some 2, none]⟩ : vector Nat).Inv :=
    @Holds.inv Nat _ [1, 2] ⟨by decide, by decide, rfl, rfl⟩
  obtain ⟨v1, e, hs, _, hc, h2⟩ := clear_spec _ hI
  exact ⟨hI, v1, e, hs, hc, h2⟩

/-- C15. Move construction `b(move(a))` and move assignment `b = move(a)`
into a distinct vector `b`, whatever `b` held, give `b` the elements of `a` in
their order with the size and the capacity of `a`, and leave `a` with
`size() == 0`, `empty()`, `capacity() == 0` and no storage; move assignment of
a vector to itself leaves it as it was. -/
theorem move_spec (a b : vector T) (pa pb : Nat) (hne : pb ≠ pa) :
    ((move_ctor a).1.to_list = a.to_list ∧ (move_ctor a).1.size = a.size ∧
      (move_ctor a).1.capacity = a.capacity ∧ (∀ i, (move_ctor a).1.index i = a.index i)) ∧
    ((move_ctor a).2.size = 0 ∧ (move_ctor a).2.empty = true ∧
      (move_ctor a).2.capacity = 0 ∧ (move_ctor a).2.mem = []) ∧
    ((move_assign_at pb pa b a).1.to_list = a.to_list ∧
      (move_assign_at pb pa b a).1.size = a.size ∧
      (move_assign_at pb pa b a).1.capacity = a.capacity ∧
      (∀ i, (move_assign_at pb pa b a).1.index i = a.index i)) ∧
    ((move_assign_at pb pa b a).2.size = 0 ∧ (move_assign_at pb pa b a).2.empty = true ∧
      (move_assign_at pb pa b a).2.capacity = 0 ∧ (move_assign_at pb pa b a).2.mem = []) ∧
    move_assign_at pa pa a a = (a, a) := by
  have e1 : move_assign_at pb pa b a = move_assign b a := by
    unfold move_assign_at
    rw [if_pos (by simpa using hne)]
  have e2 : move_assign_at pa pa a a = (a, a) := by
    unfold move_assign_at
    rw [if_neg (by simp)]
    rfl
  rw [e1, move_ctor_fst, move_assign_fst]
  exact ⟨⟨rfl, rfl, rfl, fun _ => rfl⟩, ⟨rfl, rfl, rfl, rfl⟩, ⟨rfl, rfl, rfl, fun _ => rfl⟩,
    ⟨rfl, rfl, rfl, rfl⟩, e2⟩

theorem move_spec_witness :
    (2 : Nat) ≠ 1 ∧
    (move_assign_at 2 1 (⟨9, 10, 10, [some 4]⟩ : vector Nat) ⟨5, 7, 8, [some 1, some 2, none]⟩).1.to_list
      = [some 1, some 2] ∧
    (move_assign_at 2 1 (⟨9, 10, 10, [some 4]⟩ : vector Nat) ⟨5, 7, 8, [some 1, some 2, none]⟩).2.capacity
      = 0 :=
  ⟨by decide,
   (move_spec (⟨5, 7, 8, [some 1, some 2, none]⟩ : vector Nat) ⟨9, 10, 10, [some 4]⟩ 1 2
      (by decide)).2.2.1.1,
   (move_spec (⟨5, 7, 8, [some 1, some 2, none]⟩ : vector Nat) ⟨9, 10, 10, [some 4]⟩ 1 2
      (by decide)).2.2.2.1.2.2.1⟩

/-- On vectors as values: for a well-formed vector `a`, the allocator not failing
on the request for `size()` elements, copy construction `b(a)` and copy
assignment `b = a` end normally and give a well-formed `b` with the size and
the elements of `a`, in the block that the allocator returned for this
request.  A later `b[n] = x` changes element `n` of `b` and no other element.
That the source is left alone by what is done to the copy is proved in
`shared`, in the memory that the two vectors share. -/
theorem copy_spec (alloc : Nat → Option Nat) (a b0 : vector T) (h : a.Inv)
    (hal : alloc a.size ≠ none) :
    (∃ b, copy_ctor alloc a = some (.ok b) ∧ b.Inv ∧ b.size = a.size ∧
      b.to_list = a.to_list ∧ (∀ i, b.index i = a.index i) ∧
      alloc a.size = some b.begin_ ∧
      ∀ n x, n < b.size → ∃ b1, b.set_index n x = some b1 ∧ b1.index n = some x ∧
        (∀ i, i ≠ n → b1.index i = a.index i) ∧ b1.size = a.size) ∧
    (∃ b, copy_assign alloc b0 a = some (.ok (), b) ∧ b.Inv ∧ b.size = a.size ∧
      b.to_list = a.to_list ∧ (∀ i, b.index i = a.index i) ∧
      alloc a.size = some b.begin_) := by
  obtain ⟨xs, hx⟩ := h.holds
  obtain ⟨b, e, hb, _⟩ := copy_ctor_holds alloc hx hal
  have hbeg := copy_ctor_begin alloc a b e
  have hsz : b.size = a.size := by rw [hb.2.2.1, hx.2.2.1]
  have hidx : ∀ i, b.index i = a.index i := fun i => by rw [hb.index, hx.index]
  constructor
  · refine ⟨b, e, hb.inv, hsz, by rw [hb.to_list, hx.to_list], hidx, hbeg, ?_⟩
    intro n x hn
    have hlive : (b.index n).isSome = true := by
      rw [index_eq_load]
      exact hb.inv.live n hn
    refine ⟨{ b with mem := b.mem.set n (some x) }, ?_, ?_, ?_, hsz⟩
    · unfold set_index
      rw [if_pos hlive]
    · rw [index_eq_load]
      show load (b.mem.set n (some x)) n = some x
      have hlen : n < b.mem.length := by
        have := hb.mem_length
        have := hb.size_le
        omega
      rw [load_set, if_pos rfl, if_pos hlen]
    · intro i hi
      rw [index_eq_load, ← hidx i, index_eq_load]
      show load (b.mem.set n (some x)) i = load b.mem i
      rw [load_set, if_neg (fun e => hi e.symm)]
  · refine ⟨b, ?_, hb.inv, hsz, by rw [hb.to_list, hx.to_list], hidx, hbeg⟩
    unfold copy_assign
    rw [e]
    cases b
    rfl

theorem copy_spec_witness :
    (⟨100, 103, 103, [some 7, some 7, some 7]⟩ : vector Nat).Inv ∧
    (fun n => some (n + 1) : Nat → Option Nat)
      (⟨100, 103, 103, [some 7, some 7, some 7]⟩ : vector Nat).size ≠ none ∧
    (∃ b b1, copy_ctor (fun n => some (n + 1))
        (⟨100, 103, 103, [some 7, some 7, some 7]⟩ : vector Nat) = some (.ok b) ∧
      b.to_list = [some 7, some 7, some 7] ∧
      b.set_index 0 99 = some b1 ∧ b1.index 0 = some 99 ∧
      (⟨100, 103, 103, [some 7, some 7, some 7]⟩ : vector Nat).index 0 = some 7) := by
  have hI : (⟨100, 103, 103, [some 7, some 7, some 7]⟩ : vector Nat).Inv :=
    @Holds.inv Nat _ [7, 7, 7] ⟨by decide, by decide, rfl, rfl⟩
  obtain ⟨⟨b, e, _, hs, hl, _, _, hw⟩, _⟩ :=
    copy_spec (fun n => some (n + 1)) _ (init : vector Nat) hI (by simp)
  obtain ⟨b1, e1, k1, _⟩ := hw 0 99 (by rw [hs]; decide)
  exact ⟨hI, by simp, b, b1, e, hl, e1, k1, rfl⟩

/-- C18. For each operation of a well-formed vector that may allocate
(`reserve`, `resize`, `shrink_to_fit`, `push_back`, `emplace_back`, `insert`,
`emplace`): if the operation needs new storage and the allocator fails on the
request, the operation ends with the exception `bad_alloc` and the vector is
exactly as before the call; and whenever one of these operations ends with an
exception, the exception is `bad_alloc` and the vector is as before the
call. -/
theorem alloc_failure_spec (E : Elem T) (alloc : Nat → Option Nat) (v : vector T) (h : v.Inv) :
    (∀ n, v.capacity < n → alloc n = none → v.reserve E alloc n = (.error .bad_alloc, v)) ∧
    (∀ n x, v.capacity < n → alloc n = none →
      v.resize E alloc n x = some (.error .bad_alloc, v)) ∧
    (v.end_ ≠ v.cap_ → alloc v.size = none →
      v.shrink_to_fit E alloc = (.error .bad_alloc, v)) ∧
    (∀ x, v.end_ = v.cap_ → alloc v.grow_size = none →
      v.push_back E alloc x = (.error .bad_alloc, v) ∧
      v.emplace_back E alloc x = (.error .bad_alloc, v)) ∧
    (∀ pos x, v.end_ = v.cap_ → alloc v.grow_size = none →
      v.insert E alloc pos x = some (.error .bad_alloc, v) ∧
      v.emplace E alloc pos x = some (.error .bad_alloc, v)) ∧
    (∀ (e : Exn) (v1 : vector T),
      ((∃ n, v.reserve E alloc n = (.error e, v1)) ∨
       (∃ n x, v.resize E alloc n x = some (.error e, v1)) ∨
       v.shrink_to_fit E alloc = (.error e, v1) ∨
       (∃ x, v.push_back E alloc x = (.error e, v1)) ∨
       (∃ x, v.emplace_back E alloc x = (.error e, v1)) ∨
       (∃ pos x, v.insert E alloc pos x = some (.error e, v1)) ∨
       (∃ pos x, v.emplace E alloc pos x = some (.error e, v1))) →
      e = .bad_alloc ∧ v1 = v) := by
  have hle : v.size ≤ v.capacity := by
    obtain ⟨h1, h2, _, _⟩ := h
    simp only [size, capacity]
    omega
  refine ⟨?_, ?_, ?_, ?_, ?_, ?_⟩
  · intro n hn hal
    unfold reserve
    rw [if_neg (by omega)]
    exact reallocate_error E alloc n v hal
  · intro n x hn hal
    exact resize_error E alloc n x v hle hn hal
  · intro hne hal
    unfold shrink_to_fit
    rw [if_pos hne]
    exact reallocate_error E alloc _ v hal
  · intro x hfull hal
    rw [emplace_back_eq]
    exact ⟨push_back_error E alloc x v hfull hal, push_back_error E alloc x v hfull hal⟩
  · intro pos x hfull hal
    rw [emplace_eq_insert]
    exact ⟨insert_error E alloc pos x v hfull hal, insert_error E alloc pos x v hfull hal⟩
  · intro e v1 hcase
    rcases hcase with ⟨n, k⟩ | ⟨n, x, k⟩ | k | ⟨x, k⟩ | ⟨x, k⟩ | ⟨pos, x, k⟩ | ⟨pos, x, k⟩
    · exact reserve_throws E alloc n v e v1 k
    · exact resize_throws E alloc n x v e v1 k
    · exact shrink_to_fit_throws E alloc v e v1 k
    · exact push_back_throws E alloc x v e v1 k
    · rw [emplace_back_eq] at k
      exact push_back_throws E alloc x v e v1 k
    · exact insert_throws E alloc pos x v e v1 k
    · rw [emplace_eq_insert] at k
      exact insert_throws E alloc pos x v e v1 k

theorem alloc_failure_spec_witness :
    (⟨5, 7, 7, [some 1, some 3]⟩ : vector Nat).Inv ∧
    (⟨5, 7, 7, [some 1, some 3]⟩ : vector Nat).push_back (Elem.trivial 0) (fun _ => none) 9 =
      (.error .bad_alloc, ⟨5, 7, 7, [some 1, some 3]⟩) ∧
    (⟨5, 7, 7, [some 1, some 3]⟩ : vector Nat).insert (Elem.trivial 0) (fun _ => none) 6 9 =
      some (.error .bad_alloc, ⟨5, 7, 7, [some 1, some 3]⟩) ∧
    (⟨5, 7, 7, [some 1, some 3]⟩ : vector Nat).reserve (Elem.trivial 0) (fun _ => none) 3 =
      (.error .bad_alloc, ⟨5, 7, 7, [some 1, some 3]⟩) := by
  have hI : (⟨5, 7, 7, [some 1, some 3]⟩ : vector Nat).Inv :=
    @Holds.inv Nat _ [1, 3] ⟨by decide, by decide, rfl, rfl⟩
  obtain ⟨k1, _, _, k4, k5, _⟩ :=
    alloc_failure_spec (Elem.trivial 0) (fun _ => none) _ hI
  exact ⟨hI, (k4 9 rfl rfl).1, (k5 6 9 rfl rfl).1, k1 3 (by decide) rfl⟩

/-- C28. After `k ≥ 1` calls of `push_back` on a default-constructed vector, the
allocator never failing, `capacity()` is `16 * 2^j` for the least `j` with
`k ≤ 16 * 2^j`, the number of calls of `reallocate` made is `j + 1`,
`size() = k`, and `size() ≤ capacity() < 2 * max(k, 16) + 1`. -/
theorem push_back_capacity (E : Elem T) (alloc : Nat → Option Nat)
    (hal : ∀ n, alloc n ≠ none) (xs : List T) (hk : 1 ≤ xs.length) :
    ∃ j, (push_all E alloc xs init).2.capacity = 16 * 2 ^ j ∧
      xs.length ≤ 16 * 2 ^ j ∧
      (∀ i, xs.length ≤ 16 * 2 ^ i → j ≤ i ∧ 16 * 2 ^ j ≤ 16 * 2 ^ i) ∧
      push_all_reallocs E alloc xs init = j + 1 ∧
      (push_all E alloc xs init).2.size = xs.length ∧
      (push_all E alloc xs init).2.size ≤ (push_all E alloc xs init).2.capacity ∧
      (push_all E alloc xs init).2.capacity < 2 * max xs.length 16 + 1 := by
  cases xs with
  | nil => simp at hk
  | cons x rest =>
    obtain ⟨r1, r2, r3⟩ := push_back_holds E alloc (init_holds : (init : vector T).Holds [])
      (fun _ => hal _) x
    cases hr : (init : vector T).push_back E alloc x with
    | mk a b =>
      rw [hr] at r1 r2 r3
      simp only at r1 r2 r3
      subst r1
      have hcb : b.capacity = 16 * 2 ^ 0 := by
        rw [r3]
        rfl
      obtain ⟨j, k1, k2, k3, k4⟩ := push_all_growth E alloc hal rest b ([] ++ [x]) 0 r2 hcb
        (Or.inl rfl)
      have e1 : push_all E alloc (x :: rest) init = push_all E alloc rest b := by
        simp [push_all, hr]
      have e2 : push_all_reallocs E alloc (x :: rest) init =
          1 + push_all_reallocs E alloc rest b := by
        have h0 : (init : vector T).end_ = (init : vector T).cap_ := rfl
        simp [push_all_reallocs, hr, h0]
      have hlen : ([] ++ [x] : List T).length + rest.length = (x :: rest).length := by
        simp
        omega
      rw [hlen] at k2
      have e3 : ([] ++ [x] ++ rest : List T) = x :: rest := by simp
      rw [e3] at k4
      have hsz := k4.2.2.1
      have hle := k4.size_le
      rw [← e1] at k1 hsz hle
      have hmin : ∀ i, (x :: rest).length ≤ 16 * 2 ^ i → j ≤ i := by
        intro i hi
        by_contra hc
        rcases k2 with k | k
        · omega
        · have hp : 2 ^ i ≤ 2 ^ (j - 1) := Nat.pow_le_pow_right (by decide) (by omega)
          omega
      refine ⟨j, k1, by rw [← k1, ← hsz]; exact hle, ?_, by rw [e2]; omega, hsz, hle, ?_⟩
      · intro i hi
        have hji := hmin i hi
        exact ⟨hji, Nat.mul_le_mul_left 16 (Nat.pow_le_pow_right (by decide) hji)⟩
      · rw [k1]
        rcases k2 with k | k
        · rw [k]
          have := Nat.le_max_right (x :: rest).length 16
          omega
        · have hj : j = (j - 1) + 1 := by
            rcases Nat.eq_zero_or_pos j with z | z
            · rw [z] at k k1
              simp only [Nat.zero_sub, Nat.pow_zero, Nat.mul_one] at k k1
              omega
            · omega
          have hp : 2 ^ j = 2 ^ (j - 1) * 2 := by
            conv_lhs => rw [hj]
            exact pow_succ 2 (j - 1)
          have := Nat.le_max_left (x :: rest).length 16
          omega

theorem push_back_capacity_witness :
    (∀ n, (fun n => some (n + 1) : Nat → Option Nat) n ≠ none) ∧
    1 ≤ (List.replicate 17 (0 : Nat)).length ∧
    (push_all (Elem.trivial 0) (fun n => some (n + 1)) (List.replicate 17 0) init).2.capacity
      = 32 ∧
    push_all_reallocs (Elem.trivial 0) (fun n => some (n + 1)) (List.replicate 17 0) init = 2 ∧
    (∃ j, (push_all (Elem.trivial 0) (fun n => some (n + 1)) (List.replicate 17 0)
        init).2.capacity = 16 * 2 ^ j ∧
      push_all_reallocs (Elem.trivial 0) (fun n => some (n + 1)) (List.replicate 17 0) init
        = j + 1) := by
  obtain ⟨j, k1, _, _, k4, _⟩ :=
    push_back_capacity (Elem.trivial 0) (fun n => some (n + 1)) (fun n => by simp)
      (List.replicate 17 (0 : Nat)) (by decide)
  exact ⟨fun n => by simp, by decide, by rfl, by rfl, j, k1, k4⟩

/-- C29. On a well-formed vector, for `p ≤ size()`, `emplace(begin() + p, x)`
and `insert(begin() + p, x)` end with the same result, whatever the allocator
does: the same exception or the same iterator, and the same vector state.
`emplace` writes the slot by `destroy` and `construct`, `insert` by an
assignment, and the two leave the same slot.  When the allocation does not
fail the iterator is at offset `p` of the new buffer, the size is one more
and the vector holds `e_0 .. e_{p-1}, x, e_p .. e_{s-1}`. -/
theorem emplace_insert_same (E : Elem T) (alloc : Nat → Option Nat) (v : vector T) (p : Nat)
    (x : T) (h : v.Inv) (hp : p ≤ v.size) :
    (∀ (m : Block T) (i : Nat), construct (destroy m i) i x = m.set i (some x)) ∧
    v.emplace E alloc (v.begin_ + p) x = v.insert E alloc (v.begin_ + p) x ∧
    (∃ r, v.insert E alloc (v.begin_ + p) x = some r ∧
      v.emplace E alloc (v.begin_ + p) x = some r ∧ v.capacity ≤ r.2.capacity) ∧
    ((v.end_ = v.cap_ → alloc v.grow_size ≠ none) →
      ∃ v1, v.insert E alloc (v.begin_ + p) x = some (.ok (v1.begin_ + p), v1) ∧
        v.emplace E alloc (v.begin_ + p) x = some (.ok (v1.begin_ + p), v1) ∧
        v1.size = v.size + 1 ∧ v1.index p = some x ∧
        v1.to_list = v.to_list.take p ++ some x :: v.to_list.drop p) := by
  have heq := emplace_eq_insert E alloc (v.begin_ + p) x v
  have hpe : v.begin_ + p ≤ v.end_ := by
    have := h.1
    simp only [size] at hp
    omega
  obtain ⟨r, hr, _⟩ := insert_inv E alloc (v.begin_ + p) x h (Nat.le_add_right _ _) hpe
  refine ⟨?_, heq, ⟨r, hr, by rw [heq, hr], insert_capacity_ge E alloc _ x v r hr⟩, ?_⟩
  · intro m i
    unfold construct destroy
    rw [List.set_set]
  · intro hal
    obtain ⟨xs, hx⟩ := h.holds
    have hs := hx.2.2.1
    obtain ⟨v1, e, hv1, _⟩ := insert_holds E alloc hx hal p (by omega) x
    refine ⟨v1, e, by rw [heq, e], ?_, ?_, ?_⟩
    · rw [hv1.2.2.1, hs]
      simp
      omega
    · rw [hv1.index, getElem?_insert_at xs p (by omega) x p, if_neg (by omega), if_pos rfl]
    · rw [hv1.to_list, hx.to_list]
      simp [List.map_take, List.map_drop]

theorem emplace_insert_same_witness :
    (⟨5, 7, 7, [some 1, some 3]⟩ : vector Nat).Inv ∧
    (⟨5, 7, 7, [some 1, some 3]⟩ : vector Nat).emplace (Elem.trivial 0)
        (fun n => some (n + 1)) (5 + 1) 2 =
      (⟨5, 7, 7, [some 1, some 3]⟩ : vector Nat).insert (Elem.trivial 0)
        (fun n => some (n + 1)) (5 + 1) 2 ∧
    (∃ v1, (⟨5, 7, 7, [some 1, some 3]⟩ : vector Nat).emplace (Elem.trivial 0)
        (fun n => some (n + 1)) (5 + 1) 2 = some (.ok (v1.begin_ + 1), v1) ∧
      v1.to_list = [some 1, some 2, some 3]) := by
  have hI : (⟨5, 7, 7, [some 1, some 3]⟩ : vector Nat).Inv :=
    @Holds.inv Nat _ [1, 3] ⟨by decide, by decide, rfl, rfl⟩
  obtain ⟨_, k1, _, k2⟩ :=
    emplace_insert_same (Elem.trivial 0) (fun n => some (n + 1)) _ 1 2 hI (by decide)
  obtain ⟨v1, _, e, _, _, hl⟩ := k2 (fun _ => by simp)
  exact ⟨hI, k1, v1, e, hl⟩

end vector

/-! ## Theorems about the vectors in a shared memory -/

namespace shared

theorem store_other (m : Memory T) (p q : Nat) (s : Option (Option T)) (h : q ≠ p) :
    Memory.store m p s q = m q := by
  unfold Memory.store
  rw [if_neg h]

theorem store_isSome (m : Memory T) (p q : Nat) (s : Option T)
    (h : (m q).isSome = true) : (Memory.store m p (some s) q).isSome = true := by
  unfold Memory.store
  split_ifs
  · rfl
  · exact h

theorem load_of_eq {m m1 : Memory T} {q : Nat} (h : m1 q = m q) :
    Memory.load m1 q = Memory.load m q := by
  unfold Memory.load
  rw [h]

theorem construct_move_other (E : Elem T) (m : Memory T) (dst src q : Nat) (h1 : q ≠ dst)
    (h2 : q ≠ src) : Memory.construct_move E m dst src q = m q := by
  unfold Memory.construct_move
  rw [store_other _ _ _ _ h2, store_other _ _ _ _ h1]

theorem construct_move_isSome (E : Elem T) (m : Memory T) (dst src q : Nat)
    (h : (m q).isSome = true) : (Memory.construct_move E m dst src q).isSome = true := by
  unfold Memory.construct_move
  exact store_isSome _ _ _ _ (store_isSome _ _ _ _ h)

theorem assign_move_other (E : Elem T) (m : Memory T) (dst src q : Nat) (h1 : q ≠ dst)
    (h2 : q ≠ src) : Memory.assign_move E m dst src q = m q := by
  unfold Memory.assign_move
  split_ifs
  · rw [store_other _ _ _ _ h1]
  · rw [store_other _ _ _ _ h2, store_other _ _ _ _ h1]

theorem assign_move_isSome (E : Elem T) (m : Memory T) (dst src q : Nat)
    (h : (m q).isSome = true) : (Memory.assign_move E m dst src q).isSome = true := by
  unfold Memory.assign_move
  split_ifs
  · exact store_isSome _ _ _ _ h
  · exact store_isSome _ _ _ _ (store_isSome _ _ _ _ h)

theorem destroy_range_keeps : ∀ (fuel first last : Nat) (m m1 : Memory T),
    Memory.destroy_range fuel first last m = some m1 →
    first ≤ last ∧ (∀ q, (q < first ∨ last ≤ q) → m1 q = m q) ∧
      (∀ q, (m q).isSome = true → (m1 q).isSome = true) := by
  intro fuel
  induction fuel with
  | zero =>
    intro first last m m1 h
    unfold Memory.destroy_range at h
    split_ifs at h with c
    cases h
    have e : first = last := by simpa using c
    exact ⟨Nat.le_of_eq e, fun _ _ => rfl, fun _ k => k⟩
  | succ fuel ih =>
    intro first last m m1 h
    unfold Memory.destroy_range at h
    split_ifs at h with c
    · obtain ⟨k1, k2, k3⟩ := ih _ _ _ _ h
      refine ⟨by omega, ?_, ?_⟩
      · intro q hq
        rw [k2 q (by omega)]
        exact store_other _ _ _ _ (by omega)
      · intro q hq
        exact k3 q (store_isSome _ _ _ _ hq)
    · cases h
      have e : first = last := by simpa using c
      exact ⟨Nat.le_of_eq e, fun _ _ => rfl, fun _ k => k⟩

theorem destroy_range_ends : ∀ (fuel first last : Nat) (m : Memory T),
    first ≤ last → last - first ≤ fuel →
    ∃ m1, Memory.destroy_range fuel first last m = some m1 := by
  intro fuel
  induction fuel with
  | zero =>
    intro first last m h1 h2
    have e : first = last := by omega
    exact ⟨m, by simp [Memory.destroy_range, e]⟩
  | succ fuel ih =>
    intro first last m h1 h2
    unfold Memory.destroy_range
    by_cases c : first = last
    · exact ⟨m, by simp [c]⟩
    · obtain ⟨m1, e1⟩ := ih (first + 1) last (Memory.destroy m first) (by omega) (by omega)
      exact ⟨m1, by simp [c, e1]⟩

theorem erase_shift_keeps (E : Elem T) : ∀ (fuel it e : Nat) (m m1 : Memory T),
    vector.erase_shift E fuel it e m = some m1 →
    it < e ∧ (∀ q, (q < it ∨ e ≤ q) → m1 q = m q) ∧
      (∀ q, (m q).isSome = true → (m1 q).isSome = true) := by
  intro fuel
  induction fuel with
  | zero =>
    intro it e m m1 h
    unfold vector.erase_shift at h
    split_ifs at h with c
    cases h
    have e1 : it + 1 = e := by simpa using c
    exact ⟨by omega, fun _ _ => rfl, fun _ k => k⟩
  | succ fuel ih =>
    intro it e m m1 h
    unfold vector.erase_shift at h
    split_ifs at h with c
    · obtain ⟨k1, k2, k3⟩ := ih _ _ _ _ h
      refine ⟨by omega, ?_, ?_⟩
      · intro q hq
        rw [k2 q (by omega)]
        exact assign_move_other E _ _ _ _ (by omega) (by omega)
      · intro q hq
        exact k3 q (assign_move_isSome E _ _ _ _ hq)
    · cases h
      have e1 : it + 1 = e := by simpa using c
      exact ⟨by omega, fun _ _ => rfl, fun _ k => k⟩

theorem erase_move_keeps (E : Elem T) : ∀ (fuel it ne e : Nat) (m : Memory T)
    (r : Nat × Memory T), vector.erase_move E fuel it ne e m = some r →
    it ≤ e ∧ r.1 = ne + (e - it) ∧
      (∀ q, (q < ne ∨ ne + (e - it) ≤ q) → (q < it ∨ e ≤ q) → r.2 q = m q) ∧
      (∀ q, (m q).isSome = true → (r.2 q).isSome = true) := by
  intro fuel
  induction fuel with
  | zero =>
    intro it ne e m r h
    unfold vector.erase_move at h
    split_ifs at h with c
    cases h
    have e1 : it = e := by simpa using c
    exact ⟨Nat.le_of_eq e1, by simp [e1], fun _ _ _ => rfl, fun _ k => k⟩
  | succ fuel ih =>
    intro it ne e m r h
    unfold vector.erase_move at h
    split_ifs at h with c
    · obtain ⟨k1, k2, k3, k4⟩ := ih _ _ _ _ _ h
      refine ⟨by omega, by rw [k2]; omega, ?_, ?_⟩
      · intro q h1 h2
        rw [k3 q (by omega) (by omega)]
        exact assign_move_other E _ _ _ _ (by omega) (by omega)
      · intro q hq
        exact k4 q (assign_move_isSome E _ _ _ _ hq)
    · cases h
      have e1 : it = e := by simpa using c
      exact ⟨Nat.le_of_eq e1, by simp [e1], fun _ _ _ => rfl, fun _ k => k⟩

theorem shift_right_keeps (E : Elem T) : ∀ (fuel it p : Nat) (m m1 : Memory T),
    vector.shift_right E fuel it p m = some m1 →
    p ≤ it ∧ (∀ q, (q < p ∨ it < q) → m1 q = m q) ∧
      (∀ q, (m q).isSome = true → (m1 q).isSome = true) := by
  intro fuel
  induction fuel with
  | zero =>
    intro it p m m1 h
    unfold vector.shift_right at h
    split_ifs at h with c
    cases h
    have e1 : it = p := by simpa using c
    exact ⟨Nat.le_of_eq e1.symm, fun _ _ => rfl, fun _ k => k⟩
  | succ fuel ih =>
    intro it p m m1 h
    unfold vector.shift_right at h
    split_ifs at h with c
    · obtain ⟨k1, k2, k3⟩ := ih _ _ _ _ h
      have hne : it ≠ p := by simpa using c
      refine ⟨by omega, ?_, ?_⟩
      · intro q hq
        rw [k2 q (by omega)]
        exact assign_move_other E _ _ _ _ (by omega) (by omega)
      · intro q hq
        exact k3 q (assign_move_isSome E _ _ _ _ hq)
    · cases h
      have e1 : it = p := by simpa using c
      exact ⟨Nat.le_of_eq e1.symm, fun _ _ => rfl, fun _ k => k⟩

theorem realloc_loop_keeps (E : Elem T) : ∀ (fuel i n ob nb : Nat) (m : Memory T),
    (∀ q, ¬ (nb + i ≤ q ∧ q < nb + n) → ¬ (ob + i ≤ q ∧ q < ob + n) →
      vector.realloc_loop E fuel i n ob nb m q = m q) ∧
    (∀ q, (m q).isSome = true → (vector.realloc_loop E fuel i n ob nb m q).isSome = true) := by
  intro fuel
  induction fuel with
  | zero =>
    intro i n ob nb m
    exact ⟨fun _ _ _ => rfl, fun _ k => k⟩
  | succ fuel ih =>
    intro i n ob nb m
    unfold vector.realloc_loop
    split_ifs with c
    · obtain ⟨k1, k2⟩ := ih (i + 1) n ob nb
        (Memory.construct_move E m (nb + i) (ob + i))
      constructor
      · intro q h1 h2
        rw [k1 q (by omega) (by omega)]
        exact construct_move_other E _ _ _ _ (by omega) (by omega)
      · intro q hq
        exact k2 q (construct_move_isSome E _ _ _ _ hq)
    · exact ⟨fun _ _ _ => rfl, fun _ k => k⟩

theorem resize_fill_keeps : ∀ (fuel n : Nat) (value : T) (m : Memory T) (v : vector),
    v.begin_ ≤ v.end_ →
    (vector.resize_fill fuel n value m v).2.begin_ = v.begin_ ∧
    (vector.resize_fill fuel n value m v).2.cap_ = v.cap_ ∧
    v.end_ ≤ (vector.resize_fill fuel n value m v).2.end_ ∧
    ((vector.resize_fill fuel n value m v).2.end_ ≤ v.end_ ∨
      (vector.resize_fill fuel n value m v).2.end_ ≤ v.begin_ + n) ∧
    (∀ q, (q < v.end_ ∨ v.begin_ + n ≤ q) → (vector.resize_fill fuel n value m v).1 q = m q) ∧
    (∀ q, (m q).isSome = true → ((vector.resize_fill fuel n value m v).1 q).isSome = true) := by
  intro fuel
  induction fuel with
  | zero =>
    intro n value m v _
    exact ⟨rfl, rfl, Nat.le_refl _, Or.inl (Nat.le_refl _), fun _ _ => rfl, fun _ k => k⟩
  | succ fuel ih =>
    intro n value m v hv
    unfold vector.resize_fill
    split_ifs with c
    · obtain ⟨k1, k2, k3, k4, k5, k6⟩ := ih n value (Memory.construct m v.end_ value)
        { v with end_ := v.end_ + 1 } (Nat.le_succ_of_le hv)
      simp only [vector.size] at c
      refine ⟨k1, k2, Nat.le_of_succ_le k3, ?_, ?_, ?_⟩
      · right
        rcases k4 with k | k
        · exact Nat.le_trans k (by show v.end_ + 1 ≤ v.begin_ + n; omega)
        · exact k
      · intro q hq
        rw [k5 q (by
          rcases hq with k | k
          · left
            show q < v.end_ + 1
            omega
          · right
            exact k)]
        exact store_other _ _ _ _ (by omega)
      · intro q hq
        exact k6 q (store_isSome _ _ _ _ hq)
    · exact ⟨rfl, rfl, Nat.le_refl _, Or.inl (Nat.le_refl _), fun _ _ => rfl, fun _ k => k⟩

theorem undisturbed_inside {m m1 : Memory T} {a b b1 : vector}
    (hb : vector.Owns m b) (hab : vector.Apart a b)
    (e1 : b1.begin_ = b.begin_) (e2 : b1.cap_ = b.cap_)
    (o1 : b1.begin_ ≤ b1.end_) (o2 : b1.end_ ≤ b1.cap_)
    (fr : ∀ q, (q < b.begin_ ∨ b.cap_ ≤ q) → m1 q = m q)
    (ks : ∀ q, (m q).isSome = true → (m1 q).isSome = true) :
    vector.Undisturbed a m m1 b1 := by
  refine ⟨?_, ⟨o1, o2, ?_⟩, ?_⟩
  · intro q h1 h2
    have k := hab q h1 h2
    exact fr q (by omega)
  · intro q h1 h2
    exact ks q (hb.2.2 q (by omega) (by omega))
  · intro q h1 h2
    rw [e1, e2]
    exact hab q h1 h2

theorem undisturbed_owns {m m1 : Memory T} {a b1 : vector}
    (ha : vector.Owns m a) (h : vector.Undisturbed a m m1 b1) : vector.Owns m1 a := by
  refine ⟨ha.1, ha.2.1, ?_⟩
  intro q h1 h2
  rw [h.1 q h1 h2]
  exact ha.2.2 q h1 h2

theorem undisturbed_trans {m m1 m2 : Memory T} {a b1 b2 : vector}
    (h1 : vector.Undisturbed a m m1 b1) (h2 : vector.Undisturbed a m1 m2 b2) :
    vector.Undisturbed a m m2 b2 := by
  refine ⟨?_, h2.2.1, h2.2.2⟩
  intro q k1 k2
  rw [h2.1 q k1 k2, h1.1 q k1 k2]

theorem destroy_and_deallocate_keeps (m m1 : Memory T) (v : vector)
    (o1 : v.begin_ ≤ v.end_) (o2 : v.end_ ≤ v.cap_)
    (h : v.destroy_and_deallocate m = some m1) :
    ∀ q, (q < v.begin_ ∨ v.cap_ ≤ q) → m1 q = m q := by
  intro q hq
  unfold vector.destroy_and_deallocate at h
  split_ifs at h with c
  · split at h
    · cases h
    · rename_i m0 hd
      cases h
      obtain ⟨_, k2, _⟩ := destroy_range_keeps _ _ _ _ _ hd
      unfold Memory.deallocate vector.capacity
      rw [if_neg (by omega)]
      exact k2 q (by omega)
  · cases h
    rfl

theorem destroy_and_deallocate_ends (m : Memory T) (v : vector)
    (o1 : v.begin_ ≤ v.end_) (o2 : v.end_ ≤ v.cap_) :
    ∃ m1, v.destroy_and_deallocate m = some m1 := by
  unfold vector.destroy_and_deallocate
  split_ifs with c
  · obtain ⟨m0, e⟩ := destroy_range_ends (v.capacity + 1) v.begin_ v.end_ m o1
      (by unfold vector.capacity; omega)
    rw [e]
    exact ⟨_, rfl⟩
  · exact ⟨m, rfl⟩

theorem set_index_undisturbed (m : Memory T) (a b : vector) (n : Nat) (x : T)
    (hb : vector.Owns m b) (hab : vector.Apart a b) (hn : n < b.size) :
    vector.Undisturbed a m (b.set_index m n x) b := by
  have o2 := hb.2.1
  unfold vector.size at hn
  refine undisturbed_inside hb hab rfl rfl hb.1 hb.2.1 ?_ ?_
  · intro q hq
    unfold vector.set_index
    exact store_other _ _ _ _ (by omega)
  · intro q hq
    exact store_isSome _ _ _ _ hq

theorem reallocate_undisturbed (E : Elem T) (alloc : Nat → Option Nat) (c : Nat)
    (m : Memory T) (a b : vector) (r : Except Exn Unit × Memory T × vector)
    (ha : vector.Owns m a) (hb : vector.Owns m b) (hab : vector.Apart a b)
    (hfresh : ∀ n p, alloc n = some p → vector.Free m p n) (hc : b.size ≤ c)
    (h : b.reallocate E alloc c m = some r) :
    vector.Undisturbed a m r.2.1 r.2.2 ∧
      (r.1 = .ok () → r.2.2.size = b.size ∧ r.2.2.capacity = c) := by
  unfold vector.reallocate at h
  cases hal : alloc c with
  | none =>
    rw [hal] at h
    simp only [Option.some.injEq] at h
    subst h
    exact ⟨⟨fun _ _ _ => rfl, hb, hab⟩, fun e => by cases e⟩
  | some nb =>
    rw [hal] at h
    dsimp only at h
    split at h
    · cases h
    · rename_i m2 hd
      simp only [Option.some.injEq] at h
      subst h
      have free := hfresh c nb hal
      have o1 := hb.1
      have o2 := hb.2.1
      have k := destroy_and_deallocate_keeps _ _ _ o1 o2 hd
      obtain ⟨rl1, rl2⟩ := realloc_loop_keeps E b.size 0 b.size b.begin_ nb
        (Memory.allocate m nb c)
      have D : ∀ q, nb ≤ q → q < nb + c → ¬ (b.begin_ ≤ q ∧ q < b.cap_) := by
        intro q h1 h2 h3
        have k1 := hb.2.2 q h3.1 h3.2
        rw [free q h1 h2] at k1
        cases k1
      have Da : ∀ q, a.begin_ ≤ q → q < a.cap_ → ¬ (nb ≤ q ∧ q < nb + c) := by
        intro q h1 h2 h3
        have k1 := ha.2.2 q h1 h2
        rw [free q h3.1 h3.2] at k1
        cases k1
      unfold vector.size at hc rl1 rl2
      refine ⟨⟨?_, ⟨?_, ?_, ?_⟩, ?_⟩, fun _ => ⟨?_, ?_⟩⟩
      · intro q h1 h2
        have d1 := hab q h1 h2
        have d2 := Da q h1 h2
        show m2 q = m q
        rw [k q (by omega)]
        refine (rl1 q (by omega) (by omega)).trans ?_
        unfold Memory.allocate
        rw [if_neg d2]
      · show nb ≤ nb + b.size
        omega
      · show nb + b.size ≤ nb + c
        unfold vector.size
        omega
      · intro q h1 h2
        have h1 : nb ≤ q := h1
        have h2 : q < nb + c := h2
        have d := D q h1 h2
        show (m2 q).isSome = true
        rw [k q (by omega)]
        refine rl2 q ?_
        unfold Memory.allocate
        rw [if_pos ⟨h1, h2⟩]
        rfl
      · intro q h1 h2
        exact Da q h1 h2
      · show nb + b.size - nb = b.size
        omega
      · show nb + c - nb = c
        omega

theorem grow_undisturbed (E : Elem T) (alloc : Nat → Option Nat) (m : Memory T)
    (a b : vector) (r : Except Exn Unit × Memory T × vector)
    (ha : vector.Owns m a) (hb : vector.Owns m b) (hab : vector.Apart a b)
    (hfresh : ∀ n p, alloc n = some p → vector.Free m p n)
    (h : (if b.end_ = b.cap_ then b.reallocate E alloc b.grow_size m
      else some (.ok (), m, b)) = some r) :
    vector.Undisturbed a m r.2.1 r.2.2 ∧
      (r.1 = .ok () → r.2.2.size = b.size ∧ r.2.2.end_ < r.2.2.cap_) := by
  have o1 := hb.1
  have o2 := hb.2.1
  split_ifs at h with c
  · have g : b.size < b.grow_size := by
      unfold vector.grow_size vector.size vector.capacity
      split_ifs with z
      · unfold vector.capacity at z
        omega
      · unfold vector.capacity at z
        omega
    obtain ⟨k1, k2⟩ := reallocate_undisturbed E alloc _ m a b r ha hb hab hfresh
      (Nat.le_of_lt g) h
    refine ⟨k1, fun e => ?_⟩
    obtain ⟨k3, k4⟩ := k2 e
    refine ⟨k3, ?_⟩
    have p1 := k1.2.1.1
    rw [← k3, ← k4] at g
    unfold vector.size vector.capacity at g
    omega
  · simp only [Option.some.injEq] at h
    subst h
    exact ⟨⟨fun _ _ _ => rfl, hb, hab⟩, fun _ => ⟨rfl, by show b.end_ < b.cap_; omega⟩⟩

theorem push_back_undisturbed (E : Elem T) (alloc : Nat → Option Nat) (x : T) (m : Memory T)
    (a b : vector) (r : Except Exn Unit × Memory T × vector)
    (ha : vector.Owns m a) (hb : vector.Owns m b) (hab : vector.Apart a b)
    (hfresh : ∀ n p, alloc n = some p → vector.Free m p n)
    (h : b.push_back E alloc x m = some r) : vector.Undisturbed a m r.2.1 r.2.2 := by
  unfold vector.push_back at h
  split at h
  · cases h
  · rename_i e m1 v1 hg
    cases h
    exact (grow_undisturbed E alloc m a b _ ha hb hab hfresh hg).1
  · rename_i m1 v1 hg
    cases h
    obtain ⟨k1, k2⟩ := grow_undisturbed E alloc m a b _ ha hb hab hfresh hg
    obtain ⟨_, k3⟩ := k2 rfl
    have k3 : v1.end_ < v1.cap_ := k3
    have o1 : v1.begin_ ≤ v1.end_ := k1.2.1.1
    refine undisturbed_trans k1 (undisturbed_inside k1.2.1 k1.2.2 rfl rfl ?_ ?_ ?_ ?_)
    · show v1.begin_ ≤ v1.end_ + 1
      omega
    · show v1.end_ + 1 ≤ v1.cap_
      omega
    · intro q hq
      exact store_other _ _ _ _ (by
        have o1 : v1.begin_ ≤ v1.end_ := o1
        have hq : q < v1.begin_ ∨ v1.cap_ ≤ q := hq
        omega)
    · intro q hq
      exact store_isSome _ _ _ _ hq

theorem pop_back_undisturbed (m : Memory T) (a b : vector)
    (hb : vector.Owns m b) (hab : vector.Apart a b) (hne : b.begin_ < b.end_) :
    vector.Undisturbed a m (b.pop_back m).1 (b.pop_back m).2 := by
  have o2 := hb.2.1
  refine undisturbed_inside hb hab rfl rfl ?_ ?_ ?_ ?_
  · show b.begin_ ≤ b.end_ - 1
    omega
  · show b.end_ - 1 ≤ b.cap_
    omega
  · intro q hq
    exact store_other _ _ _ _ (by omega)
  · intro q hq
    exact store_isSome _ _ _ _ hq

theorem erase_undisturbed (E : Elem T) (pos : Nat) (m : Memory T) (a b : vector)
    (r : Nat × Memory T × vector) (hb : vector.Owns m b) (hab : vector.Apart a b)
    (h : b.erase E pos m = some r) :
    vector.Undisturbed a m r.2.1 r.2.2 := by
  have o2 := hb.2.1
  unfold vector.erase at h
  split at h
  · cases h
  · rename_i m1 hs
    cases h
    obtain ⟨k1, k2, k3⟩ := erase_shift_keeps E _ _ _ _ _ hs
    refine undisturbed_inside hb hab rfl rfl ?_ ?_ ?_ ?_
    · show b.begin_ ≤ b.end_ - 1
      omega
    · show b.end_ - 1 ≤ b.cap_
      omega
    · intro q hq
      show Memory.destroy m1 (b.end_ - 1) q = m q
      unfold Memory.destroy
      rw [store_other _ _ _ _ (by omega)]
      exact k2 q (by omega)
    · intro q hq
      exact store_isSome _ _ _ _ (k3 q hq)

theorem erase_range_undisturbed (E : Elem T) (first last : Nat) (m : Memory T) (a b : vector)
    (r : Nat × Memory T × vector) (hb : vector.Owns m b) (hab : vector.Apart a b)
    (h : b.erase_range E first last m = some r) : vector.Undisturbed a m r.2.1 r.2.2 := by
  have o2 := hb.2.1
  unfold vector.erase_range at h
  split at h
  · cases h
  · rename_i new_end m1 hs
    split at h
    · cases h
    · rename_i m2 hd
      cases h
      obtain ⟨k1, k2, k3, k4⟩ := erase_move_keeps E _ _ _ _ _ _ hs
      obtain ⟨d1, d2, d3⟩ := destroy_range_keeps _ _ _ _ _ hd
      have k2 : new_end = b.begin_ + (first - b.begin_) +
        (b.end_ - (b.begin_ + (last - b.begin_))) := k2
      refine undisturbed_inside hb hab rfl rfl ?_ ?_ ?_ ?_
      · show b.begin_ ≤ new_end
        omega
      · show new_end ≤ b.cap_
        omega
      · intro q hq
        show m2 q = m q
        rw [d2 q (by omega)]
        exact k3 q (by omega) (by omega)
      · intro q hq
        exact d3 q (k4 q hq)

theorem clear_undisturbed (m : Memory T) (a b : vector) (r : Memory T × vector)
    (hb : vector.Owns m b) (hab : vector.Apart a b) (h : b.clear m = some r) :
    vector.Undisturbed a m r.1 r.2 := by
  have o2 := hb.2.1
  unfold vector.clear at h
  split at h
  · cases h
  · rename_i m1 hd
    cases h
    obtain ⟨d1, d2, d3⟩ := destroy_range_keeps _ _ _ _ _ hd
    refine undisturbed_inside hb hab rfl rfl ?_ ?_ ?_ ?_
    · exact Nat.le_refl _
    · show b.begin_ ≤ b.cap_
      omega
    · intro q hq
      exact d2 q (by omega)
    · intro q hq
      exact d3 q hq

theorem reserve_undisturbed (E : Elem T) (alloc : Nat → Option Nat) (n : Nat) (m : Memory T)
    (a b : vector) (r : Except Exn Unit × Memory T × vector)
    (ha : vector.Owns m a) (hb : vector.Owns m b) (hab : vector.Apart a b)
    (hfresh : ∀ n p, alloc n = some p → vector.Free m p n)
    (h : b.reserve E alloc n m = some r) :
    vector.Undisturbed a m r.2.1 r.2.2 ∧ (r.1 = .ok () → n ≤ r.2.2.capacity) := by
  have o2 := hb.2.1
  unfold vector.reserve at h
  split_ifs at h with c
  · simp only [Option.some.injEq] at h
    subst h
    exact ⟨⟨fun _ _ _ => rfl, hb, hab⟩, fun _ => c⟩
  · obtain ⟨k1, k2⟩ := reallocate_undisturbed E alloc n m a b r ha hb hab hfresh
      (by unfold vector.size; unfold vector.capacity at c; omega) h
    exact ⟨k1, fun e => Nat.le_of_eq (k2 e).2.symm⟩

theorem shrink_to_fit_undisturbed (E : Elem T) (alloc : Nat → Option Nat) (m : Memory T)
    (a b : vector) (r : Except Exn Unit × Memory T × vector)
    (ha : vector.Owns m a) (hb : vector.Owns m b) (hab : vector.Apart a b)
    (hfresh : ∀ n p, alloc n = some p → vector.Free m p n)
    (h : b.shrink_to_fit E alloc m = some r) : vector.Undisturbed a m r.2.1 r.2.2 := by
  unfold vector.shrink_to_fit at h
  split_ifs at h with c
  · exact (reallocate_undisturbed E alloc _ m a b r ha hb hab hfresh (Nat.le_refl _) h).1
  · simp only [Option.some.injEq] at h
    subst h
    exact ⟨fun _ _ _ => rfl, hb, hab⟩

theorem resize_undisturbed (E : Elem T) (alloc : Nat → Option Nat) (n : Nat) (value : T)
    (m : Memory T) (a b : vector) (r : Except Exn Unit × Memory T × vector)
    (ha : vector.Owns m a) (hb : vector.Owns m b) (hab : vector.Apart a b)
    (hfresh : ∀ n p, alloc n = some p → vector.Free m p n)
    (h : b.resize E alloc n value m = some r) : vector.Undisturbed a m r.2.1 r.2.2 := by
  have o1 := hb.1
  unfold vector.resize at h
  split_ifs at h with c1 c2
  · split at h
    · cases h
    · rename_i it m1 v1 he
      cases h
      exact erase_range_undisturbed E _ _ m a b _ hb hab he
  · split at h
    · cases h
    · rename_i e m1 v1 hr
      cases h
      exact (reserve_undisturbed E alloc n m a b _ ha hb hab hfresh hr).1
    · rename_i m1 v1 hr
      cases h
      obtain ⟨k1, k2⟩ := reserve_undisturbed E alloc n m a b _ ha hb hab hfresh hr
      have k2 : n ≤ v1.cap_ - v1.begin_ := k2 rfl
      have p1 : v1.begin_ ≤ v1.end_ := k1.2.1.1
      have p2 : v1.end_ ≤ v1.cap_ := k1.2.1.2.1
      obtain ⟨f1, f2, f3, f4, f5, f6⟩ := resize_fill_keeps n n value m1 v1 p1
      refine undisturbed_trans k1 (undisturbed_inside k1.2.1 k1.2.2 f1 f2 ?_ ?_ ?_ f6)
      · show (vector.resize_fill n n value m1 v1).2.begin_ ≤
          (vector.resize_fill n n value m1 v1).2.end_
        omega
      · show (vector.resize_fill n n value m1 v1).2.end_ ≤
          (vector.resize_fill n n value m1 v1).2.cap_
        omega
      · intro q hq
        have hq : q < v1.begin_ ∨ v1.cap_ ≤ q := hq
        exact f5 q (by omega)
  · simp only [Option.some.injEq] at h
    subst h
    exact ⟨fun _ _ _ => rfl, hb, hab⟩

theorem insert_undisturbed (E : Elem T) (alloc : Nat → Option Nat) (pos : Nat) (x : T)
    (m : Memory T) (a b : vector) (r : Except Exn Nat × Memory T × vector)
    (ha : vector.Owns m a) (hb : vector.Owns m b) (hab : vector.Apart a b)
    (hfresh : ∀ n p, alloc n = some p → vector.Free m p n)
    (h : b.insert E alloc pos x m = some r) : vector.Undisturbed a m r.2.1 r.2.2 := by
  unfold vector.insert at h
  split at h
  · cases h
  · rename_i e m1 v1 hg
    cases h
    exact (grow_undisturbed E alloc m a b _ ha hb hab hfresh hg).1
  · rename_i m1 v1 hg
    obtain ⟨k1, k2⟩ := grow_undisturbed E alloc m a b _ ha hb hab hfresh hg
    obtain ⟨k3, k4⟩ := k2 rfl
    have k3 : v1.end_ - v1.begin_ = b.end_ - b.begin_ := k3
    have k4 : v1.end_ < v1.cap_ := k4
    have o1 : v1.begin_ ≤ v1.end_ := k1.2.1.1
    split_ifs at h with c
    · have c : v1.begin_ + (pos - b.begin_) ≠ v1.end_ := by simpa using c
      split at h
      · cases h
      · rename_i m3 hs
        cases h
        obtain ⟨s1, s2, s3⟩ := shift_right_keeps E _ _ _ _ _ hs
        refine undisturbed_trans k1 (undisturbed_inside k1.2.1 k1.2.2 rfl rfl ?_ ?_ ?_ ?_)
        · show v1.begin_ ≤ v1.end_ + 1
          omega
        · show v1.end_ + 1 ≤ v1.cap_
          omega
        · intro q hq
          have hq : q < v1.begin_ ∨ v1.cap_ ≤ q := hq
          show Memory.store m3 (v1.begin_ + (pos - b.begin_)) (some (some x)) q = m1 q
          rw [store_other _ _ _ _ (by omega), s2 q (by omega)]
          exact construct_move_other E _ _ _ _ (by omega) (by omega)
        · intro q hq
          exact store_isSome _ _ _ _ (s3 q (construct_move_isSome E _ _ _ _ hq))
    · cases h
      refine undisturbed_trans k1 (undisturbed_inside k1.2.1 k1.2.2 rfl rfl ?_ ?_ ?_ ?_)
      · show v1.begin_ ≤ v1.end_ + 1
        omega
      · show v1.end_ + 1 ≤ v1.cap_
        omega
      · intro q hq
        have hq : q < v1.begin_ ∨ v1.cap_ ≤ q := hq
        exact store_other _ _ _ _ (by omega)
      · intro q hq
        exact store_isSome _ _ _ _ hq

theorem emplace_undisturbed (E : Elem T) (alloc : Nat → Option Nat) (pos : Nat) (x : T)
    (m : Memory T) (a b : vector) (r : Except Exn Nat × Memory T × vector)
    (ha : vector.Owns m a) (hb : vector.Owns m b) (hab : vector.Apart a b)
    (hfresh : ∀ n p, alloc n = some p → vector.Free m p n)
    (h : b.emplace E alloc pos x m = some r) : vector.Undisturbed a m r.2.1 r.2.2 := by
  unfold vector.emplace at h
  split at h
  · cases h
  · rename_i e m1 v1 hg
    cases h
    exact (grow_undisturbed E alloc m a b _ ha hb hab hfresh hg).1
  · rename_i m1 v1 hg
    obtain ⟨k1, k2⟩ := grow_undisturbed E alloc m a b _ ha hb hab hfresh hg
    obtain ⟨k3, k4⟩ := k2 rfl
    have k3 : v1.end_ - v1.begin_ = b.end_ - b.begin_ := k3
    have k4 : v1.end_ < v1.cap_ := k4
    have o1 : v1.begin_ ≤ v1.end_ := k1.2.1.1
    split_ifs at h with c
    · have c : v1.begin_ + (pos - b.begin_) ≠ v1.end_ := by simpa using c
      split at h
      · cases h
      · rename_i m3 hs
        cases h
        obtain ⟨s1, s2, s3⟩ := shift_right_keeps E _ _ _ _ _ hs
        refine undisturbed_trans k1 (undisturbed_inside k1.2.1 k1.2.2 rfl rfl ?_ ?_ ?_ ?_)
        · show v1.begin_ ≤ v1.end_ + 1
          omega
        · show v1.end_ + 1 ≤ v1.cap_
          omega
        · intro q hq
          have hq : q < v1.begin_ ∨ v1.cap_ ≤ q := hq
          show Memory.store (Memory.store m3 (v1.begin_ + (pos - b.begin_)) (some none))
            (v1.begin_ + (pos - b.begin_)) (some (some x)) q = m1 q
          rw [store_other _ _ _ _ (by omega), store_other _ _ _ _ (by omega),
            s2 q (by omega)]
          exact construct_move_other E _ _ _ _ (by omega) (by omega)
        · intro q hq
          exact store_isSome _ _ _ _
            (store_isSome _ _ _ _ (s3 q (construct_move_isSome E _ _ _ _ hq)))
    · cases h
      refine undisturbed_trans k1 (undisturbed_inside k1.2.1 k1.2.2 rfl rfl ?_ ?_ ?_ ?_)
      · show v1.begin_ ≤ v1.end_ + 1
        omega
      · show v1.end_ + 1 ≤ v1.cap_
        omega
      · intro q hq
        have hq : q < v1.begin_ ∨ v1.cap_ ≤ q := hq
        exact store_other _ _ _ _ (by omega)
      · intro q hq
        exact store_isSome _ _ _ _ hq

theorem later_undisturbed (E : Elem T) (a : vector) (s0 s : Memory T × vector)
    (h : Later E s0 s) (ha : vector.Owns s0.1 a) (hb : vector.Owns s0.1 s0.2)
    (hab : vector.Apart a s0.2) : vector.Undisturbed a s0.1 s.1 s.2 := by
  induction h with
  | refl => exact ⟨fun _ _ _ => rfl, hb, hab⟩
  | set_index s1 n x _ hn ih =>
    exact undisturbed_trans ih (set_index_undisturbed s1.1 a s1.2 n x ih.2.1 ih.2.2 hn)
  | push_back s1 alloc x r _ hf hr ih =>
    exact undisturbed_trans ih (push_back_undisturbed E alloc x s1.1 a s1.2 r
      (undisturbed_owns ha ih) ih.2.1 ih.2.2 hf hr)
  | pop_back s1 _ hne ih =>
    exact undisturbed_trans ih (pop_back_undisturbed s1.1 a s1.2 ih.2.1 ih.2.2 hne)
  | insert s1 alloc pos x r _ hf _ _ hr ih =>
    exact undisturbed_trans ih (insert_undisturbed E alloc pos x s1.1 a s1.2 r
      (undisturbed_owns ha ih) ih.2.1 ih.2.2 hf hr)
  | emplace s1 alloc pos x r _ hf _ _ hr ih =>
    exact undisturbed_trans ih (emplace_undisturbed E alloc pos x s1.1 a s1.2 r
      (undisturbed_owns ha ih) ih.2.1 ih.2.2 hf hr)
  | erase s1 pos r _ _ _ hr ih =>
    exact undisturbed_trans ih (erase_undisturbed E pos s1.1 a s1.2 r ih.2.1 ih.2.2 hr)
  | erase_range s1 first last r _ _ _ _ hr ih =>
    exact undisturbed_trans ih
      (erase_range_undisturbed E first last s1.1 a s1.2 r ih.2.1 ih.2.2 hr)
  | clear s1 r _ hr ih =>
    exact undisturbed_trans ih (clear_undisturbed s1.1 a s1.2 r ih.2.1 ih.2.2 hr)
  | reserve s1 alloc n r _ hf hr ih =>
    exact undisturbed_trans ih (reserve_undisturbed E alloc n s1.1 a s1.2 r
      (undisturbed_owns ha ih) ih.2.1 ih.2.2 hf hr).1
  | shrink_to_fit s1 alloc r _ hf hr ih =>
    exact undisturbed_trans ih (shrink_to_fit_undisturbed E alloc s1.1 a s1.2 r
      (undisturbed_owns ha ih) ih.2.1 ih.2.2 hf hr)
  | resize s1 alloc n x r _ hf hr ih =>
    exact undisturbed_trans ih (resize_undisturbed E alloc n x s1.1 a s1.2 r
      (undisturbed_owns ha ih) ih.2.1 ih.2.2 hf hr)

theorem range_loop_copies : ∀ (fuel first last : Nat) (m : Memory T) (v : vector),
    first ≤ last → last - first ≤ fuel →
    (first < last → v.end_ + (last - first) ≤ first ∨ last ≤ v.end_) →
    ∃ r, vector.range_loop fuel first last m v = some r ∧
      r.2.begin_ = v.begin_ ∧ r.2.end_ = v.end_ + (last - first) ∧ r.2.cap_ = v.cap_ ∧
      (∀ k, k < last - first → r.1 (v.end_ + k) = some (Memory.load m (first + k))) ∧
      (∀ q, (q < v.end_ ∨ v.end_ + (last - first) ≤ q) → r.1 q = m q) := by
  intro fuel
  induction fuel with
  | zero =>
    intro first last m v h1 h2 _
    have e : first = last := by omega
    refine ⟨(m, v), by simp [vector.range_loop, e], rfl, by simp [e], rfl, ?_, fun _ _ => rfl⟩
    intro k hk
    omega
  | succ fuel ih =>
    intro first last m v h1 h2 h3
    by_cases c : first = last
    · refine ⟨(m, v), by simp [vector.range_loop, c], rfl, by simp [c], rfl, ?_,
        fun _ _ => rfl⟩
      intro k hk
      omega
    · have hlt : first < last := by omega
      have d := h3 hlt
      obtain ⟨r, hr, e1, e2, e3, hv, hf⟩ := ih (first + 1) last
        (Memory.store m v.end_ (some (Memory.load m first))) { v with end_ := v.end_ + 1 }
        (by omega) (by omega) (fun _ => by
          show v.end_ + 1 + (last - (first + 1)) ≤ first + 1 ∨ last ≤ v.end_ + 1
          omega)
      have e2 : r.2.end_ = v.end_ + 1 + (last - (first + 1)) := e2
      have hv : ∀ k, k < last - (first + 1) → r.1 (v.end_ + 1 + k) =
          some (Memory.load (Memory.store m v.end_ (some (Memory.load m first)))
            (first + 1 + k)) := hv
      have hf : ∀ q, (q < v.end_ + 1 ∨ v.end_ + 1 + (last - (first + 1)) ≤ q) →
          r.1 q = Memory.store m v.end_ (some (Memory.load m first)) q := hf
      refine ⟨r, ?_, e1, by rw [e2]; omega, e3, ?_, ?_⟩
      · unfold vector.range_loop
        rw [if_pos (by simpa using c)]
        exact hr
      · intro k hk
        cases k with
        | zero =>
          rw [hf _ (by omega)]
          simp [Memory.store]
        | succ j =>
          have e : v.end_ + (j + 1) = v.end_ + 1 + j := by omega
          have e4 : first + (j + 1) = first + 1 + j := by omega
          rw [e, e4, hv j (by omega)]
          exact congrArg some (load_of_eq (store_other _ _ _ _ (by omega)))
      · intro q hq
        rw [hf q (by omega)]
        exact store_other _ _ _ _ (by omega)

theorem copy_ctor_copies (alloc : Nat → Option Nat) (m : Memory T) (a : vector) (p : Nat)
    (ha : vector.Owns m a) (hal : alloc a.size = some p)
    (hfree : vector.Free m p a.size) :
    ∃ m1, vector.copy_ctor alloc m a = some (.ok (m1, ⟨p, p + a.size, p + a.size⟩)) ∧
      (∀ k, k < a.size → m1 (p + k) = some (Memory.load m (a.begin_ + k))) ∧
      (∀ q, (q < p ∨ p + a.size ≤ q) → m1 q = m q) := by
  obtain ⟨o1, o2, o3⟩ := ha
  unfold vector.size at *
  have N : ∀ q, a.begin_ ≤ q → q < a.cap_ → ¬ (p ≤ q ∧ q < p + (a.end_ - a.begin_)) := by
    intro q h1 h2 h3
    have k1 := o3 q h1 h2
    rw [hfree q h3.1 h3.2] at k1
    cases k1
  obtain ⟨⟨m1, b⟩, hr, e1, e2, e3, hv, hf⟩ := range_loop_copies
    (a.end_ - a.begin_ + 1) a.begin_ a.end_
    (Memory.allocate m p (a.end_ - a.begin_)) ⟨p, p, p + (a.end_ - a.begin_)⟩
    o1 (by omega) (by
      intro hlt
      show p + (a.end_ - a.begin_) ≤ a.begin_ ∨ a.end_ ≤ p
      by_cases c : p ≤ a.begin_
      · have k := N a.begin_ (Nat.le_refl _) (by omega)
        omega
      · have k := N p (by omega)
        omega)
  have e1 : b.begin_ = p := e1
  have e2 : b.end_ = p + (a.end_ - a.begin_) := e2
  have e3 : b.cap_ = p + (a.end_ - a.begin_) := e3
  have hv2 : ∀ k, k < a.end_ - a.begin_ → m1 (p + k) =
      some (Memory.load (Memory.allocate m p (a.end_ - a.begin_)) (a.begin_ + k)) := hv
  have hf2 : ∀ q, (q < p ∨ p + (a.end_ - a.begin_) ≤ q) →
      m1 q = Memory.allocate m p (a.end_ - a.begin_) q := hf
  have eb : b = ⟨p, p + (a.end_ - a.begin_), p + (a.end_ - a.begin_)⟩ := by
    cases b
    simp only [vector.mk.injEq]
    exact ⟨e1, e2, e3⟩
  subst eb
  refine ⟨m1, ?_, ?_, ?_⟩
  · unfold vector.copy_ctor
    rw [hal]
    dsimp only
    rw [hr]
  · intro k hk
    rw [hv2 k hk]
    refine congrArg some (load_of_eq ?_)
    unfold Memory.allocate
    rw [if_neg (N _ (by omega) (by omega))]
  · intro q hq
    rw [hf2 q hq]
    unfold Memory.allocate
    rw [if_neg (by omega)]

theorem to_list_of_agree (m m1 : Memory T) (a : vector)
    (h : ∀ q, a.begin_ ≤ q → q < a.end_ → m1 q = m q) :
    vector.to_list m1 a = vector.to_list m a := by
  unfold vector.to_list
  apply List.map_congr_left
  intro k hk
  have hk : k < a.size := List.mem_range.mp hk
  unfold vector.size at hk
  unfold vector.index
  exact load_of_eq (h _ (by omega) (by omega))

theorem to_list_of_copy (m m1 : Memory T) (a b : vector) (hs : b.size = a.size)
    (h : ∀ k, k < a.size → m1 (b.begin_ + k) = some (Memory.load m (a.begin_ + k))) :
    vector.to_list m1 b = vector.to_list m a := by
  unfold vector.to_list
  rw [hs]
  apply List.map_congr_left
  intro k hk
  have hk : k < a.size := List.mem_range.mp hk
  unfold vector.index Memory.load
  rw [h k hk]
  rfl

theorem erase_shift_ends (E : Elem T) : ∀ (fuel it e : Nat) (m : Memory T),
    it < e → e - it ≤ fuel + 1 → ∃ m1, vector.erase_shift E fuel it e m = some m1 := by
  intro fuel
  induction fuel with
  | zero =>
    intro it e m h1 h2
    have c : it + 1 = e := by omega
    exact ⟨m, by simp [vector.erase_shift, c]⟩
  | succ fuel ih =>
    intro it e m h1 h2
    unfold vector.erase_shift
    by_cases c : it + 1 = e
    · exact ⟨m, by simp [c]⟩
    · obtain ⟨m1, e1⟩ := ih (it + 1) e (Memory.assign_move E m it (it + 1)) (by omega)
        (by omega)
      exact ⟨m1, by simp [c, e1]⟩

theorem erase_move_ends (E : Elem T) : ∀ (fuel it ne e : Nat) (m : Memory T),
    it ≤ e → e - it ≤ fuel → ∃ r, vector.erase_move E fuel it ne e m = some r := by
  intro fuel
  induction fuel with
  | zero =>
    intro it ne e m h1 h2
    have c : it = e := by omega
    exact ⟨(ne, m), by simp [vector.erase_move, c]⟩
  | succ fuel ih =>
    intro it ne e m h1 h2
    unfold vector.erase_move
    by_cases c : it = e
    · exact ⟨(ne, m), by simp [c]⟩
    · obtain ⟨r, e1⟩ := ih (it + 1) (ne + 1) e (Memory.assign_move E m ne it) (by omega)
        (by omega)
      exact ⟨r, by simp [c, e1]⟩

theorem shift_right_ends (E : Elem T) : ∀ (fuel it p : Nat) (m : Memory T),
    p ≤ it → it - p ≤ fuel → ∃ m1, vector.shift_right E fuel it p m = some m1 := by
  intro fuel
  induction fuel with
  | zero =>
    intro it p m h1 h2
    have c : it = p := by omega
    exact ⟨m, by simp [vector.shift_right, c]⟩
  | succ fuel ih =>
    intro it p m h1 h2
    unfold vector.shift_right
    by_cases c : it = p
    · exact ⟨m, by simp [c]⟩
    · obtain ⟨m1, e1⟩ := ih (it - 1) p (Memory.assign_move E m it (it - 1)) (by omega)
        (by omega)
      exact ⟨m1, by simp [c, e1]⟩

theorem reallocate_returns (E : Elem T) (alloc : Nat → Option Nat) (c : Nat) (m : Memory T)
    (b : vector) (o1 : b.begin_ ≤ b.end_) (o2 : b.end_ ≤ b.cap_) :
    ∃ r, b.reallocate E alloc c m = some r := by
  unfold vector.reallocate
  cases alloc c with
  | none => exact ⟨_, rfl⟩
  | some nb =>
    obtain ⟨m2, e⟩ := destroy_and_deallocate_ends
      (vector.realloc_loop E b.size 0 b.size b.begin_ nb (Memory.allocate m nb c)) b o1 o2
    dsimp only
    rw [e]
    exact ⟨_, rfl⟩

theorem grow_returns (E : Elem T) (alloc : Nat → Option Nat) (m : Memory T) (b : vector)
    (hb : vector.Owns m b) (hfresh : ∀ n p, alloc n = some p → vector.Free m p n) :
    ∃ r, (if b.end_ = b.cap_ then b.reallocate E alloc b.grow_size m
      else some (.ok (), m, b)) = some r ∧
      (r.1 = .ok () → vector.Owns r.2.1 r.2.2 ∧ r.2.2.size = b.size ∧
        r.2.2.end_ < r.2.2.cap_) := by
  have hr : ∃ r, (if b.end_ = b.cap_ then b.reallocate E alloc b.grow_size m
      else some (.ok (), m, b)) = some r := by
    split_ifs
    · exact reallocate_returns E alloc _ m b hb.1 hb.2.1
    · exact ⟨_, rfl⟩
  obtain ⟨r, e⟩ := hr
  obtain ⟨k1, k2⟩ := grow_undisturbed E alloc m ⟨0, 0, 0⟩ b r
    ⟨Nat.le_refl _, Nat.le_refl _, fun q h1 h2 => absurd h2 (Nat.not_lt_zero q)⟩ hb
    (fun q h1 h2 => absurd h2 (Nat.not_lt_zero q)) hfresh e
  exact ⟨r, e, fun ok => ⟨k1.2.1, (k2 ok).1, (k2 ok).2⟩⟩

/-- Every step of `Later` that is a call with a result is a call that returns:
in a memory where `b` owns its block and the allocator hands out storage
that is not in use, each mutating operation of `b`, used within its
precondition, ends with a result. -/
theorem later_steps_return (E : Elem T) (alloc : Nat → Option Nat) (m : Memory T)
    (b : vector) (hb : vector.Owns m b)
    (hfresh : ∀ n p, alloc n = some p → vector.Free m p n) :
    (∀ x, ∃ r, b.push_back E alloc x m = some r) ∧
    (∀ pos x, b.begin_ ≤ pos → pos ≤ b.end_ → ∃ r, b.insert E alloc pos x m = some r) ∧
    (∀ pos x, b.begin_ ≤ pos → pos ≤ b.end_ → ∃ r, b.emplace E alloc pos x m = some r) ∧
    (∀ pos, b.begin_ ≤ pos → pos < b.end_ → ∃ r, b.erase E pos m = some r) ∧
    (∀ first last, b.begin_ ≤ first → first ≤ last → last ≤ b.end_ →
      ∃ r, b.erase_range E first last m = some r) ∧
    (∃ r, b.clear m = some r) ∧
    (∀ n, ∃ r, b.reserve E alloc n m = some r) ∧
    (∃ r, b.shrink_to_fit E alloc m = some r) ∧
    (∀ n x, ∃ r, b.resize E alloc n x m = some r) := by
  obtain ⟨o1, o2, o3⟩ := hb
  have hb : vector.Owns m b := ⟨o1, o2, o3⟩
  have hrange : ∀ first last, b.begin_ ≤ first → first ≤ last → last ≤ b.end_ →
      ∃ r, b.erase_range E first last m = some r := by
    intro first last h1 h2 h3
    unfold vector.erase_range
    obtain ⟨⟨ne, m1⟩, e1⟩ := erase_move_ends E (b.capacity + 1)
      (b.begin_ + (last - b.begin_)) (b.begin_ + (first - b.begin_)) b.end_ m (by omega)
      (by unfold vector.capacity; omega)
    obtain ⟨_, k2, _⟩ := erase_move_keeps E _ _ _ _ _ _ e1
    have k2 : ne = b.begin_ + (first - b.begin_) +
      (b.end_ - (b.begin_ + (last - b.begin_))) := k2
    obtain ⟨m2, e2⟩ := destroy_range_ends (b.capacity + 1) ne b.end_ m1 (by omega)
      (by unfold vector.capacity; omega)
    rw [e1]
    dsimp only
    rw [e2]
    exact ⟨_, rfl⟩
  have hreserve : ∀ n, ∃ r, b.reserve E alloc n m = some r := by
    intro n
    unfold vector.reserve
    split_ifs
    · exact ⟨_, rfl⟩
    · exact reallocate_returns E alloc n m b o1 o2
  have hshift : ∀ (pos : Nat) (m1 : Memory T) (v1 : vector), b.begin_ ≤ pos → pos ≤ b.end_ →
      v1.begin_ ≤ v1.end_ → v1.end_ ≤ v1.cap_ → v1.size = b.size →
      v1.begin_ + (pos - b.begin_) ≠ v1.end_ →
      ∃ m3, vector.shift_right E (v1.capacity + 1) (v1.end_ - 1)
        (v1.begin_ + (pos - b.begin_)) m1 = some m3 := by
    intro pos m1 v1 h1 h2 p1 p2 hs hne
    unfold vector.size at hs
    exact shift_right_ends E _ _ _ _ (by omega) (by unfold vector.capacity; omega)
  refine ⟨?_, ?_, ?_, ?_, hrange, ?_, hreserve, ?_, ?_⟩
  · intro x
    obtain ⟨⟨res, m1, v1⟩, e, _⟩ := grow_returns E alloc m b hb hfresh
    unfold vector.push_back
    rw [e]
    cases res with
    | error ex => exact ⟨_, rfl⟩
    | ok u => exact ⟨_, rfl⟩
  · intro pos x h1 h2
    obtain ⟨⟨res, m1, v1⟩, e, k⟩ := grow_returns E alloc m b hb hfresh
    unfold vector.insert
    rw [e]
    cases res with
    | error ex => exact ⟨_, rfl⟩
    | ok u =>
      obtain ⟨k1, k2, _⟩ := k rfl
      dsimp only
      split_ifs with c
      · obtain ⟨m3, e3⟩ := hshift pos (Memory.construct_move E m1 v1.end_ (v1.end_ - 1)) v1
          h1 h2 k1.1 k1.2.1 k2 (by simpa using c)
        rw [e3]
        exact ⟨_, rfl⟩
      · exact ⟨_, rfl⟩
  · intro pos x h1 h2
    obtain ⟨⟨res, m1, v1⟩, e, k⟩ := grow_returns E alloc m b hb hfresh
    unfold vector.emplace
    rw [e]
    cases res with
    | error ex => exact ⟨_, rfl⟩
    | ok u =>
      obtain ⟨k1, k2, _⟩ := k rfl
      dsimp only
      split_ifs with c
      · obtain ⟨m3, e3⟩ := hshift pos (Memory.construct_move E m1 v1.end_ (v1.end_ - 1)) v1
          h1 h2 k1.1 k1.2.1 k2 (by simpa using c)
        rw [e3]
        exact ⟨_, rfl⟩
      · exact ⟨_, rfl⟩
  · intro pos h1 h2
    unfold vector.erase
    obtain ⟨m1, e1⟩ := erase_shift_ends E (b.capacity + 1) (b.begin_ + (pos - b.begin_))
      b.end_ m (by omega) (by unfold vector.capacity; omega)
    rw [e1]
    exact ⟨_, rfl⟩
  · unfold vector.clear
    obtain ⟨m1, e1⟩ := destroy_range_ends (b.capacity + 1) b.begin_ b.end_ m o1
      (by unfold vector.capacity; omega)
    rw [e1]
    exact ⟨_, rfl⟩
  · unfold vector.shrink_to_fit
    split_ifs
    · exact reallocate_returns E alloc _ m b o1 o2
    · exact ⟨_, rfl⟩
  · intro n x
    unfold vector.resize
    split_ifs with c1 c2
    · unfold vector.size at c1
      obtain ⟨⟨it, m1, v1⟩, e1⟩ := hrange (b.begin_ + n) b.end_ (by omega) (by omega)
        (Nat.le_refl _)
      rw [e1]
      exact ⟨_, rfl⟩
    · obtain ⟨⟨res, m1, v1⟩, e1⟩ := hreserve n
      rw [e1]
      cases res with
      | error ex => exact ⟨_, rfl⟩
      | ok u => exact ⟨_, rfl⟩
    · exact ⟨_, rfl⟩

/-- C16. In a memory `m` that holds the block of a vector `a` and, apart from it, the
block of a vector `b0`, with the allocator answering the request for
`a.size()` slots with storage `p` that is not in use: the copy construction
`b(a)` and the copy assignment `b0 = a` both return, and the vector `b` they
give has the size of `a` and the elements of `a` in the same order, in a
block that has no slot in common with the block of `a`, whose elements are
the ones they were; and in every state `s` that `b` reaches afterwards by
its own mutations (`b[n] = x`, `push_back`, `pop_back`, `insert`, `emplace`,
`erase`, `erase(first, last)`, `clear`, `reserve`, `shrink_to_fit`, `resize`,
in any number and order), `a`, whose cursors no such call is given, still
reads the same elements in the shared memory. -/
theorem copy_independence (E : Elem T) (alloc : Nat → Option Nat) (m : Memory T)
    (a b0 : vector) (p : Nat)
    (ha : vector.Owns m a) (hb0 : vector.Owns m b0) (hab : vector.Apart a b0)
    (hal : alloc a.size = some p) (hfree : vector.Free m p a.size) :
    (∃ m1 b, vector.copy_ctor alloc m a = some (.ok (m1, b)) ∧
      b.size = a.size ∧ vector.to_list m1 b = vector.to_list m a ∧
      vector.to_list m1 a = vector.to_list m a ∧ vector.Apart a b ∧
      ∀ s, Later E (m1, b) s → vector.to_list s.1 a = vector.to_list m a) ∧
    (∃ m2 b, vector.copy_assign alloc m b0 a = some (.ok (), m2, b) ∧
      b.size = a.size ∧ vector.to_list m2 b = vector.to_list m a ∧
      vector.to_list m2 a = vector.to_list m a ∧ vector.Apart a b ∧
      ∀ s, Later E (m2, b) s → vector.to_list s.1 a = vector.to_list m a) := by
  obtain ⟨m1, hc, hv, hf⟩ := copy_ctor_copies alloc m a p ha hal hfree
  have oa := ha.2.1
  have N : ∀ q, (m q).isSome = true → (q < p ∨ p + a.size ≤ q) := by
    intro q hq
    by_contra c
    rw [hfree q (by omega) (by omega)] at hq
    cases hq
  have hbs : (⟨p, p + a.size, p + a.size⟩ : vector).size = a.size := by
    show p + a.size - p = a.size
    omega
  have agree1 : ∀ q, a.begin_ ≤ q → q < a.cap_ → m1 q = m q :=
    fun q h1 h2 => hf q (N q (ha.2.2 q h1 h2))
  have ha1 : vector.Owns m1 a := by
    refine ⟨ha.1, ha.2.1, ?_⟩
    intro q h1 h2
    rw [agree1 q h1 h2]
    exact ha.2.2 q h1 h2
  have hb1 : vector.Owns m1 ⟨p, p + a.size, p + a.size⟩ := by
    refine ⟨Nat.le_add_right _ _, Nat.le_refl _, ?_⟩
    intro q h1 h2
    have h1 : p ≤ q := h1
    have h2 : q < p + a.size := h2
    have k := hv (q - p) (by omega)
    rw [show p + (q - p) = q by omega] at k
    rw [k]
    rfl
  have hap : vector.Apart a ⟨p, p + a.size, p + a.size⟩ := by
    intro q h1 h2 h3
    have h3 : p ≤ q ∧ q < p + a.size := h3
    have k := N q (ha.2.2 q h1 h2)
    omega
  have tb : vector.to_list m1 ⟨p, p + a.size, p + a.size⟩ = vector.to_list m a :=
    to_list_of_copy m m1 a _ hbs hv
  have ta : vector.to_list m1 a = vector.to_list m a :=
    to_list_of_agree m m1 a (fun q h1 h2 => agree1 q h1 (by omega))
  constructor
  · refine ⟨m1, _, hc, hbs, tb, ta, hap, ?_⟩
    intro s hs
    have u := later_undisturbed E a _ s hs ha1 hb1 hap
    rw [← ta]
    exact to_list_of_agree m1 s.1 a (fun q h1 h2 => u.1 q h1 (by omega))
  · obtain ⟨m2, hd⟩ := destroy_and_deallocate_ends m1 b0 hb0.1 hb0.2.1
    have k := destroy_and_deallocate_keeps m1 m2 b0 hb0.1 hb0.2.1 hd
    have agree2 : ∀ q, a.begin_ ≤ q → q < a.cap_ → m2 q = m1 q := by
      intro q h1 h2
      have d := hab q h1 h2
      exact k q (by omega)
    have inb : ∀ q, p ≤ q → q < p + a.size → m2 q = m1 q := by
      intro q h1 h2
      apply k
      by_contra c
      have d := N q (hb0.2.2 q (by omega) (by omega))
      omega
    have ha2 : vector.Owns m2 a := by
      refine ⟨ha.1, ha.2.1, ?_⟩
      intro q h1 h2
      rw [agree2 q h1 h2]
      exact ha1.2.2 q h1 h2
    have hb2 : vector.Owns m2 ⟨p, p + a.size, p + a.size⟩ := by
      refine ⟨Nat.le_add_right _ _, Nat.le_refl _, ?_⟩
      intro q h1 h2
      rw [inb q h1 h2]
      exact hb1.2.2 q h1 h2
    have tb2 : vector.to_list m2 ⟨p, p + a.size, p + a.size⟩ = vector.to_list m a := by
      rw [← tb]
      exact to_list_of_agree m1 m2 _ (fun q h1 h2 => inb q h1 h2)
    have ta2 : vector.to_list m2 a = vector.to_list m a := by
      rw [← ta]
      exact to_list_of_agree m1 m2 a (fun q h1 h2 => agree2 q h1 (by omega))
    refine ⟨m2, _, ?_, hbs, tb2, ta2, hap, ?_⟩
    · unfold vector.copy_assign
      rw [hc]
      dsimp only
      rw [hd]
    · intro s hs
      have u := later_undisturbed E a _ s hs ha2 hb2 hap
      rw [← ta2]
      exact to_list_of_agree m2 s.1 a (fun q h1 h2 => u.1 q h1 (by omega))

theorem copy_independence_witness :
    vector.Owns copy_construct_memory ⟨100, 103, 103⟩ ∧
    vector.Owns copy_construct_memory ⟨0, 0, 0⟩ ∧
    vector.Apart ⟨100, 103, 103⟩ ⟨0, 0, 0⟩ ∧
    vector.Free copy_construct_memory 200 (vector.size ⟨100, 103, 103⟩) ∧
    ∃ m1 b, vector.copy_ctor (fun _ => some 200) copy_construct_memory ⟨100, 103, 103⟩
        = some (.ok (m1, b)) ∧
      vector.to_list m1 b = [some 7, some 7, some 7] ∧
      vector.index (b.set_index m1 0 99) b 0 = some 99 ∧
      vector.to_list (b.set_index m1 0 99) ⟨100, 103, 103⟩ = [some 7, some 7, some 7] := by
  have hO : vector.Owns copy_construct_memory ⟨100, 103, 103⟩ := by
    refine ⟨by decide, by decide, ?_⟩
    intro q h1 h2
    have h1 : 100 ≤ q := h1
    have h2 : q < 103 := h2
    unfold copy_construct_memory
    rw [if_pos ⟨h1, h2⟩]
    rfl
  have hN : vector.Owns copy_construct_memory ⟨0, 0, 0⟩ :=
    ⟨Nat.le_refl _, Nat.le_refl _, fun q _ h2 => absurd h2 (Nat.not_lt_zero q)⟩
  have hA : vector.Apart ⟨100, 103, 103⟩ ⟨0, 0, 0⟩ :=
    fun q _ _ h3 => absurd h3.2 (Nat.not_lt_zero q)
  have hF : vector.Free copy_construct_memory 200 (vector.size ⟨100, 103, 103⟩) := by
    intro q h1 h2
    have h2 : q < 200 + 3 := h2
    unfold copy_construct_memory
    rw [if_neg (by omega)]
  obtain ⟨⟨m1, b, e, hs, tb, _, _, hl⟩, _⟩ :=
    copy_independence (Elem.trivial 0) (fun _ => some 200) copy_construct_memory
      ⟨100, 103, 103⟩ ⟨0, 0, 0⟩ 200 hO hN hA rfl hF
  have hn : 0 < b.size := by
    rw [hs]
    decide
  have k := hl (b.set_index m1 0 99, b) (Later.set_index _ (m1, b) 0 99 (Later.refl _) hn)
  have t : vector.to_list copy_construct_memory ⟨100, 103, 103⟩ =
      [some 7, some 7, some 7] := by decide
  refine ⟨hO, hN, hA, hF, m1, b, e, tb.trans t, ?_, k.trans t⟩
  simp [vector.index, vector.set_index, Memory.load, Memory.store]

/-- The run `b(a); b[0] = 99; b.push_back(5); b.erase(b.begin());` on `a` = three 7s,
the allocator answering a request for `n` slots with the address `1000 * n`:
afterwards `b` is 7, 7, 5, in a new block, and `a` is still 7, 7, 7. -/
theorem copy_then_mutate_run :
    (match vector.copy_ctor (fun n => some (1000 * n)) copy_construct_memory
        ⟨100, 103, 103⟩ with
      | some (.ok (m1, b)) =>
        match b.push_back (Elem.trivial 0) (fun n => some (1000 * n)) 5
            (b.set_index m1 0 99) with
        | some (.ok (), m2, b2) =>
          match b2.erase (Elem.trivial 0) b2.begin_ m2 with
          | some (_, m3, b3) =>
            some (b3, vector.to_list m3 b3, vector.to_list m3 ⟨100, 103, 103⟩)
          | none => none
        | _ => none
      | _ => none) =
    some (⟨6000, 6003, 6006⟩, [some 7, some 7, some 5], [some 7, some 7, some 7]) := by
  decide

end shared

/-! ## Theorems about the allocator -/

namespace allocator

theorem allocate_bytes_exact (bits sizeof_T n : Nat) (h : n * sizeof_T < 2 ^ bits) :
    allocate_bytes bits sizeof_T n = n * sizeof_T :=
  Nat.mod_eq_of_lt h

theorem allocate_bytes_le (bits sizeof_T n : Nat) :
    allocate_bytes bits sizeof_T n ≤ n * sizeof_T :=
  Nat.mod_le _ _

theorem allocate_bytes_lt_iff (bits sizeof_T n : Nat) :
    allocate_bytes bits sizeof_T n < n * sizeof_T ↔ 2 ^ bits ≤ n * sizeof_T := by
  unfold allocate_bytes
  constructor
  · intro h
    by_contra c
    rw [Nat.mod_eq_of_lt (by omega)] at h
    omega
  · intro h
    exact Nat.lt_of_lt_of_le (Nat.mod_lt _ (Nat.pow_pos (by decide))) h

/-- C17, evaluated where the product leaves `size_t`.  With a 64-bit `size_t`
and an element type of 4 bytes, `allocate(2 ^ 62)` passes `2 ^ 62 * 4` modulo
`2 ^ 64`, that is 0, to `::operator new`: it requests 0 bytes, less than the
`2 ^ 64` bytes of the mathematical product, although both the count and the
element size are values of `size_t`.  (When the product is below `2 ^ 64`
the request is the product: `allocate_bytes_exact`.) -/
theorem allocate_bytes_wraps :
    (2 : Nat) ^ 62 < 2 ^ 64 ∧ (4 : Nat) < 2 ^ 64 ∧
    allocate_bytes 64 4 (2 ^ 62) = 0 ∧ allocate_bytes 64 4 (2 ^ 62) < 2 ^ 62 * 4 := by
  refine ⟨by norm_num, by norm_num, ?_, ?_⟩ <;> norm_num [allocate_bytes]

end allocator

/-! ## Theorems about the list -/

namespace Heap

theorem cell_write (h : Heap T) (p : Nat) (c : Option (Cell T)) (a : Nat) :
    (h.write p c).cell a = if a = p then c else h.cell a := rfl

theorem cell_set_next (h : Heap T) (p q a : Nat) :
    (h.set_next p q).cell a = if a = p then (h.cell p).map (Cell.set_next q) else h.cell a := rfl

theorem cell_set_prev (h : Heap T) (p q a : Nat) :
    (h.set_prev p q).cell a = if a = p then (h.cell p).map (Cell.set_prev q) else h.cell a := rfl

theorem cell_set_size (h : Heap T) (p k a : Nat) :
    (h.set_size p k).cell a = if a = p then (h.cell p).map (Cell.set_size k) else h.cell a := rfl

theorem cell_free (h : Heap T) (p a : Nat) :
    (h.free p).cell a = if a = p then none else h.cell a := rfl

theorem cell_alloc (h : Heap T) (c : Cell T) (a : Nat) :
    (h.alloc c).1.cell a = if a = h.brk then some c else h.cell a := rfl

@[simp]
theorem brk_set_next (h : Heap T) (p q : Nat) : (h.set_next p q).brk = h.brk := rfl
@[simp]
theorem brk_set_prev (h : Heap T) (p q : Nat) : (h.set_prev p q).brk = h.brk := rfl
@[simp]
theorem brk_set_size (h : Heap T) (p k : Nat) : (h.set_size p k).brk = h.brk := rfl
@[simp]
theorem brk_free (h : Heap T) (p : Nat) : (h.free p).brk = h.brk := rfl
@[simp]
theorem brk_alloc (h : Heap T) (c : Cell T) : (h.alloc c).1.brk = h.brk + 1 := rfl
@[simp]
theorem snd_alloc (h : Heap T) (c : Cell T) : (h.alloc c).2 = h.brk := rfl

/-- A cell is present at `p`. -/
theorem cell_isSome_of_is_node {h : Heap T} {p : Nat} (hp : h.is_node p = true) :
    (h.cell p).isSome = true := by
  unfold is_node at hp
  cases hc : h.cell p with
  | none => rw [hc] at hp; cases hp
  | some c => rfl

theorem cell_isSome_of_is_obj {h : Heap T} {p : Nat} (hp : h.is_obj p = true) :
    (h.cell p).isSome = true := by
  unfold is_obj at hp
  cases hc : h.cell p with
  | none => rw [hc] at hp; cases hp
  | some c => rfl

theorem not_node_and_obj {h : Heap T} {p : Nat} (h1 : h.is_node p = true)
    (h2 : h.is_obj p = true) : False := by
  unfold is_node at h1
  unfold is_obj at h2
  cases hc : h.cell p with
  | none => rw [hc] at h1; cases h1
  | some c =>
    rw [hc] at h1 h2
    cases c <;> simp at h1 h2

theorem next_set_next (h : Heap T) (p q a : Nat) :
    (h.set_next p q).next a =
      if a = p then (if (h.cell p).isSome then q else 0) else h.next a := by
  unfold next
  rw [cell_set_next]
  by_cases hap : a = p
  · subst hap
    simp only [if_true]
    cases hc : h.cell a with
    | none => rfl
    | some c => cases c <;> rfl
  · simp only [hap, if_false]

theorem prev_set_next (h : Heap T) (p q a : Nat) : (h.set_next p q).prev a = h.prev a := by
  unfold prev
  rw [cell_set_next]
  by_cases hap : a = p
  · subst hap
    simp only [if_true]
    cases hc : h.cell a with
    | none => rfl
    | some c => cases c <;> rfl
  · simp only [hap, if_false]

theorem prev_set_prev (h : Heap T) (p q a : Nat) :
    (h.set_prev p q).prev a =
      if a = p then (if (h.cell p).isSome then q else 0) else h.prev a := by
  unfold prev
  rw [cell_set_prev]
  by_cases hap : a = p
  · subst hap
    simp only [if_true]
    cases hc : h.cell a with
    | none => rfl
    | some c => cases c <;> rfl
  · simp only [hap, if_false]

theorem next_set_prev (h : Heap T) (p q a : Nat) : (h.set_prev p q).next a = h.next a := by
  unfold next
  rw [cell_set_prev]
  by_cases hap : a = p
  · subst hap
    simp only [if_true]
    cases hc : h.cell a with
    | none => rfl
    | some c => cases c <;> rfl
  · simp only [hap, if_false]

theorem next_set_size (h : Heap T) (p k a : Nat) : (h.set_size p k).next a = h.next a := by
  unfold next
  rw [cell_set_size]
  by_cases hap : a = p
  · subst hap
    simp only [if_true]
    cases hc : h.cell a with
    | none => rfl
    | some c => cases c <;> rfl
  · simp only [hap, if_false]

theorem prev_set_size (h : Heap T) (p k a : Nat) : (h.set_size p k).prev a = h.prev a := by
  unfold prev
  rw [cell_set_size]
  by_cases hap : a = p
  · subst hap
    simp only [if_true]
    cases hc : h.cell a with
    | none => rfl
    | some c => cases c <;> rfl
  · simp only [hap, if_false]

theorem size_set_next (h : Heap T) (p q a : Nat) : (h.set_next p q).size_ a = h.size_ a := by
  unfold size_
  rw [cell_set_next]
  by_cases hap : a = p
  · subst hap
    simp only [if_true]
    cases hc : h.cell a with
    | none => rfl
    | some c => cases c <;> rfl
  · simp only [hap, if_false]

theorem size_set_prev (h : Heap T) (p q a : Nat) : (h.set_prev p q).size_ a = h.size_ a := by
  unfold size_
  rw [cell_set_prev]
  by_cases hap : a = p
  · subst hap
    simp only [if_true]
    cases hc : h.cell a with
    | none => rfl
    | some c => cases c <;> rfl
  · simp only [hap, if_false]

theorem size_set_size (h : Heap T) (p k a : Nat) :
    (h.set_size p k).size_ a = if a = p ∧ h.is_obj p = true then k else h.size_ a := by
  unfold size_ is_obj
  rw [cell_set_size]
  by_cases hap : a = p
  · subst hap
    simp only [if_true, true_and]
    cases hc : h.cell a with
    | none => rfl
    | some c => cases c <;> simp [Cell.set_size]
  · simp only [hap, if_false, false_and]

theorem is_node_set_next (h : Heap T) (p q a : Nat) :
    (h.set_next p q).is_node a = h.is_node a := by
  unfold is_node
  rw [cell_set_next]
  by_cases hap : a = p
  · subst hap
    simp only [if_true]
    cases hc : h.cell a with
    | none => rfl
    | some c => cases c <;> rfl
  · simp only [hap, if_false]

theorem is_node_set_prev (h : Heap T) (p q a : Nat) :
    (h.set_prev p q).is_node a = h.is_node a := by
  unfold is_node
  rw [cell_set_prev]
  by_cases hap : a = p
  · subst hap
    simp only [if_true]
    cases hc : h.cell a with
    | none => rfl
    | some c => cases c <;> rfl
  · simp only [hap, if_false]

theorem is_node_set_size (h : Heap T) (p k a : Nat) :
    (h.set_size p k).is_node a = h.is_node a := by
  unfold is_node
  rw [cell_set_size]
  by_cases hap : a = p
  · subst hap
    simp only [if_true]
    cases hc : h.cell a with
    | none => rfl
    | some c => cases c <;> rfl
  · simp only [hap, if_false]

theorem is_obj_set_next (h : Heap T) (p q a : Nat) :
    (h.set_next p q).is_obj a = h.is_obj a := by
  unfold is_obj
  rw [cell_set_next]
  by_cases hap : a = p
  · subst hap
    simp only [if_true]
    cases hc : h.cell a with
    | none => rfl
    | some c => cases c <;> rfl
  · simp only [hap, if_false]

theorem is_obj_set_prev (h : Heap T) (p q a : Nat) :
    (h.set_prev p q).is_obj a = h.is_obj a := by
  unfold is_obj
  rw [cell_set_prev]
  by_cases hap : a = p
  · subst hap
    simp only [if_true]
    cases hc : h.cell a with
    | none => rfl
    | some c => cases c <;> rfl
  · simp only [hap, if_false]

theorem is_obj_set_size (h : Heap T) (p k a : Nat) :
    (h.set_size p k).is_obj a = h.is_obj a := by
  unfold is_obj
  rw [cell_set_size]
  by_cases hap : a = p
  · subst hap
    simp only [if_true]
    cases hc : h.cell a with
    | none => rfl
    | some c => cases c <;> rfl
  · simp only [hap, if_false]

theorem cell_isSome_set_next (h : Heap T) (p q a : Nat) :
    ((h.set_next p q).cell a).isSome = (h.cell a).isSome := by
  rw [cell_set_next]
  by_cases hap : a = p
  · subst hap
    simp
  · simp only [hap, if_false]

theorem cell_isSome_set_prev (h : Heap T) (p q a : Nat) :
    ((h.set_prev p q).cell a).isSome = (h.cell a).isSome := by
  rw [cell_set_prev]
  by_cases hap : a = p
  · subst hap
    simp
  · simp only [hap, if_false]

theorem cell_isSome_set_size (h : Heap T) (p k a : Nat) :
    ((h.set_size p k).cell a).isSome = (h.cell a).isSome := by
  rw [cell_set_size]
  by_cases hap : a = p
  · subst hap
    simp
  · simp only [hap, if_false]

theorem next_of_cell_eq {h h1 : Heap T} {a : Nat} (e : h1.cell a = h.cell a) :
    h1.next a = h.next a := by
  unfold next
  rw [e]

theorem prev_of_cell_eq {h h1 : Heap T} {a : Nat} (e : h1.cell a = h.cell a) :
    h1.prev a = h.prev a := by
  unfold prev
  rw [e]

theorem is_node_of_cell_eq {h h1 : Heap T} {a : Nat} (e : h1.cell a = h.cell a) :
    h1.is_node a = h.is_node a := by
  unfold is_node
  rw [e]

theorem is_obj_of_cell_eq {h h1 : Heap T} {a : Nat} (e : h1.cell a = h.cell a) :
    h1.is_obj a = h.is_obj a := by
  unfold is_obj
  rw [e]

theorem size_of_cell_eq {h h1 : Heap T} {a : Nat} (e : h1.cell a = h.cell a) :
    h1.size_ a = h.size_ a := by
  unfold size_
  rw [e]

theorem data_of_cell_eq {h h1 : Heap T} {a : Nat} (e : h1.cell a = h.cell a) :
    h1.data a = h.data a := by
  unfold data
  rw [e]

end Heap

theorem links_congr {h h1 : Heap T} : ∀ (l : List Nat),
    (∀ a ∈ l.dropLast, h1.next a = h.next a) → (∀ a ∈ l.tail, h1.prev a = h.prev a) →
    links h l → links h1 l
  | [], _, _, _ => trivial
  | [_], _, _, _ => trivial
  | a :: b :: l, hn, hp, hl => by
    obtain ⟨e1, e2, e3⟩ := hl
    refine ⟨by rw [hn a (by simp)]; exact e1, by rw [hp b (by simp)]; exact e2, ?_⟩
    refine links_congr (b :: l) (fun x hx => hn x ?_) (fun x hx => hp x ?_) e3
    · rw [List.dropLast_cons₂]
      exact List.mem_cons_of_mem _ hx
    · exact List.mem_cons_of_mem _ hx

theorem links_of_cell_eq {h h1 : Heap T} (l : List Nat) (e : ∀ a ∈ l, h1.cell a = h.cell a)
    (hl : links h l) : links h1 l :=
  links_congr l (fun a ha => Heap.next_of_cell_eq (e a (List.mem_of_mem_dropLast ha)))
    (fun a ha => Heap.prev_of_cell_eq (e a (List.mem_of_mem_tail ha))) hl

theorem links_append_iff (h : Heap T) : ∀ (l1 : List Nat) (a b : Nat) (l2 : List Nat),
    links h (l1 ++ a :: b :: l2) ↔
      links h (l1 ++ [a]) ∧ h.next a = b ∧ h.prev b = a ∧ links h (b :: l2)
  | [], a, b, l2 => by simp [links]
  | [x], a, b, l2 => by
    simp only [List.cons_append, List.nil_append, links]
    tauto
  | x :: y :: l1, a, b, l2 => by
    have ih : links h (y :: (l1 ++ a :: b :: l2)) ↔
        links h (y :: (l1 ++ [a])) ∧ h.next a = b ∧ h.prev b = a ∧ links h (b :: l2) :=
      links_append_iff h (y :: l1) a b l2
    show (h.next x = y ∧ h.prev y = x ∧ links h (y :: (l1 ++ a :: b :: l2))) ↔
      (h.next x = y ∧ h.prev y = x ∧ links h (y :: (l1 ++ [a]))) ∧ h.next a = b ∧
        h.prev b = a ∧ links h (b :: l2)
    rw [ih]
    tauto

namespace list

theorem link_before_spec (h : Heap T) (b n : Nat) (hnb : n ≠ b) (hna : n ≠ h.prev b)
    (ln : (h.cell n).isSome = true) (lb : (h.cell b).isSome = true)
    (la : (h.cell (h.prev b)).isSome = true) :
    (link_before h b n).next n = b ∧ (link_before h b n).prev n = h.prev b ∧
    (link_before h b n).next (h.prev b) = n ∧ (link_before h b n).prev b = n ∧
    (∀ y, y ≠ h.prev b → y ≠ n → (link_before h b n).next y = h.next y) ∧
    (∀ y, y ≠ b → y ≠ n → (link_before h b n).prev y = h.prev y) := by
  have hbn : b ≠ n := fun e => hnb e.symm
  have han : h.prev b ≠ n := fun e => hna e.symm
  have e1 : (h.set_next n b).prev b = h.prev b := Heap.prev_set_next _ _ _ _
  have e2 : ((h.set_next n b).set_prev n (h.prev b)).prev b = h.prev b := by
    rw [Heap.prev_set_prev, if_neg hbn, e1]
  have l1 : (((h.set_next n b).set_prev n (h.prev b)).cell (h.prev b)).isSome = true := by
    rw [Heap.cell_isSome_set_prev, Heap.cell_isSome_set_next]
    exact la
  have l2 : ((((h.set_next n b).set_prev n (h.prev b)).set_next (h.prev b) n).cell b).isSome
      = true := by
    rw [Heap.cell_isSome_set_next, Heap.cell_isSome_set_prev, Heap.cell_isSome_set_next]
    exact lb
  have l3 : ((h.set_next n b).cell n).isSome = true := by
    rw [Heap.cell_isSome_set_next]
    exact ln
  unfold link_before
  simp only [e1, e2]
  refine ⟨?_, ?_, ?_, ?_, ?_, ?_⟩
  · rw [Heap.next_set_prev, Heap.next_set_next, if_neg hna, Heap.next_set_prev,
      Heap.next_set_next, if_pos rfl, if_pos ln]
  · rw [Heap.prev_set_prev, if_neg hnb, Heap.prev_set_next, Heap.prev_set_prev, if_pos rfl,
      if_pos l3]
  · rw [Heap.next_set_prev, Heap.next_set_next, if_pos rfl, if_pos l1]
  · rw [Heap.prev_set_prev, if_pos rfl, if_pos l2]
  · intro y h1 h2
    rw [Heap.next_set_prev, Heap.next_set_next, if_neg h1, Heap.next_set_prev,
      Heap.next_set_next, if_neg h2]
  · intro y h1 h2
    rw [Heap.prev_set_prev, if_neg h1, Heap.prev_set_next, Heap.prev_set_prev, if_neg h2,
      Heap.prev_set_next]

theorem link_before_kind (h : Heap T) (b n y : Nat) :
    (link_before h b n).is_node y = h.is_node y ∧ (link_before h b n).is_obj y = h.is_obj y ∧
    (link_before h b n).size_ y = h.size_ y ∧ (link_before h b n).brk = h.brk ∧
    ((link_before h b n).cell y).isSome = (h.cell y).isSome := by
  unfold link_before
  simp only [Heap.is_node_set_prev, Heap.is_node_set_next, Heap.is_obj_set_prev,
    Heap.is_obj_set_next, Heap.size_set_prev, Heap.size_set_next, Heap.brk_set_prev,
    Heap.brk_set_next, Heap.cell_isSome_set_prev, Heap.cell_isSome_set_next, and_self]

theorem link_before_cell (h : Heap T) (b n y : Nat) (h1 : y ≠ n) (h2 : y ≠ b)
    (h3 : y ≠ h.prev b) : (link_before h b n).cell y = h.cell y := by
  have e1 : (h.set_next n b).prev b = h.prev b := Heap.prev_set_next _ _ _ _
  have e2 : ((h.set_next n b).set_prev n (h.prev b)).prev b =
      if b = n then (if ((h.set_next n b).cell n).isSome then h.prev b else 0)
      else h.prev b := by
    rw [Heap.prev_set_prev, e1]
  unfold link_before
  simp only [e1]
  rw [Heap.cell_set_prev, if_neg h2, Heap.cell_set_next]
  by_cases hc : y = ((h.set_next n b).set_prev n (h.prev b)).prev b
  · exfalso
    rw [e2] at hc
    split_ifs at hc with c1 c2
    · exact h3 hc
    · subst c1
      rw [Heap.cell_isSome_set_next] at c2
      have : h.prev b = 0 := by
        unfold Heap.prev
        cases hx : h.cell b with
        | none => rfl
        | some c => rw [hx] at c2; simp at c2
      exact h3 (hc.trans this.symm)
    · exact h3 hc
  · rw [if_neg hc, Heap.cell_set_prev, if_neg h1, Heap.cell_set_next, if_neg h1]

end list

theorem cycle_split (this : Nat) (pre post : List Nat) (hN : (this :: (pre ++ post)).Nodup) :
    ∃ l1 a b l2, this :: pre = l1 ++ [a] ∧ post ++ [this] = b :: l2 ∧ a ∉ l1 ∧ b ∉ l2 ∧
      (∀ y ∈ pre, y ≠ b) ∧ (∀ y ∈ post, y ≠ a) := by
  rw [List.nodup_cons, List.nodup_append] at hN
  obtain ⟨h1, h2, h3, h4⟩ := hN
  have h1a : this ∉ pre := fun e => h1 (List.mem_append_left _ e)
  have h1b : this ∉ post := fun e => h1 (List.mem_append_right _ e)
  rcases List.eq_nil_or_concat (this :: pre) with e | ⟨l1, a, e⟩
  · cases e
  · rw [List.concat_eq_append] at e
    have hnd : (l1 ++ [a]).Nodup := by
      rw [← e, List.nodup_cons]
      exact ⟨h1a, h2⟩
    have ha : a ∉ l1 := by
      rw [List.nodup_append] at hnd
      intro hm
      exact hnd.2.2 hm (by simp)
    have ha2 : a ∈ this :: pre := by rw [e]; simp
    cases post with
    | nil =>
      refine ⟨l1, a, this, [], e, rfl, ha, by simp, fun y hy e => h1a (e ▸ hy), by simp⟩
    | cons b post =>
      refine ⟨l1, a, b, post ++ [this], e, rfl, ha, ?_, ?_, ?_⟩
      · rw [List.nodup_cons] at h3
        intro hm
        rcases List.mem_append.mp hm with hm | hm
        · exact h3.1 hm
        · simp at hm
          subst hm
          exact h1b (by simp)
      · intro y hy e
        subst e
        exact h4 hy (by simp)
      · intro y hy e
        subst e
        rcases List.mem_cons.mp ha2 with e | e
        · subst e
          exact h1b hy
        · exact h4 e hy

namespace list

theorem Chain.not_mem {h : Heap T} {this : Nat} {c : List Nat} (hc : Chain h this c) :
    this ∉ c :=
  fun hm => Heap.not_node_and_obj (hc.2.1 this hm) hc.1

theorem Chain.nodup_cons {h : Heap T} {this : Nat} {c : List Nat} (hc : Chain h this c) :
    (this :: c).Nodup :=
  List.nodup_cons.mpr ⟨hc.not_mem, hc.2.2.1⟩

theorem Chain.cell_live {h : Heap T} {this : Nat} {c : List Nat} (hc : Chain h this c) (a : Nat)
    (ha : a ∈ this :: c) : (h.cell a).isSome = true := by
  rcases List.mem_cons.mp ha with e | e
  · subst e
    exact Heap.cell_isSome_of_is_obj hc.1
  · exact Heap.cell_isSome_of_is_node (hc.2.1 a e)

theorem Chain.of_cell_eq {h h1 : Heap T} {this : Nat} {c : List Nat} (hc : Chain h this c)
    (e : ∀ a ∈ this :: c, h1.cell a = h.cell a) : Chain h1 this c := by
  obtain ⟨c1, c2, c3, c4⟩ := hc
  refine ⟨by rw [Heap.is_obj_of_cell_eq (e this (by simp))]; exact c1, ?_, c3, ?_⟩
  · intro a ha
    rw [Heap.is_node_of_cell_eq (e a (by simp [ha]))]
    exact c2 a ha
  · apply links_of_cell_eq _ _ c4
    intro a ha
    apply e
    simp only [List.cons_append, List.mem_cons, List.mem_append, List.mem_singleton] at ha ⊢
    tauto

theorem insert_chain (h : Heap T) (this pos : Nat) (x : T) (pre post : List Nat)
    (hfresh : h.cell h.brk = none) (hc : Chain h this (pre ++ post))
    (hpos : (post ++ [this]).head? = some pos) :
    Chain (insert h this pos x).1 this (pre ++ h.brk :: post) ∧
      (insert h this pos x).2 = h.brk ∧
      (insert h this pos x).1.size_ this = h.size_ this + 1 ∧
      (insert h this pos x).1.brk = h.brk + 1 ∧
      (∀ y, y ≠ h.brk → y ≠ this → y ≠ pos → y ≠ h.prev pos →
        (insert h this pos x).1.cell y = h.cell y) ∧
      (∀ y, (insert h this pos x).1.is_obj y = h.is_obj y) ∧
      h.prev pos ∈ this :: (pre ++ post) := by
  obtain ⟨l1, a, b, l2, e1, e2, ha, hb, hpre, hpost⟩ := cycle_split this pre post hc.nodup_cons
  have hbp : b = pos := by
    rw [e2] at hpos
    simpa using hpos
  subst hbp
  -- the state after `create_node`
  have hne : ∀ y ∈ this :: (pre ++ post), y ≠ h.brk := by
    intro y hy e
    have := hc.cell_live y hy
    rw [e, hfresh] at this
    cases this
  have hcell1 : ∀ y, y ≠ h.brk → (create_node h x).1.cell y = h.cell y := by
    intro y hy
    unfold create_node
    rw [Heap.cell_alloc, if_neg hy]
  have hc1 : Chain (create_node h x).1 this (pre ++ post) :=
    hc.of_cell_eq (fun y hy => hcell1 y (hne y hy))
  have hcyc : this :: (pre ++ post) ++ [this] = l1 ++ a :: b :: l2 := by
    have : this :: (pre ++ post) ++ [this] = (this :: pre) ++ (post ++ [this]) := by simp
    rw [this, e1, e2]
    simp
  have hl := hc1.2.2.2
  rw [hcyc, links_append_iff] at hl
  obtain ⟨k1, k2, k3, k4⟩ := hl
  have ha_mem : a ∈ this :: (pre ++ post) := by
    have : a ∈ this :: pre := by rw [e1]; simp
    rcases List.mem_cons.mp this with e | e
    · simp [e]
    · simp [e]
  have hb_mem : b ∈ this :: (pre ++ post) := by
    have : b ∈ post ++ [this] := by rw [e2]; simp
    rcases List.mem_append.mp this with e | e
    · simp [e]
    · simp at e
      simp [e]
  have hprev : h.prev b = a := by
    rw [← Heap.prev_of_cell_eq (hcell1 b (hne b hb_mem))]
    exact k3
  have hnb : h.brk ≠ b := fun e => hne b hb_mem e.symm
  have hna : h.brk ≠ a := fun e => hne a ha_mem e.symm
  have ln : ((create_node h x).1.cell h.brk).isSome = true := by
    unfold create_node
    rw [Heap.cell_alloc, if_pos rfl]
    rfl
  have lb : ((create_node h x).1.cell b).isSome = true := hc1.cell_live b hb_mem
  have la : ((create_node h x).1.cell a).isSome = true := hc1.cell_live a ha_mem
  obtain ⟨s1, s2, s3, s4, s5, s6⟩ := link_before_spec (create_node h x).1 b h.brk hnb
    (by rw [k3]; exact hna) ln lb (by rw [k3]; exact la)
  rw [k3] at s2 s3 s5
  have hkind := link_before_kind (create_node h x).1 b h.brk
  -- the final state
  have hfin : (insert h this b x).1 =
      (link_before (create_node h x).1 b h.brk).set_size this
        ((link_before (create_node h x).1 b h.brk).size_ this + 1) := rfl
  have hobj : ∀ y, (insert h this b x).1.is_obj y = h.is_obj y := by
    intro y
    rw [hfin, Heap.is_obj_set_size, (hkind y).2.1]
    unfold create_node Heap.is_obj
    rw [Heap.cell_alloc]
    by_cases hy : y = h.brk
    · rw [if_pos hy, hy, hfresh]
    · rw [if_neg hy]
  have hnode : ∀ y, (insert h this b x).1.is_node y = (decide (y = h.brk) || h.is_node y) := by
    intro y
    rw [hfin, Heap.is_node_set_size, (hkind y).1]
    unfold create_node Heap.is_node
    rw [Heap.cell_alloc]
    by_cases hy : y = h.brk
    · rw [if_pos hy]
      simp [hy]
    · rw [if_neg hy]
      simp [hy]
  refine ⟨⟨?_, ?_, ?_, ?_⟩, rfl, ?_, ?_, ?_, hobj, ?_⟩
  · rw [hobj]
    exact hc.1
  · intro y hy
    rw [hnode]
    rcases List.mem_append.mp hy with e | e
    · simp [hc.2.1 y (List.mem_append_left _ e)]
    · rcases List.mem_cons.mp e with e | e
      · simp [e]
      · simp [hc.2.1 y (List.mem_append_right _ e)]
  · have := hc.2.2.1
    rw [List.nodup_append] at this ⊢
    refine ⟨this.1, List.nodup_cons.mpr ⟨fun e => hne _ (by simp [e]) rfl, this.2.1⟩, ?_⟩
    intro y h1 h2
    rcases List.mem_cons.mp h2 with e | e
    · exact hne y (by simp [h1]) e
    · exact this.2.2 h1 e
  · have hcyc2 : this :: (pre ++ h.brk :: post) ++ [this] = l1 ++ a :: h.brk :: b :: l2 := by
      have : this :: (pre ++ h.brk :: post) ++ [this] =
          (this :: pre) ++ h.brk :: (post ++ [this]) := by simp
      rw [this, e1, e2]
      simp
    rw [hcyc2, links_append_iff, hfin]
    refine ⟨?_, ?_, ?_, ?_, ?_, ?_⟩
    · apply links_congr _ _ _ k1
      · intro y hy
        rw [List.dropLast_concat] at hy
        rw [Heap.next_set_size]
        apply s5 y (fun e => ha (e ▸ hy))
        apply hne
        have : y ∈ this :: pre := by rw [e1]; simp [hy]
        rcases List.mem_cons.mp this with e | e
        · simp [e]
        · simp [e]
      · intro y hy
        have hy2 : y ∈ pre := by
          have : (l1 ++ [a]).tail = pre := by rw [← e1]; rfl
          rwa [this] at hy
        rw [Heap.prev_set_size]
        exact s6 y (hpre y hy2) (hne y (by simp [hy2]))
    · rw [Heap.next_set_size]
      exact s3
    · rw [Heap.prev_set_size]
      exact s2
    · rw [Heap.next_set_size]
      exact s1
    · rw [Heap.prev_set_size]
      exact s4
    · apply links_congr _ _ _ k4
      · intro y hy
        have hy2 : y ∈ post := by
          have : (b :: l2).dropLast = post := by rw [← e2, List.dropLast_concat]
          rwa [this] at hy
        rw [Heap.next_set_size]
        exact s5 y (hpost y hy2) (hne y (by simp [hy2]))
      · intro y hy
        have hy2 : y ∈ l2 := hy
        rw [Heap.prev_set_size]
        apply s6 y (fun e => hb (e ▸ hy2))
        apply hne
        have : y ∈ post ++ [this] := by rw [e2]; simp [hy2]
        rcases List.mem_append.mp this with e | e
        · simp [e]
        · simp at e
          simp [e]
  · rw [hfin, Heap.size_set_size, if_pos ⟨rfl, by rw [(hkind this).2.1]; exact hc1.1⟩,
      (hkind this).2.2.1]
    congr 1
    exact Heap.size_of_cell_eq (hcell1 this (hne this (by simp)))
  · rw [hfin, Heap.brk_set_size, (hkind 0).2.2.2.1]
    rfl
  · intro y h1 h2 h3 h4
    rw [hfin, Heap.cell_set_size, if_neg h2, link_before_cell _ _ _ _ h1 h3, hcell1 y h1]
    rw [k3]
    rw [hprev] at h4
    exact h4
  · rw [hprev]
    exact ha_mem

theorem erase_eq (h : Heap T) (this p : Nat) :
    erase h this p =
      ((((h.set_next (h.prev p) (h.next p)).set_prev
          ((h.set_next (h.prev p) (h.next p)).next p)
          ((h.set_next (h.prev p) (h.next p)).prev p)).free p).set_size this
        ((((h.set_next (h.prev p) (h.next p)).set_prev
          ((h.set_next (h.prev p) (h.next p)).next p)
          ((h.set_next (h.prev p) (h.next p)).prev p)).free p).size_ this - 1), h.next p) := rfl

theorem erase_chain (h : Heap T) (this p : Nat) (pre post : List Nat)
    (hc : Chain h this (pre ++ p :: post)) :
    Chain (erase h this p).1 this (pre ++ post) ∧
      (post ++ [this]).head? = some (erase h this p).2 ∧
      (erase h this p).1.size_ this = h.size_ this - 1 ∧
      (erase h this p).1.brk = h.brk ∧
      (∀ y, y ≠ this → y ≠ p → y ≠ h.prev p → y ≠ h.next p →
        (erase h this p).1.cell y = h.cell y) ∧
      (∀ y, y ≠ p → (erase h this p).1.is_obj y = h.is_obj y) ∧
      (erase h this p).1.cell p = none ∧
      h.prev p ∈ this :: (pre ++ post) ∧ h.next p ∈ this :: (pre ++ post) := by
  have hN := hc.nodup_cons
  have hN2 : (this :: (pre ++ post)).Nodup := by
    apply List.Nodup.sublist _ hN
    exact List.Sublist.cons₂ _ (List.Sublist.append_left (List.sublist_cons_self _ _) _)
  have hp_mem : p ∈ pre ++ p :: post := by simp
  have hp_not : p ∉ this :: (pre ++ post) := by
    intro hm
    rw [List.nodup_cons, List.nodup_append, List.nodup_cons] at hN
    rcases List.mem_cons.mp hm with e | e
    · exact hN.1 (e ▸ hp_mem)
    · rcases List.mem_append.mp e with e | e
      · exact hN.2.2.2 e (by simp)
      · exact hN.2.2.1.1 e
  obtain ⟨l1, a, b, l2, e1, e2, ha, hb, hpre, hpost⟩ := cycle_split this pre post hN2
  have hcyc : this :: (pre ++ p :: post) ++ [this] = l1 ++ a :: p :: b :: l2 := by
    have : this :: (pre ++ p :: post) ++ [this] = (this :: pre) ++ p :: (post ++ [this]) := by
      simp
    rw [this, e1, e2]
    simp
  have hl := hc.2.2.2
  rw [hcyc, links_append_iff] at hl
  obtain ⟨k1, k2, k3, k4, k5, k6⟩ := hl
  have ha_mem : a ∈ this :: (pre ++ post) := by
    have : a ∈ this :: pre := by rw [e1]; simp
    rcases List.mem_cons.mp this with e | e
    · simp [e]
    · simp [e]
  have hb_mem : b ∈ this :: (pre ++ post) := by
    have : b ∈ post ++ [this] := by rw [e2]; simp
    rcases List.mem_append.mp this with e | e
    · simp [e]
    · simp at e
      simp [e]
  have hsub : ∀ y, y ∈ this :: (pre ++ post) → y ∈ this :: (pre ++ p :: post) := by
    intro y hy
    simp only [List.mem_cons, List.mem_append] at hy ⊢
    tauto
  have hap : a ≠ p := fun e => hp_not (e ▸ ha_mem)
  have hbp : b ≠ p := fun e => hp_not (e ▸ hb_mem)
  have hpa : p ≠ a := fun e => hap e.symm
  have hpb : p ≠ b := fun e => hbp e.symm
  have la : (h.cell a).isSome = true := hc.cell_live a (hsub a ha_mem)
  have lb : (h.cell b).isSome = true := hc.cell_live b (hsub b hb_mem)
  have lb1 : ((h.set_next a b).cell b).isSome = true := by
    rw [Heap.cell_isSome_set_next]
    exact lb
  have q1 : (h.set_next a b).next p = b := by
    rw [Heap.next_set_next, if_neg hpa, k4]
  have q2 : (h.set_next a b).prev p = a := by
    rw [Heap.prev_set_next, k3]
  have hfin : (erase h this p).1 =
      (((h.set_next a b).set_prev b a).free p).set_size this
        ((((h.set_next a b).set_prev b a).free p).size_ this - 1) := by
    rw [erase_eq, k3, k4, q1, q2]
  have hcellp : ∀ (g : Heap T) y, y ≠ p → (g.free p).cell y = g.cell y := by
    intro g y hy
    rw [Heap.cell_free, if_neg hy]
  have hnext : ∀ y, y ≠ p → (erase h this p).1.next y =
      if y = a then b else h.next y := by
    intro y hy
    rw [hfin, Heap.next_set_size, Heap.next_of_cell_eq (hcellp _ y hy), Heap.next_set_prev,
      Heap.next_set_next]
    split_ifs <;> rfl
  have hprevv : ∀ y, y ≠ p → (erase h this p).1.prev y =
      if y = b then a else h.prev y := by
    intro y hy
    rw [hfin, Heap.prev_set_size, Heap.prev_of_cell_eq (hcellp _ y hy), Heap.prev_set_prev,
      Heap.prev_set_next]
    split_ifs <;> rfl
  have hobj : ∀ y, y ≠ p → (erase h this p).1.is_obj y = h.is_obj y := by
    intro y hy
    rw [hfin, Heap.is_obj_set_size, Heap.is_obj_of_cell_eq (hcellp _ y hy),
      Heap.is_obj_set_prev, Heap.is_obj_set_next]
  have hnode : ∀ y, y ≠ p → (erase h this p).1.is_node y = h.is_node y := by
    intro y hy
    rw [hfin, Heap.is_node_set_size, Heap.is_node_of_cell_eq (hcellp _ y hy),
      Heap.is_node_set_prev, Heap.is_node_set_next]
  have htp : this ≠ p := fun e => hp_not (by simp [e])
  refine ⟨⟨?_, ?_, ?_, ?_⟩, ?_, ?_, ?_, ?_, hobj, ?_, ?_, ?_⟩
  · rw [hobj this htp]
    exact hc.1
  · intro y hy
    have hy2 : y ∈ this :: (pre ++ post) := List.mem_cons_of_mem _ hy
    rw [hnode y (fun e => hp_not (e ▸ hy2))]
    apply hc.2.1
    simp only [List.mem_append, List.mem_cons] at hy ⊢
    tauto
  · exact (List.nodup_cons.mp hN2).2
  · have hcyc2 : this :: (pre ++ post) ++ [this] = l1 ++ a :: b :: l2 := by
      have : this :: (pre ++ post) ++ [this] = (this :: pre) ++ (post ++ [this]) := by simp
      rw [this, e1, e2]
      simp
    rw [hcyc2, links_append_iff]
    refine ⟨?_, ?_, ?_, ?_⟩
    · apply links_congr _ _ _ k1
      · intro y hy
        rw [List.dropLast_concat] at hy
        have hy2 : y ∈ this :: (pre ++ post) := by
          have : y ∈ this :: pre := by rw [e1]; simp [hy]
          rcases List.mem_cons.mp this with e | e
          · simp [e]
          · simp [e]
        rw [hnext y (fun e => hp_not (e ▸ hy2)), if_neg (show ¬ y = a from fun e => ha (e ▸ hy))]
      · intro y hy
        have hy2 : y ∈ pre := by
          have : (l1 ++ [a]).tail = pre := by rw [← e1]; rfl
          rwa [this] at hy
        have hy3 : y ∈ this :: (pre ++ post) := by simp [hy2]
        rw [hprevv y (fun e => hp_not (e ▸ hy3)), if_neg (hpre y hy2)]
    · rw [hnext a hap, if_pos rfl]
    · rw [hprevv b hbp, if_pos rfl]
    · apply links_congr _ _ _ k6
      · intro y hy
        have hy2 : y ∈ post := by
          have : (b :: l2).dropLast = post := by rw [← e2, List.dropLast_concat]
          rwa [this] at hy
        have hy3 : y ∈ this :: (pre ++ post) := by simp [hy2]
        rw [hnext y (fun e => hp_not (e ▸ hy3)), if_neg (hpost y hy2)]
      · intro y hy
        have hy2 : y ∈ l2 := hy
        have hy3 : y ∈ this :: (pre ++ post) := by
          have : y ∈ post ++ [this] := by rw [e2]; simp [hy2]
          rcases List.mem_append.mp this with e | e
          · simp [e]
          · simp at e
            simp [e]
        rw [hprevv y (fun e => hp_not (e ▸ hy3)), if_neg (show ¬ y = b from fun e => hb (e ▸ hy2))]
  · rw [erase_eq, k4, e2]
    rfl
  · rw [hfin, Heap.size_set_size]
    have hobj2 : (((h.set_next a b).set_prev b a).free p).is_obj this = true := by
      rw [Heap.is_obj_of_cell_eq (hcellp _ this htp), Heap.is_obj_set_prev,
        Heap.is_obj_set_next]
      exact hc.1
    rw [if_pos ⟨rfl, hobj2⟩, Heap.size_of_cell_eq (hcellp _ this htp), Heap.size_set_prev,
      Heap.size_set_next]
  · rw [hfin]
    rfl
  · intro y h1 h2 h3 h4
    rw [k3] at h3
    rw [k4] at h4
    rw [hfin, Heap.cell_set_size, if_neg h1, hcellp _ y h2, Heap.cell_set_prev, if_neg h4,
      Heap.cell_set_next, if_neg h3]
  · rw [hfin, Heap.cell_set_size, if_neg (fun e => htp e.symm), Heap.cell_free, if_pos rfl]
  · rw [k3]
    exact ha_mem
  · rw [k4]
    exact hb_mem

end list

theorem links_tail {h : Heap T} {a : Nat} {l : List Nat} (hl : links h (a :: l)) :
    links h l := by
  cases l with
  | nil => trivial
  | cons b l => exact hl.2.2

theorem links_suffix {h : Heap T} : ∀ (l1 l2 : List Nat), links h (l1 ++ l2) → links h l2
  | [], _, hl => hl
  | _ :: l1, l2, hl => links_suffix l1 l2 (links_tail hl)

theorem path_end_unique {h : Heap T} : ∀ (l1 l2 : List Nat) (a s1 s2 : Nat),
    links h (a :: l1 ++ [s1]) → links h (a :: l2 ++ [s2]) →
    (∀ y ∈ l1, h.is_node y = true) → (∀ y ∈ l2, h.is_node y = true) →
    h.is_obj s1 = true → h.is_obj s2 = true → l1 = l2 ∧ s1 = s2
  | [], [], a, s1, s2, h1, h2, _, _, _, _ => ⟨rfl, h1.1.symm.trans h2.1⟩
  | [], b :: l2, a, s1, s2, h1, h2, _, n2, o1, _ => by
    have e : s1 = b := h1.1.symm.trans h2.1
    exact absurd o1 (fun o => Heap.not_node_and_obj (n2 b (by simp)) (e ▸ o))
  | b :: l1, [], a, s1, s2, h1, h2, n1, _, _, o2 => by
    have e : s2 = b := h2.1.symm.trans h1.1
    exact absurd o2 (fun o => Heap.not_node_and_obj (n1 b (by simp)) (e ▸ o))
  | b :: l1, b2 :: l2, a, s1, s2, h1, h2, n1, n2, o1, o2 => by
    have e : b = b2 := h1.1.symm.trans h2.1
    subst e
    obtain ⟨r1, r2⟩ := path_end_unique l1 l2 b s1 s2 h1.2.2 h2.2.2
      (fun y hy => n1 y (by simp [hy])) (fun y hy => n2 y (by simp [hy])) o1 o2
    exact ⟨by rw [r1], r2⟩

theorem nodup_bounded_length (c : List Nat) (n : Nat) (hN : c.Nodup) (hb : ∀ a ∈ c, a < n) :
    c.length ≤ n := by
  have h1 : c.toFinset ⊆ Finset.range n := by
    intro a ha
    rw [List.mem_toFinset] at ha
    exact Finset.mem_range.mpr (hb a ha)
  have h2 := Finset.card_le_card h1
  rwa [List.toFinset_card_of_nodup hN, Finset.card_range] at h2

namespace list

theorem Chain.unique {h : Heap T} {this : Nat} {c1 c2 : List Nat} (h1 : Chain h this c1)
    (h2 : Chain h this c2) : c1 = c2 :=
  (path_end_unique c1 c2 this this this h1.2.2.2 h2.2.2.2 h1.2.1 h2.2.1 h1.1 h2.1).1

theorem chain_disjoint {h : Heap T} {s1 s2 : Nat} {c1 c2 : List Nat} (h1 : Chain h s1 c1)
    (h2 : Chain h s2 c2) (hne : s1 ≠ s2) : ∀ a ∈ c1, a ∉ c2 := by
  intro a ha1 ha2
  obtain ⟨u1, v1, e1⟩ := List.append_of_mem ha1
  obtain ⟨u2, v2, e2⟩ := List.append_of_mem ha2
  have k1 : links h (a :: v1 ++ [s1]) := by
    have := h1.2.2.2
    rw [e1] at this
    have e : s1 :: (u1 ++ a :: v1) ++ [s1] = (s1 :: u1) ++ (a :: v1 ++ [s1]) := by simp
    rw [e] at this
    exact links_suffix _ _ this
  have k2 : links h (a :: v2 ++ [s2]) := by
    have := h2.2.2.2
    rw [e2] at this
    have e : s2 :: (u2 ++ a :: v2) ++ [s2] = (s2 :: u2) ++ (a :: v2 ++ [s2]) := by simp
    rw [e] at this
    exact links_suffix _ _ this
  exact hne (path_end_unique v1 v2 a s1 s2 k1 k2
    (fun y hy => h1.2.1 y (by rw [e1]; simp [hy]))
    (fun y hy => h2.2.1 y (by rw [e2]; simp [hy])) h1.1 h2.1).2

theorem chain_sep {h : Heap T} {s1 s2 : Nat} {c1 c2 : List Nat} (h1 : Chain h s1 c1)
    (h2 : Chain h s2 c2) (hne : s1 ≠ s2) : ∀ y ∈ s1 :: c1, y ∉ s2 :: c2 := by
  intro y hy1 hy2
  rcases List.mem_cons.mp hy1 with e1 | e1 <;> rcases List.mem_cons.mp hy2 with e2 | e2
  · exact hne (e1.symm.trans e2)
  · subst e1
    exact Heap.not_node_and_obj (h2.2.1 y e2) h1.1
  · subst e2
    exact Heap.not_node_and_obj (h1.2.1 y e1) h2.1
  · exact chain_disjoint h1 h2 hne y e1 e2

theorem walk_eq {h : Heap T} {this : Nat} : ∀ (c : List Nat) (a fuel : Nat),
    links h (a :: c ++ [this]) → this ∉ c → c.length ≤ fuel →
    walk h this fuel (h.next a) = c
  | [], a, fuel, hl, _, _ => by
    have e : h.next a = this := hl.1
    rw [e]
    cases fuel with
    | zero => rfl
    | succ f => simp [walk]
  | b :: c, a, fuel, hl, hn, hf => by
    have e : h.next a = b := hl.1
    rw [e]
    cases fuel with
    | zero => simp at hf
    | succ f =>
      have hb : b ≠ this := fun e => hn (by simp [e])
      have ih := walk_eq c b f hl.2.2 (fun e => hn (by simp [e])) (by simpa using hf)
      unfold walk
      rw [if_pos (by simpa using hb), ih]

theorem lt_brk_of_live {h : Heap T} (hb : ∀ a, h.brk ≤ a → h.cell a = none) {a : Nat}
    (ha : (h.cell a).isSome = true) : a < h.brk := by
  by_contra hc
  rw [hb a (by omega)] at ha
  cases ha

theorem Chain.nodes_eq {h : Heap T} {this : Nat} {c : List Nat} (hc : Chain h this c)
    (hb : ∀ a, h.brk ≤ a → h.cell a = none) : nodes h this = c := by
  unfold nodes begin_
  apply walk_eq c this h.brk hc.2.2.2 hc.not_mem
  apply nodup_bounded_length c h.brk hc.2.2.1
  intro a ha
  exact lt_brk_of_live hb (hc.cell_live a (by simp [ha]))

/-- Frame rule for the invariant of the memory: if the cells outside `P` are
untouched, and every list object of the new memory is either shown well
formed or had its whole cycle outside `P`, the invariant is kept. -/
theorem inv_frame {h h1 : Heap T} (P : Nat → Prop) (hi : Inv h)
    (hP : ∀ y, ¬ P y → h1.cell y = h.cell y)
    (hbrk : ∀ a, h1.brk ≤ a → h1.cell a = none)
    (hobj : ∀ s, h1.is_obj s = true →
      WF h1 s ∨ (h.is_obj s = true ∧ ∀ c, Chain h s c → ∀ y ∈ s :: c, ¬ P y)) :
    Inv h1 := by
  refine ⟨hbrk, ?_⟩
  intro s hs
  rcases hobj s hs with hw | ⟨ho, hd⟩
  · exact hw
  · obtain ⟨c, hc, hsz⟩ := hi.2 s ho
    refine ⟨c, hc.of_cell_eq (fun y hy => hP y (hd c hc y hy)), ?_⟩
    unfold size at hsz ⊢
    rw [Heap.size_of_cell_eq (hP s (hd c hc s (by simp)))]
    exact hsz

theorem split_at_iter (this : Nat) {pos : Nat} {c : List Nat} (hp : pos = this ∨ pos ∈ c) :
    ∃ pre post, c = pre ++ post ∧ (post ++ [this]).head? = some pos := by
  by_cases hm : pos ∈ c
  · obtain ⟨u, v, e⟩ := List.append_of_mem hm
    exact ⟨u, pos :: v, e, rfl⟩
  · have e : pos = this := by tauto
    exact ⟨c, [], by simp, by simp [e]⟩

theorem insert_keeps (h : Heap T) (this pos : Nat) (x : T) (hi : Inv h)
    (ho : h.is_obj this = true) (hp : is_iter h this pos) : Inv (insert h this pos x).1 := by
  obtain ⟨c, hc, hsz⟩ := hi.2 this ho
  have hnodes := hc.nodes_eq hi.1
  unfold is_iter at hp
  rw [hnodes] at hp
  obtain ⟨pre, post, e, hpos⟩ := split_at_iter this hp
  subst e
  have hfresh : h.cell h.brk = none := hi.1 h.brk (Nat.le_refl _)
  obtain ⟨r1, r2, r3, r4, r5, r6, r7⟩ := insert_chain h this pos x pre post hfresh hc hpos
  have hpm : pos ∈ this :: (pre ++ post) := by
    rcases hp with e | e
    · simp [e]
    · exact List.mem_cons_of_mem _ e
  apply inv_frame (fun y => y = h.brk ∨ y ∈ this :: (pre ++ post)) hi
  · intro y hy
    apply r5 y (fun e => hy (Or.inl e)) (fun e => hy (Or.inr (by simp [e])))
      (fun e => hy (Or.inr (e ▸ hpm))) (fun e => hy (Or.inr (e ▸ r7)))
  · intro a ha
    rw [r4] at ha
    have hnl : ∀ y ∈ this :: (pre ++ post), a ≠ y := by
      intro y hy e
      have := lt_brk_of_live hi.1 (hc.cell_live y hy)
      omega
    rw [r5 a (by omega) (hnl this (by simp)) (hnl pos hpm) (hnl _ r7)]
    exact hi.1 a (by omega)
  · intro s hs
    rw [r6] at hs
    by_cases hst : s = this
    · subst hst
      left
      refine ⟨_, r1, ?_⟩
      unfold size at hsz ⊢
      rw [r3, hsz]
      simp
      omega
    · right
      refine ⟨hs, ?_⟩
      intro c2 hc2 y hy hP
      rcases hP with e | e
      · have := hc2.cell_live y hy
        rw [e, hfresh] at this
        cases this
      · exact chain_sep hc hc2 (fun e => hst e.symm) y e hy

theorem erase_keeps (h : Heap T) (this pos : Nat) (hi : Inv h)
    (ho : h.is_obj this = true) (hp : pos ∈ nodes h this) : Inv (erase h this pos).1 := by
  obtain ⟨c, hc, hsz⟩ := hi.2 this ho
  have hnodes := hc.nodes_eq hi.1
  rw [hnodes] at hp
  obtain ⟨pre, post, e⟩ := List.append_of_mem hp
  subst e
  obtain ⟨r1, r2, r3, r4, r5, r6, r7, r8, r9⟩ := erase_chain h this pos pre post hc
  have hsub : ∀ y, y ∈ this :: (pre ++ post) → y ∈ this :: (pre ++ pos :: post) := by
    intro y hy
    simp only [List.mem_cons, List.mem_append] at hy ⊢
    tauto
  have hpm : pos ∈ this :: (pre ++ pos :: post) := by simp
  apply inv_frame (fun y => y ∈ this :: (pre ++ pos :: post)) hi
  · intro y hy
    exact r5 y (fun e => hy (by simp [e])) (fun e => hy (e ▸ hpm))
      (fun e => hy (e ▸ hsub _ r8)) (fun e => hy (e ▸ hsub _ r9))
  · intro a ha
    rw [r4] at ha
    have hnl : ∀ y ∈ this :: (pre ++ pos :: post), a ≠ y := by
      intro y hy e
      have := lt_brk_of_live hi.1 (hc.cell_live y hy)
      omega
    rw [r5 a (hnl this (by simp)) (hnl pos hpm) (hnl _ (hsub _ r8)) (hnl _ (hsub _ r9))]
    exact hi.1 a ha
  · intro s hs
    have hsp : s ≠ pos := by
      intro e
      rw [e, Heap.is_obj, r7] at hs
      cases hs
    rw [r6 s hsp] at hs
    by_cases hst : s = this
    · subst hst
      left
      refine ⟨_, r1, ?_⟩
      unfold size at hsz ⊢
      rw [r3, hsz]
      simp
    · right
      refine ⟨hs, ?_⟩
      intro c2 hc2 y hy hP
      exact chain_sep hc hc2 (fun e => hst e.symm) y hP hy

/-- The cycle of a non-empty list, read at the sentinel and at both ends. -/
theorem links_cycle_iff (h : Heap T) (s : Nat) (c : List Nat) (hne : c ≠ []) :
    links h (s :: c ++ [s]) ↔
      h.next s = c.head hne ∧ h.prev (c.head hne) = s ∧ links h c ∧
        h.next (c.getLast hne) = s ∧ h.prev s = c.getLast hne := by
  have e1 : c = c.dropLast ++ [c.getLast hne] := (List.dropLast_append_getLast hne).symm
  have e2 : s :: c ++ [s] = (s :: c.dropLast) ++ c.getLast hne :: s :: [] := by
    conv_lhs => rw [e1]
    simp
  have e3 : (s :: c.dropLast) ++ [c.getLast hne] = s :: c := by
    conv_rhs => rw [e1]
    simp
  rw [e2, links_append_iff, e3]
  cases c with
  | nil => exact absurd rfl hne
  | cons f r =>
    simp only [List.head_cons, links]
    tauto

theorem links_cycle_nil (h : Heap T) (s : Nat) :
    links h (s :: [] ++ [s]) ↔ h.next s = s ∧ h.prev s = s := by
  simp [links]

theorem Chain.next_this {h : Heap T} {this : Nat} {c : List Nat} (hc : Chain h this c) :
    (c ++ [this]).head? = some (h.next this) := by
  cases c with
  | nil =>
    have hk := (links_cycle_nil h this).mp hc.2.2.2
    simp [hk.1]
  | cons f r =>
    have hk := hc.2.2.2
    simp [hk.1]

theorem Chain.prev_this {h : Heap T} {this : Nat} {c : List Nat} (hc : Chain h this c) :
    (this :: c).getLast? = some (h.prev this) := by
  by_cases hne : c = []
  · subst hne
    have hk := (links_cycle_nil h this).mp hc.2.2.2
    simp [hk.2]
  · have hk := (links_cycle_iff h this c hne).mp hc.2.2.2
    rw [hk.2.2.2.2, List.getLast?_eq_getLast _ (List.cons_ne_nil _ _), List.getLast_cons hne]

theorem empty_iff {h : Heap T} {this : Nat} {c : List Nat} (hsz : size h this = c.length) :
    empty h this = true ↔ c = [] := by
  unfold empty
  unfold size at hsz
  rw [hsz]
  simp

theorem push_back_keeps (h : Heap T) (this : Nat) (x : T) (hi : Inv h)
    (ho : h.is_obj this = true) : Inv (push_back h this x) :=
  insert_keeps h this this x hi ho (Or.inl rfl)

theorem begin_is_iter (h : Heap T) (this : Nat) (hi : Inv h) (ho : h.is_obj this = true) :
    is_iter h this (begin_ h this) := by
  obtain ⟨c, hc, hsz⟩ := hi.2 this ho
  unfold is_iter
  rw [hc.nodes_eq hi.1]
  have hk := hc.next_this
  unfold begin_
  cases c with
  | nil =>
    left
    simpa using hk.symm
  | cons f r =>
    right
    have e : f = h.next this := by simpa using hk
    simp [e]

theorem push_front_inv (h : Heap T) (this : Nat) (x : T) (hi : Inv h)
    (ho : h.is_obj this = true) : Inv (push_front h this x) :=
  insert_keeps h this _ x hi ho (begin_is_iter h this hi ho)

theorem begin_mem_nodes (h : Heap T) (this : Nat) (hi : Inv h) (ho : h.is_obj this = true)
    (hne : empty h this = false) : begin_ h this ∈ nodes h this := by
  obtain ⟨c, hc, hsz⟩ := hi.2 this ho
  rw [hc.nodes_eq hi.1]
  have hk := hc.next_this
  unfold begin_
  cases c with
  | nil =>
    have he := (empty_iff hsz).mpr rfl
    rw [he] at hne
    cases hne
  | cons f r =>
    have e : f = h.next this := by simpa using hk
    simp [e]

theorem last_mem_nodes (h : Heap T) (this : Nat) (hi : Inv h) (ho : h.is_obj this = true)
    (hne : empty h this = false) : h.prev (end_ this) ∈ nodes h this := by
  obtain ⟨c, hc, hsz⟩ := hi.2 this ho
  rw [hc.nodes_eq hi.1]
  have hcne : c ≠ [] := by
    intro e
    have he := (empty_iff hsz).mpr e
    rw [he] at hne
    cases hne
  have hk := (links_cycle_iff h this c hcne).mp hc.2.2.2
  unfold end_
  rw [hk.2.2.2.2]
  exact List.getLast_mem hcne

theorem pop_back_inv (h : Heap T) (this : Nat) (hi : Inv h) (ho : h.is_obj this = true)
    (hne : empty h this = false) : Inv (pop_back h this) :=
  erase_keeps h this _ hi ho (last_mem_nodes h this hi ho hne)

theorem pop_front_inv (h : Heap T) (this : Nat) (hi : Inv h) (ho : h.is_obj this = true)
    (hne : empty h this = false) : Inv (pop_front h this) :=
  erase_keeps h this _ hi ho (begin_mem_nodes h this hi ho hne)

theorem insert_is_obj (h : Heap T) (this pos : Nat) (x : T) (hi : Inv h)
    (ho : h.is_obj this = true) (hp : is_iter h this pos) (y : Nat) :
    (insert h this pos x).1.is_obj y = h.is_obj y := by
  obtain ⟨c, hc, hsz⟩ := hi.2 this ho
  have hnodes := hc.nodes_eq hi.1
  unfold is_iter at hp
  rw [hnodes] at hp
  obtain ⟨pre, post, e, hpos⟩ := split_at_iter this hp
  subst e
  exact (insert_chain h this pos x pre post (hi.1 h.brk (Nat.le_refl _)) hc hpos).2.2.2.2.2.1 y

theorem fill_loop_inv : ∀ (n : Nat) (h : Heap T) (this : Nat) (x : T), Inv h →
    h.is_obj this = true →
    Inv (fill_loop n h this x) ∧ ∀ y, (fill_loop n h this x).is_obj y = h.is_obj y
  | 0, h, this, x, hi, _ => ⟨hi, fun _ => rfl⟩
  | n + 1, h, this, x, hi, ho => by
    have h1 := push_back_keeps h this x hi ho
    have h2 := insert_is_obj h this this x hi ho (Or.inl rfl)
    obtain ⟨r1, r2⟩ := fill_loop_inv n (push_back h this x) this x h1
      (by unfold push_back end_; rw [h2]; exact ho)
    exact ⟨r1, fun y => by rw [fill_loop, r2]; exact h2 y⟩

theorem Chain.length_le {h : Heap T} {this : Nat} {c : List Nat} (hc : Chain h this c)
    (hb : ∀ a, h.brk ≤ a → h.cell a = none) : c.length ≤ h.brk :=
  nodup_bounded_length c h.brk hc.2.2.1
    (fun a ha => lt_brk_of_live hb (hc.cell_live a (by simp [ha])))

theorem erase_loop_inv : ∀ (mid : List Nat) (fuel : Nat) (h : Heap T)
    (this first last : Nat) (pre post : List Nat),
    Inv h → h.is_obj this = true → Chain h this (pre ++ mid ++ post) →
    (mid ++ post ++ [this]).head? = some first → (post ++ [this]).head? = some last →
    mid.length ≤ fuel →
    ∃ h1, erase_loop fuel h this first last = some h1 ∧ Inv h1 ∧ Chain h1 this (pre ++ post)
  | [], fuel, h, this, first, last, pre, post, hi, ho, hc, hf, hl, _ => by
    have e : first = last := by
      rw [List.nil_append, hl] at hf
      exact (Option.some.inj hf).symm
    subst e
    refine ⟨h, ?_, hi, by simpa using hc⟩
    cases fuel <;> simp [erase_loop]
  | m :: mid, fuel, h, this, first, last, pre, post, hi, ho, hc, hf, hl, hfuel => by
    have e : m = first := by simpa using hf
    subst e
    have hN := hc.nodup_cons
    have hne : m ≠ last := by
      intro e
      subst e
      have hm : m ∈ post ++ [this] := List.mem_of_mem_head? hl
      rw [List.nodup_cons, List.append_assoc, List.nodup_append, List.nodup_append] at hN
      rcases List.mem_append.mp hm with k | k
      · exact hN.2.2.1.2.2 (List.mem_cons_self _ _) k
      · simp at k
        exact hN.1 (by simp [k])
    cases fuel with
    | zero => simp at hfuel
    | succ f =>
      have hc2 : Chain h this (pre ++ m :: (mid ++ post)) := by simpa using hc
      obtain ⟨r1, r2, _⟩ := erase_chain h this m pre (mid ++ post) hc2
      have hmem : m ∈ nodes h this := by
        rw [hc.nodes_eq hi.1]
        simp
      have hi1 := erase_keeps h this m hi ho hmem
      obtain ⟨h1, e1, k1, k2⟩ := erase_loop_inv mid f (erase h this m).1 this
        (erase h this m).2 last pre post hi1 r1.1 (by simpa using r1) (by simpa using r2) hl
        (by simpa using hfuel)
      refine ⟨h1, ?_, k1, k2⟩
      unfold erase_loop
      rw [if_pos (by simpa using hne)]
      exact e1

theorem erase_range_keeps (h : Heap T) (this first last : Nat) (hi : Inv h)
    (ho : h.is_obj this = true) (hr : is_range h this first last) :
    ∃ r, erase_range h this first last = some r ∧ Inv r.1 := by
  obtain ⟨c, hc, hsz⟩ := hi.2 this ho
  obtain ⟨pre, mid, post, e, hf, hl⟩ := hr
  rw [hc.nodes_eq hi.1] at e
  subst e
  have hlen := hc.length_le hi.1
  obtain ⟨h1, e1, k1, _⟩ := erase_loop_inv mid (h.brk + 1) h this first last pre post hi ho hc
    hf hl (by simp at hlen; omega)
  exact ⟨(h1, last), by simp only [erase_range, e1], k1⟩

theorem clear_loop_spec : ∀ (l : List Nat) (fuel : Nat) (h : Heap T) (this cur : Nat),
    (l ++ [this]).head? = some cur → links h (l ++ [this]) → l.Nodup → this ∉ l →
    l.length ≤ fuel →
    ∃ h1, clear_loop fuel h this cur = some h1 ∧ (∀ y, y ∉ l → h1.cell y = h.cell y) ∧
      (∀ y ∈ l, h1.cell y = none) ∧ h1.brk = h.brk
  | [], fuel, h, this, cur, hc, _, _, _, _ => by
    have e : cur = this := by simpa using hc.symm
    subst e
    refine ⟨h, ?_, fun _ _ => rfl, by simp, rfl⟩
    cases fuel <;> simp [clear_loop]
  | b :: l, fuel, h, this, cur, hc, hl, hN, hn, hfuel => by
    have e : b = cur := by simpa using hc
    subst e
    have hbt : b ≠ this := fun e => hn (by simp [e])
    cases fuel with
    | zero => simp at hfuel
    | succ f =>
      have hcell : ∀ y, y ≠ b → (destroy_node h b).cell y = h.cell y := by
        intro y hy
        unfold destroy_node
        rw [Heap.cell_free, if_neg hy]
      have hb_not : b ∉ l ++ [this] := by
        rw [List.nodup_cons] at hN
        intro hm
        rcases List.mem_append.mp hm with k | k
        · exact hN.1 k
        · simp at k
          exact hbt k
      have hl2 : links (destroy_node h b) (l ++ [this]) :=
        links_of_cell_eq _ (fun y hy => hcell y (fun e => hb_not (e ▸ hy))) (links_tail hl)
      have hnext : (l ++ [this]).head? = some (h.next b) := by
        cases l with
        | nil => simpa using hl.1.symm
        | cons d l => simpa using hl.1.symm
      obtain ⟨h1, e1, k1, k2, k3⟩ := clear_loop_spec l f (destroy_node h b) this (h.next b)
        hnext hl2 (List.nodup_cons.mp hN).2 (fun e => hn (by simp [e])) (by simpa using hfuel)
      refine ⟨h1, ?_, ?_, ?_, by rw [k3]; rfl⟩
      · unfold clear_loop
        rw [if_pos (by simpa using hbt)]
        exact e1
      · intro y hy
        rw [k1 y (fun e => hy (by simp [e])), hcell y (fun e => hy (by simp [e]))]
      · intro y hy
        rcases List.mem_cons.mp hy with e | e
        · subst e
          rw [k1 y (List.nodup_cons.mp hN).1]
          unfold destroy_node
          rw [Heap.cell_free, if_pos rfl]
        · exact k2 y e

theorem clear_chain (h : Heap T) (this : Nat) (c : List Nat) (hc : Chain h this c)
    (hb : ∀ a, h.brk ≤ a → h.cell a = none) :
    ∃ h1, clear h this = some h1 ∧ Chain h1 this [] ∧ h1.size_ this = 0 ∧ h1.brk = h.brk ∧
      (∀ y, y ∉ this :: c → h1.cell y = h.cell y) ∧ (∀ y ∈ c, h1.cell y = none) ∧
      (∀ y, y ∉ c → h1.is_obj y = h.is_obj y) := by
  have hlen := hc.length_le hb
  obtain ⟨h1, e1, k1, k2, k3⟩ := clear_loop_spec c (h.brk + 1) h this (h.next this)
    hc.next_this (links_tail hc.2.2.2) hc.2.2.1 hc.not_mem (by omega)
  have hobj1 : h1.is_obj this = true := by
    rw [Heap.is_obj_of_cell_eq (k1 this hc.not_mem)]
    exact hc.1
  have l1 : (h1.cell this).isSome = true := Heap.cell_isSome_of_is_obj hobj1
  have l2 : ((h1.set_next this this).cell this).isSome = true := by
    rw [Heap.cell_isSome_set_next]
    exact l1
  refine ⟨((h1.set_next this this).set_prev this this).set_size this 0, ?_, ⟨?_, ?_, ?_, ?_⟩,
    ?_, ?_, ?_, ?_, ?_⟩
  · simp only [clear, e1]
  · rw [Heap.is_obj_set_size, Heap.is_obj_set_prev, Heap.is_obj_set_next]
    exact hobj1
  · simp
  · exact List.nodup_nil
  · rw [links_cycle_nil, Heap.next_set_size, Heap.next_set_prev, Heap.next_set_next,
      Heap.prev_set_size, Heap.prev_set_prev, if_pos rfl, if_pos l1, if_pos rfl, if_pos l2]
    exact ⟨rfl, rfl⟩
  · rw [Heap.size_set_size, if_pos ⟨rfl, by
      rw [Heap.is_obj_set_prev, Heap.is_obj_set_next]; exact hobj1⟩]
  · simp [k3]
  · intro y hy
    have hyt : y ≠ this := fun e => hy (by simp [e])
    rw [Heap.cell_set_size, if_neg hyt, Heap.cell_set_prev, if_neg hyt, Heap.cell_set_next,
      if_neg hyt, k1 y (fun e => hy (by simp [e]))]
  · intro y hy
    have hyt : y ≠ this := fun e => hc.not_mem (e ▸ hy)
    rw [Heap.cell_set_size, if_neg hyt, Heap.cell_set_prev, if_neg hyt, Heap.cell_set_next,
      if_neg hyt, k2 y hy]
  · intro y hy
    rw [Heap.is_obj_set_size, Heap.is_obj_set_prev, Heap.is_obj_set_next,
      Heap.is_obj_of_cell_eq (k1 y hy)]

theorem clear_inv (h : Heap T) (this : Nat) (hi : Inv h) (ho : h.is_obj this = true) :
    ∃ h1, clear h this = some h1 ∧ Inv h1 ∧ (∀ y, h1.is_obj y = h.is_obj y) ∧
      Chain h1 this [] ∧ h1.size_ this = 0 ∧
      (∀ s c, s ≠ this → Chain h s c → Chain h1 s c ∧ h1.size_ s = h.size_ s) := by
  obtain ⟨c, hc, hsz⟩ := hi.2 this ho
  obtain ⟨h1, e1, k1, k2, k3, k4, k5, k6⟩ := clear_chain h this c hc hi.1
  have hobj : ∀ y, h1.is_obj y = h.is_obj y := by
    intro y
    by_cases hy : y ∈ c
    · have n1 := hc.2.1 y hy
      have e2 : h1.is_obj y = false := by
        unfold Heap.is_obj
        rw [k5 y hy]
      rw [e2]
      cases hx : h.is_obj y with
      | false => rfl
      | true => exact absurd hx (fun o => Heap.not_node_and_obj n1 o)
    · exact k6 y hy
  have hother : ∀ s c2, s ≠ this → Chain h s c2 → Chain h1 s c2 ∧ h1.size_ s = h.size_ s := by
    intro s c2 hs hc2
    have hsep := chain_sep hc2 hc hs
    exact ⟨hc2.of_cell_eq (fun y hy => k4 y (hsep y hy)),
      Heap.size_of_cell_eq (k4 s (hsep s (by simp)))⟩
  refine ⟨h1, e1, ?_, hobj, k1, k2, hother⟩
  apply inv_frame (fun y => y ∈ this :: c) hi k4
  · intro a ha
    rw [k3] at ha
    by_cases hy : a ∈ this :: c
    · have hlt := lt_brk_of_live hi.1 (hc.cell_live a hy)
      omega
    · rw [k4 a hy]
      exact hi.1 a ha
  · intro s hs
    rw [hobj] at hs
    by_cases hst : s = this
    · subst hst
      left
      exact ⟨[], k1, by unfold size; rw [k2]; rfl⟩
    · right
      refine ⟨hs, ?_⟩
      intro c2 hc2 y hy hP
      exact chain_sep hc hc2 (fun e => hst e.symm) y hP hy

theorem take_nodes_fields (h : Heap T) (this other f z : Nat) (hne : empty h other = false)
    (hto : this ≠ other) (hf : h.next other = f) (hz : h.prev other = z)
    (htf : this ≠ f) (lt : (h.cell this).isSome = true) (lo : (h.cell other).isSome = true)
    (lf : (h.cell f).isSome = true) (lz : (h.cell z).isSome = true)
    (oo : h.is_obj other = true) (ot : h.is_obj this = true) :
    (∀ y, (take_nodes h this other).next y =
      if y = other then other else if y = z then this else if y = this then f else h.next y) ∧
    (∀ y, (take_nodes h this other).prev y =
      if y = other then other else if y = f then this else if y = this then z else h.prev y) ∧
    (∀ y, (take_nodes h this other).is_obj y = h.is_obj y) ∧
    (∀ y, (take_nodes h this other).is_node y = h.is_node y) ∧
    (take_nodes h this other).size_ this = h.size_ other ∧
    (take_nodes h this other).size_ other = 0 ∧
    (take_nodes h this other).brk = h.brk ∧
    (∀ y, y ≠ this → y ≠ other → y ≠ f → y ≠ z →
      (take_nodes h this other).cell y = h.cell y) := by
  have e1 : (h.set_next this f).prev other = z := by rw [Heap.prev_set_next, hz]
  have e2 : ((h.set_next this f).set_prev this z).next this = f := by
    rw [Heap.next_set_prev, Heap.next_set_next, if_pos rfl, if_pos lt]
  have e3 : (((h.set_next this f).set_prev this z).set_prev f this).prev this = z := by
    rw [Heap.prev_set_prev, if_neg htf, Heap.prev_set_prev, if_pos rfl,
      Heap.cell_isSome_set_next, if_pos lt]
  have e4 : ((((h.set_next this f).set_prev this z).set_prev f this).set_next z this).size_ other
      = h.size_ other := by
    rw [Heap.size_set_next, Heap.size_set_prev, Heap.size_set_prev, Heap.size_set_next]
  have hfin : take_nodes h this other =
      ((((((((h.set_next this f).set_prev this z).set_prev f this).set_next z this).set_size
        this (h.size_ other)).set_next other other).set_prev other other).set_size other 0) := by
    unfold take_nodes
    rw [hne]
    simp only [Bool.not_false, if_true, hf, e1, e2, e3, e4]
  rw [hfin]
  have hot : other ≠ this := fun e => hto e.symm
  refine ⟨?_, ?_, ?_, ?_, ?_, ?_, rfl, ?_⟩
  · intro y
    simp only [Heap.next_set_size, Heap.next_set_prev, Heap.next_set_next,
      Heap.cell_isSome_set_size, Heap.cell_isSome_set_prev, Heap.cell_isSome_set_next, lo, lz,
      lt, if_true]
  · intro y
    simp only [Heap.prev_set_size, Heap.prev_set_prev, Heap.prev_set_next,
      Heap.cell_isSome_set_size, Heap.cell_isSome_set_prev, Heap.cell_isSome_set_next, lo, lf,
      lt, if_true]
  · intro y
    simp only [Heap.is_obj_set_size, Heap.is_obj_set_prev, Heap.is_obj_set_next]
  · intro y
    simp only [Heap.is_node_set_size, Heap.is_node_set_prev, Heap.is_node_set_next]
  · simp only [Heap.size_set_size, Heap.size_set_prev, Heap.size_set_next,
      Heap.is_obj_set_size, Heap.is_obj_set_prev, Heap.is_obj_set_next, oo, ot, hto,
      false_and, if_false, and_self, if_true]
  · simp only [Heap.size_set_size, Heap.size_set_prev, Heap.size_set_next,
      Heap.is_obj_set_size, Heap.is_obj_set_prev, Heap.is_obj_set_next, oo, and_self, if_true]
  · intro y h1 h2 h3 h4
    simp only [Heap.cell_set_size, Heap.cell_set_prev, Heap.cell_set_next, h1, h2, h3, h4,
      if_false]

theorem getLast_not_mem_dropLast {c : List Nat} (hN : c.Nodup) (hne : c ≠ []) :
    c.getLast hne ∉ c.dropLast := by
  intro hm
  have e : c.dropLast ++ [c.getLast hne] = c := List.dropLast_append_getLast hne
  rw [← e, List.nodup_append] at hN
  exact hN.2.2 hm (by simp)

theorem head_not_mem_tail {c : List Nat} (hN : c.Nodup) (hne : c ≠ []) :
    c.head hne ∉ c.tail := by
  cases c with
  | nil => exact absurd rfl hne
  | cons f r => exact (List.nodup_cons.mp hN).1

/-- A non-empty chain is taken over by another sentinel `t` when the four
links at its ends are redirected to `t` and its inner links are kept. -/
theorem links_rehome {h h1 : Heap T} {s t : Nat} {c : List Nat} (hne : c ≠ [])
    (hl : links h (s :: c ++ [s]))
    (q1 : h1.next t = c.head hne) (q2 : h1.prev (c.head hne) = t)
    (q3 : h1.next (c.getLast hne) = t) (q4 : h1.prev t = c.getLast hne)
    (q5 : ∀ y ∈ c.dropLast, h1.next y = h.next y) (q6 : ∀ y ∈ c.tail, h1.prev y = h.prev y) :
    links h1 (t :: c ++ [t]) := by
  rw [links_cycle_iff h1 t c hne]
  exact ⟨q1, q2, links_congr c q5 q6 ((links_cycle_iff h s c hne).mp hl).2.2.1, q3, q4⟩

theorem take_nodes_chain (h : Heap T) (this other : Nat) (c : List Nat) (hto : this ≠ other)
    (ht : Chain h this []) (hst : h.size_ this = 0) (ho : Chain h other c)
    (hso : h.size_ other = c.length) :
    Chain (take_nodes h this other) this c ∧ (take_nodes h this other).size_ this = c.length ∧
    Chain (take_nodes h this other) other [] ∧ (take_nodes h this other).size_ other = 0 ∧
    (take_nodes h this other).brk = h.brk ∧
    (∀ y, y ∉ this :: other :: c → (take_nodes h this other).cell y = h.cell y) ∧
    (∀ y, (take_nodes h this other).is_obj y = h.is_obj y) := by
  by_cases hc : c = []
  · subst hc
    have he : empty h other = true := by
      unfold empty
      rw [hso]
      rfl
    have e : take_nodes h this other = h := by
      unfold take_nodes
      rw [he]
      rfl
    rw [e]
    exact ⟨ht, hst, ho, hso, rfl, fun _ _ => rfl, fun _ => rfl⟩
  · have he : empty h other = false := by
      unfold empty
      rw [hso]
      simpa using hc
    obtain ⟨k1, k2, k3, k4, k5⟩ := (links_cycle_iff h other c hc).mp ho.2.2.2
    have hfm : c.head hc ∈ c := List.head_mem hc
    have hzm : c.getLast hc ∈ c := List.getLast_mem hc
    have ntc : ∀ y ∈ c, y ≠ this := fun y hy e =>
      Heap.not_node_and_obj (ho.2.1 y hy) (e ▸ ht.1)
    have noc : ∀ y ∈ c, y ≠ other := fun y hy e => ho.not_mem (e ▸ hy)
    obtain ⟨r1, r2, r3, r4, r5, r6, r7, r8⟩ := take_nodes_fields h this other (c.head hc)
      (c.getLast hc) he hto k1 k5 (fun e => ntc _ hfm e.symm)
      (Heap.cell_isSome_of_is_obj ht.1) (Heap.cell_isSome_of_is_obj ho.1)
      (Heap.cell_isSome_of_is_node (ho.2.1 _ hfm)) (Heap.cell_isSome_of_is_node (ho.2.1 _ hzm))
      ho.1 ht.1
    refine ⟨⟨?_, ?_, ho.2.2.1, ?_⟩, by rw [r5, hso], ⟨?_, by simp, List.nodup_nil, ?_⟩, r6, r7,
      ?_, r3⟩
    · rw [r3]
      exact ht.1
    · intro y hy
      rw [r4]
      exact ho.2.1 y hy
    · apply links_rehome hc ho.2.2.2
      · rw [r1, if_neg hto, if_neg (fun e => ntc _ hzm e.symm), if_pos rfl]
      · rw [r2, if_neg (noc _ hfm), if_pos rfl]
      · rw [r1, if_neg (noc _ hzm), if_pos rfl]
      · rw [r2, if_neg hto, if_neg (fun e => ntc _ hfm e.symm), if_pos rfl]
      · intro y hy
        have hym := List.mem_of_mem_dropLast hy
        have hyz : y ≠ c.getLast hc := fun e =>
          getLast_not_mem_dropLast ho.2.2.1 hc (e ▸ hy)
        rw [r1, if_neg (noc y hym), if_neg hyz, if_neg (ntc y hym)]
      · intro y hy
        have hym := List.mem_of_mem_tail hy
        have hyf : y ≠ c.head hc := fun e => head_not_mem_tail ho.2.2.1 hc (e ▸ hy)
        rw [r2, if_neg (noc y hym), if_neg hyf, if_neg (ntc y hym)]
    · rw [r3]
      exact ho.1
    · rw [links_cycle_nil, r1, r2, if_pos rfl, if_pos rfl]
      exact ⟨rfl, rfl⟩
    · intro y hy
      simp only [List.mem_cons, not_or] at hy
      exact r8 y hy.1 hy.2.1 (fun e => hy.2.2 (e ▸ hfm)) (fun e => hy.2.2 (e ▸ hzm))

/-- Frame rule with two list objects in the footprint. -/
theorem inv_frame2 {h h1 : Heap T} (this other : Nat) (c1 c2 : List Nat) (hi : Inv h)
    (hc1 : Chain h this c1) (hc2 : Chain h other c2)
    (hP : ∀ y, y ∉ this :: c1 → y ∉ other :: c2 → h1.cell y = h.cell y)
    (hbrk : h1.brk = h.brk) (hobj : ∀ y, h1.is_obj y = h.is_obj y)
    (w1 : WF h1 this) (w2 : WF h1 other) : Inv h1 := by
  apply inv_frame (fun y => y ∈ this :: c1 ∨ y ∈ other :: c2) hi
  · intro y hy
    exact hP y (fun e => hy (Or.inl e)) (fun e => hy (Or.inr e))
  · intro a ha
    rw [hbrk] at ha
    have n1 : a ∉ this :: c1 := fun e => by
      have := lt_brk_of_live hi.1 (hc1.cell_live a e)
      omega
    have n2 : a ∉ other :: c2 := fun e => by
      have := lt_brk_of_live hi.1 (hc2.cell_live a e)
      omega
    rw [hP a n1 n2]
    exact hi.1 a ha
  · intro s hs
    rw [hobj] at hs
    by_cases e1 : s = this
    · left
      rw [e1]
      exact w1
    · by_cases e2 : s = other
      · left
        rw [e2]
        exact w2
      · right
        refine ⟨hs, ?_⟩
        intro c hc y hy hP2
        rcases hP2 with k | k
        · exact chain_sep hc1 hc (fun e => e1 e.symm) y k hy
        · exact chain_sep hc2 hc (fun e => e2 e.symm) y k hy

theorem take_nodes_inv (h : Heap T) (this other : Nat) (hi : Inv h) (hto : this ≠ other)
    (ht : Chain h this []) (hst : h.size_ this = 0) (ho : h.is_obj other = true) :
    Inv (take_nodes h this other) ∧ ∀ y, (take_nodes h this other).is_obj y = h.is_obj y := by
  obtain ⟨c, hc, hsz⟩ := hi.2 other ho
  obtain ⟨r1, r2, r3, r4, r5, r6, r7⟩ := take_nodes_chain h this other c hto ht hst hc hsz
  refine ⟨?_, r7⟩
  apply inv_frame2 this other [] c hi ht hc _ r5 r7 ⟨c, r1, r2⟩ ⟨[], r3, r4⟩
  intro y n1 n2
  apply r6
  simp only [List.mem_cons, List.not_mem_nil, or_false, not_or] at n1 n2 ⊢
  exact ⟨n1, n2.1, n2.2⟩

theorem relink_fields (h : Heap T) (t o f z : Nat)
    (hf : h.next o = f) (hz : h.prev o = z)
    (htf : t ≠ f) (lt : (h.cell t).isSome = true) (lo : (h.cell o).isSome = true)
    (lf : (h.cell f).isSome = true) (lz : (h.cell z).isSome = true) :
    (∀ y, (relink h t o).next y =
      if y = o then o else if y = z then t else if y = t then f else h.next y) ∧
    (∀ y, (relink h t o).prev y =
      if y = o then o else if y = f then t else if y = t then z else h.prev y) ∧
    (∀ y, (relink h t o).is_obj y = h.is_obj y) ∧
    (∀ y, (relink h t o).is_node y = h.is_node y) ∧
    (∀ y, (relink h t o).size_ y = h.size_ y) ∧
    (relink h t o).brk = h.brk ∧
    (∀ y, y ≠ t → y ≠ o → y ≠ f → y ≠ z → (relink h t o).cell y = h.cell y) := by
  have e1 : (h.set_next t f).prev o = z := by rw [Heap.prev_set_next, hz]
  have e2 : ((h.set_next t f).set_prev t z).next t = f := by
    rw [Heap.next_set_prev, Heap.next_set_next, if_pos rfl, if_pos lt]
  have e3 : (((h.set_next t f).set_prev t z).set_prev f t).prev t = z := by
    rw [Heap.prev_set_prev, if_neg htf, Heap.prev_set_prev, if_pos rfl,
      Heap.cell_isSome_set_next, if_pos lt]
  have hfin : relink h t o =
      ((((((h.set_next t f).set_prev t z).set_prev f t).set_next z t).set_next o o).set_prev
        o o) := by
    unfold relink
    simp only [hf, e1, e2, e3]
  rw [hfin]
  refine ⟨?_, ?_, ?_, ?_, ?_, rfl, ?_⟩
  · intro y
    simp only [Heap.next_set_prev, Heap.next_set_next,
      Heap.cell_isSome_set_prev, Heap.cell_isSome_set_next, lo, lz, lt, if_true]
  · intro y
    simp only [Heap.prev_set_prev, Heap.prev_set_next,
      Heap.cell_isSome_set_prev, Heap.cell_isSome_set_next, lo, lf, lt, if_true]
  · intro y
    simp only [Heap.is_obj_set_prev, Heap.is_obj_set_next]
  · intro y
    simp only [Heap.is_node_set_prev, Heap.is_node_set_next]
  · intro y
    simp only [Heap.size_set_prev, Heap.size_set_next]
  · intro y h1 h2 h3 h4
    simp only [Heap.cell_set_prev, Heap.cell_set_next, h1, h2, h3, h4, if_false]

theorem relink_chain (h : Heap T) (t o : Nat) (c : List Nat) (hto : t ≠ o)
    (ht : Chain h t []) (ho : Chain h o c) (hc : c ≠ []) :
    Chain (relink h t o) t c ∧ Chain (relink h t o) o [] ∧
    (∀ y, (relink h t o).size_ y = h.size_ y) ∧
    (relink h t o).brk = h.brk ∧
    (∀ y, y ∉ t :: o :: c → (relink h t o).cell y = h.cell y) ∧
    (∀ y, (relink h t o).is_obj y = h.is_obj y) := by
  obtain ⟨k1, k2, k3, k4, k5⟩ := (links_cycle_iff h o c hc).mp ho.2.2.2
  have hfm : c.head hc ∈ c := List.head_mem hc
  have hzm : c.getLast hc ∈ c := List.getLast_mem hc
  have ntc : ∀ y ∈ c, y ≠ t := fun y hy e =>
    Heap.not_node_and_obj (ho.2.1 y hy) (e ▸ ht.1)
  have noc : ∀ y ∈ c, y ≠ o := fun y hy e => ho.not_mem (e ▸ hy)
  obtain ⟨r1, r2, r3, r4, r5, r6, r7⟩ := relink_fields h t o (c.head hc)
    (c.getLast hc) k1 k5 (fun e => ntc _ hfm e.symm)
    (Heap.cell_isSome_of_is_obj ht.1) (Heap.cell_isSome_of_is_obj ho.1)
    (Heap.cell_isSome_of_is_node (ho.2.1 _ hfm)) (Heap.cell_isSome_of_is_node (ho.2.1 _ hzm))
  refine ⟨⟨?_, ?_, ho.2.2.1, ?_⟩, ⟨?_, by simp, List.nodup_nil, ?_⟩, r5, r6, ?_, r3⟩
  · rw [r3]
    exact ht.1
  · intro y hy
    rw [r4]
    exact ho.2.1 y hy
  · apply links_rehome hc ho.2.2.2
    · rw [r1, if_neg hto, if_neg (fun e => ntc _ hzm e.symm), if_pos rfl]
    · rw [r2, if_neg (noc _ hfm), if_pos rfl]
    · rw [r1, if_neg (noc _ hzm), if_pos rfl]
    · rw [r2, if_neg hto, if_neg (fun e => ntc _ hfm e.symm), if_pos rfl]
    · intro y hy
      have hym := List.mem_of_mem_dropLast hy
      have hyz : y ≠ c.getLast hc := fun e =>
        getLast_not_mem_dropLast ho.2.2.1 hc (e ▸ hy)
      rw [r1, if_neg (noc y hym), if_neg hyz, if_neg (ntc y hym)]
    · intro y hy
      have hym := List.mem_of_mem_tail hy
      have hyf : y ≠ c.head hc := fun e => head_not_mem_tail ho.2.2.1 hc (e ▸ hy)
      rw [r2, if_neg (noc y hym), if_neg hyf, if_neg (ntc y hym)]
  · rw [r3]
    exact ho.1
  · rw [links_cycle_nil, r1, r2, if_pos rfl, if_pos rfl]
    exact ⟨rfl, rfl⟩
  · intro y hy
    simp only [List.mem_cons, not_or] at hy
    exact r7 y hy.1 hy.2.1 (fun e => hy.2.2 (e ▸ hfm)) (fun e => hy.2.2 (e ▸ hzm))

theorem swap_eq (h : Heap T) (this other : Nat) :
    swap h this other =
      if empty h this && empty h other then h
      else
        (((if empty h this then relink h this other
          else if empty h other then relink h other this
          else cross h this other).set_size this
            ((if empty h this then relink h this other
              else if empty h other then relink h other this
              else cross h this other).size_ other)).set_size other
            ((if empty h this then relink h this other
              else if empty h other then relink h other this
              else cross h this other).size_ this)) := rfl

theorem cross_fields (h : Heap T) (this other f1 z1 f2 z2 : Nat) (hto : this ≠ other)
    (a1 : h.next this = f1) (a2 : h.prev this = z1) (a3 : h.next other = f2)
    (a4 : h.prev other = z2) (d1 : this ≠ f2) (d2 : other ≠ z2) (d3 : other ≠ f1)
    (d4 : other ≠ f2)
    (lt : (h.cell this).isSome = true) (lo : (h.cell other).isSome = true)
    (lf1 : (h.cell f1).isSome = true) (lz1 : (h.cell z1).isSome = true)
    (lf2 : (h.cell f2).isSome = true) (lz2 : (h.cell z2).isSome = true) :
    (∀ y, (cross h this other).next y =
      if y = z1 then other else if y = z2 then this else if y = other then f1
      else if y = this then f2 else h.next y) ∧
    (∀ y, (cross h this other).prev y =
      if y = f1 then other else if y = f2 then this else if y = other then z1
      else if y = this then z2 else h.prev y) ∧
    (∀ y, (cross h this other).is_obj y = h.is_obj y) ∧
    (∀ y, (cross h this other).is_node y = h.is_node y) ∧
    (∀ y, (cross h this other).size_ y = h.size_ y) ∧
    (cross h this other).brk = h.brk ∧
    (∀ y, y ≠ this → y ≠ other → y ≠ f1 → y ≠ z1 → y ≠ f2 → y ≠ z2 →
      (cross h this other).cell y = h.cell y) := by
  have hot : other ≠ this := fun e => hto e.symm
  have e1 : ((h.set_next this f2).set_next other f1).prev other = z2 := by
    rw [Heap.prev_set_next, Heap.prev_set_next, a4]
  have e1b : ((h.set_next this f2).set_next other f1).prev this = z1 := by
    rw [Heap.prev_set_next, Heap.prev_set_next, a2]
  have e2 : ((((h.set_next this f2).set_next other f1).set_prev this z2).set_prev other
      z1).next this = f2 := by
    rw [Heap.next_set_prev, Heap.next_set_prev, Heap.next_set_next, if_neg hto,
      Heap.next_set_next, if_pos rfl, if_pos lt]
  have e3 : (((((h.set_next this f2).set_next other f1).set_prev this z2).set_prev other
      z1).set_prev f2 this).prev this = z2 := by
    rw [Heap.prev_set_prev, if_neg d1, Heap.prev_set_prev, if_neg hto, Heap.prev_set_prev,
      if_pos rfl, Heap.cell_isSome_set_next, Heap.cell_isSome_set_next, if_pos lt]
  have e4 : ((((((h.set_next this f2).set_next other f1).set_prev this z2).set_prev other
      z1).set_prev f2 this).set_next z2 this).next other = f1 := by
    rw [Heap.next_set_next, if_neg d2, Heap.next_set_prev, Heap.next_set_prev,
      Heap.next_set_prev, Heap.next_set_next, if_pos rfl, Heap.cell_isSome_set_next,
      if_pos lo]
  have e5 : (((((((h.set_next this f2).set_next other f1).set_prev this z2).set_prev other
      z1).set_prev f2 this).set_next z2 this).set_prev f1 other).prev other = z1 := by
    rw [Heap.prev_set_prev, if_neg d3, Heap.prev_set_next, Heap.prev_set_prev, if_neg d4,
      Heap.prev_set_prev, if_pos rfl, Heap.cell_isSome_set_prev, Heap.cell_isSome_set_next,
      Heap.cell_isSome_set_next, if_pos lo]
  have hfin : cross h this other =
      (((((((h.set_next this f2).set_next other f1).set_prev this z2).set_prev other
        z1).set_prev f2 this).set_next z2 this).set_prev f1 other).set_next z1 other := by
    unfold cross
    simp only [a1, a3, e1, e1b, e2, e3, e4, e5]
  rw [hfin]
  refine ⟨?_, ?_, ?_, ?_, ?_, rfl, ?_⟩
  · intro y
    simp only [Heap.next_set_prev, Heap.next_set_next,
      Heap.cell_isSome_set_prev, Heap.cell_isSome_set_next, lo, lz1, lz2, lt, if_true]
  · intro y
    simp only [Heap.prev_set_prev, Heap.prev_set_next,
      Heap.cell_isSome_set_prev, Heap.cell_isSome_set_next, lo, lf1, lf2, lt, if_true]
  · intro y
    simp only [Heap.is_obj_set_prev, Heap.is_obj_set_next]
  · intro y
    simp only [Heap.is_node_set_prev, Heap.is_node_set_next]
  · intro y
    simp only [Heap.size_set_prev, Heap.size_set_next]
  · intro y h1 h2 h3 h4 h5 h6
    simp only [Heap.cell_set_prev, Heap.cell_set_next, h1, h2, h3, h4, h5, h6, if_false]

theorem cross_chain (h : Heap T) (this other : Nat) (c1 c2 : List Nat) (hto : this ≠ other)
    (ht : Chain h this c1) (ho : Chain h other c2) (n1 : c1 ≠ []) (n2 : c2 ≠ []) :
    Chain (cross h this other) this c2 ∧ Chain (cross h this other) other c1 ∧
    (∀ y, (cross h this other).size_ y = h.size_ y) ∧
    (cross h this other).brk = h.brk ∧
    (∀ y, y ∉ this :: c1 → y ∉ other :: c2 → (cross h this other).cell y = h.cell y) ∧
    (∀ y, (cross h this other).is_obj y = h.is_obj y) := by
  obtain ⟨k1, k2, k3, k4, k5⟩ := (links_cycle_iff h this c1 n1).mp ht.2.2.2
  obtain ⟨j1, j2, j3, j4, j5⟩ := (links_cycle_iff h other c2 n2).mp ho.2.2.2
  have f1m : c1.head n1 ∈ c1 := List.head_mem n1
  have z1m : c1.getLast n1 ∈ c1 := List.getLast_mem n1
  have f2m : c2.head n2 ∈ c2 := List.head_mem n2
  have z2m : c2.getLast n2 ∈ c2 := List.getLast_mem n2
  have hdis : ∀ y ∈ c1, y ∉ c2 := chain_disjoint ht ho hto
  have t1 : ∀ y ∈ c1, y ≠ this := fun y hy e => ht.not_mem (e ▸ hy)
  have t2 : ∀ y ∈ c2, y ≠ this := fun y hy e =>
    Heap.not_node_and_obj (ho.2.1 y hy) (e ▸ ht.1)
  have o1 : ∀ y ∈ c1, y ≠ other := fun y hy e =>
    Heap.not_node_and_obj (ht.2.1 y hy) (e ▸ ho.1)
  have o2 : ∀ y ∈ c2, y ≠ other := fun y hy e => ho.not_mem (e ▸ hy)
  have x12 : ∀ y ∈ c1, ∀ w ∈ c2, y ≠ w := fun y hy w hw e => hdis y hy (e ▸ hw)
  obtain ⟨r1, r2, r3, r4, r5, r6, r7⟩ := cross_fields h this other (c1.head n1)
    (c1.getLast n1) (c2.head n2) (c2.getLast n2) hto k1 k5 j1 j5
    (fun e => t2 _ f2m e.symm) (fun e => o2 _ z2m e.symm) (fun e => o1 _ f1m e.symm)
    (fun e => o2 _ f2m e.symm)
    (Heap.cell_isSome_of_is_obj ht.1) (Heap.cell_isSome_of_is_obj ho.1)
    (Heap.cell_isSome_of_is_node (ht.2.1 _ f1m)) (Heap.cell_isSome_of_is_node (ht.2.1 _ z1m))
    (Heap.cell_isSome_of_is_node (ho.2.1 _ f2m)) (Heap.cell_isSome_of_is_node (ho.2.1 _ z2m))
  refine ⟨⟨?_, ?_, ho.2.2.1, ?_⟩, ⟨?_, ?_, ht.2.2.1, ?_⟩, r5, r6, ?_, r3⟩
  · rw [r3]
    exact ht.1
  · intro y hy
    rw [r4]
    exact ho.2.1 y hy
  · apply links_rehome n2 ho.2.2.2
    · rw [r1, if_neg (fun e => t1 _ z1m e.symm), if_neg (fun e => t2 _ z2m e.symm), if_neg hto,
        if_pos rfl]
    · rw [r2, if_neg (fun e => x12 _ f1m _ f2m e.symm), if_pos rfl]
    · rw [r1, if_neg (fun e => x12 _ z1m _ z2m e.symm), if_pos rfl]
    · rw [r2, if_neg (fun e => t1 _ f1m e.symm), if_neg (fun e => t2 _ f2m e.symm), if_neg hto,
        if_pos rfl]
    · intro y hy
      have hym := List.mem_of_mem_dropLast hy
      have hyz : y ≠ c2.getLast n2 := fun e =>
        getLast_not_mem_dropLast ho.2.2.1 n2 (e ▸ hy)
      rw [r1, if_neg (fun e => x12 _ z1m _ hym e.symm), if_neg hyz, if_neg (o2 y hym),
        if_neg (t2 y hym)]
    · intro y hy
      have hym := List.mem_of_mem_tail hy
      have hyf : y ≠ c2.head n2 := fun e => head_not_mem_tail ho.2.2.1 n2 (e ▸ hy)
      rw [r2, if_neg (fun e => x12 _ f1m _ hym e.symm), if_neg hyf, if_neg (o2 y hym),
        if_neg (t2 y hym)]
  · rw [r3]
    exact ho.1
  · intro y hy
    rw [r4]
    exact ht.2.1 y hy
  · apply links_rehome n1 ht.2.2.2
    · rw [r1, if_neg (fun e => o1 _ z1m e.symm), if_neg (fun e => o2 _ z2m e.symm), if_pos rfl]
    · rw [r2, if_pos rfl]
    · rw [r1, if_pos rfl]
    · rw [r2, if_neg (fun e => o1 _ f1m e.symm), if_neg (fun e => o2 _ f2m e.symm), if_pos rfl]
    · intro y hy
      have hym := List.mem_of_mem_dropLast hy
      have hyz : y ≠ c1.getLast n1 := fun e =>
        getLast_not_mem_dropLast ht.2.2.1 n1 (e ▸ hy)
      rw [r1, if_neg hyz, if_neg (x12 _ hym _ z2m), if_neg (o1 y hym), if_neg (t1 y hym)]
    · intro y hy
      have hym := List.mem_of_mem_tail hy
      have hyf : y ≠ c1.head n1 := fun e => head_not_mem_tail ht.2.2.1 n1 (e ▸ hy)
      rw [r2, if_neg hyf, if_neg (x12 _ hym _ f2m), if_neg (o1 y hym), if_neg (t1 y hym)]
  · intro y m1 m2
    simp only [List.mem_cons, not_or] at m1 m2
    exact r7 y m1.1 m2.1 (fun e => m1.2 (e ▸ f1m)) (fun e => m1.2 (e ▸ z1m))
      (fun e => m2.2 (e ▸ f2m)) (fun e => m2.2 (e ▸ z2m))

theorem Chain.set_size {h : Heap T} {s : Nat} {c : List Nat} (hc : Chain h s c) (p k : Nat) :
    Chain (h.set_size p k) s c := by
  obtain ⟨c1, c2, c3, c4⟩ := hc
  refine ⟨by rw [Heap.is_obj_set_size]; exact c1, ?_, c3, ?_⟩
  · intro a ha
    rw [Heap.is_node_set_size]
    exact c2 a ha
  · exact links_congr _ (fun a _ => Heap.next_set_size _ _ _ _)
      (fun a _ => Heap.prev_set_size _ _ _ _) c4

theorem swap_chain (h : Heap T) (this other : Nat) (c1 c2 : List Nat) (hto : this ≠ other)
    (ht : Chain h this c1) (hst : h.size_ this = c1.length)
    (ho : Chain h other c2) (hso : h.size_ other = c2.length) :
    Chain (swap h this other) this c2 ∧ (swap h this other).size_ this = c2.length ∧
    Chain (swap h this other) other c1 ∧ (swap h this other).size_ other = c1.length ∧
    (swap h this other).brk = h.brk ∧
    (∀ y, y ∉ this :: c1 → y ∉ other :: c2 → (swap h this other).cell y = h.cell y) ∧
    (∀ y, (swap h this other).is_obj y = h.is_obj y) := by
  have het : empty h this = true ↔ c1 = [] := empty_iff hst
  have heo : empty h other = true ↔ c2 = [] := empty_iff hso
  by_cases b : c1 = [] ∧ c2 = []
  · have e : swap h this other = h := by
      rw [swap_eq, het.mpr b.1, heo.mpr b.2]
      rfl
    rw [e]
    obtain ⟨b1, b2⟩ := b
    subst b1
    subst b2
    exact ⟨ht, hst, ho, hso, rfl, fun _ _ _ => rfl, fun _ => rfl⟩
  · -- the memory `g` after the link assignments
    have key : ∃ g : Heap T,
        swap h this other = (g.set_size this (g.size_ other)).set_size other (g.size_ this) ∧
        Chain g this c2 ∧ Chain g other c1 ∧ (∀ y, g.size_ y = h.size_ y) ∧ g.brk = h.brk ∧
        (∀ y, y ∉ this :: c1 → y ∉ other :: c2 → g.cell y = h.cell y) ∧
        (∀ y, g.is_obj y = h.is_obj y) := by
      by_cases b1 : c1 = []
      · have b2 : c2 ≠ [] := fun e => b ⟨b1, e⟩
        have x1 : empty h this = true := het.mpr b1
        have x2 : empty h other = false := by
          cases hx : empty h other with
          | false => rfl
          | true => exact absurd (heo.mp hx) b2
        subst b1
        obtain ⟨r1, r2, r3, r4, r5, r6⟩ := relink_chain h this other c2 hto ht ho b2
        refine ⟨relink h this other, ?_, r1, r2, r3, r4, ?_, r6⟩
        · rw [swap_eq, x1, x2]
          rfl
        · intro y m1 m2
          apply r5
          simp only [List.mem_cons, List.not_mem_nil, or_false, not_or] at m1 m2 ⊢
          exact ⟨m1, m2.1, m2.2⟩
      · have x1 : empty h this = false := by
          cases hx : empty h this with
          | false => rfl
          | true => exact absurd (het.mp hx) b1
        by_cases b2 : c2 = []
        · have x2 : empty h other = true := heo.mpr b2
          subst b2
          obtain ⟨r1, r2, r3, r4, r5, r6⟩ := relink_chain h other this c1
            (fun e => hto e.symm) ho ht b1
          refine ⟨relink h other this, ?_, r2, r1, r3, r4, ?_, r6⟩
          · rw [swap_eq, x1, x2]
            rfl
          · intro y m1 m2
            apply r5
            simp only [List.mem_cons, List.not_mem_nil, or_false, not_or] at m1 m2 ⊢
            exact ⟨m2, m1.1, m1.2⟩
        · have x2 : empty h other = false := by
            cases hx : empty h other with
            | false => rfl
            | true => exact absurd (heo.mp hx) b2
          obtain ⟨r1, r2, r3, r4, r5, r6⟩ := cross_chain h this other c1 c2 hto ht ho b1 b2
          refine ⟨cross h this other, ?_, r1, r2, r3, r4, r5, r6⟩
          rw [swap_eq, x1, x2]
          rfl
    obtain ⟨g, e, g1, g2, g3, g4, g5, g6⟩ := key
    rw [e]
    have hot : other ≠ this := fun e => hto e.symm
    refine ⟨(g1.set_size _ _).set_size _ _, ?_, (g2.set_size _ _).set_size _ _, ?_, g4, ?_, ?_⟩
    · rw [Heap.size_set_size, if_neg (fun e => hto e.1), Heap.size_set_size,
        if_pos ⟨rfl, g1.1⟩, g3, hso]
    · rw [Heap.size_set_size, if_pos ⟨rfl, by rw [Heap.is_obj_set_size]; exact g2.1⟩, g3, hst]
    · intro y m1 m2
      have y1 : y ≠ this := fun e => m1 (by simp [e])
      have y2 : y ≠ other := fun e => m2 (by simp [e])
      rw [Heap.cell_set_size, if_neg y2, Heap.cell_set_size, if_neg y1, g5 y m1 m2]
    · intro y
      rw [Heap.is_obj_set_size, Heap.is_obj_set_size, g6]

theorem cross_self_fields (h : Heap T) (this f z : Nat) (a1 : h.next this = f)
    (a2 : h.prev this = z) (d1 : this ≠ f) (d2 : this ≠ z)
    (lt : (h.cell this).isSome = true) (lf : (h.cell f).isSome = true)
    (lz : (h.cell z).isSome = true) :
    (∀ y, (cross h this this).next y =
      if y = z then this else if y = this then f else h.next y) ∧
    (∀ y, (cross h this this).prev y =
      if y = f then this else if y = this then z else h.prev y) ∧
    (∀ y, (cross h this this).is_obj y = h.is_obj y) ∧
    (∀ y, (cross h this this).is_node y = h.is_node y) ∧
    (∀ y, (cross h this this).size_ y = h.size_ y) ∧
    (cross h this this).brk = h.brk ∧
    (∀ y, y ≠ this → y ≠ f → y ≠ z → (cross h this this).cell y = h.cell y) := by
  have e1 : ((h.set_next this f).set_next this f).prev this = z := by
    rw [Heap.prev_set_next, Heap.prev_set_next, a2]
  have e2 : ((((h.set_next this f).set_next this f).set_prev this z).set_prev this
      z).next this = f := by
    rw [Heap.next_set_prev, Heap.next_set_prev, Heap.next_set_next, if_pos rfl,
      Heap.cell_isSome_set_next, if_pos lt]
  have e3 : (((((h.set_next this f).set_next this f).set_prev this z).set_prev this
      z).set_prev f this).prev this = z := by
    rw [Heap.prev_set_prev, if_neg d1, Heap.prev_set_prev, if_pos rfl,
      Heap.cell_isSome_set_prev, Heap.cell_isSome_set_next, Heap.cell_isSome_set_next,
      if_pos lt]
  have e4 : ((((((h.set_next this f).set_next this f).set_prev this z).set_prev this
      z).set_prev f this).set_next z this).next this = f := by
    rw [Heap.next_set_next, if_neg d2, Heap.next_set_prev, e2]
  have e5 : (((((((h.set_next this f).set_next this f).set_prev this z).set_prev this
      z).set_prev f this).set_next z this).set_prev f this).prev this = z := by
    rw [Heap.prev_set_prev, if_neg d1, Heap.prev_set_next, e3]
  have hfin : cross h this this =
      (((((((h.set_next this f).set_next this f).set_prev this z).set_prev this
        z).set_prev f this).set_next z this).set_prev f this).set_next z this := by
    unfold cross
    simp only [a1, e1, e2, e3, e4, e5]
  rw [hfin]
  refine ⟨?_, ?_, ?_, ?_, ?_, rfl, ?_⟩
  · intro y
    simp only [Heap.next_set_prev, Heap.next_set_next,
      Heap.cell_isSome_set_prev, Heap.cell_isSome_set_next, lz, lt, if_true]
    split_ifs <;> rfl
  · intro y
    simp only [Heap.prev_set_prev, Heap.prev_set_next,
      Heap.cell_isSome_set_prev, Heap.cell_isSome_set_next, lf, lt, if_true]
    split_ifs <;> rfl
  · intro y
    simp only [Heap.is_obj_set_prev, Heap.is_obj_set_next]
  · intro y
    simp only [Heap.is_node_set_prev, Heap.is_node_set_next]
  · intro y
    simp only [Heap.size_set_prev, Heap.size_set_next]
  · intro y h1 h2 h3
    simp only [Heap.cell_set_prev, Heap.cell_set_next, h1, h2, h3, if_false]

theorem swap_self_chain (h : Heap T) (this : Nat) (c : List Nat) (ht : Chain h this c)
    (hst : h.size_ this = c.length) :
    Chain (swap h this this) this c ∧ (swap h this this).size_ this = c.length ∧
    (swap h this this).brk = h.brk ∧
    (∀ y, y ∉ this :: c → (swap h this this).cell y = h.cell y) ∧
    (∀ y, (swap h this this).is_obj y = h.is_obj y) := by
  have het : empty h this = true ↔ c = [] := empty_iff hst
  by_cases b : c = []
  · have e : swap h this this = h := by
      rw [swap_eq, het.mpr b]
      rfl
    rw [e]
    exact ⟨ht, hst, rfl, fun _ _ => rfl, fun _ => rfl⟩
  · have x1 : empty h this = false := by
      cases hx : empty h this with
      | false => rfl
      | true => exact absurd (het.mp hx) b
    have e : swap h this this =
        ((cross h this this).set_size this ((cross h this this).size_ this)).set_size this
          ((cross h this this).size_ this) := by
      rw [swap_eq, x1]
      rfl
    obtain ⟨k1, k2, k3, k4, k5⟩ := (links_cycle_iff h this c b).mp ht.2.2.2
    have fm : c.head b ∈ c := List.head_mem b
    have zm : c.getLast b ∈ c := List.getLast_mem b
    have t1 : ∀ y ∈ c, y ≠ this := fun y hy e => ht.not_mem (e ▸ hy)
    obtain ⟨r1, r2, r3, r4, r5, r6, r7⟩ := cross_self_fields h this (c.head b) (c.getLast b)
      k1 k5 (fun e => t1 _ fm e.symm) (fun e => t1 _ zm e.symm)
      (Heap.cell_isSome_of_is_obj ht.1) (Heap.cell_isSome_of_is_node (ht.2.1 _ fm))
      (Heap.cell_isSome_of_is_node (ht.2.1 _ zm))
    have hn : ∀ y, (cross h this this).next y = h.next y := by
      intro y
      rw [r1]
      split_ifs with c1 c2
      · rw [c1, k4]
      · rw [c2, k1]
      · rfl
    have hp : ∀ y, (cross h this this).prev y = h.prev y := by
      intro y
      rw [r2]
      split_ifs with c1 c2
      · rw [c1, k2]
      · rw [c2, k5]
      · rfl
    have hc : Chain (cross h this this) this c := by
      refine ⟨by rw [r3]; exact ht.1, fun y hy => by rw [r4]; exact ht.2.1 y hy, ht.2.2.1, ?_⟩
      exact links_congr _ (fun a _ => hn a) (fun a _ => hp a) ht.2.2.2
    rw [e]
    refine ⟨(hc.set_size _ _).set_size _ _, ?_, r6, ?_, ?_⟩
    · rw [Heap.size_set_size, if_pos ⟨rfl, by rw [Heap.is_obj_set_size]; exact hc.1⟩, r5, hst]
    · intro y hy
      simp only [List.mem_cons, not_or] at hy
      rw [Heap.cell_set_size, if_neg hy.1, Heap.cell_set_size, if_neg hy.1]
      exact r7 y hy.1 (fun e => hy.2 (e ▸ fm)) (fun e => hy.2 (e ▸ zm))
    · intro y
      rw [Heap.is_obj_set_size, Heap.is_obj_set_size, r3]

theorem swap_inv (h : Heap T) (this other : Nat) (hi : Inv h) (ht : h.is_obj this = true)
    (ho : h.is_obj other = true) :
    Inv (swap h this other) ∧ ∀ y, (swap h this other).is_obj y = h.is_obj y := by
  obtain ⟨c1, hc1, hs1⟩ := hi.2 this ht
  obtain ⟨c2, hc2, hs2⟩ := hi.2 other ho
  by_cases hto : this = other
  · subst hto
    obtain ⟨r1, r2, r3, r4, r5⟩ := swap_self_chain h this c1 hc1 hs1
    refine ⟨?_, r5⟩
    exact inv_frame2 this this c1 c1 hi hc1 hc1 (fun y m _ => r4 y m) r3 r5 ⟨c1, r1, r2⟩
      ⟨c1, r1, r2⟩
  · obtain ⟨r1, r2, r3, r4, r5, r6, r7⟩ := swap_chain h this other c1 c2 hto hc1 hs1 hc2 hs2
    exact ⟨inv_frame2 this other c1 c2 hi hc1 hc2 r6 r5 r7 ⟨c2, r1, r2⟩ ⟨c1, r3, r4⟩, r7⟩

theorem ctor_inv (h : Heap T) (hi : Inv h) :
    Inv (ctor h).1 ∧ (ctor h).2 = h.brk ∧ Chain (ctor h).1 h.brk [] ∧
    (ctor h).1.size_ h.brk = 0 ∧ (∀ y, y ≠ h.brk → (ctor h).1.cell y = h.cell y) ∧
    (ctor h).1.brk = h.brk + 1 := by
  have hfresh : h.cell h.brk = none := hi.1 h.brk (Nat.le_refl _)
  have hcell : ∀ y, y ≠ h.brk → (ctor h).1.cell y = h.cell y := by
    intro y hy
    unfold ctor
    rw [Heap.cell_alloc, if_neg hy]
  have hnew : (ctor h).1.cell h.brk = some (.obj h.brk h.brk 0) := by
    unfold ctor
    rw [Heap.cell_alloc, if_pos rfl]
  have hchain : Chain (ctor h).1 h.brk [] := by
    refine ⟨by unfold Heap.is_obj; rw [hnew], by simp, List.nodup_nil, ?_⟩
    rw [links_cycle_nil]
    unfold Heap.next Heap.prev
    rw [hnew]
    exact ⟨rfl, rfl⟩
  have hsize : (ctor h).1.size_ h.brk = 0 := by
    unfold Heap.size_
    rw [hnew]
  refine ⟨?_, rfl, hchain, hsize, hcell, rfl⟩
  apply inv_frame (fun y => y = h.brk) hi hcell
  · intro a ha
    have ha2 : h.brk + 1 ≤ a := ha
    rw [hcell a (by omega)]
    exact hi.1 a (by omega)
  · intro s hs
    by_cases e : s = h.brk
    · left
      rw [e]
      exact ⟨[], hchain, hsize⟩
    · right
      rw [Heap.is_obj_of_cell_eq (hcell s e)] at hs
      refine ⟨hs, ?_⟩
      intro c hc y hy ey
      have hl := hc.cell_live y hy
      rw [ey, hfresh] at hl
      cases hl

theorem ctor_is_obj (h : Heap T) (hi : Inv h) (y : Nat) :
    (ctor h).1.is_obj y = (decide (y = h.brk) || h.is_obj y) := by
  obtain ⟨_, _, r3, _, r5, _⟩ := ctor_inv h hi
  by_cases e : y = h.brk
  · rw [e, r3.1]
    simp
  · rw [Heap.is_obj_of_cell_eq (r5 y e)]
    simp [e]

theorem dtor_inv (h : Heap T) (this : Nat) (hi : Inv h) (ho : h.is_obj this = true) :
    ∃ h1, dtor h this = some h1 ∧ Inv h1 ∧
      ∀ y, h1.is_obj y = (decide (y ≠ this) && h.is_obj y) := by
  obtain ⟨h1, e1, k1, k2, k3, k4, k5⟩ := clear_inv h this hi ho
  have hcell : ∀ y, y ≠ this → (h1.free this).cell y = h1.cell y := by
    intro y hy
    rw [Heap.cell_free, if_neg hy]
  have hobj : ∀ y, (h1.free this).is_obj y = (decide (y ≠ this) && h.is_obj y) := by
    intro y
    by_cases e : y = this
    · rw [e]
      unfold Heap.is_obj
      rw [Heap.cell_free, if_pos rfl]
      simp
    · rw [Heap.is_obj_of_cell_eq (hcell y e), k2]
      simp [e]
  refine ⟨h1.free this, by simp only [dtor, e1], ?_, hobj⟩
  apply inv_frame (fun y => y = this) k1 hcell
  · intro a ha
    by_cases e : a = this
    · rw [e, Heap.cell_free, if_pos rfl]
    · rw [hcell a e]
      exact k1.1 a ha
  · intro s hs
    right
    rw [hobj] at hs
    simp only [ne_eq, Bool.and_eq_true, decide_eq_true_eq] at hs
    refine ⟨by rw [k2]; exact hs.2, ?_⟩
    intro c hc y hy ey
    have hsep := chain_sep hc k3 hs.1 y hy
    exact hsep (by simp [ey])

theorem move_ctor_inv (h : Heap T) (other : Nat) (hi : Inv h) (ho : h.is_obj other = true) :
    Inv (move_ctor h other).1 := by
  obtain ⟨r1, r2, r3, r4, r5, r6⟩ := ctor_inv h hi
  have hne : h.brk ≠ other := by
    intro e
    have := lt_brk_of_live hi.1 (Heap.cell_isSome_of_is_obj ho)
    omega
  have ho1 : (ctor h).1.is_obj other = true := by
    rw [Heap.is_obj_of_cell_eq (r5 other (fun e => hne e.symm))]
    exact ho
  unfold move_ctor
  rw [r2]
  exact (take_nodes_inv (ctor h).1 h.brk other r1 hne r3 r4 ho1).1

theorem move_assign_inv (h : Heap T) (this other : Nat) (hi : Inv h)
    (ht : h.is_obj this = true) (ho : h.is_obj other = true) :
    ∃ h1, move_assign h this other = some h1 ∧ Inv h1 := by
  unfold move_assign
  by_cases hto : this = other
  · refine ⟨h, ?_, hi⟩
    simp [hto]
  · obtain ⟨h1, e1, k1, k2, k3, k4, _⟩ := clear_inv h this hi ht
    refine ⟨take_nodes h1 this other, ?_, ?_⟩
    · rw [if_pos (by simpa using hto), e1]
    · exact (take_nodes_inv h1 this other k1 hto k3 k4 (by rw [k2]; exact ho)).1

theorem insert_other (h : Heap T) (this pos : Nat) (x : T) (hi : Inv h)
    (ho : h.is_obj this = true) (hp : is_iter h this pos) (s : Nat) (c2 : List Nat)
    (hs : s ≠ this) (hc2 : Chain h s c2) :
    ∀ y ∈ s :: c2, (insert h this pos x).1.cell y = h.cell y := by
  obtain ⟨c, hc, hsz⟩ := hi.2 this ho
  have hnodes := hc.nodes_eq hi.1
  unfold is_iter at hp
  rw [hnodes] at hp
  obtain ⟨pre, post, e, hpos⟩ := split_at_iter this hp
  subst e
  have hfresh : h.cell h.brk = none := hi.1 h.brk (Nat.le_refl _)
  obtain ⟨r1, r2, r3, r4, r5, r6, r7⟩ := insert_chain h this pos x pre post hfresh hc hpos
  have hpm : pos ∈ this :: (pre ++ post) := by
    rcases hp with e | e
    · simp [e]
    · exact List.mem_cons_of_mem _ e
  intro y hy
  have hsep := chain_sep hc2 hc hs y hy
  apply r5 y
  · intro e
    have hl := hc2.cell_live y hy
    rw [e, hfresh] at hl
    cases hl
  · exact fun e => hsep (by simp [e])
  · exact fun e => hsep (e ▸ hpm)
  · exact fun e => hsep (e ▸ r7)

theorem copy_loop_inv : ∀ (l : List Nat) (fuel : Nat) (h : Heap T) (this it other : Nat)
    (u : List Nat), Inv h → h.is_obj this = true → this ≠ other → Chain h other (u ++ l) →
    (l ++ [other]).head? = some it → l.length ≤ fuel →
    ∃ h1, copy_loop fuel h this it other = some h1 ∧ Inv h1 ∧
      ∀ y, h1.is_obj y = h.is_obj y
  | [], fuel, h, this, it, other, u, hi, _, _, _, hit, _ => by
    have e : it = other := by simpa using hit.symm
    subst e
    refine ⟨h, ?_, hi, fun _ => rfl⟩
    cases fuel <;> simp [copy_loop]
  | b :: l, fuel, h, this, it, other, u, hi, ht, hto, hc, hit, hfuel => by
    have e : b = it := by simpa using hit
    subst e
    have hbm : b ∈ u ++ b :: l := by simp
    have hbo : b ≠ other := fun e => hc.not_mem (e ▸ hbm)
    cases fuel with
    | zero => simp at hfuel
    | succ f =>
      have hnode := hc.2.1 b hbm
      obtain ⟨x, hx⟩ : ∃ x, h.data b = some x := by
        unfold Heap.is_node at hnode
        unfold Heap.data
        cases hcell : h.cell b with
        | none => rw [hcell] at hnode; cases hnode
        | some cl =>
          cases cl with
          | node p n d => exact ⟨d, rfl⟩
          | obj p n k => rw [hcell] at hnode; cases hnode
      have hi1 := push_back_keeps h this x hi ht
      have hobj := insert_is_obj h this this x hi ht (Or.inl rfl)
      have hfr := insert_other h this this x hi ht (Or.inl rfl) other (u ++ b :: l)
        (fun e => hto e.symm) hc
      have hc1 : Chain (push_back h this x) other (u ++ b :: l) := hc.of_cell_eq hfr
      have hnext : (push_back h this x).next b = h.next b :=
        Heap.next_of_cell_eq (hfr b (by simp))
      have hl : links h (b :: (l ++ [other])) := by
        have hl0 := hc.2.2.2
        have e : other :: (u ++ b :: l) ++ [other] = (other :: u) ++ (b :: (l ++ [other])) := by
          simp
        rw [e] at hl0
        exact links_suffix _ _ hl0
      have hhead : (l ++ [other]).head? = some ((push_back h this x).next b) := by
        rw [hnext]
        cases l with
        | nil => simpa using hl.1.symm
        | cons d l => simpa using hl.1.symm
      obtain ⟨h1, e1, k1, k2⟩ := copy_loop_inv l f (push_back h this x) this
        ((push_back h this x).next b) other (u ++ [b]) hi1
        (by unfold push_back end_; rw [hobj]; exact ht) hto (by simpa using hc1) hhead
        (by simpa using hfuel)
      refine ⟨h1, ?_, k1, fun y => by rw [k2]; exact hobj y⟩
      unfold copy_loop
      rw [if_pos (by simpa using hbo), hx]
      exact e1

theorem copy_ctor_inv (h : Heap T) (other : Nat) (hi : Inv h) (ho : h.is_obj other = true) :
    ∃ r, copy_ctor h other = some r ∧ Inv r.1 ∧ r.2 = h.brk ∧
      ∀ y, r.1.is_obj y = (decide (y = h.brk) || h.is_obj y) := by
  obtain ⟨c, hc, hsz⟩ := hi.2 other ho
  obtain ⟨r1, r2, r3, r4, r5, r6⟩ := ctor_inv h hi
  have hne : h.brk ≠ other := by
    intro e
    have := lt_brk_of_live hi.1 (Heap.cell_isSome_of_is_obj ho)
    omega
  have hfresh : h.cell h.brk = none := hi.1 h.brk (Nat.le_refl _)
  have hc1 : Chain (ctor h).1 other c := by
    apply hc.of_cell_eq
    intro y hy
    apply r5
    intro e
    have hl := hc.cell_live y hy
    rw [e, hfresh] at hl
    cases hl
  have hlen := hc.length_le hi.1
  obtain ⟨h1, e1, k1, k2⟩ := copy_loop_inv c (h.brk + 1) (ctor h).1 h.brk
    (begin_ (ctor h).1 other) other [] r1 r3.1 hne (by simpa using hc1) hc1.next_this
    (by omega)
  refine ⟨(h1, h.brk), ?_, k1, rfl, fun y => by rw [k2, ctor_is_obj h hi]⟩
  unfold copy_ctor end_
  rw [r2, e1]

theorem copy_assign_keeps (h : Heap T) (this other : Nat) (hi : Inv h)
    (ht : h.is_obj this = true) (ho : h.is_obj other = true) :
    ∃ h1, copy_assign h this other = some h1 ∧ Inv h1 := by
  unfold copy_assign
  by_cases hto : this = other
  · exact ⟨h, by simp [hto], hi⟩
  · obtain ⟨r, e1, k1, k2, k3⟩ := copy_ctor_inv h other hi ho
    have ht1 : r.1.is_obj this = true := by
      rw [k3, ht]
      simp
    have hm1 : r.1.is_obj r.2 = true := by
      rw [k3, k2]
      simp
    obtain ⟨s1, s2⟩ := swap_inv r.1 this r.2 k1 ht1 hm1
    obtain ⟨h2, e2, k4, _⟩ := dtor_inv (swap r.1 this r.2) r.2 s1 (by rw [s2]; exact hm1)
    refine ⟨h2, ?_, k4⟩
    rw [if_pos (by simpa using hto), e1]
    exact e2

theorem empty_heap_inv : Inv (Heap.empty : Heap T) := by
  refine ⟨fun _ _ => rfl, ?_⟩
  intro s hs
  cases hs

theorem list_reach_inv (E : Elem T) (h : Heap T) (hr : Reach E h) : Inv h := by
  induction hr with
  | empty => exact empty_heap_inv
  | ctor h _ ih => exact (ctor_inv h ih).1
  | ctor_fill h n value _ ih =>
    obtain ⟨r1, r2, r3, _⟩ := ctor_inv h ih
    unfold ctor_fill
    rw [r2]
    exact (fill_loop_inv n (ctor h).1 h.brk value r1 r3.1).1
  | ctor_default h n _ ih =>
    obtain ⟨r1, r2, r3, _⟩ := ctor_inv h ih
    unfold ctor_default
    rw [r2]
    exact (fill_loop_inv n (ctor h).1 h.brk E.dflt r1 r3.1).1
  | copy_ctor h other r _ ho e ih =>
    obtain ⟨r1, e1, k1, _⟩ := copy_ctor_inv h other ih ho
    rw [e1] at e
    cases e
    exact k1
  | move_ctor h other _ ho ih => exact move_ctor_inv h other ih ho
  | dtor h this h1 _ ho e ih =>
    obtain ⟨h2, e2, k, _⟩ := dtor_inv h this ih ho
    rw [e2] at e
    cases e
    exact k
  | copy_assign h this other h1 _ ht ho e ih =>
    obtain ⟨h2, e2, k⟩ := copy_assign_keeps h this other ih ht ho
    rw [e2] at e
    cases e
    exact k
  | move_assign h this other h1 _ ht ho e ih =>
    obtain ⟨h2, e2, k⟩ := move_assign_inv h this other ih ht ho
    rw [e2] at e
    cases e
    exact k
  | push_back h this value _ ho ih => exact push_back_keeps h this value ih ho
  | push_front h this value _ ho ih => exact push_front_inv h this value ih ho
  | emplace_back h this value _ ho ih => exact push_back_keeps h this value ih ho
  | emplace_front h this value _ ho ih => exact push_front_inv h this value ih ho
  | pop_back h this _ ho hne ih => exact pop_back_inv h this ih ho hne
  | pop_front h this _ ho hne ih => exact pop_front_inv h this ih ho hne
  | insert h this pos value _ ho hp ih => exact insert_keeps h this pos value ih ho hp
  | emplace h this pos value _ ho hp ih => exact insert_keeps h this pos value ih ho hp
  | erase h this pos _ ho hp ih => exact erase_keeps h this pos ih ho hp
  | erase_range h this first last r _ ho hrg e ih =>
    obtain ⟨r1, e1, k⟩ := erase_range_keeps h this first last ih ho hrg
    rw [e1] at e
    cases e
    exact k
  | clear h this h1 _ ho e ih =>
    obtain ⟨h2, e2, k, _⟩ := clear_inv h this ih ho
    rw [e2] at e
    cases e
    exact k
  | swap h this other _ ht ho ih => exact (swap_inv h this other ih ht ho).1

end list

theorem links_round {h : Heap T} : ∀ (l : List Nat), links h l →
    (∀ n ∈ l.dropLast, h.prev (h.next n) = n ∧ h.next n ∈ l.tail) ∧
    (∀ n ∈ l.tail, h.next (h.prev n) = n ∧ h.prev n ∈ l.dropLast)
  | [], _ => ⟨by simp, by simp⟩
  | [_], _ => ⟨by simp, by simp⟩
  | a :: b :: l, hl => by
    obtain ⟨e1, e2, e3⟩ := hl
    obtain ⟨i1, i2⟩ := links_round (b :: l) e3
    rw [List.dropLast_cons₂]
    constructor
    · intro n hn
      rcases List.mem_cons.mp hn with k | k
      · subst k
        rw [e1]
        exact ⟨e2, by simp⟩
      · obtain ⟨j1, j2⟩ := i1 n k
        exact ⟨j1, List.mem_cons_of_mem _ j2⟩
    · intro n hn
      have hn2 : n ∈ b :: l := hn
      rcases List.mem_cons.mp hn2 with k | k
      · subst k
        rw [e2]
        exact ⟨e1, by simp⟩
      · obtain ⟨j1, j2⟩ := i2 n k
        exact ⟨j1, List.mem_cons_of_mem _ j2⟩

namespace list

/-! ### Values of the nodes, and iteration in both directions -/

theorem data_write_map (h : Heap T) (p a : Nat) (f : Cell T → Cell T)
    (hf : ∀ c : Cell T, (match f c with | .node _ _ d => some d | _ => none) =
      (match c with | .node _ _ d => some d | _ => none)) :
    (h.write p ((h.cell p).map f)).data a = h.data a := by
  unfold Heap.data Heap.write
  by_cases e : a = p
  · subst e
    simp only [if_pos rfl]
    cases hc : h.cell a with
    | none => rfl
    | some c =>
      have k := hf c
      simp only [Option.map_some']
      cases hfc : f c <;> cases c <;> simp_all
  · simp only [if_neg e]

theorem data_set_next (h : Heap T) (p q a : Nat) : (h.set_next p q).data a = h.data a :=
  data_write_map h p a _ (fun c => by cases c <;> rfl)

theorem data_set_prev (h : Heap T) (p q a : Nat) : (h.set_prev p q).data a = h.data a :=
  data_write_map h p a _ (fun c => by cases c <;> rfl)

theorem data_set_size (h : Heap T) (p k a : Nat) : (h.set_size p k).data a = h.data a :=
  data_write_map h p a _ (fun c => by cases c <;> rfl)

theorem insert_data (h : Heap T) (this pos : Nat) (x : T) (a : Nat) :
    (insert h this pos x).1.data a = if a = h.brk then some x else h.data a := by
  unfold insert link_before
  simp only [data_set_size, data_set_prev, data_set_next]
  unfold create_node Heap.alloc Heap.data
  by_cases e : a = h.brk
  · simp [e]
  · simp [e]

theorem data_of_is_obj {h : Heap T} {a : Nat} (ho : h.is_obj a = true) : h.data a = none := by
  unfold Heap.is_obj at ho
  unfold Heap.data
  cases hc : h.cell a with
  | none => rfl
  | some c =>
    cases c with
    | node p n d => rw [hc] at ho; cases ho
    | obj p n k => rfl

theorem walk_back_links {h : Heap T} (l : List Nat) : ∀ (e : Nat), links h (l ++ [e]) →
    (walk_back h l.length e).1 = l.reverse ∧
      (l ++ [e]).head? = some (walk_back h l.length e).2 := by
  induction l using List.reverseRecOn with
  | nil =>
    intro e _
    exact ⟨rfl, rfl⟩
  | append_singleton l b ih =>
    intro e hl
    have e1 : l ++ [b] ++ [e] = l ++ b :: e :: [] := by simp
    rw [e1] at hl
    obtain ⟨k1, _, k3, _⟩ := (links_append_iff h l b e []).mp hl
    obtain ⟨i1, i2⟩ := ih b k1
    have e2 : (l ++ [b]).length = l.length + 1 := by simp
    rw [e2]
    unfold walk_back
    rw [k3]
    refine ⟨by simp [i1], ?_⟩
    rw [← i2]
    cases l <;> rfl

theorem Chain.walk_back_eq {h : Heap T} {this : Nat} {c : List Nat} (hc : Chain h this c) :
    (walk_back h c.length (end_ this)).1 = c.reverse ∧
      (walk_back h c.length (end_ this)).2 = begin_ h this := by
  have hl : links h (c ++ [this]) := links_tail hc.2.2.2
  obtain ⟨k1, k2⟩ := walk_back_links c this hl
  refine ⟨k1, ?_⟩
  have k3 := hc.next_this
  rw [k2] at k3
  exact Option.some.inj k3

theorem Chain.front_eq {h : Heap T} {this : Nat} {c : List Nat} (hc : Chain h this c) :
    (c.map h.data).head? = (c.head?).map h.data ∧
    (c ≠ [] → some (front h this) = (c.map h.data).head?) := by
  refine ⟨by cases c <;> rfl, ?_⟩
  intro hne
  have k := hc.next_this
  cases c with
  | nil => exact absurd rfl hne
  | cons a l =>
    simp only [List.cons_append, List.head?_cons, Option.some.injEq] at k
    unfold list.front begin_
    rw [← k]
    rfl

theorem Chain.back_eq {h : Heap T} {this : Nat} {c : List Nat} (hc : Chain h this c)
    (hne : c ≠ []) : some (back h this) = (c.map h.data).getLast? := by
  have k := hc.prev_this
  have e1 : (this :: c).getLast? = c.getLast? := by
    cases c with
    | nil => exact absurd rfl hne
    | cons a l => rw [List.getLast?_cons_cons]
  rw [e1] at k
  unfold list.back end_
  rw [List.getLast?_map, k]
  rfl

theorem push_all_chain : ∀ (xs : List T) (h : Heap T) (this : Nat) (c : List Nat)
    (ys : List T), Inv h → Chain h this c → size h this = c.length →
    c.map h.data = ys.map some →
    ∃ c1, Inv (push_all h this xs) ∧ Chain (push_all h this xs) this c1 ∧
      size (push_all h this xs) this = c1.length ∧
      c1.map (push_all h this xs).data = (ys ++ xs).map some
  | [], h, this, c, ys, hi, hc, hs, hd => ⟨c, hi, hc, hs, by simpa using hd⟩
  | x :: xs, h, this, c, ys, hi, hc, hs, hd => by
    have hfresh : h.cell h.brk = none := hi.1 h.brk (Nat.le_refl _)
    obtain ⟨k1, _, k3, _⟩ := insert_chain h this this x c [] hfresh (by simpa using hc) rfl
    have hi1 : Inv (push_back h this x) := push_back_keeps h this x hi hc.1
    have hne : ∀ a ∈ c, a ≠ h.brk := by
      intro a ha e
      have hl := hc.cell_live a (List.mem_cons_of_mem _ ha)
      rw [e, hfresh] at hl
      cases hl
    have hd1 : (c ++ [h.brk]).map (push_back h this x).data = (ys ++ [x]).map some := by
      unfold push_back end_
      rw [List.map_append, List.map_append, ← hd]
      congr 1
      · apply List.map_congr_left
        intro a ha
        rw [insert_data, if_neg (hne a ha)]
      · simp [insert_data]
    have hs1 : size (push_back h this x) this = (c ++ [h.brk]).length := by
      unfold size push_back end_
      rw [k3, List.length_append]
      unfold size at hs
      rw [hs]
      rfl
    obtain ⟨c1, r1, r2, r3, r4⟩ := push_all_chain xs (push_back h this x) this (c ++ [h.brk])
      (ys ++ [x]) hi1 k1 hs1 hd1
    refine ⟨c1, r1, r2, r3, ?_⟩
    show List.map (push_all (push_back h this x) this xs).data c1 = _
    rw [r4]
    simp

/-! ### Values and cells under `erase`, `swap`, the move operations and `clear` -/

theorem data_free (h : Heap T) (p a : Nat) :
    (h.free p).data a = if a = p then none else h.data a := by
  unfold Heap.free Heap.write Heap.data
  by_cases e : a = p
  · simp [e]
  · simp [e]

theorem erase_data (h : Heap T) (this p a : Nat) :
    (erase h this p).1.data a = if a = p then none else h.data a := by
  rw [erase_eq]
  simp only [data_set_size, data_free, data_set_prev, data_set_next]

theorem cell_write_map_none (h : Heap T) (p a : Nat) (f : Cell T → Cell T)
    (e : h.cell a = none) : (h.write p ((h.cell p).map f)).cell a = none := by
  rw [Heap.cell_write]
  split_ifs with c
  · rw [← c, e]
    rfl
  · exact e

theorem erase_cell_none (h : Heap T) (this p a : Nat) (ha : a = p ∨ h.cell a = none) :
    (erase h this p).1.cell a = none := by
  rw [erase_eq]
  apply cell_write_map_none
  rw [Heap.cell_free]
  rcases ha with e | e
  · rw [if_pos e]
  · split_ifs
    · rfl
    · exact cell_write_map_none _ _ _ _ (cell_write_map_none _ _ _ _ e)

theorem erase_loop_frame : ∀ (fuel : Nat) (h : Heap T) (this first last : Nat) (h1 : Heap T),
    erase_loop fuel h this first last = some h1 →
    ∀ a, (h.cell a = none → h1.cell a = none) ∧ (h1.data a = h.data a ∨ h1.cell a = none) := by
  intro fuel
  induction fuel with
  | zero =>
    intro h this first last h1 e a
    unfold erase_loop at e
    split_ifs at e
    cases e
    exact ⟨id, Or.inl rfl⟩
  | succ fuel ih =>
    intro h this first last h1 e a
    unfold erase_loop at e
    split_ifs at e
    · obtain ⟨k1, k2⟩ := ih _ _ _ _ _ e a
      constructor
      · intro hn
        exact k1 (erase_cell_none h this first a (Or.inr hn))
      · rcases k2 with k | k
        · rw [erase_data] at k
          by_cases c : a = first
          · right
            exact k1 (erase_cell_none h this first a (Or.inl c))
          · left
            rw [k, if_neg c]
        · exact Or.inr k
    · cases e
      exact ⟨id, Or.inl rfl⟩

theorem swap_data (h : Heap T) (this other a : Nat) :
    (swap h this other).data a = h.data a := by
  unfold swap
  split_ifs <;> simp only [data_set_size, data_set_prev, data_set_next]

theorem take_nodes_data (h : Heap T) (this other a : Nat) :
    (take_nodes h this other).data a = h.data a := by
  unfold take_nodes
  split_ifs <;> simp only [data_set_size, data_set_prev, data_set_next]

theorem data_live {h : Heap T} {a : Nat} {x : T} (e : h.data a = some x) :
    (h.cell a).isSome = true := by
  unfold Heap.data at e
  cases hc : h.cell a with
  | none => rw [hc] at e; cases e
  | some c => rfl

theorem erase_loop_freed : ∀ (mid : List Nat) (fuel : Nat) (h : Heap T)
    (this first last : Nat) (pre post : List Nat) (h1 : Heap T),
    Inv h → h.is_obj this = true → Chain h this (pre ++ mid ++ post) →
    (mid ++ post ++ [this]).head? = some first → (post ++ [this]).head? = some last →
    erase_loop fuel h this first last = some h1 → ∀ y ∈ mid, h1.cell y = none
  | [], _, _, _, _, _, _, _, _, _, _, _, _, _, _ => fun _ hy => by cases hy
  | m :: mid, fuel, h, this, first, last, pre, post, h1, hi, ho, hc, hf, hl, e => by
    have e0 : m = first := by simpa using hf
    subst e0
    have hN := hc.nodup_cons
    have hne : m ≠ last := by
      intro e
      subst e
      have hm : m ∈ post ++ [this] := List.mem_of_mem_head? hl
      rw [List.nodup_cons, List.append_assoc, List.nodup_append, List.nodup_append] at hN
      rcases List.mem_append.mp hm with k | k
      · exact hN.2.2.1.2.2 (List.mem_cons_self _ _) k
      · simp at k
        exact hN.1 (by simp [k])
    have hb : bne m last = true := by simpa using hne
    cases fuel with
    | zero =>
      unfold erase_loop at e
      rw [if_pos hb] at e
      cases e
    | succ f =>
      unfold erase_loop at e
      rw [if_pos hb] at e
      have hc2 : Chain h this (pre ++ m :: (mid ++ post)) := by simpa using hc
      obtain ⟨r1, r2, _⟩ := erase_chain h this m pre (mid ++ post) hc2
      have hmem : m ∈ nodes h this := by
        rw [hc.nodes_eq hi.1]
        simp
      have hi1 := erase_keeps h this m hi ho hmem
      have ih := erase_loop_freed mid f (erase h this m).1 this (erase h this m).2 last pre
        post h1 hi1 r1.1 (by simpa using r1) (by simpa using r2) hl e
      intro y hy
      rcases List.mem_cons.mp hy with k | k
      · rw [k]
        exact (erase_loop_frame f _ _ _ _ _ e m).1 (erase_cell_none h this m m (Or.inl rfl))
      · exact ih y k

theorem Chain.ends {h : Heap T} {s : Nat} {c : List Nat} (hc : Chain h s c) :
    (∀ n, c.head? = some n → h.prev n = s) ∧ (∀ n, c.getLast? = some n → h.next n = s) := by
  by_cases hne : c = []
  · subst hne
    exact ⟨fun n e => (by cases e), fun n e => (by cases e)⟩
  · obtain ⟨_, k2, _, k4, _⟩ := (links_cycle_iff h s c hne).mp hc.2.2.2
    constructor
    · intro n e
      rw [List.head?_eq_head hne] at e
      cases e
      exact k2
    · intro n e
      rw [List.getLast?_eq_getLast _ hne] at e
      cases e
      exact k4

theorem Chain.sentinel_self {h : Heap T} {s : Nat} (hc : Chain h s []) :
    h.next s = s ∧ h.prev s = s :=
  (links_cycle_nil h s).mp hc.2.2.2

theorem clear_trace_spec : ∀ (l : List Nat) (fuel : Nat) (h : Heap T) (this cur : Nat),
    (l ++ [this]).head? = some cur → links h (l ++ [this]) → l.Nodup → this ∉ l →
    l.length ≤ fuel → clear_trace fuel h this cur = l
  | [], fuel, h, this, cur, hc, _, _, _, _ => by
    have e : cur = this := by simpa using hc.symm
    subst e
    cases fuel <;> simp [clear_trace]
  | b :: l, fuel, h, this, cur, hc, hl, hN, hn, hfuel => by
    have e : b = cur := by simpa using hc
    subst e
    have hbt : b ≠ this := fun e => hn (by simp [e])
    cases fuel with
    | zero => simp at hfuel
    | succ f =>
      have hcell : ∀ y, y ≠ b → (destroy_node h b).cell y = h.cell y := by
        intro y hy
        unfold destroy_node
        rw [Heap.cell_free, if_neg hy]
      have hb_not : b ∉ l ++ [this] := by
        rw [List.nodup_cons] at hN
        intro hm
        rcases List.mem_append.mp hm with k | k
        · exact hN.1 k
        · simp at k
          exact hbt k
      have hl2 : links (destroy_node h b) (l ++ [this]) :=
        links_of_cell_eq _ (fun y hy => hcell y (fun e => hb_not (e ▸ hy))) (links_tail hl)
      have hnext : (l ++ [this]).head? = some (h.next b) := by
        cases l with
        | nil => simpa using hl.1.symm
        | cons d l => simpa using hl.1.symm
      have ih := clear_trace_spec l f (destroy_node h b) this (h.next b)
        hnext hl2 (List.nodup_cons.mp hN).2 (fun e => hn (by simp [e])) (by simpa using hfuel)
      unfold clear_trace
      rw [if_pos (by simpa using hbt), ih]

theorem write_self (g : Heap T) (p : Nat) : g.write p (g.cell p) = g := by
  cases g with
  | mk cell brk =>
    unfold Heap.write
    congr 1
    funext a
    by_cases e : a = p
    · simp [e]
    · simp [e]

theorem cell_of_empty_obj {g : Heap T} {s : Nat} (ho : g.is_obj s = true)
    (hn : g.next s = s) (hp : g.prev s = s) (hs : g.size_ s = 0) :
    g.cell s = some (.obj s s 0) := by
  unfold Heap.is_obj at ho
  unfold Heap.next at hn
  unfold Heap.prev at hp
  unfold Heap.size_ at hs
  cases hc : g.cell s with
  | none => rw [hc] at ho; cases ho
  | some c =>
    rw [hc] at ho hn hp hs
    cases c with
    | node p n d => cases ho
    | obj p n k =>
      simp only [Cell.next, Cell.prev] at hn hp hs
      rw [hn, hp, hs]

theorem clear_of_empty {g : Heap T} {s : Nat} (ho : g.is_obj s = true)
    (hn : g.next s = s) (hp : g.prev s = s) (hs : g.size_ s = 0) : clear g s = some g := by
  have hcell := cell_of_empty_obj ho hn hp hs
  have e1 : g.set_next s s = g := by
    unfold Heap.set_next
    rw [hcell]
    show g.write s (some (.obj s s 0)) = g
    rw [← hcell]
    exact write_self g s
  have e2 : g.set_prev s s = g := by
    unfold Heap.set_prev
    rw [hcell]
    show g.write s (some (.obj s s 0)) = g
    rw [← hcell]
    exact write_self g s
  have e3 : g.set_size s 0 = g := by
    unfold Heap.set_size
    rw [hcell]
    show g.write s (some (.obj s s 0)) = g
    rw [← hcell]
    exact write_self g s
  unfold clear
  rw [hn]
  have hl : clear_loop (g.brk + 1) g s s = some g := by
    unfold clear_loop
    simp
  rw [hl]
  simp only
  rw [e1, e2, e3]

theorem empty_of_size_zero {g : Heap T} {s : Nat} (hs : g.size_ s = 0) : empty g s = true := by
  unfold empty
  rw [hs]
  rfl

theorem insert_links (h : Heap T) (this pos : Nat) (x : T) (hfresh : h.cell h.brk = none)
    (lp : (h.cell pos).isSome = true) (la : (h.cell (h.prev pos)).isSome = true) :
    (insert h this pos x).1.next h.brk = pos ∧
    (insert h this pos x).1.prev h.brk = h.prev pos ∧
    (insert h this pos x).1.next (h.prev pos) = h.brk ∧
    (insert h this pos x).1.prev pos = h.brk ∧
    (∀ y, y ≠ h.prev pos → y ≠ h.brk → (insert h this pos x).1.next y = h.next y) ∧
    (∀ y, y ≠ pos → y ≠ h.brk → (insert h this pos x).1.prev y = h.prev y) ∧
    (∀ y, y ≠ h.brk → (insert h this pos x).1.is_node y = h.is_node y) := by
  have hnb : h.brk ≠ pos := by
    intro e
    rw [← e, hfresh] at lp
    cases lp
  have hna : h.brk ≠ h.prev pos := by
    intro e
    rw [← e, hfresh] at la
    cases la
  have hcell1 : ∀ y, y ≠ h.brk → (create_node h x).1.cell y = h.cell y := by
    intro y hy
    unfold create_node
    rw [Heap.cell_alloc, if_neg hy]
  have hprev1 : (create_node h x).1.prev pos = h.prev pos :=
    Heap.prev_of_cell_eq (hcell1 pos (fun e => hnb e.symm))
  have ln : ((create_node h x).1.cell h.brk).isSome = true := by
    unfold create_node
    rw [Heap.cell_alloc, if_pos rfl]
    rfl
  have lb : ((create_node h x).1.cell pos).isSome = true := by
    rw [hcell1 pos (fun e => hnb e.symm)]
    exact lp
  have la1 : ((create_node h x).1.cell ((create_node h x).1.prev pos)).isSome = true := by
    rw [hprev1, hcell1 _ (fun e => hna e.symm)]
    exact la
  obtain ⟨s1, s2, s3, s4, s5, s6⟩ := link_before_spec (create_node h x).1 pos h.brk hnb
    (by rw [hprev1]; exact hna) ln lb la1
  rw [hprev1] at s2 s3 s5
  have hkind := link_before_kind (create_node h x).1 pos h.brk
  have hfin : (insert h this pos x).1 =
      (link_before (create_node h x).1 pos h.brk).set_size this
        ((link_before (create_node h x).1 pos h.brk).size_ this + 1) := rfl
  refine ⟨?_, ?_, ?_, ?_, ?_, ?_, ?_⟩
  · rw [hfin, Heap.next_set_size]
    exact s1
  · rw [hfin, Heap.prev_set_size]
    exact s2
  · rw [hfin, Heap.next_set_size]
    exact s3
  · rw [hfin, Heap.prev_set_size]
    exact s4
  · intro y h1 h2
    rw [hfin, Heap.next_set_size, s5 y h1 h2]
    exact Heap.next_of_cell_eq (hcell1 y h2)
  · intro y h1 h2
    rw [hfin, Heap.prev_set_size, s6 y h1 h2]
    exact Heap.prev_of_cell_eq (hcell1 y h2)
  · intro y h2
    rw [hfin, Heap.is_node_set_size, (hkind y).1]
    exact Heap.is_node_of_cell_eq (hcell1 y h2)

theorem links_next_eq {h h1 : Heap T} : ∀ (l : List Nat), links h l → links h1 l →
    (∀ y ∈ l.dropLast, h1.next y = h.next y) ∧ (∀ y ∈ l.tail, h1.prev y = h.prev y)
  | [], _, _ => ⟨by simp, by simp⟩
  | [_], _, _ => ⟨by simp, by simp⟩
  | a :: b :: l, hl, hl1 => by
    obtain ⟨e1, e2, e3⟩ := hl
    obtain ⟨f1, f2, f3⟩ := hl1
    obtain ⟨i1, i2⟩ := links_next_eq (b :: l) e3 f3
    rw [List.dropLast_cons₂]
    constructor
    · intro y hy
      rcases List.mem_cons.mp hy with k | k
      · rw [k, e1, f1]
      · exact i1 y k
    · intro y hy
      have hy2 : y ∈ b :: l := hy
      rcases List.mem_cons.mp hy2 with k | k
      · rw [k, e2, f2]
      · exact i2 y k

theorem cell_ext {h h1 : Heap T} {y : Nat}
    (hk : (h1.is_obj y = true ∧ h.is_obj y = true) ∨ (h1.is_node y = true ∧ h.is_node y = true))
    (hp : h1.prev y = h.prev y) (hn : h1.next y = h.next y) (hd : h1.data y = h.data y)
    (hs : h1.size_ y = h.size_ y) : h1.cell y = h.cell y := by
  unfold Heap.is_obj Heap.is_node at hk
  unfold Heap.prev at hp
  unfold Heap.next at hn
  unfold Heap.data at hd
  unfold Heap.size_ at hs
  cases c1 : h1.cell y with
  | none =>
    rw [c1] at hk
    simp at hk
  | some a =>
    cases c2 : h.cell y with
    | none =>
      rw [c2] at hk
      simp at hk
    | some b =>
      rw [c1, c2] at hk hp hn hd hs
      cases a <;> cases b <;> simp_all [Cell.prev, Cell.next]

end list

namespace list

/-- C2. In every memory reachable by constructors and public operations used
within their preconditions, every list object `this` is well formed: with
`nodes h this` the nodes met by walking `next` from the sentinel back to it,
the sentinel's `next` is the first node (or the sentinel when there is none),
its `prev` is the last node (or the sentinel), the nodes are pairwise
distinct live nodes, the cycle sentinel, nodes, sentinel is doubly linked, so
that every `n` of it satisfies `n.next.prev = n` and `n.prev.next = n` and
stays in the cycle, and `size()` is the number of nodes. -/
theorem list_invariant (E : Elem T) (h : Heap T) (this : Nat) (hr : Reach E h)
    (ho : h.is_obj this = true) :
    (nodes h this ++ [this]).head? = some (h.next this) ∧
    (this :: nodes h this).getLast? = some (h.prev this) ∧
    (∀ a ∈ nodes h this, h.is_node a = true) ∧ (this :: nodes h this).Nodup ∧
    links h (this :: nodes h this ++ [this]) ∧
    (∀ n ∈ this :: nodes h this,
      h.prev (h.next n) = n ∧ h.next (h.prev n) = n ∧
      h.next n ∈ this :: nodes h this ∧ h.prev n ∈ this :: nodes h this) ∧
    size h this = (nodes h this).length := by
  have hi := list_reach_inv E h hr
  obtain ⟨c, hc, hsz⟩ := hi.2 this ho
  rw [hc.nodes_eq hi.1]
  obtain ⟨r1, r2⟩ := links_round _ hc.2.2.2
  have ed : (this :: c ++ [this]).dropLast = this :: c := by
    have : this :: c ++ [this] = (this :: c) ++ [this] := rfl
    rw [this, List.dropLast_concat]
  have et : (this :: c ++ [this]).tail = c ++ [this] := rfl
  rw [ed, et] at r1 r2
  have hmem : ∀ n, n ∈ c ++ [this] ↔ n ∈ this :: c := by
    intro n
    simp only [List.mem_append, List.mem_singleton, List.mem_cons]
    tauto
  refine ⟨hc.next_this, hc.prev_this, hc.2.1, hc.nodup_cons, hc.2.2.2, ?_, hsz⟩
  intro n hn
  obtain ⟨a1, a2⟩ := r1 n hn
  obtain ⟨b1, b2⟩ := r2 n ((hmem n).mpr hn)
  exact ⟨a1, b1, (hmem _).mp a2, b2⟩

theorem list_invariant_witness :
    Reach (Elem.trivial 0) (push_back (ctor (Heap.empty : Heap Nat)).1 1 7) ∧
    (push_back (ctor (Heap.empty : Heap Nat)).1 1 7).is_obj 1 = true ∧
    size (push_back (ctor (Heap.empty : Heap Nat)).1 1 7) 1 =
      (nodes (push_back (ctor (Heap.empty : Heap Nat)).1 1 7) 1).length :=
  ⟨Reach.push_back _ 1 7 (Reach.ctor _ Reach.empty) rfl, rfl,
   (list_invariant (Elem.trivial 0) _ 1
      (Reach.push_back _ 1 7 (Reach.ctor _ Reach.empty) rfl) rfl).2.2.2.2.2.2⟩

/-- C19. In a well-formed memory, pushing the elements of `xs` in order with
`push_back` onto a default-constructed list yields `size() == |xs|`; the
forward iteration from `begin()` to `end()` yields `xs`, and it reaches
`end()` after `|xs|` elements whatever the bound on its steps, if at least
`|xs|`; the backward iteration of `|xs|` steps `--it` from `end()` yields the
reverse of `xs` and arrives at `begin()`; and for non-empty `xs`, `front()` is
the first and `back()` the last element of `xs`. -/
theorem push_back_sequence_list (h0 : Heap T) (hi : Inv h0) (xs : List T) :
    size (push_all (ctor h0).1 (ctor h0).2 xs) (ctor h0).2 = xs.length ∧
    to_list (push_all (ctor h0).1 (ctor h0).2 xs) (ctor h0).2 = xs.map some ∧
    (∀ fuel, xs.length ≤ fuel →
      (walk (push_all (ctor h0).1 (ctor h0).2 xs) (ctor h0).2 fuel
        (begin_ (push_all (ctor h0).1 (ctor h0).2 xs) (ctor h0).2)).map
        (push_all (ctor h0).1 (ctor h0).2 xs).data = xs.map some) ∧
    (walk_back (push_all (ctor h0).1 (ctor h0).2 xs) xs.length (end_ (ctor h0).2)).1.map
      (push_all (ctor h0).1 (ctor h0).2 xs).data = xs.reverse.map some ∧
    (walk_back (push_all (ctor h0).1 (ctor h0).2 xs) xs.length (end_ (ctor h0).2)).2 =
      begin_ (push_all (ctor h0).1 (ctor h0).2 xs) (ctor h0).2 ∧
    (xs ≠ [] → front (push_all (ctor h0).1 (ctor h0).2 xs) (ctor h0).2 = xs.head? ∧
      back (push_all (ctor h0).1 (ctor h0).2 xs) (ctor h0).2 = xs.getLast?) := by
  obtain ⟨a1, a2, a3, a4, _⟩ := ctor_inv h0 hi
  rw [a2]
  obtain ⟨c1, r1, r2, r3, r4⟩ := push_all_chain xs (ctor h0).1 h0.brk [] [] a1 a3
    (by simpa [size] using a4) rfl
  rw [List.nil_append] at r4
  have hlen : c1.length = xs.length := by
    have k := congrArg List.length r4
    simpa using k
  obtain ⟨w1, w2⟩ := r2.walk_back_eq
  rw [hlen] at w1 w2
  refine ⟨by rw [r3, hlen], ?_, ?_, ?_, w2, ?_⟩
  · unfold to_list
    rw [r2.nodes_eq r1.1, r4]
  · intro fuel hf
    unfold begin_
    rw [walk_eq c1 h0.brk fuel r2.2.2.2 r2.not_mem (by omega), r4]
  · rw [w1, List.map_reverse, r4, List.map_reverse]
  · intro hne
    have hc1 : c1 ≠ [] := by
      intro e
      rw [e] at hlen
      exact hne (List.length_eq_zero.mp hlen.symm)
    have f1 := (r2.front_eq).2 hc1
    have b1 := r2.back_eq hc1
    rw [r4] at f1 b1
    rw [List.getLast?_map] at b1
    cases xs with
    | nil => exact absurd rfl hne
    | cons x l =>
      constructor
      · simpa using f1
      · cases hg : (x :: l).getLast? with
        | none => simp at hg
        | some y =>
          rw [hg] at b1
          simpa using b1

theorem push_back_sequence_list_witness :
    Inv (Heap.empty : Heap Nat) ∧
    to_list (push_all (ctor (Heap.empty : Heap Nat)).1 (ctor (Heap.empty : Heap Nat)).2
      [1, 2, 3]) (ctor (Heap.empty : Heap Nat)).2 = [some 1, some 2, some 3] ∧
    (walk_back (push_all (ctor (Heap.empty : Heap Nat)).1 (ctor (Heap.empty : Heap Nat)).2
      [1, 2, 3]) 3 (end_ (ctor (Heap.empty : Heap Nat)).2)).1.map
      (push_all (ctor (Heap.empty : Heap Nat)).1 (ctor (Heap.empty : Heap Nat)).2
        [1, 2, 3]).data = [some 3, some 2, some 1] :=
  ⟨empty_heap_inv,
   (push_back_sequence_list (Heap.empty : Heap Nat) empty_heap_inv [1, 2, 3]).2.1,
   (push_back_sequence_list (Heap.empty : Heap Nat) empty_heap_inv [1, 2, 3]).2.2.2.1⟩

/-- C20. In a well-formed memory, for a list object whose nodes are
`pre ++ post`, with `pos` the first node of `post`, or `end()` when `post` is
empty: `insert(pos, x)`, and `emplace(pos, x)` alike, keeps the memory well
formed and leaves the list with the nodes `pre`, the new node, `post`, that
is with the elements of `pre`, then `x`, then the elements of `post`, and with
`size()` larger by exactly 1; it returns the iterator to the new node, whose
value is `x` and whose successor is `pos`. -/
theorem list_insert_spec (h : Heap T) (this pos : Nat) (x : T) (pre post : List Nat)
    (hi : Inv h) (ho : h.is_obj this = true) (hn : nodes h this = pre ++ post)
    (hpos : (post ++ [this]).head? = some pos) :
    Inv (insert h this pos x).1 ∧
    nodes (insert h this pos x).1 this = pre ++ (insert h this pos x).2 :: post ∧
    to_list h this = pre.map h.data ++ post.map h.data ∧
    to_list (insert h this pos x).1 this = pre.map h.data ++ some x :: post.map h.data ∧
    size (insert h this pos x).1 this = size h this + 1 ∧
    (insert h this pos x).1.data (insert h this pos x).2 = some x ∧
    (insert h this pos x).1.next (insert h this pos x).2 = pos ∧
    emplace h this pos x = insert h this pos x := by
  obtain ⟨c, hc, _⟩ := hi.2 this ho
  have hce : c = pre ++ post := (hc.nodes_eq hi.1).symm.trans hn
  subst hce
  have hfresh : h.cell h.brk = none := hi.1 h.brk (Nat.le_refl _)
  obtain ⟨k1, k2, k3, _⟩ := insert_chain h this pos x pre post hfresh hc hpos
  have hiter : is_iter h this pos := by
    cases post with
    | nil =>
      left
      simpa using hpos.symm
    | cons b l =>
      right
      rw [hn]
      have e : b = pos := by simpa using hpos
      rw [← e]
      simp
  have hi1 : Inv (insert h this pos x).1 := insert_keeps h this pos x hi ho hiter
  have hnodes : nodes (insert h this pos x).1 this = pre ++ h.brk :: post := k1.nodes_eq hi1.1
  have hne : ∀ a ∈ pre ++ post, a ≠ h.brk := by
    intro a ha e
    have hl := hc.cell_live a (List.mem_cons_of_mem _ ha)
    rw [e, hfresh] at hl
    cases hl
  have hold : ∀ l : List Nat, (∀ a ∈ l, a ∈ pre ++ post) →
      l.map (insert h this pos x).1.data = l.map h.data := by
    intro l hl
    apply List.map_congr_left
    intro a ha
    rw [insert_data, if_neg (hne a (hl a ha))]
  have hnew : (insert h this pos x).1.data h.brk = some x := by
    rw [insert_data, if_pos rfl]
  refine ⟨hi1, by rw [hnodes, k2], ?_, ?_, ?_, by rw [k2]; exact hnew, ?_, rfl⟩
  · unfold to_list
    rw [hn, List.map_append]
  · unfold to_list
    rw [hnodes, List.map_append, List.map_cons, hnew,
      hold pre (fun a ha => List.mem_append_left _ ha),
      hold post (fun a ha => List.mem_append_right _ ha)]
  · unfold size
    exact k3
  · rw [k2]
    have hl := k1.2.2.2
    cases post with
    | nil =>
      have e : pos = this := by simpa using hpos.symm
      have e1 : this :: (pre ++ [h.brk]) ++ [this] = (this :: pre) ++ h.brk :: this :: [] := by
        simp
      rw [e1] at hl
      subst e
      exact ((links_append_iff _ (pos :: pre) h.brk pos []).mp hl).2.1
    | cons b l =>
      have e : b = pos := by simpa using hpos
      have e1 : this :: (pre ++ h.brk :: b :: l) ++ [this] =
          (this :: pre) ++ h.brk :: b :: (l ++ [this]) := by simp
      rw [e1] at hl
      subst e
      exact ((links_append_iff _ (this :: pre) h.brk b (l ++ [this])).mp hl).2.1

theorem list_insert_spec_witness :
    Inv (push_all (ctor (Heap.empty : Heap Nat)).1 1 [1, 3]) ∧
    (push_all (ctor (Heap.empty : Heap Nat)).1 1 [1, 3]).is_obj 1 = true ∧
    nodes (push_all (ctor (Heap.empty : Heap Nat)).1 1 [1, 3]) 1 = [2] ++ [3] ∧
    to_list (insert (push_all (ctor (Heap.empty : Heap Nat)).1 1 [1, 3]) 1 3 2).1 1 =
      [some 1, some 2, some 3] ∧
    size (insert (push_all (ctor (Heap.empty : Heap Nat)).1 1 [1, 3]) 1 3 2).1 1 = 3 ∧
    (insert (push_all (ctor (Heap.empty : Heap Nat)).1 1 [1, 3]) 1 3 2).1.next
      (insert (push_all (ctor (Heap.empty : Heap Nat)).1 1 [1, 3]) 1 3 2).2 = 3 := by
  obtain ⟨a1, _, a3, a4, _⟩ := ctor_inv (Heap.empty : Heap Nat) empty_heap_inv
  obtain ⟨_, r1, _⟩ := push_all_chain [1, 3] (ctor (Heap.empty : Heap Nat)).1 1 [] [] a1 a3
    (by simpa [size] using a4) rfl
  have k := list_insert_spec (push_all (ctor (Heap.empty : Heap Nat)).1 1 [1, 3]) 1 3 2
    [2] [3] r1 rfl rfl rfl
  exact ⟨r1, rfl, rfl, k.2.2.2.1, k.2.2.2.2.1, k.2.2.2.2.2.2.1⟩

/-- C21. In a well-formed memory, for a list object whose nodes are `pre`, then
`pos`, then `post`: `erase(pos)` keeps the memory well formed, frees the
node `pos` and leaves the list with the nodes `pre ++ post` holding the
values they held, so that the element sequence loses exactly the value at
`pos`; `size()` is smaller by exactly 1; the returned iterator is the node that
followed `pos`, that is the first node of `post`, or `end()` when `post` is
empty, and it still refers to the same value. -/
theorem list_erase_spec (h : Heap T) (this pos : Nat) (pre post : List Nat)
    (hi : Inv h) (ho : h.is_obj this = true) (hn : nodes h this = pre ++ pos :: post) :
    Inv (erase h this pos).1 ∧
    nodes (erase h this pos).1 this = pre ++ post ∧
    to_list h this = pre.map h.data ++ h.data pos :: post.map h.data ∧
    to_list (erase h this pos).1 this = pre.map h.data ++ post.map h.data ∧
    size h this = size (erase h this pos).1 this + 1 ∧
    (erase h this pos).2 = h.next pos ∧
    (post ++ [this]).head? = some (erase h this pos).2 ∧
    (erase h this pos).1.data (erase h this pos).2 = h.data (erase h this pos).2 ∧
    (erase h this pos).1.cell pos = none := by
  obtain ⟨c, hc, hsz⟩ := hi.2 this ho
  have hce : c = pre ++ pos :: post := (hc.nodes_eq hi.1).symm.trans hn
  subst hce
  obtain ⟨r1, r2, r3, _, _, _, r7, _⟩ := erase_chain h this pos pre post hc
  have hmem : pos ∈ nodes h this := by
    rw [hn]
    simp
  have hi1 : Inv (erase h this pos).1 := erase_keeps h this pos hi ho hmem
  have hN := hc.nodup_cons
  have hne : ∀ a ∈ this :: (pre ++ post), a ≠ pos := by
    intro a ha e
    subst e
    rw [List.nodup_cons, List.nodup_append] at hN
    simp only [List.mem_cons, List.mem_append] at ha
    rcases ha with k | k | k
    · exact hN.1 (by simp [k])
    · exact hN.2.2.2 k (List.mem_cons_self _ _)
    · exact (List.nodup_cons.mp hN.2.2.1).1 k
  have hold : ∀ l : List Nat, (∀ a ∈ l, a ∈ pre ++ post) →
      l.map (erase h this pos).1.data = l.map h.data := by
    intro l hl
    apply List.map_congr_left
    intro a ha
    rw [erase_data, if_neg (hne a (List.mem_cons_of_mem _ (hl a ha)))]
  have hret : (erase h this pos).2 ∈ this :: (pre ++ post) := by
    have k := List.mem_of_mem_head? r2
    simp only [List.mem_cons, List.mem_append, List.mem_singleton, List.not_mem_nil,
      or_false] at k ⊢
    tauto
  refine ⟨hi1, r1.nodes_eq hi1.1, ?_, ?_, ?_, rfl, r2, ?_, r7⟩
  · unfold to_list
    rw [hn, List.map_append, List.map_cons]
  · unfold to_list
    rw [r1.nodes_eq hi1.1, List.map_append,
      hold pre (fun a ha => List.mem_append_left _ ha),
      hold post (fun a ha => List.mem_append_right _ ha)]
  · unfold size at hsz ⊢
    rw [r3, hsz]
    simp only [List.length_append, List.length_cons]
    omega
  · rw [erase_data, if_neg (hne _ hret)]

theorem list_erase_spec_witness :
    Inv (push_all (ctor (Heap.empty : Heap Nat)).1 1 [1, 2, 3]) ∧
    (push_all (ctor (Heap.empty : Heap Nat)).1 1 [1, 2, 3]).is_obj 1 = true ∧
    nodes (push_all (ctor (Heap.empty : Heap Nat)).1 1 [1, 2, 3]) 1 = [2] ++ 3 :: [4] ∧
    to_list (erase (push_all (ctor (Heap.empty : Heap Nat)).1 1 [1, 2, 3]) 1 3).1 1 =
      [some 1, some 3] ∧
    (erase (push_all (ctor (Heap.empty : Heap Nat)).1 1 [1, 2, 3]) 1 3).1.data
      (erase (push_all (ctor (Heap.empty : Heap Nat)).1 1 [1, 2, 3]) 1 3).2 = some 3 := by
  obtain ⟨a1, _, a3, a4, _⟩ := ctor_inv (Heap.empty : Heap Nat) empty_heap_inv
  obtain ⟨_, r1, _⟩ := push_all_chain [1, 2, 3] (ctor (Heap.empty : Heap Nat)).1 1 [] [] a1 a3
    (by simpa [size] using a4) rfl
  have k := list_erase_spec (push_all (ctor (Heap.empty : Heap Nat)).1 1 [1, 2, 3]) 1 3
    [2] [4] r1 rfl rfl
  exact ⟨r1, rfl, rfl, k.2.2.2.1, k.2.2.2.2.2.2.2.1⟩

/-- C22. In a well-formed memory, for a list object whose nodes are
`pre ++ mid ++ post`, with `first` the first node of `mid ++ post` and `last`
the first node of `post`, each being `end()` when there is no such node:
`erase(first, last)` ends, keeps the memory well formed, frees exactly the
nodes of `mid` among the nodes of the list and leaves the list with the nodes
`pre ++ post` holding the values they held; `size()` is smaller by `|mid|`; the
returned iterator is `last`. -/
theorem list_erase_range_spec (h : Heap T) (this first last : Nat) (pre mid post : List Nat)
    (hi : Inv h) (ho : h.is_obj this = true) (hn : nodes h this = pre ++ mid ++ post)
    (hf : (mid ++ post ++ [this]).head? = some first)
    (hl : (post ++ [this]).head? = some last) :
    ∃ h1, erase_range h this first last = some (h1, last) ∧ Inv h1 ∧
      nodes h1 this = pre ++ post ∧
      to_list h this = pre.map h.data ++ mid.map h.data ++ post.map h.data ∧
      to_list h1 this = pre.map h.data ++ post.map h.data ∧
      size h this = size h1 this + mid.length ∧
      (∀ y ∈ mid, h1.cell y = none) ∧
      (∀ y ∈ pre ++ post, (h1.cell y).isSome = true) := by
  obtain ⟨c, hc, hsz⟩ := hi.2 this ho
  have hce : c = pre ++ mid ++ post := (hc.nodes_eq hi.1).symm.trans hn
  subst hce
  have hlen := hc.length_le hi.1
  obtain ⟨h1, e1, k1, k2⟩ := erase_loop_inv mid (h.brk + 1) h this first last pre post hi ho hc
    hf hl (by simp at hlen; omega)
  have hfree := erase_loop_freed mid (h.brk + 1) h this first last pre post h1 hi ho hc hf hl e1
  have hframe := erase_loop_frame (h.brk + 1) h this first last h1 e1
  have hlive : ∀ y ∈ pre ++ post, (h1.cell y).isSome = true :=
    fun y hy => k2.cell_live y (List.mem_cons_of_mem _ hy)
  have hold : ∀ l : List Nat, (∀ a ∈ l, a ∈ pre ++ post) → l.map h1.data = l.map h.data := by
    intro l hl2
    apply List.map_congr_left
    intro a ha
    rcases (hframe a).2 with k | k
    · exact k
    · have hla := hlive a (hl2 a ha)
      rw [k] at hla
      cases hla
  obtain ⟨c1, hc1, hs1⟩ := k1.2 this k2.1
  have hc1e : c1 = pre ++ post := hc1.unique k2
  subst hc1e
  refine ⟨h1, by simp only [erase_range, e1], k1, k2.nodes_eq k1.1, ?_, ?_, ?_, hfree, hlive⟩
  · unfold to_list
    rw [hn, List.map_append, List.map_append]
  · unfold to_list
    rw [k2.nodes_eq k1.1, List.map_append,
      hold pre (fun a ha => List.mem_append_left _ ha),
      hold post (fun a ha => List.mem_append_right _ ha)]
  · rw [hs1, hsz]
    simp only [List.length_append]
    omega

theorem list_erase_range_spec_witness :
    Inv (push_all (ctor (Heap.empty : Heap Nat)).1 1 [0, 1, 2, 3, 4]) ∧
    nodes (push_all (ctor (Heap.empty : Heap Nat)).1 1 [0, 1, 2, 3, 4]) 1 =
      [2] ++ [3, 4, 5] ++ [6] ∧
    (∃ h1, erase_range (push_all (ctor (Heap.empty : Heap Nat)).1 1 [0, 1, 2, 3, 4]) 1 3 6 =
        some (h1, 6) ∧ to_list h1 1 = [some 0, some 4] ∧
      size (push_all (ctor (Heap.empty : Heap Nat)).1 1 [0, 1, 2, 3, 4]) 1 = size h1 1 + 3) := by
  obtain ⟨a1, _, a3, a4, _⟩ := ctor_inv (Heap.empty : Heap Nat) empty_heap_inv
  obtain ⟨_, r1, _⟩ := push_all_chain [0, 1, 2, 3, 4] (ctor (Heap.empty : Heap Nat)).1 1 [] []
    a1 a3 (by simpa [size] using a4) rfl
  obtain ⟨h1, e, _, _, _, k4, k5, _⟩ :=
    list_erase_range_spec (push_all (ctor (Heap.empty : Heap Nat)).1 1 [0, 1, 2, 3, 4]) 1 3 6
      [2] [3, 4, 5] [6] r1 rfl rfl rfl rfl
  exact ⟨r1, rfl, h1, e, k4, k5⟩

/-- C23. In a well-formed memory, for two distinct list objects `a` and `b`,
each empty or not: after `a.swap(b)` the memory is well formed, `a` has the
nodes, the element sequence and the size that `b` had, `b` has those that `a`
had, and in each of the two lists the `prev` of the first node and the `next`
of the last node are the sentinel of that list. -/
theorem list_swap_spec (h : Heap T) (a b : Nat) (hi : Inv h) (ha : h.is_obj a = true)
    (hb : h.is_obj b = true) (hne : a ≠ b) :
    Inv (swap h a b) ∧ WF (swap h a b) a ∧ WF (swap h a b) b ∧
    (nodes (swap h a b) a = nodes h b ∧ to_list (swap h a b) a = to_list h b ∧
      size (swap h a b) a = size h b) ∧
    (nodes (swap h a b) b = nodes h a ∧ to_list (swap h a b) b = to_list h a ∧
      size (swap h a b) b = size h a) ∧
    (∀ n, (nodes (swap h a b) a).head? = some n → (swap h a b).prev n = a) ∧
    (∀ n, (nodes (swap h a b) a).getLast? = some n → (swap h a b).next n = a) ∧
    (∀ n, (nodes (swap h a b) b).head? = some n → (swap h a b).prev n = b) ∧
    (∀ n, (nodes (swap h a b) b).getLast? = some n → (swap h a b).next n = b) := by
  obtain ⟨c1, hc1, hs1⟩ := hi.2 a ha
  obtain ⟨c2, hc2, hs2⟩ := hi.2 b hb
  obtain ⟨k1, k2, k3, k4, _⟩ := swap_chain h a b c1 c2 hne hc1 hs1 hc2 hs2
  obtain ⟨hi1, ho1⟩ := swap_inv h a b hi ha hb
  have n1 : nodes (swap h a b) a = c2 := k1.nodes_eq hi1.1
  have n2 : nodes (swap h a b) b = c1 := k3.nodes_eq hi1.1
  have m1 : nodes h a = c1 := hc1.nodes_eq hi.1
  have m2 : nodes h b = c2 := hc2.nodes_eq hi.1
  have hd : ∀ l : List Nat, l.map (swap h a b).data = l.map h.data :=
    fun l => List.map_congr_left (fun y _ => swap_data h a b y)
  refine ⟨hi1, hi1.2 a (by rw [ho1]; exact ha), hi1.2 b (by rw [ho1]; exact hb),
    ⟨by rw [n1, m2], ?_, ?_⟩, ⟨by rw [n2, m1], ?_, ?_⟩, ?_, ?_, ?_, ?_⟩
  · unfold to_list
    rw [n1, m2, hd]
  · unfold size at hs2 ⊢
    rw [k2, hs2]
  · unfold to_list
    rw [n2, m1, hd]
  · unfold size at hs1 ⊢
    rw [k4, hs1]
  · rw [n1]
    exact k1.ends.1
  · rw [n1]
    exact k1.ends.2
  · rw [n2]
    exact k3.ends.1
  · rw [n2]
    exact k3.ends.2

theorem list_swap_spec_witness :
    Inv (ctor_fill (ctor_fill (Heap.empty : Heap Nat) 3 1).1 2 2).1 ∧
    (ctor_fill (ctor_fill (Heap.empty : Heap Nat) 3 1).1 2 2).1.is_obj 1 = true ∧
    (ctor_fill (ctor_fill (Heap.empty : Heap Nat) 3 1).1 2 2).1.is_obj 5 = true ∧
    to_list (swap (ctor_fill (ctor_fill (Heap.empty : Heap Nat) 3 1).1 2 2).1 1 5) 1 =
      [some 2, some 2] ∧
    to_list (swap (ctor_fill (ctor_fill (Heap.empty : Heap Nat) 3 1).1 2 2).1 1 5) 5 =
      [some 1, some 1, some 1] ∧
    size (swap (ctor_fill (ctor_fill (Heap.empty : Heap Nat) 3 1).1 2 2).1 1 5) 1 = 2 ∧
    size (swap (ctor_fill (ctor_fill (Heap.empty : Heap Nat) 3 1).1 2 2).1 1 5) 5 = 3 := by
  have hI : Inv (ctor_fill (ctor_fill (Heap.empty : Heap Nat) 3 1).1 2 2).1 :=
    list_reach_inv (Elem.trivial 0) _
      (Reach.ctor_fill _ 2 2 (Reach.ctor_fill _ 3 1 Reach.empty))
  have k := list_swap_spec (ctor_fill (ctor_fill (Heap.empty : Heap Nat) 3 1).1 2 2).1 1 5
    hI rfl rfl (by decide)
  exact ⟨hI, rfl, rfl, k.2.2.2.1.2.1, k.2.2.2.2.1.2.1, k.2.2.2.1.2.2, k.2.2.2.2.1.2.2⟩

/-- C24. In a well-formed memory, for a list object `a`, empty or not.  Move
construction `b(move(a))` gives a new object `b`, and move assignment
`b = move(a)` to another list object `b`, whatever it held, ends, frees the
nodes that `b` had, and gives `b`, in both cases with the memory well
formed: the nodes of `a` in their order with their values, and the size of
`a`; with the `prev` of the first node and the `next` of the last node being
the sentinel of `b`; and with `a` left in the empty circular state, its
sentinel linked to itself both ways, `size() == 0` and `empty()`. -/
theorem list_move_spec (h : Heap T) (a b : Nat) (hi : Inv h) (ha : h.is_obj a = true)
    (hb : h.is_obj b = true) (hne : b ≠ a) :
    (Inv (move_ctor h a).1 ∧ (move_ctor h a).1.is_obj (move_ctor h a).2 = true ∧
      h.cell (move_ctor h a).2 = none ∧
      nodes (move_ctor h a).1 (move_ctor h a).2 = nodes h a ∧
      to_list (move_ctor h a).1 (move_ctor h a).2 = to_list h a ∧
      size (move_ctor h a).1 (move_ctor h a).2 = size h a ∧
      (∀ n, (nodes h a).head? = some n → (move_ctor h a).1.prev n = (move_ctor h a).2) ∧
      (∀ n, (nodes h a).getLast? = some n → (move_ctor h a).1.next n = (move_ctor h a).2) ∧
      (move_ctor h a).1.next a = a ∧ (move_ctor h a).1.prev a = a ∧
      size (move_ctor h a).1 a = 0 ∧ empty (move_ctor h a).1 a = true) ∧
    (∃ h1, move_assign h b a = some h1 ∧ Inv h1 ∧
      nodes h1 b = nodes h a ∧ to_list h1 b = to_list h a ∧ size h1 b = size h a ∧
      (∀ n, (nodes h a).head? = some n → h1.prev n = b) ∧
      (∀ n, (nodes h a).getLast? = some n → h1.next n = b) ∧
      h1.next a = a ∧ h1.prev a = a ∧ size h1 a = 0 ∧ empty h1 a = true ∧
      (∀ y ∈ nodes h b, h1.cell y = none)) := by
  obtain ⟨c, hc, hs⟩ := hi.2 a ha
  have m1 : nodes h a = c := hc.nodes_eq hi.1
  unfold size at hs
  constructor
  · obtain ⟨r1, r2, r3, r4, r5, _⟩ := ctor_inv h hi
    have hlt : ∀ y ∈ a :: c, y ≠ h.brk := by
      intro y hy e
      have := lt_brk_of_live hi.1 (hc.cell_live y hy)
      omega
    have hc0 : Chain (ctor h).1 a c := hc.of_cell_eq (fun y hy => r5 y (hlt y hy))
    have hs0 : (ctor h).1.size_ a = c.length := by
      rw [Heap.size_of_cell_eq (r5 a (hlt a (by simp)))]
      exact hs
    have hna : h.brk ≠ a := fun e => hlt a (by simp) e.symm
    obtain ⟨t1, t2, t3, t4, _, _, t7⟩ := take_nodes_chain (ctor h).1 h.brk a c hna r3 r4 hc0 hs0
    have hI := move_ctor_inv h a hi ha
    have e : move_ctor h a = (take_nodes (ctor h).1 h.brk a, h.brk) := by
      unfold move_ctor
      rw [r2]
    rw [e] at hI ⊢
    have n1 : nodes (take_nodes (ctor h).1 h.brk a) h.brk = c := t1.nodes_eq hI.1
    refine ⟨hI, t1.1, hi.1 h.brk (Nat.le_refl _), by rw [n1, m1], ?_, ?_, ?_, ?_,
      t3.sentinel_self.1, t3.sentinel_self.2, t4, empty_of_size_zero t4⟩
    · unfold to_list
      rw [n1, m1]
      apply List.map_congr_left
      intro y hy
      rw [take_nodes_data, Heap.data_of_cell_eq (r5 y (hlt y (List.mem_cons_of_mem _ hy)))]
    · unfold size
      rw [t2, hs]
    · rw [m1]
      exact t1.ends.1
    · rw [m1]
      exact t1.ends.2
  · obtain ⟨cb, hcb, _⟩ := hi.2 b hb
    obtain ⟨h1, e1, q1, q2, q3, q4, q5⟩ := clear_inv h b hi hb
    obtain ⟨h1b, e1b, _, _, _, p5, p6, _⟩ := clear_chain h b cb hcb hi.1
    have e11 : h1b = h1 := Option.some.inj (e1b.symm.trans e1)
    subst e11
    have hab : a ≠ b := fun e => hne e.symm
    obtain ⟨u1, u2⟩ := q5 a c hab hc
    obtain ⟨t1, t2, t3, t4, _, t6, _⟩ := take_nodes_chain h1b b a c hne q3 q4 u1
      (by rw [u2]; exact hs)
    have hI := (take_nodes_inv h1b b a q1 hne q3 q4 (by rw [q2]; exact ha)).1
    have n1 : nodes (take_nodes h1b b a) b = c := t1.nodes_eq hI.1
    have hsep := chain_sep hc hcb hab
    have hsep2 := chain_sep hcb hc hne
    refine ⟨take_nodes h1b b a, ?_, hI, by rw [n1, m1], ?_, ?_, ?_, ?_,
      t3.sentinel_self.1, t3.sentinel_self.2, t4, empty_of_size_zero t4, ?_⟩
    · unfold move_assign
      rw [if_pos (by simpa using hne), e1]
    · unfold to_list
      rw [n1, m1]
      apply List.map_congr_left
      intro y hy
      rw [take_nodes_data,
        Heap.data_of_cell_eq (p5 y (hsep y (List.mem_cons_of_mem _ hy)))]
    · unfold size
      rw [t2, hs]
    · rw [m1]
      exact t1.ends.1
    · rw [m1]
      exact t1.ends.2
    · rw [hcb.nodes_eq hi.1]
      intro y hy
      have hyb : y ≠ b := fun e => hcb.not_mem (e ▸ hy)
      have hyn : y ∉ a :: c := hsep2 y (List.mem_cons_of_mem _ hy)
      rw [t6 y (by
        intro hm
        rcases List.mem_cons.mp hm with k | k
        · exact hyb k
        · exact hyn k)]
      exact p6 y hy

theorem list_move_spec_witness :
    Inv (ctor_fill (push_all (ctor (Heap.empty : Heap Nat)).1 1 [1, 2]) 1 9).1 ∧
    to_list (move_ctor (ctor_fill (push_all (ctor (Heap.empty : Heap Nat)).1 1 [1, 2]) 1 9).1
      1).1 6 = [some 1, some 2] ∧
    (∃ h1, move_assign (ctor_fill (push_all (ctor (Heap.empty : Heap Nat)).1 1 [1, 2]) 1 9).1
        4 1 = some h1 ∧ to_list h1 4 = [some 1, some 2] ∧ size h1 1 = 0) := by
  have hI : Inv (ctor_fill (push_all (ctor (Heap.empty : Heap Nat)).1 1 [1, 2]) 1 9).1 :=
    list_reach_inv (Elem.trivial 0) _
      (Reach.ctor_fill _ 1 9
        (Reach.push_back _ 1 2 (Reach.push_back _ 1 1 (Reach.ctor _ Reach.empty) rfl) rfl))
  obtain ⟨k1, h1, e, _, _, k2, _, _, _, _, _, k3, _⟩ :=
    list_move_spec (ctor_fill (push_all (ctor (Heap.empty : Heap Nat)).1 1 [1, 2]) 1 9).1 1 4
      hI rfl rfl (by decide)
  exact ⟨hI, k1.2.2.2.2.1, h1, e, k2, k3⟩

/-- C25. In a well-formed memory, `clear()` on a list object ends; its loop
passes to `destroy_node` the nodes of the list, in their order, each exactly
once, and nothing else; afterwards the memory is well formed, these nodes are
freed, the sentinel is linked to itself both ways, `size() == 0`, `empty()` is
true and `begin() == end()`; a second `clear()` ends and leaves exactly the
memory that the first one left. -/
theorem list_clear_spec (h : Heap T) (this : Nat) (hi : Inv h) (ho : h.is_obj this = true) :
    ∃ h1, clear h this = some h1 ∧ Inv h1 ∧
      clear_trace (h.brk + 1) h this (h.next this) = nodes h this ∧
      (nodes h this).Nodup ∧ this ∉ nodes h this ∧
      (∀ y ∈ nodes h this, h1.cell y = none) ∧
      h1.next this = this ∧ h1.prev this = this ∧
      size h1 this = 0 ∧ empty h1 this = true ∧ begin_ h1 this = end_ this ∧
      nodes h1 this = [] ∧
      clear h1 this = some h1 := by
  obtain ⟨c, hc, _⟩ := hi.2 this ho
  have m1 : nodes h this = c := hc.nodes_eq hi.1
  obtain ⟨h1, e1, q1, q2, q3, q4, _⟩ := clear_inv h this hi ho
  obtain ⟨h1b, e1b, _, _, _, _, p6, _⟩ := clear_chain h this c hc hi.1
  have e11 : h1b = h1 := Option.some.inj (e1b.symm.trans e1)
  subst e11
  have hlen := hc.length_le hi.1
  have htr : clear_trace (h.brk + 1) h this (h.next this) = c :=
    clear_trace_spec c (h.brk + 1) h this (h.next this) hc.next_this (links_tail hc.2.2.2)
      hc.2.2.1 hc.not_mem (by omega)
  obtain ⟨s1, s2⟩ := q3.sentinel_self
  have ho1 : h1b.is_obj this = true := by
    rw [q2]
    exact ho
  refine ⟨h1b, e1, q1, by rw [htr, m1], by rw [m1]; exact hc.2.2.1,
    by rw [m1]; exact hc.not_mem, by rw [m1]; exact p6, s1, s2, q4, empty_of_size_zero q4,
    s1, q3.nodes_eq q1.1, clear_of_empty ho1 s1 s2 q4⟩

theorem list_clear_spec_witness :
    Inv (ctor_fill (Heap.empty : Heap Nat) 3 1).1 ∧
    (ctor_fill (Heap.empty : Heap Nat) 3 1).1.is_obj 1 = true ∧
    nodes (ctor_fill (Heap.empty : Heap Nat) 3 1).1 1 = [2, 3, 4] ∧
    (∃ h1, clear (ctor_fill (Heap.empty : Heap Nat) 3 1).1 1 = some h1 ∧
      clear_trace 6 (ctor_fill (Heap.empty : Heap Nat) 3 1).1 1 2 = [2, 3, 4] ∧
      size h1 1 = 0 ∧ clear h1 1 = some h1) := by
  have hI : Inv (ctor_fill (Heap.empty : Heap Nat) 3 1).1 :=
    list_reach_inv (Elem.trivial 0) _ (Reach.ctor_fill _ 3 1 Reach.empty)
  obtain ⟨h1, e, _, k1, _, _, _, _, _, k2, _, _, _, k3⟩ :=
    list_clear_spec (ctor_fill (Heap.empty : Heap Nat) 3 1).1 1 hI rfl
  exact ⟨hI, rfl, rfl, h1, e, k1, k2, k3⟩

/-- C26. In a well-formed memory, `insert(pos, x)` at an iterator of a list
allocates the new node at a fresh address and sets exactly four links: the
`next` of the new node to `pos`, its `prev` to the old predecessor of `pos`,
the `next` of that predecessor and the `prev` of `pos` to the new node.  At
every other address the `next` link, the `prev` link, the stored value and
the being a node are as before, and every node of the list is still a node
of the list: an iterator held before the call refers to the same node with
the same value. -/
theorem list_insert_frame (h : Heap T) (this pos : Nat) (x : T) (hi : Inv h)
    (ho : h.is_obj this = true) (hp : is_iter h this pos) :
    (insert h this pos x).2 = h.brk ∧ h.cell h.brk = none ∧
    (insert h this pos x).1.next h.brk = pos ∧
    (insert h this pos x).1.prev h.brk = h.prev pos ∧
    (insert h this pos x).1.next (h.prev pos) = h.brk ∧
    (insert h this pos x).1.prev pos = h.brk ∧
    (∀ y, y ≠ h.brk → y ≠ h.prev pos → (insert h this pos x).1.next y = h.next y) ∧
    (∀ y, y ≠ h.brk → y ≠ pos → (insert h this pos x).1.prev y = h.prev y) ∧
    (∀ y, y ≠ h.brk → (insert h this pos x).1.data y = h.data y ∧
      (insert h this pos x).1.is_node y = h.is_node y) ∧
    (∀ y ∈ nodes h this, y ∈ nodes (insert h this pos x).1 this ∧ y ≠ h.brk) := by
  obtain ⟨c, hc, _⟩ := hi.2 this ho
  have m1 : nodes h this = c := hc.nodes_eq hi.1
  have hfresh : h.cell h.brk = none := hi.1 h.brk (Nat.le_refl _)
  have hp2 : pos = this ∨ pos ∈ c := by
    unfold is_iter at hp
    rw [m1] at hp
    exact hp
  obtain ⟨pre, post, e, hpos⟩ := split_at_iter this hp2
  subst e
  obtain ⟨i1, _, _, _, _, _, i7⟩ := insert_chain h this pos x pre post hfresh hc hpos
  have lp : (h.cell pos).isSome = true := by
    apply hc.cell_live
    rcases hp2 with k | k
    · simp [k]
    · exact List.mem_cons_of_mem _ k
  have la : (h.cell (h.prev pos)).isSome = true := hc.cell_live _ i7
  obtain ⟨s1, s2, s3, s4, s5, s6, s7⟩ := insert_links h this pos x hfresh lp la
  have hi1 : Inv (insert h this pos x).1 := insert_keeps h this pos x hi ho hp
  refine ⟨rfl, hfresh, s1, s2, s3, s4, fun y h1 h2 => s5 y h2 h1, fun y h1 h2 => s6 y h2 h1,
    ?_, ?_⟩
  · intro y hy
    exact ⟨by rw [insert_data, if_neg hy], s7 y hy⟩
  · intro y hy
    rw [m1] at hy
    rw [i1.nodes_eq hi1.1]
    constructor
    · simp only [List.mem_append, List.mem_cons] at hy ⊢
      tauto
    · intro e
      have hl := hc.cell_live y (List.mem_cons_of_mem _ hy)
      rw [e, hfresh] at hl
      cases hl

theorem list_insert_frame_witness :
    Inv (push_all (ctor (Heap.empty : Heap Nat)).1 1 [1, 3]) ∧
    (push_all (ctor (Heap.empty : Heap Nat)).1 1 [1, 3]).is_obj 1 = true ∧
    is_iter (push_all (ctor (Heap.empty : Heap Nat)).1 1 [1, 3]) 1 3 ∧
    (insert (push_all (ctor (Heap.empty : Heap Nat)).1 1 [1, 3]) 1 3 2).1.next 4 = 3 ∧
    (insert (push_all (ctor (Heap.empty : Heap Nat)).1 1 [1, 3]) 1 3 2).1.prev 4 = 2 ∧
    (insert (push_all (ctor (Heap.empty : Heap Nat)).1 1 [1, 3]) 1 3 2).1.next 2 = 4 ∧
    (insert (push_all (ctor (Heap.empty : Heap Nat)).1 1 [1, 3]) 1 3 2).1.prev 3 = 4 := by
  obtain ⟨a1, _, a3, a4, _⟩ := ctor_inv (Heap.empty : Heap Nat) empty_heap_inv
  obtain ⟨_, r1, _⟩ := push_all_chain [1, 3] (ctor (Heap.empty : Heap Nat)).1 1 [] [] a1 a3
    (by simpa [size] using a4) rfl
  have hit : is_iter (push_all (ctor (Heap.empty : Heap Nat)).1 1 [1, 3]) 1 3 :=
    Or.inr (by decide)
  have k := list_insert_frame (push_all (ctor (Heap.empty : Heap Nat)).1 1 [1, 3]) 1 3 2
    r1 rfl hit
  exact ⟨r1, rfl, hit, k.2.2.1, k.2.2.2.1, k.2.2.2.2.1, k.2.2.2.2.2.1⟩

/-- C27. In a well-formed memory, for a list object, an iterator `pos` of the
list, `end()` included, and a value `x`: `erase(insert(pos, x))` returns `pos`
and leaves every cell of the memory as it was before the insert, hence every
`next` and `prev` link, the nodes of the list, its element sequence and its
`size()`; the memory is well formed, and the address of the erased node is
free again (the allocator alone has moved on). -/
theorem list_insert_erase (h : Heap T) (this pos : Nat) (x : T) (hi : Inv h)
    (ho : h.is_obj this = true) (hp : is_iter h this pos) :
    (erase (insert h this pos x).1 this (insert h this pos x).2).2 = pos ∧
    (∀ y, (erase (insert h this pos x).1 this (insert h this pos x).2).1.cell y = h.cell y) ∧
    (∀ y, (erase (insert h this pos x).1 this (insert h this pos x).2).1.next y = h.next y ∧
      (erase (insert h this pos x).1 this (insert h this pos x).2).1.prev y = h.prev y) ∧
    nodes (erase (insert h this pos x).1 this (insert h this pos x).2).1 this = nodes h this ∧
    to_list (erase (insert h this pos x).1 this (insert h this pos x).2).1 this =
      to_list h this ∧
    size (erase (insert h this pos x).1 this (insert h this pos x).2).1 this = size h this ∧
    Inv (erase (insert h this pos x).1 this (insert h this pos x).2).1 ∧
    (erase (insert h this pos x).1 this (insert h this pos x).2).1.brk = h.brk + 1 := by
  obtain ⟨c, hc, _⟩ := hi.2 this ho
  have m1 : nodes h this = c := hc.nodes_eq hi.1
  have hfresh : h.cell h.brk = none := hi.1 h.brk (Nat.le_refl _)
  have hp2 : pos = this ∨ pos ∈ c := by
    unfold is_iter at hp
    rw [m1] at hp
    exact hp
  obtain ⟨pre, post, e, hpos⟩ := split_at_iter this hp2
  subst e
  obtain ⟨i1, i2, i3, i4, i5, _, i7⟩ := insert_chain h this pos x pre post hfresh hc hpos
  rw [i2]
  obtain ⟨e1, e2, e3, e4, e5, _, e7, e8, e9⟩ :=
    erase_chain (insert h this pos x).1 this h.brk pre post i1
  have hi1 : Inv (insert h this pos x).1 := insert_keeps h this pos x hi ho hp
  have hmem : h.brk ∈ nodes (insert h this pos x).1 this := by
    rw [i1.nodes_eq hi1.1]
    simp
  have hi2 : Inv (erase (insert h this pos x).1 this h.brk).1 :=
    erase_keeps _ this h.brk hi1 i1.1 hmem
  have hne : ∀ y ∈ this :: (pre ++ post), y ≠ h.brk := by
    intro y hy e
    have hl := hc.cell_live y hy
    rw [e, hfresh] at hl
    cases hl
  have hposm : pos ∈ this :: (pre ++ post) := by
    rcases hp2 with k | k
    · simp [k]
    · exact List.mem_cons_of_mem _ k
  obtain ⟨ln, lp⟩ := links_next_eq _ hc.2.2.2 e1.2.2.2
  have hdl : (this :: (pre ++ post) ++ [this]).dropLast = this :: (pre ++ post) :=
    List.dropLast_concat
  have hcell : ∀ y, (erase (insert h this pos x).1 this h.brk).1.cell y = h.cell y := by
    intro y
    by_cases hb : y = h.brk
    · rw [hb, e7, hfresh]
    · by_cases hm : y ∈ this :: (pre ++ post)
      · apply cell_ext
        · rcases List.mem_cons.mp hm with k | k
          · left
            rw [k]
            exact ⟨e1.1, hc.1⟩
          · right
            exact ⟨e1.2.1 y k, hc.2.1 y k⟩
        · apply lp
          show y ∈ (this :: (pre ++ post) ++ [this]).tail
          simp only [List.cons_append, List.tail_cons, List.mem_append, List.mem_singleton]
          simp only [List.mem_cons, List.mem_append] at hm
          tauto
        · apply ln
          rw [hdl]
          exact hm
        · rw [erase_data, if_neg hb, insert_data, if_neg hb]
        · rcases List.mem_cons.mp hm with k | k
          · rw [k, e3, i3]
            simp
          · have n1 := e1.2.1 y k
            have n2 := hc.2.1 y k
            unfold Heap.is_node at n1 n2
            unfold Heap.size_
            cases c1 : (erase (insert h this pos x).1 this h.brk).1.cell y with
            | none => rw [c1] at n1; cases n1
            | some a =>
              cases c2 : h.cell y with
              | none => rw [c2] at n2; cases n2
              | some b =>
                rw [c1] at n1
                rw [c2] at n2
                cases a <;> cases b <;> simp_all
      · have q1 : y ≠ this := fun e => hm (by simp [e])
        rw [e5 y q1 hb (fun e => hm (e ▸ e8)) (fun e => hm (e ▸ e9)),
          i5 y hb q1 (fun e => hm (e ▸ hposm)) (fun e => hm (e ▸ i7))]
  have hret : (erase (insert h this pos x).1 this h.brk).2 = pos := by
    rw [hpos] at e2
    exact (Option.some.inj e2).symm
  refine ⟨hret, hcell, fun y => ⟨Heap.next_of_cell_eq (hcell y), Heap.prev_of_cell_eq (hcell y)⟩,
    by rw [e1.nodes_eq hi2.1, m1], ?_, ?_, hi2, by rw [e4, i4]⟩
  · unfold to_list
    rw [e1.nodes_eq hi2.1, m1]
    exact List.map_congr_left (fun y _ => Heap.data_of_cell_eq (hcell y))
  · unfold size
    exact Heap.size_of_cell_eq (hcell this)

theorem list_insert_erase_witness :
    Inv (push_all (ctor (Heap.empty : Heap Nat)).1 1 [1, 3]) ∧
    (push_all (ctor (Heap.empty : Heap Nat)).1 1 [1, 3]).is_obj 1 = true ∧
    is_iter (push_all (ctor (Heap.empty : Heap Nat)).1 1 [1, 3]) 1 3 ∧
    (erase (insert (push_all (ctor (Heap.empty : Heap Nat)).1 1 [1, 3]) 1 3 2).1 1
      (insert (push_all (ctor (Heap.empty : Heap Nat)).1 1 [1, 3]) 1 3 2).2).2 = 3 ∧
    to_list (erase (insert (push_all (ctor (Heap.empty : Heap Nat)).1 1 [1, 3]) 1 3 2).1 1
      (insert (push_all (ctor (Heap.empty : Heap Nat)).1 1 [1, 3]) 1 3 2).2).1 1 =
      [some 1, some 3] := by
  obtain ⟨a1, _, a3, a4, _⟩ := ctor_inv (Heap.empty : Heap Nat) empty_heap_inv
  obtain ⟨_, r1, _⟩ := push_all_chain [1, 3] (ctor (Heap.empty : Heap Nat)).1 1 [] [] a1 a3
    (by simpa [size] using a4) rfl
  have hit : is_iter (push_all (ctor (Heap.empty : Heap Nat)).1 1 [1, 3]) 1 3 :=
    Or.inr (by decide)
  have k := list_insert_erase (push_all (ctor (Heap.empty : Heap Nat)).1 1 [1, 3]) 1 3 2
    r1 rfl hit
  exact ⟨r1, rfl, hit, k.1, k.2.2.2.2.1⟩

end list

end mystl
